import Mathlib

set_option autoImplicit false

/-!
# HpsJam: wire protocol, packetizer, reassembler and jitter buffer

A shallow embedding of `src/protocol.h`, `src/audiobuffer.h` and the queueing
part of `src/peer.h`.

Conventions of the embedding

* A byte is a `Nat` below 256, a frame (`union hpsjam_frame`) is the list of
  its `HPSJAM_MAX_UDP` raw bytes; byte 0 is the header, the inner packets
  start at byte 1.
* Pointers into a frame are byte offsets from the start of the frame.
* `size_t` subtraction wraps modulo `2 ^ 64`, `uint8_t` / `uint16_t` counters
  wrap modulo `2 ^ 8` / `2 ^ 16` where the code can reach the wrap.
* `HPSJAM_MAX_UDP` comes from `hpsjam.h`, which is not among the sources; the
  functions that need `sizeof(union hpsjam_frame)` take it as a parameter.
-/

namespace HpsJam

/-! ## Constants -/

/-- Modelled from the spec: `hpsjam.h` is not among the sources; the spec fixes
`SEQ_MAX = 16`. -/
def HPSJAM_SEQ_MAX : Nat := 16

/-- Modelled from the spec: `hpsjam.h` is not among the sources; the spec fixes
`DEF_SAMPLES = 48`. -/
def HPSJAM_DEF_SAMPLES : Nat := 48

/-- Modelled from the spec: `hpsjam.h` is not among the sources; the spec fixes
`NOM_SAMPLES = 48`. -/
def HPSJAM_NOM_SAMPLES : Nat := 48

/-- Modelled from the spec: `hpsjam.h` is not among the sources; the spec fixes
`SAMPLE_RATE = 48000`. -/
def HPSJAM_SAMPLE_RATE : Nat := 48000

/-- The macro `HPSJAM_MAX_PKT` of protocol.h. -/
def HPSJAM_MAX_PKT : Nat := 255 * 4

/-- The macro `HPSJAM_MAX_SAMPLES` of audiobuffer.h. -/
def HPSJAM_MAX_SAMPLES : Nat := HPSJAM_SEQ_MAX * 2 * HPSJAM_DEF_SAMPLES

/-- The enumerator `HPSJAM_TYPE_END`. -/
def HPSJAM_TYPE_END : Nat := 0

/-- The enumerator `HPSJAM_TYPE_AUDIO_SILENCE`. -/
def HPSJAM_TYPE_AUDIO_SILENCE : Nat := 62

/-- The enumerator `HPSJAM_TYPE_ACK`. -/
def HPSJAM_TYPE_ACK : Nat := 63

/-- The modulus of `size_t` arithmetic. -/
def SIZE_MOD : Nat := 2 ^ 64

/-- Subtraction of two `size_t` values, wrapping like the unsigned C type. -/
def size_sub (a b : Nat) : Nat := (a % SIZE_MOD + SIZE_MOD - b % SIZE_MOD) % SIZE_MOD

/-! ## `struct hpsjam_header` -/

namespace hpsjam_header

/-- The method `getSeqNo`: the low base-`SEQ_MAX` digit of the header byte. -/
def getSeqNo (sequence : Nat) : Nat := (sequence % HPSJAM_SEQ_MAX) % 256

/-- The method `getRedNo`: the high base-`SEQ_MAX` digit of the header byte. -/
def getRedNo (sequence : Nat) : Nat := ((sequence / HPSJAM_SEQ_MAX) % HPSJAM_SEQ_MAX) % 256

/-- The method `setSequence`: the header byte stored for `(seq, red)`. -/
def setSequence (seq red : Nat) : Nat :=
  ((seq % HPSJAM_SEQ_MAX) + ((red % HPSJAM_SEQ_MAX) * HPSJAM_SEQ_MAX)) % 256

end hpsjam_header

/-! ## `struct hpsjam_packet`, seen at a byte offset of a frame -/

namespace hpsjam_packet

/-- The field `length` of the packet at offset `this`. -/
def length (mem : List Nat) (this : Nat) : Nat := mem.getD this 0

/-- The field `type` of the packet at offset `this`. -/
def type (mem : List Nat) (this : Nat) : Nat := mem.getD (this + 1) 0

/-- The method `getBytes`. -/
def getBytes (mem : List Nat) (this : Nat) : Nat := length mem this * 4

/-- The method `valid`: `ptr = this + length` advances by `length` packets of
four bytes each. -/
def valid (mem : List Nat) (this end_ : Nat) : Bool :=
  let ptr := this + 4 * length mem this
  if type mem this == HPSJAM_TYPE_END || length mem this == 0 || decide (ptr > end_) then
    false
  else
    true

/-- The method `next`. -/
def next (mem : List Nat) (this : Nat) : Nat := this + 4 * length mem this

end hpsjam_packet

/-- A `struct hpsjam_packet_entry`: the `raw` bytes of the union, whose first
four bytes are the packet's `length`, `type`, `sequence[0]`, `sequence[1]`. -/
structure hpsjam_packet_entry where
  raw : List Nat
deriving DecidableEq, Repr

/-! ## `union hpsjam_frame` -/

namespace hpsjam_frame

/-- The size of the member `hdr`. -/
def HDR_SIZE : Nat := 1

/-- The method `clear`: `memset(this, 0, sizeof(*this))`. -/
def clear (MAX_UDP : Nat) : List Nat := List.replicate MAX_UDP 0

/-- The method `do_xor`: all `sizeof(*this) / 8` 64-bit words are XORed, which
for a size divisible by eight is the XOR of every byte. -/
def do_xor (this other : List Nat) : List Nat := List.zipWith Nat.xor this other

/-- Offset of the member `start`, the first inner packet. -/
def start : Nat := HDR_SIZE

/-- Offset of the member `end`: `start` has `(MAX_UDP - sizeof(hdr)) / 4`
packets of four bytes. -/
def end_ (MAX_UDP : Nat) : Nat := HDR_SIZE + 4 * ((MAX_UDP - HDR_SIZE) / 4)

/-- The header byte `hdr.sequence`. -/
def hdr (this : List Nat) : Nat := this.getD 0 0

/-- Store a header byte. -/
def setHdr (this : List Nat) (v : Nat) : List Nat := this.set 0 v

end hpsjam_frame

/-- The first `len` bytes of a buffer; a buffer given by a shorter list reads as
zero beyond the list. -/
def readBytes (src : List Nat) (len : Nat) : List Nat :=
  (List.range len).map (fun i => src.getD i 0)

/-- Effect of `memcpy(dst + pos, src, len)` on the bytes of `dst`. -/
def memcpy (dst : List Nat) (pos : Nat) (src : List Nat) (len : Nat) : List Nat :=
  dst.take pos ++ readBytes src len ++ dst.drop (pos + len)

/-- The traversal of the inner packets of a frame: starting at `p`, while
`p->valid(end)` holds the packet's `4 * length` bytes are collected and `p`
moves to `p->next()`. `none` when the loop has not stopped within `fuel`
iterations. -/
def walk (mem : List Nat) (end_ : Nat) : Nat → Nat → Option (List (List Nat))
  | 0, _ => none
  | fuel + 1, p =>
    if hpsjam_packet.valid mem p end_ then
      (walk mem end_ fuel (hpsjam_packet.next mem p)).map
        (fun rest => readBytes (mem.drop p) (hpsjam_packet.getBytes mem p) :: rest)
    else
      some []

/-- Decode a frame of size `MAX_UDP`: walk from `start` to `end`. Every valid
packet advances by at least four bytes, so `MAX_UDP` iterations suffice. -/
def decode (MAX_UDP : Nat) (mem : List Nat) : Option (List (List Nat)) :=
  walk mem (hpsjam_frame.end_ MAX_UDP) (MAX_UDP + 1) hpsjam_frame.start

/-! ## `class hpsjam_output_packetizer` -/

namespace hpsjam_packet_entry

/-- The field `packet.length`. -/
def length (e : hpsjam_packet_entry) : Nat := e.raw.getD 0 0

/-- The field `packet.type`. -/
def type (e : hpsjam_packet_entry) : Nat := e.raw.getD 1 0

/-- The method `packet.getBytes`. -/
def getBytes (e : hpsjam_packet_entry) : Nat := e.length * 4

/-- The method `packet.setLocalSeqNo`: `sequence[0] = seqno`. -/
def setLocalSeqNo (e : hpsjam_packet_entry) (seqno : Nat) : hpsjam_packet_entry :=
  { raw := e.raw.set 2 (seqno % 256) }

/-- The method `packet.setPeerSeqNo`: `sequence[1] = seqno`. -/
def setPeerSeqNo (e : hpsjam_packet_entry) (seqno : Nat) : hpsjam_packet_entry :=
  { raw := e.raw.set 3 (seqno % 256) }

/-- The bytes of the packet: the first `4 * length` bytes of `raw`. -/
def bytes (e : hpsjam_packet_entry) : List Nat := readBytes e.raw e.getBytes

end hpsjam_packet_entry

/-- The data members of `class hpsjam_output_packetizer`; `head` is the tail
queue of outbound entries, `pending` the entry under retransmission. -/
structure hpsjam_output_packetizer where
  current : List Nat
  mask : List Nat
  head : List hpsjam_packet_entry
  pending : Option hpsjam_packet_entry
  start_time : Nat
  ping_time : Nat
  pend_count : Nat
  pend_seqno : Nat
  peer_seqno : Nat
  d_cur : Nat
  d_max : Nat
  seqno : Nat
  send_ack : Bool
  offset : Nat
  d_len : Nat
deriving DecidableEq, Repr

/-- What one call of `send` hands to its surroundings: the datagram given to
`sendto` and the signals emitted, together with the state left behind;
`xor_frame` records `isXorFrame()` at the call, the branch that was taken. -/
structure send_result where
  state : hpsjam_output_packetizer
  xor_frame : Bool
  datagram : List Nat
  pendingWatchdog : Bool
  pendingTimeout : Bool
deriving DecidableEq, Repr

namespace hpsjam_output_packetizer

/-- The method `init(distance)`. It leaves `d_len` as it was: the source does
not assign it. -/
def init (MAX_UDP : Nat) (s : hpsjam_output_packetizer) (distance : Nat) :
    hpsjam_output_packetizer :=
  { s with
    d_cur := 0
    d_max := (distance % 256) % HPSJAM_SEQ_MAX
    start_time := 0
    ping_time := 0
    pend_count := 65535
    pend_seqno := 0
    peer_seqno := 0
    seqno := 0
    send_ack := false
    offset := 0
    current := hpsjam_frame.clear MAX_UDP
    mask := hpsjam_frame.clear MAX_UDP
    head := []
    pending := none }

/-- The constructor: an empty queue, no pending entry, then `init()` with the
default distance 2. The member `d_len` is not initialised by the source, so
its first value `d_len0` is arbitrary. -/
def new (MAX_UDP d_len0 : Nat) : hpsjam_output_packetizer :=
  init MAX_UDP
    { current := [], mask := [], head := [], pending := none, start_time := 0,
      ping_time := 0, pend_count := 0, pend_seqno := 0, peer_seqno := 0, d_cur := 0,
      d_max := 0, seqno := 0, send_ack := false, offset := 0, d_len := d_len0 } 2

/-- The method `empty`. -/
def empty (s : hpsjam_output_packetizer) : Bool := s.head.isEmpty

/-- The method `find`: the first queued entry of the given type. -/
def find (s : hpsjam_output_packetizer) (type : Nat) : Option hpsjam_packet_entry :=
  s.head.find? (fun pkt => pkt.type == type)

/-- The method `append_pkt`. When `len <= remainder` the sum `offset + len`
stays below `sizeof(current)`, so it cannot wrap. -/
def append_pkt (MAX_UDP : Nat) (s : hpsjam_output_packetizer) (entry : hpsjam_packet_entry) :
    hpsjam_output_packetizer × Bool :=
  let remainder := size_sub (size_sub MAX_UDP hpsjam_frame.HDR_SIZE) s.offset
  let len := entry.getBytes
  if len ≤ remainder then
    ({ s with
       current := memcpy s.current (hpsjam_frame.HDR_SIZE + s.offset) entry.raw len
       offset := s.offset + len }, true)
  else
    (s, false)

/-- The method `append_ack`. -/
def append_ack (MAX_UDP : Nat) (s : hpsjam_output_packetizer) :
    hpsjam_output_packetizer × Bool :=
  let remainder := size_sub (size_sub MAX_UDP hpsjam_frame.HDR_SIZE) s.offset
  let len := 4
  if len ≤ remainder then
    ({ s with
       current := memcpy s.current (hpsjam_frame.HDR_SIZE + s.offset)
         [1, HPSJAM_TYPE_ACK, 0, s.peer_seqno % 256] len
       offset := s.offset + len }, true)
  else
    (s, false)

/-- The method `advance`; `ticks` is the global `hpsjam_ticks`. -/
def advance (ticks : Nat) (s : hpsjam_output_packetizer) : hpsjam_output_packetizer :=
  match s.pending with
  | none => s
  | some _ =>
    { s with pending := none, ping_time := (ticks % 65536 + 65536 - s.start_time % 65536) % 65536 }

/-- The method `isXorFrame`. -/
def isXorFrame (s : hpsjam_output_packetizer) : Bool := s.d_cur == s.d_max

/-- The statement `if (append_pkt(*pending)) send_ack = false;` of `send`. -/
def append_pending (MAX_UDP : Nat) (s : hpsjam_output_packetizer)
    (p : hpsjam_packet_entry) : hpsjam_output_packetizer :=
  let r := append_pkt MAX_UDP s p
  if r.2 then { r.1 with send_ack := false } else r.1

/-- The control-packet step of a payload tick of `send`: the `if (pending == 0)`
statement with both of its branches. -/
def send_control (MAX_UDP ticks : Nat) (s : hpsjam_output_packetizer) :
    hpsjam_output_packetizer :=
  match s.pending with
  | none =>
    match s.head with
    | p :: rest =>
      let p1 := (p.setLocalSeqNo s.pend_seqno).setPeerSeqNo s.peer_seqno
      let s1 := { s with
        head := rest
        pending := some p1
        start_time := ticks % 65536
        pend_seqno := (s.pend_seqno + 1) % 256 }
      { append_pending MAX_UDP s1 p1 with pend_count := 1 }
    | [] =>
      if s.pend_count ≠ 65535 then { s with pend_count := (s.pend_count + 1) % 65536 } else s
  | some p =>
    if s.pend_count % 64 = 0 then
      let p1 := p.setPeerSeqNo s.peer_seqno
      let s1 := { s with pending := some p1 }
      { append_pending MAX_UDP s1 p1 with pend_count := (s.pend_count + 1) % 65536 }
    else if s.pend_count ≠ 65535 then
      { s with pend_count := (s.pend_count + 1) % 65536 }
    else
      s

/-- The statement `if (send_ack && append_ack()) send_ack = false;` of `send`. -/
def send_ack_step (MAX_UDP : Nat) (s : hpsjam_output_packetizer) :
    hpsjam_output_packetizer :=
  if s.send_ack then
    let r := append_ack MAX_UDP s
    if r.2 then { r.1 with send_ack := false } else r.1
  else
    s

/-- The method `send`; `ticks` is the global `hpsjam_ticks`, the datagram is
the byte range handed to `addr.sendto`. On a mask tick the range starts at
`mask` and has `d_len + sizeof(mask.hdr)` bytes whatever `d_len` holds;
`d_len` is assigned neither by `init()` nor by the constructor, and where the
range runs past the frame the bytes that follow `mask` in memory are sent.
These bytes are not part of the model: they read as zero here, and the
theorems on the content of a mask frame are stated for the indices inside the
frame. On a payload tick `offset` lies inside the frame: `init()` sets it to
zero and the appends keep `len <= remainder`. -/
def send (MAX_UDP ticks : Nat) (s : hpsjam_output_packetizer) : send_result :=
  if s.d_cur = s.d_max then
    let mask := hpsjam_frame.setHdr s.mask (hpsjam_header.setSequence s.seqno s.d_max)
    { state := { s with mask := hpsjam_frame.clear MAX_UDP, d_cur := 0, d_len := 0 }
      xor_frame := true
      datagram := readBytes mask (s.d_len + hpsjam_frame.HDR_SIZE)
      pendingWatchdog := false
      pendingTimeout := false }
  else
    let s1 := send_control MAX_UDP ticks s
    let watchdog := decide (s1.pend_count = 1000)
    let timeout := !watchdog && decide (s1.pend_count = 2000)
    let s2 := send_ack_step MAX_UDP s1
    let current := hpsjam_frame.setHdr s2.current (hpsjam_header.setSequence s2.seqno 0)
    { state := { s2 with
        mask := hpsjam_frame.do_xor s2.mask current
        current := hpsjam_frame.clear MAX_UDP
        seqno := (s2.seqno + 1) % 256
        d_cur := (s2.d_cur + 1) % 256
        d_len := if s2.d_len < s2.offset then s2.offset else s2.d_len
        offset := 0 }
      xor_frame := false
      datagram := current.take (s2.offset + hpsjam_frame.HDR_SIZE)
      pendingWatchdog := watchdog
      pendingTimeout := timeout }

/-- The queueing part of `hpsjam_client_peer::send_single_pkt` (peer.h) on the
packetizer it owns: an entry of a type already queued overwrites that entry in
place, otherwise the entry goes to the tail; with an invalid address the entry
is dropped. -/
def send_single_pkt (address_valid : Bool) (s : hpsjam_output_packetizer)
    (pkt : hpsjam_packet_entry) : hpsjam_output_packetizer :=
  if address_valid then
    match s.head.findIdx? (fun q => q.type == pkt.type) with
    | some i => { s with head := s.head.set i pkt }
    | none => { s with head := s.head ++ [pkt] }
  else
    s

end hpsjam_output_packetizer

/-- One call made on an output packetizer by its owner. `note_peer` is the
receive path (outside these sources) writing the public members `peer_seqno`
and `send_ack`. -/
inductive out_op where
  | append_pkt (entry : hpsjam_packet_entry)
  | append_ack
  | send_single_pkt (address_valid : Bool) (pkt : hpsjam_packet_entry)
  | note_peer (seqno : Nat) (ack : Bool)
  | advance (ticks : Nat)
  | send (ticks : Nat)
deriving DecidableEq, Repr

/-- Run one call; a `send` also yields its result. -/
def out_step (MAX_UDP : Nat) (s : hpsjam_output_packetizer) :
    out_op → hpsjam_output_packetizer × Option send_result
  | .append_pkt entry => ((s.append_pkt MAX_UDP entry).1, none)
  | .append_ack => ((s.append_ack MAX_UDP).1, none)
  | .send_single_pkt v pkt => (s.send_single_pkt v pkt, none)
  | .note_peer seqno ack => ({ s with peer_seqno := seqno % 256, send_ack := ack }, none)
  | .advance ticks => (s.advance ticks, none)
  | .send ticks => ((s.send MAX_UDP ticks).state, some (s.send MAX_UDP ticks))

/-- Run a sequence of calls, collecting the results of the `send` calls in
order. -/
def out_run (MAX_UDP : Nat) (s : hpsjam_output_packetizer) :
    List out_op → hpsjam_output_packetizer × List send_result
  | [] => (s, [])
  | op :: ops =>
    let r := out_step MAX_UDP s op
    let rest := out_run MAX_UDP r.1 ops
    (rest.1, r.2.toList ++ rest.2)

/-- Append the entries in order with `append_pkt`; the flag tells whether every
call returned true. -/
def append_all (MAX_UDP : Nat) (s : hpsjam_output_packetizer) :
    List hpsjam_packet_entry → hpsjam_output_packetizer × Bool
  | [] => (s, true)
  | e :: es =>
    let r := s.append_pkt MAX_UDP e
    let rest := append_all MAX_UDP r.1 es
    (rest.1, r.2 && rest.2)

/-- Total size in bytes of a sequence of entries. -/
def total_bytes (pkts : List hpsjam_packet_entry) : Nat := (pkts.map (·.getBytes)).sum

/-- The value of `pend_count` before the `send` call number `k` of a run that
started with `pend_count = c`, when nothing but `send` changes the counter: the
value the previous `send` left. -/
def pend_before (c : Nat) (outs : List send_result) : Nat → Nat
  | 0 => c
  | j + 1 =>
    match outs[j]? with
    | some r => r.state.pend_count
    | none => c

/-- The calls do not include `advance`: no acknowledgement arrives. -/
def no_advance (ops : List out_op) : Prop := ∀ op ∈ ops, ∀ t, op ≠ out_op.advance t

/-! ## `class hpsjam_audio_buffer`

The `float` members are read as exact rationals: the samples, `last_sample`
and the histogram `stats`. -/

/-- The data members of `class hpsjam_audio_buffer`. -/
structure hpsjam_audio_buffer where
  samples : List ℚ
  stats : List ℚ
  last_sample : ℚ
  consumer : Nat
  total : Nat
  limit : Nat
  fade_in : Nat
deriving DecidableEq

namespace hpsjam_audio_buffer

/-- The enumerator `fadeSamples`. -/
def fadeSamples : Nat := HPSJAM_DEF_SAMPLES

/-- The method `clear`. -/
def clear : hpsjam_audio_buffer :=
  { samples := List.replicate HPSJAM_MAX_SAMPLES 0
    stats := List.replicate (HPSJAM_SEQ_MAX * 2) 0
    last_sample := 0
    consumer := 0
    total := 0
    limit := 3
    fade_in := fadeSamples }

/-- The method `set_jitter_limit_in_ms`; `limit` is a `uint16_t`. -/
def set_jitter_limit_in_ms (s : hpsjam_audio_buffer) (limit : Nat) : hpsjam_audio_buffer :=
  { s with limit := (limit % 65536 + 3) % 65536 }

/-- The scan shared by `getLowWater` and `getHighWater`: the first bucket `x`
with `stats[x] >= 0.5`, or `HPSJAM_SEQ_MAX * 2` when there is none. -/
def first_bucket (s : hpsjam_audio_buffer) : Nat :=
  ((List.range (HPSJAM_SEQ_MAX * 2)).find? (fun x => decide (s.stats.getD x 0 ≥ 1 / 2))).getD
    (HPSJAM_SEQ_MAX * 2)

/-- The method `getLowWater`. -/
def getLowWater (s : hpsjam_audio_buffer) : Nat :=
  let x := s.first_bucket
  if x < 2 then 0 else if x > 2 then 2 else 1

/-- The method `getHighWater`. -/
def getHighWater (s : hpsjam_audio_buffer) : Nat :=
  let x := s.first_bucket
  if x < s.limit then 0 else if x > s.limit then 2 else 1

/-- The statement `last_sample -= last_sample / HPSJAM_SAMPLE_RATE`. -/
def decay_once (last : ℚ) : ℚ := last - last / HPSJAM_SAMPLE_RATE

/-- Repeat `decay_once` for `n` samples: the final `last_sample` and the values
written, in order. -/
def decay (last : ℚ) : Nat → ℚ × List ℚ
  | 0 => (last, [])
  | n + 1 =>
    let r := decay (decay_once last) n
    (r.1, decay_once last :: r.2)

/-- The first `len` entries of `src`, reading zero beyond the list. -/
def read_samples (src : List ℚ) (len : Nat) : List ℚ :=
  (List.range len).map (fun i => src.getD i 0)

/-- Effect of `memcpy(samples + pos, src, sizeof(samples[0]) * len)`. -/
def copy_samples (dst : List ℚ) (pos : Nat) (src : List ℚ) (len : Nat) : List ℚ :=
  dst.take pos ++ read_samples src len ++ dst.drop (pos + len)

/-- One round of the merge loop of `shrink`, for the loop counter `x`. -/
def shrink_step (s : hpsjam_audio_buffer) (x : Nat) : hpsjam_audio_buffer :=
  let factor : ℚ := x * (1 / HPSJAM_DEF_SAMPLES)
  let p0 := s.consumer
  let p1 := (s.consumer + HPSJAM_DEF_SAMPLES) % HPSJAM_MAX_SAMPLES
  let consumer := s.consumer + 1
  { s with
    samples := s.samples.set p1 (s.samples.getD p0 0 * (1 - factor) + s.samples.getD p1 0 * factor)
    consumer := if consumer = HPSJAM_MAX_SAMPLES then 0 else consumer
    total := s.total - 1 }

/-- The loop "shift stats down" of `shrink`, then `stats[last] = 0`. -/
def shift_stats (stats : List ℚ) : List ℚ :=
  ((List.range (HPSJAM_SEQ_MAX * 2 - 1)).foldl (fun st x => st.set x (st.getD (x + 1) 0)) stats).set
    (HPSJAM_SEQ_MAX * 2 - 1) 0

/-- The method `shrink`. -/
def shrink (s : hpsjam_audio_buffer) : hpsjam_audio_buffer :=
  if s.total < HPSJAM_DEF_SAMPLES then
    s
  else
    let s1 := (List.range HPSJAM_DEF_SAMPLES).foldl shrink_step s
    { s1 with stats := shift_stats s1.stats }

/-- The first part of `remSamples`, up to the decision to shrink: on underrun
`last_sample` is decayed over the missing samples, `fade_in` is set and `num`
is clamped to `total`; the bucket of the depth that will remain is counted up;
when it reaches 256 all buckets are halved and the test
`total >= num + HPSJAM_DEF_SAMPLES && high > 1` is made. Returns the state,
the clamped `num` and whether `shrink()` is to be called. -/
def rem_account (s : hpsjam_audio_buffer) (num : Nat) : hpsjam_audio_buffer × Nat × Bool :=
  let underrun := decide (num > s.total)
  let ext := decay s.last_sample (num - s.total)
  let s1 := if underrun then { s with last_sample := ext.1, fade_in := fadeSamples } else s
  let num1 := if underrun then s.total else num
  let index0 := (size_sub s1.total num1 / HPSJAM_DEF_SAMPLES) % 256
  let index := if index0 > HPSJAM_SEQ_MAX * 2 - 1 then HPSJAM_SEQ_MAX * 2 - 1 else index0
  let s2 := { s1 with stats := s1.stats.set index (s1.stats.getD index 0 + 1) }
  if s2.stats.getD index 0 ≥ 256 then
    let s2h := { s2 with stats := s2.stats.map (· / 2) }
    (s2h, num1, decide (s2h.total ≥ num1 + HPSJAM_DEF_SAMPLES) && decide (s2h.getHighWater > 1))
  else
    (s2, num1, false)

/-- The loop "copy samples from ring-buffer" of `remSamples`; `none` when the
`assert` fails or the loop has not ended within the fuel. -/
def rem_loop : Nat → hpsjam_audio_buffer → Nat → Nat → List ℚ →
    Option (hpsjam_audio_buffer × List ℚ)
  | 0, s, num, _, dst => if num = 0 then some (s, dst) else none
  | fuel + 1, s, num, fwd, dst =>
    if num = 0 then
      some (s, dst)
    else
      let fwd1 := if fwd > num then num else fwd
      let dst1 := dst ++ read_samples (s.samples.drop s.consumer) fwd1
      let num1 := num - fwd1
      let consumer1 := s.consumer + fwd1
      let total1 := size_sub s.total fwd1
      if consumer1 = HPSJAM_MAX_SAMPLES then
        rem_loop fuel { s with consumer := 0, total := total1 } num1 HPSJAM_MAX_SAMPLES dst1
      else if num1 = 0 then
        some ({ s with consumer := consumer1, total := total1 }, dst1)
      else
        none

/-- One round of the loop that refills the buffer after an underrun. -/
def topup_step (s : hpsjam_audio_buffer) : hpsjam_audio_buffer :=
  let producer := (s.consumer + s.total) % HPSJAM_MAX_SAMPLES
  let last := decay_once s.last_sample
  { s with last_sample := last, samples := s.samples.set producer last, total := s.total + 1 }

/-- The loop `while (total < HPSJAM_DEF_SAMPLES)` of `remSamples`: each round
adds one sample, so it runs `DEF_SAMPLES - total` times. -/
def topup (s : hpsjam_audio_buffer) : hpsjam_audio_buffer :=
  (topup_step^[HPSJAM_DEF_SAMPLES - s.total]) s

/-- The method `remSamples(dst, num)`: the state left and the `num` values
written to `dst`. -/
def remSamples (s : hpsjam_audio_buffer) (num : Nat) :
    Option (hpsjam_audio_buffer × List ℚ) :=
  let fwd := size_sub HPSJAM_MAX_SAMPLES s.consumer
  let underrun := decide (num > s.total)
  let ext := decay s.last_sample (num - s.total)
  let a := s.rem_account num
  let s3 := if a.2.2 then a.1.shrink else a.1
  let fwd3 := if a.2.2 then size_sub HPSJAM_MAX_SAMPLES s3.consumer else fwd
  match rem_loop (a.2.1 + 2) s3 a.2.1 fwd3 [] with
  | none => none
  | some (s4, out) =>
    some (if underrun then s4.topup else s4, if underrun then out ++ ext.2 else out)

/-- The fade-in loop of `addSamples` for one chunk of `fwd` samples. -/
def fade_chunk (s : hpsjam_audio_buffer) (src : List ℚ) (producer fwd : Nat) :
    hpsjam_audio_buffer :=
  (List.range fwd).foldl
    (fun st x =>
      let f : ℚ := (st.fade_in : ℚ) / (fadeSamples : ℚ)
      let last := decay_once st.last_sample
      { st with
        last_sample := last
        samples := st.samples.set (producer + x) (src.getD x 0 - f * src.getD x 0 + last * f)
        fade_in := st.fade_in - (if st.fade_in ≠ 0 then 1 else 0) })
    s

/-- The body of `if (fwd != 0)` in the loop of `addSamples`: `fwd` samples
are stored at `producer`, faded in or copied, `last_sample` and `total` are
updated. -/
def add_chunk (s : hpsjam_audio_buffer) (src : List ℚ) (producer fwd : Nat) :
    hpsjam_audio_buffer :=
  let sA :=
    if s.fade_in ≠ 0 then fade_chunk s src producer fwd
    else { s with samples := copy_samples s.samples producer src fwd }
  { sA with
    last_sample := sA.samples.getD (producer + fwd - 1) 0
    total := sA.total + fwd }

/-- The loop "copy samples to ring-buffer" of `addSamples`; `none` when the
`assert` fails or the loop has not ended within the fuel. -/
def add_loop : Nat → hpsjam_audio_buffer → List ℚ → Nat → Nat → Nat →
    Option hpsjam_audio_buffer
  | 0, s, _, num, _, _ => if num = 0 then some s else none
  | fuel + 1, s, src, num, fwd, producer =>
    if num = 0 then
      some s
    else
      let fwd1 := if fwd > num then num else fwd
      let s1 := if fwd1 ≠ 0 then add_chunk s src producer fwd1 else s
      let src1 := if fwd1 ≠ 0 then src.drop fwd1 else src
      let num1 := if fwd1 ≠ 0 then num - fwd1 else num
      let producer1 := if fwd1 ≠ 0 then producer + fwd1 else producer
      if producer1 = HPSJAM_MAX_SAMPLES then
        add_loop fuel s1 src1 num1 HPSJAM_MAX_SAMPLES 0
      else if num1 = 0 then
        some s1
      else
        none

/-- The method `addSamples(src, num)`. -/
def addSamples (s : hpsjam_audio_buffer) (src : List ℚ) (num : Nat) :
    Option hpsjam_audio_buffer :=
  let producer := (s.consumer + s.total) % HPSJAM_MAX_SAMPLES
  let fwd := size_sub HPSJAM_MAX_SAMPLES producer
  let max := size_sub HPSJAM_MAX_SAMPLES s.total
  let num1 := if num > max then max else num
  add_loop (num1 + 2) s src num1 fwd producer

/-- The body of `if (fwd != 0)` in the loop of `addSilence`: `fwd` decaying
samples are stored at `producer`. -/
def silence_chunk (s : hpsjam_audio_buffer) (producer fwd : Nat) : hpsjam_audio_buffer :=
  let ext := decay s.last_sample fwd
  { s with
    last_sample := ext.1
    samples := copy_samples s.samples producer ext.2 fwd
    fade_in := fadeSamples
    total := s.total + fwd }

/-- The loop of `addSilence`; `none` when the `assert` fails or the loop has
not ended within the fuel. -/
def silence_loop : Nat → hpsjam_audio_buffer → Nat → Nat → Nat → Option hpsjam_audio_buffer
  | 0, s, num, _, _ => if num = 0 then some s else none
  | fuel + 1, s, num, fwd, producer =>
    if num = 0 then
      some s
    else
      let fwd1 := if fwd > num then num else fwd
      let s1 := if fwd1 ≠ 0 then silence_chunk s producer fwd1 else s
      let num1 := if fwd1 ≠ 0 then num - fwd1 else num
      let producer1 := if fwd1 ≠ 0 then producer + fwd1 else producer
      if producer1 = HPSJAM_MAX_SAMPLES then
        silence_loop fuel s1 num1 HPSJAM_MAX_SAMPLES 0
      else if num1 = 0 then
        some s1
      else
        none

/-- The method `addSilence(num)`. -/
def addSilence (s : hpsjam_audio_buffer) (num : Nat) : Option hpsjam_audio_buffer :=
  let producer := (s.consumer + s.total) % HPSJAM_MAX_SAMPLES
  let fwd := size_sub HPSJAM_MAX_SAMPLES producer
  let max := size_sub HPSJAM_MAX_SAMPLES s.total
  let num1 := if num > max then max else num
  silence_loop (num1 + 2) s num1 fwd producer

/-- The method `grow`. -/
def grow (s : hpsjam_audio_buffer) : Option hpsjam_audio_buffer :=
  let p0 := (s.consumer + s.total + HPSJAM_MAX_SAMPLES - 1) % HPSJAM_MAX_SAMPLES
  let p1 := (s.consumer + s.total + HPSJAM_MAX_SAMPLES - 2) % HPSJAM_MAX_SAMPLES
  if s.total > 1 then
    let append := s.samples.getD p0 0
    let s1 := { s with samples := s.samples.set p0 ((s.samples.getD p0 0 + s.samples.getD p1 0) / 2) }
    s1.addSamples [append] 1
  else
    some s

end hpsjam_audio_buffer

/-- One call made on an audio buffer. -/
inductive buf_op where
  | addSamples (src : List ℚ) (num : Nat)
  | addSilence (num : Nat)
  | remSamples (num : Nat)
  | grow
  | shrink
deriving DecidableEq

/-- Run one call on a buffer. -/
def buf_step (s : hpsjam_audio_buffer) : buf_op → Option hpsjam_audio_buffer
  | .addSamples src num => s.addSamples src num
  | .addSilence num => s.addSilence num
  | .remSamples num => (s.remSamples num).map (·.1)
  | .grow => s.grow
  | .shrink => some s.shrink

/-- Run a sequence of calls on a buffer. -/
def buf_run (s : hpsjam_audio_buffer) : List buf_op → Option hpsjam_audio_buffer
  | [] => some s
  | op :: ops => (buf_step s op).bind (fun s1 => buf_run s1 ops)

/-- What a run of calls has done to the depth of a buffer: samples accepted by
`addSamples` and `addSilence`, samples removed by `remSamples`, executions of
`shrink()` that found a full block to merge (called directly or by
`remSamples`), calls of `grow()` that added a sample, and samples synthesised
by the refill after an underrun. -/
structure buf_ledger where
  pushed : Nat
  popped : Nat
  shrinks : Nat
  grows : Nat
  topup : Nat
deriving DecidableEq, Repr

/-- Book one call, made in state `s`, into the ledger. -/
def ledger_step (s : hpsjam_audio_buffer) (L : buf_ledger) : buf_op → buf_ledger
  | .addSamples _ num => { L with pushed := L.pushed + min num (HPSJAM_MAX_SAMPLES - s.total) }
  | .addSilence num => { L with pushed := L.pushed + min num (HPSJAM_MAX_SAMPLES - s.total) }
  | .remSamples num =>
    { L with
      popped := L.popped + min num s.total
      shrinks := L.shrinks + (if (s.rem_account num).2.2 then 1 else 0)
      topup := L.topup + (if num > s.total then HPSJAM_DEF_SAMPLES else 0) }
  | .grow =>
    { L with grows := L.grows + (if 1 < s.total ∧ s.total < HPSJAM_MAX_SAMPLES then 1 else 0) }
  | .shrink => { L with shrinks := L.shrinks + (if s.total < HPSJAM_DEF_SAMPLES then 0 else 1) }

/-- Run a sequence of calls on a buffer and keep the ledger. -/
def buf_run_ledger (s : hpsjam_audio_buffer) (L : buf_ledger) :
    List buf_op → Option (hpsjam_audio_buffer × buf_ledger)
  | [] => some (s, L)
  | op :: ops => (buf_step s op).bind (fun s1 => buf_run_ledger s1 (ledger_step s L op) ops)

/-- The depth that the conservation rule, read call by call, predicts after a
run from a cleared buffer: every sample offered counts as pushed, every sample
asked for as popped, every `shrink` call as a block, every `grow` call as one
sample. -/
def claimed_total : List buf_op → Int
  | [] => 0
  | .addSamples _ num :: ops => claimed_total ops + num
  | .addSilence num :: ops => claimed_total ops + num
  | .remSamples num :: ops => claimed_total ops - num
  | .grow :: ops => claimed_total ops + 1
  | .shrink :: ops => claimed_total ops - HPSJAM_DEF_SAMPLES

/-- Two buffer states agree on the consumer index, the histogram and the
limit, and their sample arrays have the same size. -/
def same_ctl (s s' : hpsjam_audio_buffer) : Prop :=
  s'.consumer = s.consumer ∧ s'.stats = s.stats ∧ s'.limit = s.limit ∧
  s'.samples.length = s.samples.length

/-- The ring-buffer invariant: `total` and `consumer` lie inside the capacity
and every histogram bucket is in `[0, 256)`; the two arrays have their
declared sizes. -/
def buf_inv (s : hpsjam_audio_buffer) : Prop :=
  s.total ≤ HPSJAM_MAX_SAMPLES ∧ s.consumer < HPSJAM_MAX_SAMPLES ∧
  (∀ x ∈ s.stats, 0 ≤ x ∧ x < 256) ∧
  s.samples.length = HPSJAM_MAX_SAMPLES ∧ s.stats.length = HPSJAM_SEQ_MAX * 2

/-! ## `struct hpsjam_input_packetizer` -/

/-- Modelled from the spec: `jitter.h` is not among the sources. The meter
"exposes three counters: `rx_packet`, `rx_loss`, `rx_damage`"; it is held as
the number of calls of each of the three, without the decay. -/
structure hpsjam_jitter where
  packets : Nat
  losses : Nat
  damages : Nat
deriving DecidableEq, Repr

namespace hpsjam_jitter

/-- The method `clear`. -/
def clear : hpsjam_jitter := { packets := 0, losses := 0, damages := 0 }

/-- The method `rx_packet`. -/
def rx_packet (j : hpsjam_jitter) : hpsjam_jitter := { j with packets := j.packets + 1 }

/-- The method `rx_loss`. -/
def rx_loss (j : hpsjam_jitter) : hpsjam_jitter := { j with losses := j.losses + 1 }

/-- The method `rx_damage`. -/
def rx_damage (j : hpsjam_jitter) : hpsjam_jitter := { j with damages := j.damages + 1 }

end hpsjam_jitter

/-- The macro `HPSJAM_V_GOT_PACKET`. -/
def HPSJAM_V_GOT_PACKET : Nat := 1

/-- The macro `HPSJAM_V_GOT_XOR_MASK`. -/
def HPSJAM_V_GOT_XOR_MASK : Nat := 2

/-- The macro `HPSJAM_V_GOT_RECEIVED`. -/
def HPSJAM_V_GOT_RECEIVED : Nat := 4

/-- The C operator `~` on a value promoted to 32 bits. -/
def cnot (v : Nat) : Nat := 2 ^ 32 - 1 - v % 2 ^ 32

/-- Modelled from the spec: `hpsjam_packet::putSilence` is defined outside the
sources. "A silence packet carries a 32-bit sample count": the packet written
at offset `this` has length 2, type `HPSJAM_TYPE_AUDIO_SILENCE`, zero sequence
bytes and the count in little-endian order. -/
def putSilence (mem : List Nat) (this samples : Nat) : List Nat :=
  memcpy mem this
    [2, HPSJAM_TYPE_AUDIO_SILENCE, 0, 0, samples % 256, samples / 256 % 256,
      samples / 65536 % 256, samples / 16777216 % 256] 8

/-- The data members of `struct hpsjam_input_packetizer`. -/
structure hpsjam_input_packetizer where
  jitter : hpsjam_jitter
  current : List (List Nat)
  mask : List (List Nat)
  valid : List Nat
  last_red : Nat
deriving DecidableEq, Repr

namespace hpsjam_input_packetizer

/-- The method `init`. -/
def init (MAX_UDP : Nat) : hpsjam_input_packetizer :=
  { jitter := hpsjam_jitter.clear
    current := List.replicate HPSJAM_SEQ_MAX (hpsjam_frame.clear MAX_UDP)
    mask := List.replicate HPSJAM_SEQ_MAX (hpsjam_frame.clear MAX_UDP)
    valid := List.replicate HPSJAM_SEQ_MAX 0
    last_red := 2 }

/-- The entry `valid[x]`. -/
def validAt (s : hpsjam_input_packetizer) (x : Nat) : Nat := s.valid.getD x 0

/-- The first loop of `first_pkt`: the bitmap of the `GOT_PACKET` bits. -/
def packet_bitmap (s : hpsjam_input_packetizer) : Nat :=
  (List.range HPSJAM_SEQ_MAX).foldl
    (fun mask x => mask ||| ((s.validAt x &&& HPSJAM_V_GOT_PACKET) <<< x)) 0

/-- One round of the rotation loop of `first_pkt` on `(mask, start, min_x)`.
In C the test `x % last_red` is undefined for `last_red = 0`. -/
def rotate_step (last_red : Nat) (st : Nat × Nat × Nat) (x : Nat) : Nat × Nat × Nat :=
  let mask := st.1
  let start := if st.2.1 > mask ∧ x % last_red = 0 then mask else st.2.1
  let min_x := if st.2.1 > mask ∧ x % last_red = 0 then x else st.2.2
  let mask1 :=
    if mask &&& 1 ≠ 0 then (mask >>> 1) ||| (1 <<< (HPSJAM_SEQ_MAX - 1)) else mask >>> 1
  (mask1, start, min_x)

/-- The rotation loop of `first_pkt`: the smallest rotation of the bitmap that
is aligned to `last_red`, as `(start, min_x)`. -/
def min_rotation (s : hpsjam_input_packetizer) : Nat × Nat :=
  ((List.range HPSJAM_SEQ_MAX).foldl (rotate_step s.last_red)
    (s.packet_bitmap, s.packet_bitmap, 0)).2

/-- The redundancy mask `(1U << last_red) - 1U`, in 32-bit arithmetic. -/
def red_mask (last_red : Nat) : Nat := ((1 <<< last_red) % 2 ^ 32 + 2 ^ 32 - 1) % 2 ^ 32

/-- The loop "check if we can consume packet(s)" of `first_pkt`: the first
slot `z = (min_x + x) % SEQ_MAX`, `x < last_red`, without `GOT_RECEIVED`. -/
def consumable (s : hpsjam_input_packetizer) (min_x : Nat) : Option Nat :=
  ((List.range s.last_red).map (fun x => (min_x + x) % HPSJAM_SEQ_MAX)).find?
    (fun z => s.validAt z &&& HPSJAM_V_GOT_RECEIVED == 0)

/-- The statements of `first_pkt` that hand out slot `z`: a slot without
`GOT_PACKET` is filled with a silence frame and counted as loss and damage;
`GOT_RECEIVED` is set on `z` and cleared half a ring further. -/
def deliver (MAX_UDP : Nat) (s : hpsjam_input_packetizer) (z : Nat) :
    hpsjam_input_packetizer :=
  let s1 :=
    if cnot (s.validAt z) &&& HPSJAM_V_GOT_PACKET ≠ 0 then
      { s with
        current := (s.current.set z
          (putSilence (hpsjam_frame.clear MAX_UDP) hpsjam_frame.start HPSJAM_NOM_SAMPLES))
        jitter := s.jitter.rx_loss.rx_damage }
    else
      s
  let s2 := { s1 with valid := s1.valid.set z (s1.validAt z ||| HPSJAM_V_GOT_RECEIVED) }
  let h := (z + HPSJAM_SEQ_MAX / 2) % HPSJAM_SEQ_MAX
  { s2 with valid := s2.valid.set h (s2.validAt h &&& cnot HPSJAM_V_GOT_RECEIVED % 256) }

/-- The loop "only keep the received flag" of `first_pkt`. -/
def keep_received (s : hpsjam_input_packetizer) (min_x : Nat) : hpsjam_input_packetizer :=
  (List.range s.last_red).foldl
    (fun st x =>
      let z := (min_x + x) % HPSJAM_SEQ_MAX
      { st with valid := st.valid.set z (st.validAt z &&& HPSJAM_V_GOT_RECEIVED) })
    s

/-- The `while` loop of `first_pkt` on the loop variables `start` and `min_x`:
the state left and the slot handed out, if any; `none` when the loop has not
ended within the fuel. -/
def first_pkt_loop (MAX_UDP : Nat) :
    Nat → hpsjam_input_packetizer → Nat → Nat → Option (hpsjam_input_packetizer × Option Nat)
  | 0, _, _, _ => none
  | fuel + 1, s, start, min_x =>
    let red := red_mask s.last_red
    if start &&& red = red ∨ start &&& cnot red ≠ 0 then
      let s1 :=
        if s.validAt min_x &&& HPSJAM_V_GOT_RECEIVED = 0 ∧
            s.validAt min_x &&& HPSJAM_V_GOT_XOR_MASK = 0 then
          { s with jitter := s.jitter.rx_loss }
        else
          s
      match s1.consumable min_x with
      | some z => some (deliver MAX_UDP s1 z, some z)
      | none =>
        first_pkt_loop MAX_UDP fuel (s1.keep_received min_x) (start >>> s1.last_red)
          ((min_x + s1.last_red) % HPSJAM_SEQ_MAX)
    else
      some (s, none)

/-- The method `first_pkt`: the state left and the index `z` of the slot
`current + z` returned, `none` for the null pointer. The bitmap has
`SEQ_MAX` bits and every round that does not return shifts it, so
`SEQ_MAX + 1` rounds are enough whenever `last_red` is not zero. -/
def first_pkt (MAX_UDP : Nat) (s : hpsjam_input_packetizer) :
    Option (hpsjam_input_packetizer × Option Nat) :=
  first_pkt_loop MAX_UDP (HPSJAM_SEQ_MAX + 1) s s.min_rotation.1 s.min_rotation.2

/-- The slot `z = (SEQ_MAX + x - y - 1) % SEQ_MAX` of `recovery`; for
`y < last_red <= SEQ_MAX` the C expression is not negative. -/
def group_slot (x y : Nat) : Nat := (HPSJAM_SEQ_MAX + x - y - 1) % HPSJAM_SEQ_MAX

/-- The loop of `recovery` that counts the missing payloads of the group
before `x`, in a `uint8_t`. -/
def rx_missing (s : hpsjam_input_packetizer) (x : Nat) : Nat :=
  (List.range s.last_red).foldl
    (fun n y => (n + (cnot (s.validAt (group_slot x y)) &&& HPSJAM_V_GOT_PACKET)) % 256) 0

/-- The loop of `recovery` that XORs the payloads held into `mask[x]`. -/
def xor_present (s : hpsjam_input_packetizer) (x : Nat) : hpsjam_input_packetizer :=
  (List.range s.last_red).foldl
    (fun st y =>
      if st.validAt (group_slot x y) &&& HPSJAM_V_GOT_PACKET ≠ 0 then
        { st with mask := (st.mask.set x
            (hpsjam_frame.do_xor (st.mask.getD x []) (st.current.getD (group_slot x y) []))) }
      else
        st)
    s

/-- The statements of `recovery` that rebuild slot `z` from `mask[x]`: the
mask is copied, both headers are cleared, `GOT_PACKET` is set and the loss is
counted. -/
def recover_slot (st : hpsjam_input_packetizer) (x z : Nat) : hpsjam_input_packetizer :=
  let current := st.current.set z (st.mask.getD x [])
  { st with
    mask := st.mask.set x (hpsjam_frame.setHdr (st.mask.getD x []) 0)
    current := current.set z (hpsjam_frame.setHdr (current.getD z []) 0)
    valid := st.valid.set z (st.validAt z ||| HPSJAM_V_GOT_PACKET)
    jitter := st.jitter.rx_loss }

/-- The loop "recover the missing frame" of `recovery`. -/
def recover_missing (s : hpsjam_input_packetizer) (x : Nat) : hpsjam_input_packetizer :=
  (List.range s.last_red).foldl
    (fun st y =>
      if cnot (st.validAt (group_slot x y)) &&& HPSJAM_V_GOT_PACKET ≠ 0 then
        st.recover_slot x (group_slot x y)
      else
        st)
    s

/-- The body of the outer loop of `recovery` for the group that ends before
slot `x`. -/
def recovery_group (s : hpsjam_input_packetizer) (x : Nat) : hpsjam_input_packetizer :=
  if cnot (s.validAt x) &&& HPSJAM_V_GOT_XOR_MASK ≠ 0 then
    s
  else if hpsjam_header.getRedNo (hpsjam_frame.hdr (s.mask.getD x [])) ≠ s.last_red then
    s
  else if s.rx_missing x = 1 then
    (s.xor_present x).recover_missing x
  else
    s

/-- The outer loop of `recovery`: `for (x = 0; x != SEQ_MAX; x += last_red)`
with `x` a `uint8_t`; `none` when `x` never hits `SEQ_MAX`. -/
def recovery_loop : Nat → hpsjam_input_packetizer → Nat → Option hpsjam_input_packetizer
  | 0, _, _ => none
  | fuel + 1, s, x =>
    if x = HPSJAM_SEQ_MAX then some s
    else recovery_loop fuel (s.recovery_group x) ((x + s.last_red) % 256)

/-- The method `recovery`. The counter `x` takes at most 256 values. -/
def recovery (s : hpsjam_input_packetizer) : Option hpsjam_input_packetizer :=
  if s.last_red ≤ 1 then some s else recovery_loop 257 s 0

/-- The method `receive`. -/
def receive (s : hpsjam_input_packetizer) (frame : List Nat) : hpsjam_input_packetizer :=
  let rx_seqno := hpsjam_header.getSeqNo (hpsjam_frame.hdr frame)
  let rx_red := hpsjam_header.getRedNo (hpsjam_frame.hdr frame)
  let s1 :=
    if rx_red ≠ 0 then
      if HPSJAM_SEQ_MAX % rx_red = 0 ∧ rx_seqno % rx_red = 0 then
        { s with
          last_red := rx_red
          mask := s.mask.set rx_seqno frame
          valid := s.valid.set rx_seqno (s.validAt rx_seqno ||| HPSJAM_V_GOT_XOR_MASK) }
      else
        s
    else
      { s with
        current := s.current.set rx_seqno frame
        valid := s.valid.set rx_seqno (s.validAt rx_seqno ||| HPSJAM_V_GOT_PACKET) }
  { s1 with jitter := s1.jitter.rx_packet }

end hpsjam_input_packetizer

/-- Call `first_pkt` until it returns the null pointer, collecting for every
slot handed out its index and the frame found there; `none` when a call does
not return or the calls do not stop within the fuel. -/
def drain (MAX_UDP : Nat) :
    Nat → hpsjam_input_packetizer → Option (hpsjam_input_packetizer × List (Nat × List Nat))
  | 0, _ => none
  | fuel + 1, s =>
    match s.first_pkt MAX_UDP with
    | none => none
    | some (s1, none) => some (s1, [])
    | some (s1, some z) =>
      (drain MAX_UDP fuel s1).map (fun r => (r.1, (z, s1.current.getD z []) :: r.2))

/-- What the owner does with one datagram: `receive`, then `recovery`, then
`first_pkt` until it returns null. -/
def feed (MAX_UDP : Nat) (s : hpsjam_input_packetizer) (frame : List Nat) :
    Option (hpsjam_input_packetizer × List (Nat × List Nat)) :=
  ((s.receive frame).recovery).bind (fun s1 => drain MAX_UDP (2 * HPSJAM_SEQ_MAX + 1) s1)

/-- Feed a sequence of datagrams, collecting the delivered frames in order. -/
def feed_all (MAX_UDP : Nat) (s : hpsjam_input_packetizer) :
    List (List Nat) → Option (hpsjam_input_packetizer × List (List Nat))
  | [] => some (s, [])
  | f :: fs =>
    (feed MAX_UDP s f).bind (fun r =>
      (feed_all MAX_UDP r.1 fs).map (fun r2 => (r2.1, r.2.map (·.2) ++ r2.2)))

/-- The mask frame of the group of `r` payload frames that ends before slot
`x`, where `F z` is the payload frame sent for slot `z`: their XOR under the
header `(x, r)`. -/
def group_mask (MAX_UDP : Nat) (F : Nat → List Nat) (x r : Nat) : List Nat :=
  hpsjam_frame.setHdr
    ((List.range r).foldl
      (fun m y => hpsjam_frame.do_xor m (F (hpsjam_input_packetizer.group_slot x y)))
      (hpsjam_frame.clear MAX_UDP))
    (hpsjam_header.setSequence x r)

/-- What `recovery` needs to know of a state to rebuild the payload of slot
`group_slot x ym`: the arrays have `SEQ_MAX` entries, `last_red = r`,
`mask[x]` is flagged, has redundancy digit `r` and holds beyond its header the
XOR of the frames `F`, every other payload of the group is flagged and held,
and the payload `ym` is not flagged. -/
def fec_pre (n : Nat) (F : Nat → List Nat) (r x ym : Nat) (s : hpsjam_input_packetizer) :
    Prop :=
  s.last_red = r ∧ s.valid.length = HPSJAM_SEQ_MAX ∧ s.current.length = HPSJAM_SEQ_MAX ∧
  s.mask.length = HPSJAM_SEQ_MAX ∧
  s.validAt x &&& HPSJAM_V_GOT_XOR_MASK ≠ 0 ∧
  s.mask.getD x [] = group_mask n F x r ∧
  (∀ y, y < r → y ≠ ym →
    s.validAt (hpsjam_input_packetizer.group_slot x y) &&& HPSJAM_V_GOT_PACKET ≠ 0 ∧
    s.current.getD (hpsjam_input_packetizer.group_slot x y) [] =
      F (hpsjam_input_packetizer.group_slot x y)) ∧
  s.validAt (hpsjam_input_packetizer.group_slot x ym) &&& HPSJAM_V_GOT_PACKET = 0

/-- The payload of slot `z` has been rebuilt: it is flagged and holds the
bytes of `F z` beyond the header. -/
def fec_post (F : Nat → List Nat) (r z : Nat) (s : hpsjam_input_packetizer) : Prop :=
  s.last_red = r ∧ s.valid.length = HPSJAM_SEQ_MAX ∧ s.current.length = HPSJAM_SEQ_MAX ∧
  s.mask.length = HPSJAM_SEQ_MAX ∧
  s.validAt z &&& HPSJAM_V_GOT_PACKET ≠ 0 ∧
  ∀ i, 1 ≤ i → (s.current.getD z []).getD i 0 = (F z).getD i 0

/-- What the processing of the group before `x` may change: nothing but
`mask[x]`, the slots of that group and the meter; no `GOT_XOR_MASK` flag. -/
def rec_frame (x r : Nat) (s s' : hpsjam_input_packetizer) : Prop :=
  s'.last_red = s.last_red ∧ s'.valid.length = s.valid.length ∧
  s'.current.length = s.current.length ∧ s'.mask.length = s.mask.length ∧
  (∀ v, v ≠ x → s'.mask.getD v [] = s.mask.getD v []) ∧
  (∀ w, (∀ y, y < r → hpsjam_input_packetizer.group_slot x y ≠ w) →
    s'.validAt w = s.validAt w ∧ s'.current.getD w [] = s.current.getD w []) ∧
  (∀ w, s'.validAt w &&& HPSJAM_V_GOT_XOR_MASK = s.validAt w &&& HPSJAM_V_GOT_XOR_MASK)

/-- The payload frame number `k` of a sender whose frames carry the bytes
`P k`: the header is `(k, 0)`. -/
def payload_frame (P : Nat → List Nat) (k : Nat) : List Nat :=
  hpsjam_frame.setHdr (P k) (hpsjam_header.setSequence k 0)

/-- The mask frame that closes group `g` of a sender with cadence `d`: the XOR
of the `d` payload frames of the group under the header `((g + 1) * d, d)`. -/
def mask_frame (MAX_UDP : Nat) (P : Nat → List Nat) (d g : Nat) : List Nat :=
  hpsjam_frame.setHdr
    ((List.range d).foldl (fun m i => hpsjam_frame.do_xor m (payload_frame P (g * d + i)))
      (hpsjam_frame.clear MAX_UDP))
    (hpsjam_header.setSequence ((g + 1) * d) d)

/-- Frame number `n` of the stream of a sender with cadence `d`: `d` payload
frames, then the mask frame of the group, repeated. -/
def stream_frame (MAX_UDP : Nat) (P : Nat → List Nat) (d n : Nat) : List Nat :=
  if n % (d + 1) = d then mask_frame MAX_UDP P d (n / (d + 1))
  else payload_frame P (n / (d + 1) * d + n % (d + 1))

/-- The first `n` frames of the stream. -/
def stream_upto (MAX_UDP : Nat) (P : Nat → List Nat) (d n : Nat) : List (List Nat) :=
  (List.range n).map (stream_frame MAX_UDP P d)

/-- The number of payload frames among the first `n` frames of the stream. -/
def payloads_in (d n : Nat) : Nat := n / (d + 1) * d + n % (d + 1)

/-- The frames of a packetizer have the frame size, `offset` lies inside the
frame, and the cycle position `d_cur` has not passed the cadence `d`. -/
structure out_inv (MAX_UDP d : Nat) (s : hpsjam_output_packetizer) : Prop where
  cur_len : s.current.length = MAX_UDP
  mask_len : s.mask.length = MAX_UDP
  off_le : s.offset + hpsjam_frame.HDR_SIZE ≤ MAX_UDP
  d_max_eq : s.d_max = d
  d_cur_le : s.d_cur ≤ d

/-- The example packetizer: a fresh one with frames of 16 bytes. -/
def example_out : hpsjam_output_packetizer := hpsjam_output_packetizer.new 16 0

/-- An example entry: a one-word packet of type 64. -/
def example_entry1 : hpsjam_packet_entry := { raw := [1, 64, 0, 0] }

/-- An example entry: a two-word packet of type 65. -/
def example_entry2 : hpsjam_packet_entry := { raw := [2, 65, 0, 0, 5, 6, 7, 8] }

/-- Example payload frames of eight bytes, one for every slot `z`. -/
def example_payload (z : Nat) : List Nat := [z % 16, 10 + z, 2, 3, 4, 5, 6, 7]

/-- A reassembler state that holds the flags `valid` and `last_red` and
nothing else: no frames, a cleared meter. -/
def skel (valid : List Nat) (last_red : Nat) : hpsjam_input_packetizer :=
  { jitter := hpsjam_jitter.clear, current := [], mask := [], valid := valid,
    last_red := last_red }

/-- No group can be recovered in this state: `last_red <= 1`, or the flags
array has at most `SEQ_MAX` entries and for every slot `x` either
`GOT_XOR_MASK` is missing or the count of missing payloads of the group before
`x` is not 1. -/
def recovery_idle (s : hpsjam_input_packetizer) : Bool :=
  decide (s.last_red ≤ 1) ||
  (decide (s.valid.length ≤ HPSJAM_SEQ_MAX) &&
    (List.range HPSJAM_SEQ_MAX).all
      (fun x => decide (cnot (s.validAt x) &&& HPSJAM_V_GOT_XOR_MASK ≠ 0) ||
        decide (s.rx_missing x ≠ 1)))

/-- What `feed` does to the flags when a frame with header byte `h` arrives,
computed on the flags alone: the new flags and `last_red` and the slots
handed out in order. `none` when a payload could be recovered, a call does
not return, or a silence frame is made. -/
def ctl_feed (c : List Nat × Nat) (h : Nat) : Option ((List Nat × Nat) × List Nat) :=
  if recovery_idle ((skel c.1 c.2).receive [h]) then
    match ((skel c.1 c.2).receive [h]).recovery with
    | none => none
    | some _ =>
      match drain 0 (2 * HPSJAM_SEQ_MAX + 1) ((skel c.1 c.2).receive [h]) with
      | none => none
      | some (t, pt) =>
        if t.jitter.damages = 0 then some ((t.valid, t.last_red), pt.map (·.1)) else none
  else
    none

/-- The header byte of frame number `n` of the stream of a sender with
cadence `d`. -/
def hdr_of (d n : Nat) : Nat :=
  if n % (d + 1) = d then hpsjam_header.setSequence ((n / (d + 1) + 1) * d) d
  else hpsjam_header.setSequence (n / (d + 1) * d + n % (d + 1)) 0

/-- The flags of the reassembler together with the number `lag` of payload
frames received and not yet handed out. -/
structure lag_state where
  valid : List Nat
  last_red : Nat
  lag : Nat
deriving DecidableEq, Repr

/-- One frame of the lossless stream on the flags: frame number `n` arrives;
the step is accepted when the slots handed out are the oldest waiting
payloads in sequence order, no more than `SEQ_MAX` payloads wait, and nothing
waits once a cycle of `d + 1` frames is complete. -/
def lag_step (d : Nat) (a : lag_state) (n : Nat) : Option lag_state :=
  let lag1 := a.lag + (if n % (d + 1) = d then 0 else 1)
  let p1 := payloads_in d (n + 1) % HPSJAM_SEQ_MAX
  match ctl_feed (a.valid, a.last_red) (hdr_of d n) with
  | none => none
  | some (c, zs) =>
    if zs.length ≤ lag1 ∧ lag1 ≤ HPSJAM_SEQ_MAX ∧
        zs = (List.range zs.length).map
          (fun i => (p1 + HPSJAM_SEQ_MAX - lag1 + i) % HPSJAM_SEQ_MAX) ∧
        ((n + 1) % (d + 1) = 0 → lag1 - zs.length = 0) then
      some { valid := c.1, last_red := c.2, lag := lag1 - zs.length }
    else
      none

/-- The flags and the lag after the first `n` frames of the lossless stream
into a freshly initialised reassembler. -/
def lag_run (d : Nat) : Nat → Option lag_state
  | 0 => some { valid := List.replicate HPSJAM_SEQ_MAX 0, last_red := 2, lag := 0 }
  | n + 1 => (lag_run d n).bind (fun a => lag_step d a n)

/-! ## The integer carriers of `struct hpsjam_packet` -/

/-- Conversion of an integer value to `uint8_t`: its residue modulo 256. -/
def to_uint8 (v : Int) : Nat := (v % 256).toNat

/-- The value of the low `w` bits of a bit pattern read as a signed
two's-complement integer of width `w`: the conversion to `int8_t`, `int16_t`
or `int32_t`. -/
def to_signed (w : Nat) (x : Nat) : Int :=
  if x % 2 ^ w < 2 ^ (w - 1) then ((x % 2 ^ w : Nat) : Int)
  else ((x % 2 ^ w : Nat) : Int) - 2 ^ w

namespace hpsjam_packet

/-- The byte `sequence[i]` of the packet at offset `this`. The member
`sequence` starts two bytes into the packet; the carriers index it past its
two declared bytes, into the payload. -/
def sequence (mem : List Nat) (this i : Nat) : Nat := mem.getD (this + 2 + i) 0

/-- The assignment `sequence[i] = b`. -/
def setSequenceByte (mem : List Nat) (this i b : Nat) : List Nat := mem.set (this + 2 + i) b

/-- The method `getS8`. -/
def getS8 (mem : List Nat) (this offset : Nat) : Int :=
  to_signed 8 (sequence mem this (2 + offset))

/-- The method `putS8`. -/
def putS8 (mem : List Nat) (this offset : Nat) (value : Int) : List Nat :=
  setSequenceByte mem this (2 + offset) (to_uint8 value)

/-- The method `getS16`. -/
def getS16 (mem : List Nat) (this offset : Nat) : Int :=
  to_signed 16 (sequence mem this (2 + offset) ||| (sequence mem this (2 + offset + 1) <<< 8))

/-- The method `putS16`; `>>` on a negative value is the arithmetic shift. -/
def putS16 (mem : List Nat) (this offset : Nat) (value : Int) : List Nat :=
  setSequenceByte (setSequenceByte mem this (2 + offset) (to_uint8 value))
    this (2 + offset + 1) (to_uint8 (value >>> (8 : Nat)))

/-- The method `getS24`. The `int` called `temp` is held as its 32-bit
pattern: `-(1 << 23)` is the pattern `2 ^ 32 - (1 <<< 23)`, and the value
returned is the pattern read as `int32_t`. -/
def getS24 (mem : List Nat) (this offset : Nat) : Int :=
  let temp :=
    sequence mem this (2 + offset) |||
    (sequence mem this (2 + offset + 1) <<< 8) |||
    (sequence mem this (2 + offset + 2) <<< 16)
  let temp1 := if temp &&& (1 <<< 23) ≠ 0 then temp ||| (2 ^ 32 - (1 <<< 23)) else temp
  to_signed 32 temp1

/-- The method `putS24`. -/
def putS24 (mem : List Nat) (this offset : Nat) (value : Int) : List Nat :=
  setSequenceByte
    (setSequenceByte (setSequenceByte mem this (2 + offset) (to_uint8 value))
      this (2 + offset + 1) (to_uint8 (value >>> (8 : Nat))))
    this (2 + offset + 2) (to_uint8 (value >>> (16 : Nat)))

/-- The method `getS32`; the four bytes are combined in 32-bit arithmetic and
the pattern is read as `int32_t`. -/
def getS32 (mem : List Nat) (this offset : Nat) : Int :=
  to_signed 32
    (sequence mem this (2 + offset) |||
      (sequence mem this (2 + offset + 1) <<< 8) |||
      (sequence mem this (2 + offset + 2) <<< 16) |||
      (sequence mem this (2 + offset + 3) <<< 24))

/-- The method `putS32`. -/
def putS32 (mem : List Nat) (this offset : Nat) (value : Int) : List Nat :=
  setSequenceByte
    (setSequenceByte
      (setSequenceByte (setSequenceByte mem this (2 + offset) (to_uint8 value))
        this (2 + offset + 1) (to_uint8 (value >>> (8 : Nat))))
      this (2 + offset + 2) (to_uint8 (value >>> (16 : Nat))))
    this (2 + offset + 3) (to_uint8 (value >>> (24 : Nat)))

end hpsjam_packet

/-- An example buffer state: 96 samples held, the consumer index near the end
of the ring. -/
def example_buf : hpsjam_audio_buffer :=
  { hpsjam_audio_buffer.clear with consumer := 1500, total := 96 }

/-! ## What one cycle of the output packetizer depends on -/

/-- Two packetizer states agree on the members that only `send` writes: the
sequence number, the mask, `d_len` and the cycle position. -/
def same_cycle (s s' : hpsjam_output_packetizer) : Prop :=
  s'.seqno = s.seqno ∧ s'.mask = s.mask ∧ s'.d_len = s.d_len ∧ s'.d_cur = s.d_cur ∧
  s'.d_max = s.d_max

/-- The frame under assembly is zero beyond the bytes appended so far. -/
def zero_tail (s : hpsjam_output_packetizer) : Prop :=
  ∀ i, hpsjam_frame.HDR_SIZE + s.offset ≤ i → s.current.getD i 0 = 0

/-- The datagrams of the payload frames sent since the last mask frame, after
the results `outs`, when `acc` were those before `outs`. -/
def cycle_from (acc : List (List Nat)) (outs : List send_result) : List (List Nat) :=
  outs.foldl (fun a r => if r.xor_frame then [] else a ++ [r.datagram]) acc

/-- The datagrams of the payload frames sent since the last mask frame. -/
def cycle_frames (outs : List send_result) : List (List Nat) := cycle_from [] outs

/-- Byte `i` of the XOR of a list of datagrams; a datagram reads as zero
beyond its length. -/
def xor_byte (frames : List (List Nat)) (i : Nat) : Nat :=
  frames.foldl (fun a f => a ^^^ f.getD i 0) 0

/-- The largest payload offset among a list of payload datagrams; a datagram
has `offset + sizeof(hdr)` bytes. -/
def max_offset (frames : List (List Nat)) : Nat :=
  frames.foldl (fun m f => max m (f.length - hpsjam_frame.HDR_SIZE)) 0

/-- The value of `d_len` at the start of the running cycle, after the results
`outs`, when it was `l` before them: a mask frame resets it to zero. -/
def cycle_start_len (l : Nat) (outs : List send_result) : Nat :=
  outs.foldl (fun a r => if r.xor_frame then 0 else a) l

/-- The state of a packetizer inside a cycle: `acc` are the payload datagrams
sent since the last mask frame and `l0` was `d_len` when the cycle began. The
mask is their XOR, `d_len` is the largest payload offset among them and `l0`,
`d_cur` counts them, and none is longer than a frame. -/
structure cyc_inv (MAX_UDP d : Nat) (s : hpsjam_output_packetizer) (acc : List (List Nat))
    (l0 : Nat) : Prop where
  inv : out_inv MAX_UDP d s
  tail : zero_tail s
  mask_eq : ∀ i, s.mask.getD i 0 = xor_byte acc i
  len_eq : s.d_len = max l0 (max_offset acc)
  count : acc.length = s.d_cur
  bound : ∀ f ∈ acc, f.length ≤ MAX_UDP

/-- The weight `f = fade_in / fadeSamples` on the extrapolation for sample
number `k` of a call that began with `fade_in = F`: `fade_in` is counted down
by one per sample and stays at zero. -/
def fade_weight (F k : Nat) : ℚ := ((F - k : Nat) : ℚ) / (hpsjam_audio_buffer.fadeSamples : ℚ)

/-- The cross-fade `out = src * (1 - f) + last_sample * f` for sample number
`k` of a chunk, where `last_sample` is the extrapolation decayed `k + 1` times
from the value `last` it had before the chunk. -/
def crossfade (F : Nat) (last : ℚ) (src : List ℚ) (k : Nat) : ℚ :=
  src.getD k 0 * (1 - fade_weight F k) + (hpsjam_audio_buffer.decay_once^[k + 1] last) * fade_weight F k

/-! ## Runs of calls on the input packetizer -/

/-- A call of the owner on the input packetizer: `receive` with a frame taken
from the network, `recovery`, or `first_pkt`. -/
inductive in_op where
  | receive (frame : List Nat)
  | recovery
  | first_pkt
deriving Repr

/-- One call on the input packetizer; `none` when the call does not return. -/
def in_step (MAX_UDP : Nat) (s : hpsjam_input_packetizer) :
    in_op → Option hpsjam_input_packetizer
  | .receive frame => some (s.receive frame)
  | .recovery => s.recovery
  | .first_pkt => (s.first_pkt MAX_UDP).map Prod.fst

/-- A sequence of calls on the input packetizer. -/
def in_run (MAX_UDP : Nat) :
    hpsjam_input_packetizer → List in_op → Option hpsjam_input_packetizer
  | s, [] => some s
  | s, op :: ops => (in_step MAX_UDP s op).bind (fun s1 => in_run MAX_UDP s1 ops)

/-- Example reassembler state: after `init`, the mask frame with header
`(0, 2)` and the payload frames of the slots 1 and 2 have been received; the
payload of slot 0 has not. -/
def example_rx : hpsjam_input_packetizer :=
  (((hpsjam_input_packetizer.init 16).receive (mask_frame 16 example_payload 2 7)).receive
    (payload_frame example_payload 1)).receive (payload_frame example_payload 2)

/-- Example reassembler state with a redundancy that does not divide
`SEQ_MAX`: three payloads flagged, `last_red = 3`. -/
def example_rx3 : hpsjam_input_packetizer :=
  { hpsjam_input_packetizer.init 16 with
    valid := [1, 1, 1, 0, 0, 0, 0, 0, 0, 0, 0, 0, 0, 0, 0, 0]
    last_red := 3 }

/-! ## The `send` calls of a run of the output packetizer -/

/-- The `send` calls of a run, in order: the state each call is made in and
its `ticks` argument. -/
def send_calls (MAX_UDP : Nat) (s : hpsjam_output_packetizer) :
    List out_op → List (hpsjam_output_packetizer × Nat)
  | [] => []
  | op :: ops =>
    (match op with
     | .send ticks => [(s, ticks)]
     | _ => []) ++ send_calls MAX_UDP (out_step MAX_UDP s op).1 ops

/-- An example entry: a three-word packet of type 1, which leaves three bytes
free in a frame of 16 bytes. -/
def example_entry3 : hpsjam_packet_entry := { raw := [3, 1, 0, 0, 1, 2, 3, 4, 5, 6, 7, 8] }

/-- Example run: a control packet is queued, sent and acknowledged at once;
`n` further `send` calls follow with nothing queued. -/
def example_idle_run (n : Nat) : List out_op :=
  [out_op.send_single_pkt true example_entry1, out_op.send 0, out_op.advance 0] ++
    List.replicate n (out_op.send 0)

/-- Example run: a control packet is queued and sent, and not acknowledged
over `n` further `send` calls. -/
def example_lost_run (n : Nat) : List out_op :=
  [out_op.send_single_pkt true example_entry1, out_op.send 0] ++
    List.replicate n (out_op.send 0)

/-- Example run without an acknowledgement: two payload ticks and, after a
control packet has been queued, a mask tick, all three with nothing in
flight; the next payload tick puts the packet in flight. -/
def example_quiet_run : List out_op :=
  [out_op.send 0, out_op.send 0, out_op.send_single_pkt true example_entry1, out_op.send 0,
    out_op.send 0, out_op.send 0]

/-- Example run: a control packet is queued and never acknowledged over 193
`send` calls; before the call number 96, the payload tick at which
`pend_count` is 64, the owner fills the frame with a three-word packet. -/
def example_full_run : List out_op :=
  out_op.send_single_pkt true example_entry1 :: List.replicate 96 (out_op.send 0) ++
    out_op.append_pkt example_entry3 :: List.replicate 97 (out_op.send 0)

/-- Example packetizer state at the timeout: an entry in flight and
`pend_count = 2000`. -/
def example_timeout : hpsjam_output_packetizer :=
  { example_out with pending := some example_entry1, pend_count := 2000 }

/-! ## The over-supply scenario on the audio buffer -/

/-- The calls of the over-supply scenario: for every tick, with the samples
`src` it brings, `addSamples` of `2 * DEF_SAMPLES` samples and then
`remSamples` of `DEF_SAMPLES` samples. -/
def oversupply : List (List ℚ) → List buf_op
  | [] => []
  | src :: rest =>
    buf_op.addSamples src (2 * HPSJAM_DEF_SAMPLES) :: buf_op.remSamples HPSJAM_DEF_SAMPLES ::
      oversupply rest

/-- A buffer state that holds the depth `total` and the histogram `stats` and
nothing else: no samples, the default limit. -/
def ctl_buf (total : Nat) (stats : List ℚ) : hpsjam_audio_buffer :=
  { samples := [], stats := stats, last_sample := 0, consumer := 0, total := total,
    limit := 3, fade_in := 0 }

/-- One tick of the over-supply scenario on the depth and the histogram
alone: `addSamples` stores the `2 * DEF_SAMPLES` samples as far as there is
room, then `remSamples(DEF_SAMPLES)` does its accounting with `rem_account`,
calls `shrink()` if the flag says so, and takes its samples. The flag is
returned with the new depth and histogram. -/
def oversupply_ctl (c : Nat × List ℚ) : (Nat × List ℚ) × Bool :=
  let t1 := c.1 + min (2 * HPSJAM_DEF_SAMPLES) (HPSJAM_MAX_SAMPLES - c.1)
  let a := (ctl_buf t1 c.2).rem_account HPSJAM_DEF_SAMPLES
  ((t1 - HPSJAM_DEF_SAMPLES - (if a.2.2 then HPSJAM_DEF_SAMPLES else 0),
    if a.2.2 then hpsjam_audio_buffer.shift_stats a.1.stats else a.1.stats), a.2.2)

/-- The number of `shrink()` calls over `n` ticks of the over-supply scenario
from the depth and histogram `c`. -/
def oversupply_shrinks : Nat → Nat × List ℚ → Nat
  | 0, _ => 0
  | n + 1, c =>
    (if (oversupply_ctl c).2 then 1 else 0) + oversupply_shrinks n (oversupply_ctl c).1

/-! # Theorems -/

/-! ## Helper lemmas: byte buffers -/

theorem readBytes_length (src : List Nat) (len : Nat) : (readBytes src len).length = len := by
  simp [readBytes]

theorem readBytes_getD (src : List Nat) (len i : Nat) (h : i < len) :
    (readBytes src len).getD i 0 = src.getD i 0 := by
  simp [readBytes, List.getD_eq_getElem?_getD, List.getElem?_map, List.getElem?_range h]

/-- A read inside the buffer gives its first `len` bytes. -/
theorem readBytes_eq_take (src : List Nat) (len : Nat) (h : len ≤ src.length) :
    readBytes src len = src.take len := by
  apply List.ext_getElem?
  intro i
  by_cases hi : i < len
  · rw [List.getElem?_take_of_lt hi]
    simp only [readBytes, List.getElem?_map, List.getElem?_range hi, Option.map_some',
      List.getD_eq_getElem?_getD]
    rw [List.getElem?_eq_getElem (by omega)]
    rfl
  · rw [List.getElem?_take_eq_none (by omega),
      List.getElem?_eq_none (by rw [readBytes_length]; omega)]

theorem memcpy_length (dst src : List Nat) (pos len : Nat) (h : pos + len ≤ dst.length) :
    (memcpy dst pos src len).length = dst.length := by
  simp [memcpy, readBytes_length]
  omega

theorem memcpy_getD_in (dst src : List Nat) (pos len i : Nat) (h : pos + len ≤ dst.length)
    (hi : i < len) : (memcpy dst pos src len).getD (pos + i) 0 = src.getD i 0 := by
  have hp : (dst.take pos).length = pos := by simp; omega
  rw [memcpy, List.append_assoc, List.getD_eq_getElem?_getD,
    List.getElem?_append_right (by omega), hp,
    List.getElem?_append_left (by simp [readBytes_length]; omega)]
  have := readBytes_getD src len i hi
  rw [List.getD_eq_getElem?_getD] at this
  simpa using this

theorem memcpy_getD_out (dst src : List Nat) (pos len j : Nat) (h : pos + len ≤ dst.length)
    (hj : j < pos ∨ pos + len ≤ j) : (memcpy dst pos src len).getD j 0 = dst.getD j 0 := by
  have hp : (dst.take pos).length = pos := by simp; omega
  rw [memcpy, List.append_assoc, List.getD_eq_getElem?_getD, List.getD_eq_getElem?_getD]
  rcases hj with hj | hj
  · rw [List.getElem?_append_left (by omega), List.getElem?_take_of_lt hj]
  · rw [List.getElem?_append_right (by omega), hp,
      List.getElem?_append_right (by simp [readBytes_length]; omega), readBytes_length,
      List.getElem?_drop]
    congr 2
    omega

theorem readBytes_append_left (a b : List Nat) : readBytes (a ++ b) a.length = a := by
  apply List.ext_getElem
  · simp [readBytes]
  · intro i h1 h2
    simp [readBytes] at h1 ⊢
    simp [List.getD_eq_getElem?_getD, List.getElem?_append_left h1, List.getElem?_eq_getElem h1]

theorem getD_append_left_nat (a b : List Nat) (i : Nat) (h : i < a.length) :
    (a ++ b).getD i 0 = a.getD i 0 := by
  simp [List.getD_eq_getElem?_getD, List.getElem?_append_left h]

theorem getD_append_right_nat (a b : List Nat) (i : Nat) :
    (a ++ b).getD (a.length + i) 0 = b.getD i 0 := by
  simp [List.getD_eq_getElem?_getD, List.getElem?_append_right]

theorem entry_bytes_length (e : hpsjam_packet_entry) : e.bytes.length = e.getBytes := by
  simp [hpsjam_packet_entry.bytes, readBytes_length]

/-- Walking a memory that holds the bytes of well-formed packets at `p`,
followed by zero bytes, yields exactly those packets. -/
theorem walk_packets (end_ : Nat) (tail : List Nat) (htail : ∀ j, tail.getD j 0 = 0) :
    ∀ (pkts : List hpsjam_packet_entry) (pre : List Nat) (fuel : Nat),
      (∀ e ∈ pkts, 1 ≤ e.length ∧ e.type ≠ HPSJAM_TYPE_END) →
      pre.length + total_bytes pkts ≤ end_ → pkts.length < fuel →
      walk (pre ++ ((pkts.map (·.bytes)).flatten ++ tail)) end_ fuel pre.length =
        some (pkts.map (·.bytes)) := by
  intro pkts
  induction pkts with
  | nil =>
    intro pre fuel _ _ hf
    obtain ⟨f, rfl⟩ : ∃ f, fuel = f + 1 := ⟨fuel - 1, by simp at hf; omega⟩
    have ht : hpsjam_packet.type (pre ++ tail) pre.length = 0 := by
      simp only [hpsjam_packet.type]
      rw [getD_append_right_nat]
      exact htail 1
    simp [walk, hpsjam_packet.valid, ht, HPSJAM_TYPE_END]
  | cons e es ih =>
    intro pre fuel hwf hsz hf
    obtain ⟨f, rfl⟩ : ∃ f, fuel = f + 1 := ⟨fuel - 1, by simp at hf; omega⟩
    have he := hwf e (List.mem_cons_self _ _)
    have hlen4 : e.bytes.length = 4 * e.length := by
      rw [entry_bytes_length]; simp [hpsjam_packet_entry.getBytes]; omega
    have hmem : pre ++ (((e :: es).map (·.bytes)).flatten ++ tail) =
        pre ++ (e.bytes ++ ((es.map (·.bytes)).flatten ++ tail)) := by
      simp
    have hmem2 : pre ++ (((e :: es).map (·.bytes)).flatten ++ tail) =
        (pre ++ e.bytes) ++ ((es.map (·.bytes)).flatten ++ tail) := by
      simp
    have hb0 : e.bytes.getD 0 0 = e.length := by
      have := readBytes_getD e.raw e.getBytes 0 (by simp [hpsjam_packet_entry.getBytes]; omega)
      simpa [hpsjam_packet_entry.bytes, hpsjam_packet_entry.length] using this
    have hb1 : e.bytes.getD 1 0 = e.type := by
      have := readBytes_getD e.raw e.getBytes 1 (by simp [hpsjam_packet_entry.getBytes]; omega)
      simpa [hpsjam_packet_entry.bytes, hpsjam_packet_entry.type] using this
    have hL : hpsjam_packet.length (pre ++ (((e :: es).map (·.bytes)).flatten ++ tail))
        pre.length = e.length := by
      rw [hmem, hpsjam_packet.length]
      have := getD_append_right_nat pre (e.bytes ++ ((es.map (·.bytes)).flatten ++ tail)) 0
      rw [Nat.add_zero] at this
      rw [this, getD_append_left_nat _ _ 0 (by omega), hb0]
    have hT : hpsjam_packet.type (pre ++ (((e :: es).map (·.bytes)).flatten ++ tail))
        pre.length = e.type := by
      rw [hmem, hpsjam_packet.type, getD_append_right_nat,
        getD_append_left_nat _ _ 1 (by omega), hb1]
    have htot : total_bytes (e :: es) = 4 * e.length + total_bytes es := by
      simp [total_bytes, hpsjam_packet_entry.getBytes]; omega
    have hv : hpsjam_packet.valid (pre ++ (((e :: es).map (·.bytes)).flatten ++ tail))
        pre.length end_ = true := by
      rw [hpsjam_packet.valid]
      simp only [hL, hT]
      have h1 : (e.type == HPSJAM_TYPE_END) = false := by simpa using he.2
      have h2 : (e.length == 0) = false := by
        simp; omega
      have h3 : decide (pre.length + 4 * e.length > end_) = false := by
        simp; omega
      simp [h1, h2, h3]
    have hrd : readBytes ((pre ++ (((e :: es).map (·.bytes)).flatten ++ tail)).drop pre.length)
        (hpsjam_packet.getBytes (pre ++ (((e :: es).map (·.bytes)).flatten ++ tail))
          pre.length) = e.bytes := by
      rw [hpsjam_packet.getBytes, hL, hmem, List.drop_left]
      have : e.length * 4 = e.bytes.length := by omega
      rw [this, readBytes_append_left]
    have hnext : hpsjam_packet.next (pre ++ (((e :: es).map (·.bytes)).flatten ++ tail))
        pre.length = (pre ++ e.bytes).length := by
      rw [hpsjam_packet.next, hL, List.length_append, hlen4]
    have hrec := ih (pre ++ e.bytes) f (fun x hx => hwf x (List.mem_cons_of_mem _ hx))
      (by rw [List.length_append, hlen4]; omega) (by simp at hf; omega)
    rw [walk, if_pos hv, hrd, hnext, hmem2, hrec]
    simp

/-- The frame that `append_all` leaves: the packets' bytes laid one after the
other from the old `offset`. -/
theorem append_all_layout (MAX_UDP : Nat) (hM : MAX_UDP < SIZE_MOD) :
    ∀ (pkts : List hpsjam_packet_entry) (s : hpsjam_output_packetizer),
      s.current.length = MAX_UDP →
      hpsjam_frame.HDR_SIZE + s.offset + total_bytes pkts ≤ MAX_UDP →
      (append_all MAX_UDP s pkts).2 = true ∧
      (append_all MAX_UDP s pkts).1.offset = s.offset + total_bytes pkts ∧
      (append_all MAX_UDP s pkts).1.current =
        s.current.take (hpsjam_frame.HDR_SIZE + s.offset) ++
          ((pkts.map (·.bytes)).flatten ++
            s.current.drop (hpsjam_frame.HDR_SIZE + s.offset + total_bytes pkts)) := by
  intro pkts
  induction pkts with
  | nil =>
    intro s _ _
    simp [append_all, total_bytes]
  | cons e es ih =>
    intro s hcur hfit
    have htot : total_bytes (e :: es) = e.getBytes + total_bytes es := by
      simp [total_bytes]
    have hrem : size_sub (size_sub MAX_UDP hpsjam_frame.HDR_SIZE) s.offset =
        MAX_UDP - hpsjam_frame.HDR_SIZE - s.offset := by
      simp only [size_sub, SIZE_MOD, hpsjam_frame.HDR_SIZE] at *
      omega
    have hle : e.getBytes ≤ MAX_UDP - hpsjam_frame.HDR_SIZE - s.offset := by
      simp only [hpsjam_frame.HDR_SIZE] at *
      omega
    have hr : s.append_pkt MAX_UDP e =
        ({ s with
           current := memcpy s.current (hpsjam_frame.HDR_SIZE + s.offset) e.raw e.getBytes
           offset := s.offset + e.getBytes }, true) := by
      simp [hpsjam_output_packetizer.append_pkt, hrem, hle]
    have hfit1 : hpsjam_frame.HDR_SIZE + s.offset + e.getBytes ≤ s.current.length := by
      omega
    have hlen1 : (memcpy s.current (hpsjam_frame.HDR_SIZE + s.offset) e.raw e.getBytes).length =
        MAX_UDP := by
      rw [memcpy_length _ _ _ _ hfit1, hcur]
    have hrec := ih { s with
           current := memcpy s.current (hpsjam_frame.HDR_SIZE + s.offset) e.raw e.getBytes
           offset := s.offset + e.getBytes } hlen1 (by simp only []; omega)
    simp only [append_all, hr, Bool.true_and]
    refine ⟨hrec.1, ?_, ?_⟩
    · rw [hrec.2.1]; simp only []; omega
    · rw [hrec.2.2]
      simp only []
      have htk : (s.current.take (hpsjam_frame.HDR_SIZE + s.offset)).length =
          hpsjam_frame.HDR_SIZE + s.offset := by
        simp; omega
      have hA : (memcpy s.current (hpsjam_frame.HDR_SIZE + s.offset) e.raw e.getBytes).take
          (hpsjam_frame.HDR_SIZE + (s.offset + e.getBytes)) =
          s.current.take (hpsjam_frame.HDR_SIZE + s.offset) ++ e.bytes := by
        rw [memcpy, ← hpsjam_packet_entry.bytes]
        have : hpsjam_frame.HDR_SIZE + (s.offset + e.getBytes) =
            (s.current.take (hpsjam_frame.HDR_SIZE + s.offset) ++ e.bytes).length := by
          rw [List.length_append, htk, entry_bytes_length]; omega
        rw [this, List.take_left]
      have hB : (memcpy s.current (hpsjam_frame.HDR_SIZE + s.offset) e.raw e.getBytes).drop
          (hpsjam_frame.HDR_SIZE + (s.offset + e.getBytes) + total_bytes es) =
          s.current.drop (hpsjam_frame.HDR_SIZE + s.offset + total_bytes (e :: es)) := by
        rw [memcpy, ← hpsjam_packet_entry.bytes]
        have : hpsjam_frame.HDR_SIZE + (s.offset + e.getBytes) + total_bytes es =
            (s.current.take (hpsjam_frame.HDR_SIZE + s.offset) ++ e.bytes).length +
              total_bytes es := by
          rw [List.length_append, htk, entry_bytes_length]; omega
        rw [this, List.drop_append, List.drop_drop]
        congr 1
        omega
      rw [hA, hB]
      simp

theorem total_bytes_bounds (pkts : List hpsjam_packet_entry)
    (hwf : ∀ e ∈ pkts, 1 ≤ e.length) :
    4 * pkts.length ≤ total_bytes pkts ∧ 4 ∣ total_bytes pkts := by
  induction pkts with
  | nil => simp [total_bytes]
  | cons e es ih =>
    have h1 := hwf e (List.mem_cons_self _ _)
    have h2 := ih (fun x hx => hwf x (List.mem_cons_of_mem _ hx))
    have htot : total_bytes (e :: es) = e.length * 4 + total_bytes es := by
      simp [total_bytes, hpsjam_packet_entry.getBytes]
    rw [htot, List.length_cons]
    refine ⟨by omega, ?_⟩
    obtain ⟨k, hk⟩ := h2.2
    exact ⟨e.length + k, by omega⟩

theorem clear_drop_getD (MAX_UDP n j : Nat) :
    ((hpsjam_frame.clear MAX_UDP).drop n).getD j 0 = 0 := by
  simp only [hpsjam_frame.clear, List.drop_replicate, List.getD_eq_getElem?_getD]
  by_cases h : j < MAX_UDP - n
  · simp [List.getElem?_replicate, h]
  · simp [List.getElem?_replicate, h]

/-- C1: well-formed inner packets whose total size fits the frame are all
accepted by `append_pkt` on a cleared frame, and walking the frame from
`start` with `valid(end)` / `next()` stops after yielding exactly those
packets, byte for byte and in order; the read that stops the walk lies inside
the frame. -/
theorem frame_round_trip (MAX_UDP : Nat) (s : hpsjam_output_packetizer)
    (pkts : List hpsjam_packet_entry) (h8 : 8 ∣ MAX_UDP) (hpos : 0 < MAX_UDP)
    (hM : MAX_UDP < SIZE_MOD) (hclr : s.current = hpsjam_frame.clear MAX_UDP)
    (hoff : s.offset = 0)
    (hwf : ∀ e ∈ pkts, 1 ≤ e.length ∧ e.length ≤ 255 ∧ e.type ≠ HPSJAM_TYPE_END)
    (hsize : total_bytes pkts ≤ MAX_UDP - hpsjam_frame.HDR_SIZE) :
    (append_all MAX_UDP s pkts).2 = true ∧
    decode MAX_UDP (append_all MAX_UDP s pkts).1.current = some (pkts.map (·.bytes)) ∧
    hpsjam_frame.start + (append_all MAX_UDP s pkts).1.offset + 1 < MAX_UDP := by
  have hb := total_bytes_bounds pkts (fun e he => (hwf e he).1)
  have hlen : s.current.length = MAX_UDP := by simp [hclr, hpsjam_frame.clear]
  have hfit : hpsjam_frame.HDR_SIZE + s.offset + total_bytes pkts ≤ MAX_UDP := by
    simp only [hpsjam_frame.HDR_SIZE] at *
    omega
  obtain ⟨h1, h2, h3⟩ := append_all_layout MAX_UDP hM pkts s hlen hfit
  obtain ⟨k, hk⟩ := hb.2
  obtain ⟨m, hm⟩ := h8
  refine ⟨h1, ?_, ?_⟩
  · have hpre : (s.current.take (hpsjam_frame.HDR_SIZE + s.offset)).length =
        hpsjam_frame.start := by
      simp [hoff, hlen, hpsjam_frame.start, hpsjam_frame.HDR_SIZE]; omega
    have hw := walk_packets (hpsjam_frame.end_ MAX_UDP)
      (s.current.drop (hpsjam_frame.HDR_SIZE + s.offset + total_bytes pkts))
      (by intro j; rw [hclr]; exact clear_drop_getD _ _ _)
      pkts (s.current.take (hpsjam_frame.HDR_SIZE + s.offset)) (MAX_UDP + 1)
      (fun e he => ⟨(hwf e he).1, (hwf e he).2.2⟩)
      (by
        rw [hpre]
        simp only [hpsjam_frame.start, hpsjam_frame.end_, hpsjam_frame.HDR_SIZE] at *
        omega)
      (by
        simp only [hpsjam_frame.HDR_SIZE] at *
        omega)
    rw [hpre] at hw
    rw [decode, h3]
    exact hw
  · rw [h2]
    simp only [hpsjam_frame.start, hpsjam_frame.HDR_SIZE] at *
    omega

/-- C8: after `setSequence(seq, red)` the header byte gives
`getSeqNo() = seq mod SEQ_MAX` and `getRedNo() = red mod SEQ_MAX`; a pair of
digits below `SEQ_MAX` is recovered exactly. -/
theorem header_round_trip (seq red : Nat) :
    hpsjam_header.getSeqNo (hpsjam_header.setSequence seq red) = seq % HPSJAM_SEQ_MAX ∧
    hpsjam_header.getRedNo (hpsjam_header.setSequence seq red) = red % HPSJAM_SEQ_MAX ∧
    (seq < HPSJAM_SEQ_MAX → red < HPSJAM_SEQ_MAX →
      hpsjam_header.getSeqNo (hpsjam_header.setSequence seq red) = seq ∧
      hpsjam_header.getRedNo (hpsjam_header.setSequence seq red) = red) := by
  simp only [hpsjam_header.getSeqNo, hpsjam_header.getRedNo, hpsjam_header.setSequence,
    HPSJAM_SEQ_MAX]
  omega

theorem header_round_trip_witness :
    hpsjam_header.getSeqNo (hpsjam_header.setSequence 5 2) = 5 ∧
    hpsjam_header.getRedNo (hpsjam_header.setSequence 5 2) = 2 :=
  (header_round_trip 5 2).2.2 (by decide) (by decide)

/-- C9: `valid(end)` is true exactly when the packet's length is at least 1,
its type is not `HPSJAM_TYPE_END` and the packet's start plus `4 * length`
does not exceed the frame end. -/
theorem packet_valid_iff (mem : List Nat) (this end_ : Nat) :
    hpsjam_packet.valid mem this end_ = true ↔
      (1 ≤ hpsjam_packet.length mem this ∧
       hpsjam_packet.type mem this ≠ HPSJAM_TYPE_END ∧
       this + 4 * hpsjam_packet.length mem this ≤ end_) := by
  unfold hpsjam_packet.valid
  by_cases h1 : hpsjam_packet.type mem this = HPSJAM_TYPE_END <;>
  by_cases h2 : hpsjam_packet.length mem this = 0 <;>
  by_cases h3 : this + 4 * hpsjam_packet.length mem this > end_ <;>
  (simp [h1, h2, h3]; try omega)

/-- C10: on a packetizer whose `offset` lies inside the frame, `append_pkt`
returns false exactly when `4 * length` exceeds
`sizeof(frame) - sizeof(header) - offset`; on false the state is unchanged; on
true the `4 * length` bytes of the entry sit at payload position `offset`,
`offset` has grown by `4 * length` and nothing else has changed. -/
theorem append_pkt_spec (MAX_UDP : Nat) (s : hpsjam_output_packetizer)
    (entry : hpsjam_packet_entry) (hM : MAX_UDP < SIZE_MOD)
    (hcur : s.current.length = MAX_UDP) (hoff : s.offset + hpsjam_frame.HDR_SIZE ≤ MAX_UDP) :
    ((s.append_pkt MAX_UDP entry).2 = false ↔
        MAX_UDP - hpsjam_frame.HDR_SIZE - s.offset < 4 * entry.length) ∧
    ((s.append_pkt MAX_UDP entry).2 = false → (s.append_pkt MAX_UDP entry).1 = s) ∧
    ((s.append_pkt MAX_UDP entry).2 = true →
      (s.append_pkt MAX_UDP entry).1.offset = s.offset + 4 * entry.length ∧
      (s.append_pkt MAX_UDP entry).1.current.length = MAX_UDP ∧
      (∀ i, i < 4 * entry.length →
        (s.append_pkt MAX_UDP entry).1.current.getD (hpsjam_frame.HDR_SIZE + s.offset + i) 0 =
          entry.raw.getD i 0) ∧
      (∀ j, j < hpsjam_frame.HDR_SIZE + s.offset ∨
          hpsjam_frame.HDR_SIZE + s.offset + 4 * entry.length ≤ j →
        (s.append_pkt MAX_UDP entry).1.current.getD j 0 = s.current.getD j 0) ∧
      (s.append_pkt MAX_UDP entry).1 =
        { s with current := (s.append_pkt MAX_UDP entry).1.current,
                 offset := s.offset + 4 * entry.length }) := by
  have hrem : size_sub (size_sub MAX_UDP hpsjam_frame.HDR_SIZE) s.offset =
      MAX_UDP - hpsjam_frame.HDR_SIZE - s.offset := by
    simp only [size_sub, SIZE_MOD, hpsjam_frame.HDR_SIZE] at *
    omega
  by_cases hle : entry.getBytes ≤ MAX_UDP - hpsjam_frame.HDR_SIZE - s.offset
  · have hr : s.append_pkt MAX_UDP entry =
        ({ s with
           current := memcpy s.current (hpsjam_frame.HDR_SIZE + s.offset) entry.raw entry.getBytes
           offset := s.offset + entry.getBytes }, true) := by
      simp [hpsjam_output_packetizer.append_pkt, hrem, hle]
    have hb : entry.getBytes = 4 * entry.length := by
      simp [hpsjam_packet_entry.getBytes]; omega
    have hfit : hpsjam_frame.HDR_SIZE + s.offset + entry.getBytes ≤ s.current.length := by
      simp only [hpsjam_frame.HDR_SIZE] at *
      omega
    rw [hr]
    refine ⟨?_, ?_, ?_⟩
    · simp; omega
    · simp
    · intro _
      refine ⟨by simp [hb], ?_, ?_, ?_, by simp [hb]⟩
      · simpa [hcur] using memcpy_length s.current entry.raw _ _ hfit
      · intro i hi
        exact memcpy_getD_in s.current entry.raw _ _ i hfit (by omega)
      · intro j hj
        exact memcpy_getD_out s.current entry.raw _ _ j hfit (by omega)
  · have hr : s.append_pkt MAX_UDP entry = (s, false) := by
      simp [hpsjam_output_packetizer.append_pkt, hrem, hle]
    have hb : entry.getBytes = 4 * entry.length := by
      simp [hpsjam_packet_entry.getBytes]; omega
    rw [hr]
    refine ⟨?_, ?_, ?_⟩
    · simp; omega
    · simp
    · intro h; simp at h

/-! ## The output packetizer as a state machine -/

theorem size_sub_remainder (MAX_UDP off : Nat) (hM : MAX_UDP < SIZE_MOD)
    (hoff : off + hpsjam_frame.HDR_SIZE ≤ MAX_UDP) :
    size_sub (size_sub MAX_UDP hpsjam_frame.HDR_SIZE) off =
      MAX_UDP - hpsjam_frame.HDR_SIZE - off := by
  simp only [size_sub, SIZE_MOD, hpsjam_frame.HDR_SIZE] at *
  omega

theorem append_pkt_inv (MAX_UDP d : Nat) (hM : MAX_UDP < SIZE_MOD)
    (s : hpsjam_output_packetizer) (e : hpsjam_packet_entry) (h : out_inv MAX_UDP d s) :
    out_inv MAX_UDP d (s.append_pkt MAX_UDP e).1 := by
  have hrem := size_sub_remainder MAX_UDP s.offset hM h.off_le
  unfold hpsjam_output_packetizer.append_pkt
  simp only [hrem]
  split
  · next hle =>
    have hfit : hpsjam_frame.HDR_SIZE + s.offset + e.getBytes ≤ s.current.length := by
      have := h.off_le; have := h.cur_len
      simp only [hpsjam_frame.HDR_SIZE] at *
      omega
    refine ⟨?_, h.mask_len, ?_, h.d_max_eq, h.d_cur_le⟩
    · simp only []
      rw [memcpy_length _ _ _ _ hfit, h.cur_len]
    · have := h.off_le
      simp only [hpsjam_frame.HDR_SIZE] at *
      omega
  · exact h

theorem append_ack_inv (MAX_UDP d : Nat) (hM : MAX_UDP < SIZE_MOD)
    (s : hpsjam_output_packetizer) (h : out_inv MAX_UDP d s) :
    out_inv MAX_UDP d (s.append_ack MAX_UDP).1 := by
  have hrem := size_sub_remainder MAX_UDP s.offset hM h.off_le
  unfold hpsjam_output_packetizer.append_ack
  simp only [hrem]
  split
  · next hle =>
    have hfit : hpsjam_frame.HDR_SIZE + s.offset + 4 ≤ s.current.length := by
      have := h.off_le; have := h.cur_len
      simp only [hpsjam_frame.HDR_SIZE] at *
      omega
    refine ⟨?_, h.mask_len, ?_, h.d_max_eq, h.d_cur_le⟩
    · simp only []
      rw [memcpy_length _ _ _ _ hfit, h.cur_len]
    · have := h.off_le
      simp only [hpsjam_frame.HDR_SIZE] at *
      omega
  · exact h

theorem append_pending_inv (MAX_UDP d : Nat) (hM : MAX_UDP < SIZE_MOD)
    (s : hpsjam_output_packetizer) (e : hpsjam_packet_entry) (h : out_inv MAX_UDP d s) :
    out_inv MAX_UDP d (s.append_pending MAX_UDP e) := by
  have h1 := append_pkt_inv MAX_UDP d hM s e h
  unfold hpsjam_output_packetizer.append_pending
  dsimp only
  split
  · exact ⟨h1.cur_len, h1.mask_len, h1.off_le, h1.d_max_eq, h1.d_cur_le⟩
  · exact h1

theorem append_pending_d_cur (MAX_UDP : Nat) (s : hpsjam_output_packetizer)
    (e : hpsjam_packet_entry) :
    (s.append_pending MAX_UDP e).d_cur = s.d_cur ∧
    (s.append_pending MAX_UDP e).d_max = s.d_max ∧
    (s.append_pending MAX_UDP e).pending = s.pending ∧
    (s.append_pending MAX_UDP e).pend_count = s.pend_count ∧
    (s.append_pending MAX_UDP e).seqno = s.seqno := by
  unfold hpsjam_output_packetizer.append_pending hpsjam_output_packetizer.append_pkt
  dsimp only
  split <;> simp

theorem send_control_inv (MAX_UDP d ticks : Nat) (hM : MAX_UDP < SIZE_MOD)
    (s : hpsjam_output_packetizer) (h : out_inv MAX_UDP d s) :
    out_inv MAX_UDP d (s.send_control MAX_UDP ticks) ∧
    (s.send_control MAX_UDP ticks).d_cur = s.d_cur := by
  unfold hpsjam_output_packetizer.send_control
  split
  · split
    · next _ p rest _ =>
      have h0 : out_inv MAX_UDP d { s with
          head := rest
          pending := some ((p.setLocalSeqNo s.pend_seqno).setPeerSeqNo s.peer_seqno)
          start_time := ticks % 65536
          pend_seqno := (s.pend_seqno + 1) % 256 } :=
        ⟨h.cur_len, h.mask_len, h.off_le, h.d_max_eq, h.d_cur_le⟩
      have h1 := append_pending_inv MAX_UDP d hM _
        ((p.setLocalSeqNo s.pend_seqno).setPeerSeqNo s.peer_seqno) h0
      have h2 := append_pending_d_cur MAX_UDP { s with
          head := rest
          pending := some ((p.setLocalSeqNo s.pend_seqno).setPeerSeqNo s.peer_seqno)
          start_time := ticks % 65536
          pend_seqno := (s.pend_seqno + 1) % 256 }
        ((p.setLocalSeqNo s.pend_seqno).setPeerSeqNo s.peer_seqno)
      exact ⟨⟨h1.cur_len, h1.mask_len, h1.off_le, h1.d_max_eq, h1.d_cur_le⟩, h2.1⟩
    · split
      · exact ⟨⟨h.cur_len, h.mask_len, h.off_le, h.d_max_eq, h.d_cur_le⟩, rfl⟩
      · exact ⟨h, rfl⟩
  · next p _ =>
    split
    · have h0 : out_inv MAX_UDP d { s with pending := some (p.setPeerSeqNo s.peer_seqno) } :=
        ⟨h.cur_len, h.mask_len, h.off_le, h.d_max_eq, h.d_cur_le⟩
      have h1 := append_pending_inv MAX_UDP d hM _ (p.setPeerSeqNo s.peer_seqno) h0
      have h2 := append_pending_d_cur MAX_UDP
        { s with pending := some (p.setPeerSeqNo s.peer_seqno) } (p.setPeerSeqNo s.peer_seqno)
      exact ⟨⟨h1.cur_len, h1.mask_len, h1.off_le, h1.d_max_eq, h1.d_cur_le⟩, h2.1⟩
    · split
      · exact ⟨⟨h.cur_len, h.mask_len, h.off_le, h.d_max_eq, h.d_cur_le⟩, rfl⟩
      · exact ⟨h, rfl⟩

theorem send_ack_step_inv (MAX_UDP d : Nat) (hM : MAX_UDP < SIZE_MOD)
    (s : hpsjam_output_packetizer) (h : out_inv MAX_UDP d s) :
    out_inv MAX_UDP d (s.send_ack_step MAX_UDP) ∧
    (s.send_ack_step MAX_UDP).d_cur = s.d_cur := by
  have h1 := append_ack_inv MAX_UDP d hM s h
  have h2 : (s.append_ack MAX_UDP).1.d_cur = s.d_cur := by
    unfold hpsjam_output_packetizer.append_ack
    dsimp only
    split <;> rfl
  unfold hpsjam_output_packetizer.send_ack_step
  dsimp only
  split
  · split
    · exact ⟨⟨h1.cur_len, h1.mask_len, h1.off_le, h1.d_max_eq, h1.d_cur_le⟩, h2⟩
    · exact ⟨h1, h2⟩
  · exact ⟨h, rfl⟩

theorem setHdr_take_hdr (f : List Nat) (v n : Nat) (hf : 0 < f.length) :
    hpsjam_frame.hdr ((hpsjam_frame.setHdr f v).take (n + hpsjam_frame.HDR_SIZE)) = v := by
  cases f with
  | nil => simp at hf
  | cons a t => simp [hpsjam_frame.hdr, hpsjam_frame.setHdr, hpsjam_frame.HDR_SIZE]

theorem setHdr_read_hdr (f : List Nat) (v n : Nat) (hf : 0 < f.length) :
    hpsjam_frame.hdr (readBytes (hpsjam_frame.setHdr f v) (n + hpsjam_frame.HDR_SIZE)) = v := by
  rw [hpsjam_frame.hdr, readBytes_getD _ _ _ (by simp [hpsjam_frame.HDR_SIZE])]
  cases f with
  | nil => simp at hf
  | cons a t => simp [hpsjam_frame.setHdr]

theorem clear_length (MAX_UDP : Nat) : (hpsjam_frame.clear MAX_UDP).length = MAX_UDP := by
  simp [hpsjam_frame.clear]

theorem do_xor_length (a b : List Nat) (n : Nat) (ha : a.length = n) (hb : b.length = n) :
    (hpsjam_frame.do_xor a b).length = n := by
  simp [hpsjam_frame.do_xor, ha, hb]

/-- One `send` under the invariant: which frame goes out and where the cycle
position moves. -/
theorem send_cadence_step (MAX_UDP d ticks : Nat) (hpos : 0 < MAX_UDP) (hM : MAX_UDP < SIZE_MOD)
    (hd : d < HPSJAM_SEQ_MAX) (s : hpsjam_output_packetizer) (h : out_inv MAX_UDP d s) :
    out_inv MAX_UDP d (s.send MAX_UDP ticks).state ∧
    (s.send MAX_UDP ticks).state.d_cur = (if s.d_cur = d then 0 else s.d_cur + 1) ∧
    hpsjam_header.getRedNo (hpsjam_frame.hdr (s.send MAX_UDP ticks).datagram) =
      (if s.d_cur = d then d else 0) := by
  have hdm := h.d_max_eq
  have hdc := h.d_cur_le
  simp only [HPSJAM_SEQ_MAX] at hd
  unfold hpsjam_output_packetizer.send
  by_cases hx : s.d_cur = s.d_max
  · rw [if_pos hx]
    have hx' : s.d_cur = d := by omega
    simp only [if_pos hx']
    refine ⟨⟨h.cur_len, clear_length _, h.off_le, h.d_max_eq, Nat.zero_le _⟩, trivial, ?_⟩
    rw [setHdr_read_hdr _ _ _ (by rw [h.mask_len]; exact hpos)]
    simp only [hpsjam_header.getRedNo, hpsjam_header.setSequence, HPSJAM_SEQ_MAX, hdm]
    omega
  · rw [if_neg hx]
    have hx' : ¬ s.d_cur = d := by omega
    simp only [if_neg hx']
    have h1 := send_control_inv MAX_UDP d ticks hM s h
    have h2 := send_ack_step_inv MAX_UDP d hM _ h1.1
    refine ⟨⟨clear_length _, ?_, by simp [hpsjam_frame.HDR_SIZE]; omega, h2.1.d_max_eq, ?_⟩,
      ?_, ?_⟩
    · apply do_xor_length _ _ _ h2.1.mask_len
      simp [hpsjam_frame.setHdr, h2.1.cur_len]
    · show (_ + 1) % 256 ≤ d
      rw [h2.2, h1.2]; omega
    · show (_ + 1) % 256 = _
      rw [h2.2, h1.2]; omega
    · dsimp only
      rw [setHdr_take_hdr _ _ _ (by rw [h2.1.cur_len]; exact hpos)]
      simp only [hpsjam_header.getRedNo, hpsjam_header.setSequence, HPSJAM_SEQ_MAX]
      omega

/-- The calls other than `send` keep the invariant and the cycle position. -/
theorem out_step_inv (MAX_UDP d : Nat) (hM : MAX_UDP < SIZE_MOD)
    (s : hpsjam_output_packetizer) (op : out_op) (hop : ∀ t, op ≠ out_op.send t)
    (h : out_inv MAX_UDP d s) :
    out_inv MAX_UDP d (out_step MAX_UDP s op).1 ∧ (out_step MAX_UDP s op).1.d_cur = s.d_cur ∧
    (out_step MAX_UDP s op).2 = none := by
  cases op with
  | append_pkt e =>
    refine ⟨append_pkt_inv MAX_UDP d hM s e h, ?_, rfl⟩
    simp only [out_step]
    unfold hpsjam_output_packetizer.append_pkt
    dsimp only
    split <;> rfl
  | append_ack =>
    refine ⟨append_ack_inv MAX_UDP d hM s h, ?_, rfl⟩
    simp only [out_step]
    unfold hpsjam_output_packetizer.append_ack
    dsimp only
    split <;> rfl
  | send_single_pkt v pkt =>
    simp only [out_step]
    unfold hpsjam_output_packetizer.send_single_pkt
    split
    · split
      · exact ⟨⟨h.cur_len, h.mask_len, h.off_le, h.d_max_eq, h.d_cur_le⟩, rfl, trivial⟩
      · exact ⟨⟨h.cur_len, h.mask_len, h.off_le, h.d_max_eq, h.d_cur_le⟩, rfl, trivial⟩
    · exact ⟨h, rfl, trivial⟩
  | note_peer seqno ack =>
    exact ⟨⟨h.cur_len, h.mask_len, h.off_le, h.d_max_eq, h.d_cur_le⟩, rfl, rfl⟩
  | advance t =>
    simp only [out_step]
    unfold hpsjam_output_packetizer.advance
    split
    · exact ⟨h, rfl, trivial⟩
    · exact ⟨⟨h.cur_len, h.mask_len, h.off_le, h.d_max_eq, h.d_cur_le⟩, rfl, trivial⟩
  | send t => exact absurd rfl (hop t)

theorem append_pending_fields (MAX_UDP : Nat) (s : hpsjam_output_packetizer)
    (e : hpsjam_packet_entry) :
    (s.append_pending MAX_UDP e).pending = s.pending ∧
    (s.append_pending MAX_UDP e).d_cur = s.d_cur ∧
    (s.append_pending MAX_UDP e).d_max = s.d_max := by
  have := append_pending_d_cur MAX_UDP s e
  exact ⟨this.2.2.1, this.1, this.2.1⟩

theorem send_ack_step_fields (MAX_UDP : Nat) (s : hpsjam_output_packetizer) :
    (s.send_ack_step MAX_UDP).pending = s.pending ∧
    (s.send_ack_step MAX_UDP).pend_count = s.pend_count := by
  unfold hpsjam_output_packetizer.send_ack_step hpsjam_output_packetizer.append_ack
  dsimp only
  split
  · split <;> simp
  · simp

/-- One `send` while an entry is pending: a mask tick leaves the counter and
emits nothing, a payload tick counts one up (the counter stays at 65535) and
emits the watchdog on reaching 1000, the timeout on reaching 2000. -/
theorem send_pending_step (MAX_UDP t : Nat) (s : hpsjam_output_packetizer)
    (hp : s.pending.isSome = true) (hc : s.pend_count ≤ 65535) :
    (s.send MAX_UDP t).state.pending.isSome = true ∧
    (s.send MAX_UDP t).state.pend_count =
      (if (s.send MAX_UDP t).xor_frame then s.pend_count else min (s.pend_count + 1) 65535) ∧
    (s.send MAX_UDP t).pendingWatchdog =
      (!(s.send MAX_UDP t).xor_frame && decide ((s.send MAX_UDP t).state.pend_count = 1000)) ∧
    (s.send MAX_UDP t).pendingTimeout =
      (!(s.send MAX_UDP t).xor_frame && decide ((s.send MAX_UDP t).state.pend_count = 2000)) := by
  obtain ⟨p, hp'⟩ := Option.isSome_iff_exists.mp hp
  unfold hpsjam_output_packetizer.send
  by_cases hx : s.d_cur = s.d_max
  · rw [if_pos hx]
    simp [hp]
  · rw [if_neg hx]
    have hctl : (s.send_control MAX_UDP t).pending.isSome = true ∧
        (s.send_control MAX_UDP t).pend_count = min (s.pend_count + 1) 65535 := by
      unfold hpsjam_output_packetizer.send_control
      rw [hp']
      dsimp only
      split
      · refine ⟨?_, ?_⟩
        · show (hpsjam_output_packetizer.append_pending _ _ _).pending.isSome = true
          rw [(append_pending_fields _ _ _).1]; rfl
        · show (s.pend_count + 1) % 65536 = _
          omega
      · split
        · refine ⟨by simp [hp'], ?_⟩
          show (s.pend_count + 1) % 65536 = _
          omega
        · refine ⟨hp, ?_⟩
          omega
    have hack := send_ack_step_fields MAX_UDP (s.send_control MAX_UDP t)
    dsimp only
    rw [hack.1, hack.2]
    refine ⟨hctl.1, ?_, ?_, ?_⟩
    · simp [hctl.2]
    · simp
    · simp only [Bool.not_false, Bool.true_and, Bool.and_eq_true, Bool.not_eq_true',
        decide_eq_false_iff_not, decide_eq_true_eq]
      by_cases h2 : (s.send_control MAX_UDP t).pend_count = 2000
      · simp [h2]
      · simp [h2]

/-- A call that is neither `send` nor `advance` leaves the pending entry and
its counter alone. -/
theorem out_step_keeps_pending (MAX_UDP : Nat) (s : hpsjam_output_packetizer) (op : out_op)
    (h1 : ∀ t, op ≠ out_op.send t) (h2 : ∀ t, op ≠ out_op.advance t) :
    (out_step MAX_UDP s op).1.pending = s.pending ∧
    (out_step MAX_UDP s op).1.pend_count = s.pend_count ∧
    (out_step MAX_UDP s op).2 = none := by
  cases op with
  | append_pkt e =>
    simp only [out_step]
    unfold hpsjam_output_packetizer.append_pkt
    dsimp only
    split <;> simp
  | append_ack =>
    simp only [out_step]
    unfold hpsjam_output_packetizer.append_ack
    dsimp only
    split <;> simp
  | send_single_pkt v pkt =>
    simp only [out_step]
    unfold hpsjam_output_packetizer.send_single_pkt
    split
    · split <;> simp
    · simp
  | note_peer seqno ack => exact ⟨rfl, rfl, rfl⟩
  | advance t => exact absurd rfl (h2 t)
  | send t => exact absurd rfl (h1 t)

theorem pend_before_cons (c : Nat) (r : send_result) (rest : List send_result) (k : Nat)
    (hk : k < rest.length) :
    pend_before c (r :: rest) (k + 1) = pend_before r.state.pend_count rest k := by
  cases k with
  | zero => simp [pend_before]
  | succ j =>
    have hj : j < rest.length := by omega
    simp [pend_before, List.getElem?_eq_getElem hj]

/-- With an entry pending and no `advance`, the counter only moves at payload
ticks, one step at a time, and each threshold is crossed by exactly one
`send`. -/
theorem run_pending (MAX_UDP : Nat) :
    ∀ (ops : List out_op) (s : hpsjam_output_packetizer),
      s.pending.isSome = true → s.pend_count ≤ 65535 → no_advance ops →
      s.pend_count ≤ (out_run MAX_UDP s ops).1.pend_count ∧
      (out_run MAX_UDP s ops).1.pend_count ≤ 65535 ∧
      (out_run MAX_UDP s ops).2.countP (·.pendingWatchdog) =
        (if s.pend_count < 1000 ∧ 1000 ≤ (out_run MAX_UDP s ops).1.pend_count then 1 else 0) ∧
      (out_run MAX_UDP s ops).2.countP (·.pendingTimeout) =
        (if s.pend_count < 2000 ∧ 2000 ≤ (out_run MAX_UDP s ops).1.pend_count then 1 else 0) ∧
      ∀ k r, (out_run MAX_UDP s ops).2[k]? = some r →
        r.state.pend_count =
          (if r.xor_frame then pend_before s.pend_count (out_run MAX_UDP s ops).2 k
           else min (pend_before s.pend_count (out_run MAX_UDP s ops).2 k + 1) 65535) ∧
        r.pendingWatchdog = (!r.xor_frame && decide (r.state.pend_count = 1000)) ∧
        r.pendingTimeout = (!r.xor_frame && decide (r.state.pend_count = 2000)) := by
  intro ops
  induction ops with
  | nil =>
    intro s _ hc _
    simp only [out_run, List.countP_nil, Nat.le_refl, true_and, hc]
    refine ⟨?_, ?_, ?_⟩
    · split <;> omega
    · split <;> omega
    · intro k r hk; simp at hk
  | cons op ops ih =>
    intro s hp hc hna
    have hna' : no_advance ops := fun o ho t => hna o (List.mem_cons_of_mem _ ho) t
    have hadv : ∀ t, op ≠ out_op.advance t := fun t => hna op (List.mem_cons_self _ _) t
    by_cases hop : ∃ t, op = out_op.send t
    · obtain ⟨t, rfl⟩ := hop
      obtain ⟨h1, h2, h3, h4⟩ := send_pending_step MAX_UDP t s hp hc
      have hc1 : (s.send MAX_UDP t).state.pend_count ≤ 65535 := by
        rw [h2]; split <;> omega
      have hge : s.pend_count ≤ (s.send MAX_UDP t).state.pend_count := by
        rw [h2]; split <;> omega
      obtain ⟨i1, i2, i3, i4, i5⟩ := ih _ h1 hc1 hna'
      simp only [out_run, out_step, Option.toList, List.singleton_append, List.countP_cons]
      refine ⟨by omega, i2, ?_, ?_, ?_⟩
      · rw [i3, h3]
        by_cases hx : (s.send MAX_UDP t).xor_frame = true
        · rw [hx] at h2 ⊢
          simp only [if_true] at h2
          simp only [Bool.not_true, Bool.false_and, h2]
          simp
        · simp only [Bool.not_eq_true] at hx
          rw [hx] at h2 ⊢
          simp only [Bool.false_eq_true, if_false] at h2
          simp only [Bool.not_false, Bool.true_and, decide_eq_true_eq]
          split <;> split <;> split <;> omega
      · rw [i4, h4]
        by_cases hx : (s.send MAX_UDP t).xor_frame = true
        · rw [hx] at h2 ⊢
          simp only [if_true] at h2
          simp only [Bool.not_true, Bool.false_and, h2]
          simp
        · simp only [Bool.not_eq_true] at hx
          rw [hx] at h2 ⊢
          simp only [Bool.false_eq_true, if_false] at h2
          simp only [Bool.not_false, Bool.true_and, decide_eq_true_eq]
          split <;> split <;> split <;> omega
      · intro k r hk
        cases k with
        | zero =>
          simp only [List.getElem?_cons_zero, Option.some.injEq] at hk
          subst hk
          exact ⟨by simpa [pend_before] using h2, h3, h4⟩
        | succ k =>
          simp only [List.getElem?_cons_succ] at hk
          have hlt : k < (out_run MAX_UDP (s.send MAX_UDP t).state ops).2.length := by
            rcases Nat.lt_or_ge k (out_run MAX_UDP (s.send MAX_UDP t).state ops).2.length
              with h | h
            · exact h
            · rw [List.getElem?_eq_none h] at hk; cases hk
          rw [pend_before_cons _ _ _ _ hlt]
          exact i5 k r hk
    · have hop' : ∀ t, op ≠ out_op.send t := fun t ht => hop ⟨t, ht⟩
      obtain ⟨h1, h2, h3⟩ := out_step_keeps_pending MAX_UDP s op hop' hadv
      have := ih (out_step MAX_UDP s op).1 (by rw [h1]; exact hp) (by rw [h2]; exact hc) hna'
      rw [h2] at this
      simpa only [out_run, h3, Option.toList, List.nil_append] using this

/-- The `send` that takes an entry from the queue puts it in flight with
`pend_count = 1` and emits no signal. -/
theorem send_puts_in_flight (MAX_UDP t : Nat) (s : hpsjam_output_packetizer)
    (hpend : s.pending = none) (hq : s.head ≠ []) (hpay : s.d_cur ≠ s.d_max) :
    (s.send MAX_UDP t).state.pending.isSome = true ∧
    (s.send MAX_UDP t).state.pend_count = 1 ∧
    (s.send MAX_UDP t).pendingWatchdog = false ∧
    (s.send MAX_UDP t).pendingTimeout = false := by
  obtain ⟨p, rest, hh⟩ := List.exists_cons_of_ne_nil hq
  have hctl : (s.send_control MAX_UDP t).pending.isSome = true ∧
      (s.send_control MAX_UDP t).pend_count = 1 := by
    unfold hpsjam_output_packetizer.send_control
    rw [hpend, hh]
    dsimp only
    refine ⟨?_, rfl⟩
    show (hpsjam_output_packetizer.append_pending _ _ _).pending.isSome = true
    rw [(append_pending_fields _ _ _).1]; rfl
  have hack := send_ack_step_fields MAX_UDP (s.send_control MAX_UDP t)
  unfold hpsjam_output_packetizer.send
  rw [if_neg hpay]
  dsimp only
  rw [hack.1, hack.2, hctl.2]
  exact ⟨hctl.1, rfl, by decide, by decide⟩

/-- C6: when `send()` puts a reliable control packet in flight and `advance()`
is not called afterwards, then over the following `send()` calls
`pend_count` moves only at payload ticks, one step at a time from 1 (staying
at 65535), `pendingWatchdog` is emitted exactly by the call that brings
`pend_count` to 1000 and `pendingTimeout` exactly by the call that brings it
to 2000: each once as soon as the counter has got that far, never before and
never again. -/
theorem watchdog_timeout_once (MAX_UDP t0 : Nat) (s0 : hpsjam_output_packetizer)
    (ops : List out_op) (hpend : s0.pending = none) (hq : s0.head ≠ [])
    (hpay : s0.d_cur ≠ s0.d_max) (hna : no_advance ops) :
    (s0.send MAX_UDP t0).state.pending.isSome = true ∧
    (s0.send MAX_UDP t0).state.pend_count = 1 ∧
    (s0.send MAX_UDP t0).pendingWatchdog = false ∧
    (s0.send MAX_UDP t0).pendingTimeout = false ∧
    (out_run MAX_UDP (s0.send MAX_UDP t0).state ops).2.countP (·.pendingWatchdog) =
      (if 1000 ≤ (out_run MAX_UDP (s0.send MAX_UDP t0).state ops).1.pend_count then 1 else 0) ∧
    (out_run MAX_UDP (s0.send MAX_UDP t0).state ops).2.countP (·.pendingTimeout) =
      (if 2000 ≤ (out_run MAX_UDP (s0.send MAX_UDP t0).state ops).1.pend_count then 1 else 0) ∧
    ∀ k r, (out_run MAX_UDP (s0.send MAX_UDP t0).state ops).2[k]? = some r →
      r.state.pend_count =
        (if r.xor_frame then
           pend_before 1 (out_run MAX_UDP (s0.send MAX_UDP t0).state ops).2 k
         else
           min (pend_before 1 (out_run MAX_UDP (s0.send MAX_UDP t0).state ops).2 k + 1) 65535) ∧
      r.pendingWatchdog = (!r.xor_frame && decide (r.state.pend_count = 1000)) ∧
      r.pendingTimeout = (!r.xor_frame && decide (r.state.pend_count = 2000)) := by
  obtain ⟨h1, h2, h3, h4⟩ := send_puts_in_flight MAX_UDP t0 s0 hpend hq hpay
  obtain ⟨_, _, i3, i4, i5⟩ :=
    run_pending MAX_UDP ops (s0.send MAX_UDP t0).state h1 (by rw [h2]; decide) hna
  rw [h2] at i3 i4 i5
  refine ⟨h1, h2, h3, h4, ?_, ?_, i5⟩
  · rw [i3]; simp
  · rw [i4]; simp

section

open hpsjam_audio_buffer

theorem max_samples_eq : HPSJAM_MAX_SAMPLES = 1536 := by decide
theorem def_samples_eq : HPSJAM_DEF_SAMPLES = 48 := rfl
theorem seq_max_eq : HPSJAM_SEQ_MAX = 16 := rfl

theorem size_sub_of_le (a b : Nat) (ha : a < SIZE_MOD) (hb : b ≤ a) : size_sub a b = a - b := by
  simp only [size_sub, SIZE_MOD] at *
  omega

/-- The copy loop of `remSamples` under the buffer invariant: it ends, has
removed `num` samples and moved the consumer index round the ring. -/
theorem rem_loop_spec (s : hpsjam_audio_buffer) (num fuel : Nat) (dst : List ℚ)
    (hc : s.consumer < HPSJAM_MAX_SAMPLES) (hn : num ≤ s.total)
    (ht : s.total ≤ HPSJAM_MAX_SAMPLES) :
    (rem_loop (fuel + 2) s num (size_sub HPSJAM_MAX_SAMPLES s.consumer) dst).map (·.1) =
      some { s with consumer := (s.consumer + num) % HPSJAM_MAX_SAMPLES,
                    total := s.total - num } := by
  rw [max_samples_eq] at *
  have hfwd : size_sub 1536 s.consumer = 1536 - s.consumer :=
    size_sub_of_le _ _ (by simp [SIZE_MOD]) (by omega)
  rw [hfwd]
  by_cases h0 : num = 0
  · subst h0
    simp only [rem_loop, if_true, Nat.add_zero, Nat.sub_zero, Option.map_some']
    rw [Nat.mod_eq_of_lt hc]
  · by_cases h1 : 1536 - s.consumer > num
    · rw [rem_loop, if_neg h0]
      simp only [if_pos h1, max_samples_eq]
      rw [if_neg (by omega), if_pos (by omega)]
      rw [size_sub_of_le _ _ (by simp [SIZE_MOD]; omega) hn, Nat.mod_eq_of_lt (by omega)]
      rfl
    · rw [rem_loop, if_neg h0]
      simp only [if_neg h1, max_samples_eq]
      rw [if_pos (by omega)]
      rw [size_sub_of_le _ _ (by simp [SIZE_MOD]; omega) (by omega)]
      by_cases h2 : num - (1536 - s.consumer) = 0
      · rw [rem_loop, if_pos h2]
        have e1 : (s.consumer + num) % 1536 = 0 := by omega
        have e2 : s.total - (1536 - s.consumer) = s.total - num := by omega
        rw [e1, e2]
        rfl
      · have h3 : 1536 > num - (1536 - s.consumer) := by omega
        rw [rem_loop, if_neg h2]
        simp only [max_samples_eq, if_pos h3, Nat.zero_add]
        rw [if_neg (by omega), if_pos (by omega)]
        rw [size_sub_of_le _ _ (by simp [SIZE_MOD]; omega) (by omega)]
        have e1 : (s.consumer + num) % 1536 = num - (1536 - s.consumer) := by omega
        have e2 : s.total - (1536 - s.consumer) - (num - (1536 - s.consumer)) =
            s.total - num := by omega
        simp only [e1, e2, Option.map_some']

theorem read_samples_length (src : List ℚ) (len : Nat) : (read_samples src len).length = len := by
  simp [read_samples]

theorem copy_samples_length (dst src : List ℚ) (pos len : Nat) (h : pos + len ≤ dst.length) :
    (copy_samples dst pos src len).length = dst.length := by
  simp [copy_samples, read_samples_length]
  omega

theorem fade_chunk_ctl (src : List ℚ) (producer : Nat) :
    ∀ (l : List Nat) (s : hpsjam_audio_buffer),
      same_ctl s (l.foldl
        (fun st x =>
          { st with
            last_sample := decay_once st.last_sample
            samples := st.samples.set (producer + x)
              (src.getD x 0 - ((st.fade_in : ℚ) / (fadeSamples : ℚ)) * src.getD x 0 +
                decay_once st.last_sample * ((st.fade_in : ℚ) / (fadeSamples : ℚ)))
            fade_in := st.fade_in - (if st.fade_in ≠ 0 then 1 else 0) }) s) ∧
      (l.foldl
        (fun st x =>
          { st with
            last_sample := decay_once st.last_sample
            samples := st.samples.set (producer + x)
              (src.getD x 0 - ((st.fade_in : ℚ) / (fadeSamples : ℚ)) * src.getD x 0 +
                decay_once st.last_sample * ((st.fade_in : ℚ) / (fadeSamples : ℚ)))
            fade_in := st.fade_in - (if st.fade_in ≠ 0 then 1 else 0) }) s).total = s.total := by
  intro l
  induction l with
  | nil => intro s; exact ⟨⟨rfl, rfl, rfl, rfl⟩, rfl⟩
  | cons x xs ih =>
    intro s
    rw [List.foldl_cons]
    obtain ⟨⟨h1, h2, h3, h4⟩, h5⟩ := ih
      { s with
        last_sample := decay_once s.last_sample
        samples := s.samples.set (producer + x)
          (src.getD x 0 - ((s.fade_in : ℚ) / (fadeSamples : ℚ)) * src.getD x 0 +
            decay_once s.last_sample * ((s.fade_in : ℚ) / (fadeSamples : ℚ)))
        fade_in := s.fade_in - (if s.fade_in ≠ 0 then 1 else 0) }
    refine ⟨⟨h1, h2, h3, ?_⟩, h5⟩
    rw [h4]
    simp

/-- The chunk written by `addSamples` adds `fwd` to `total` and leaves the
consumer index, the histogram, the limit and the array size alone. -/
theorem add_chunk_ctl (s : hpsjam_audio_buffer) (src : List ℚ) (producer fwd : Nat)
    (h : producer + fwd ≤ s.samples.length) :
    same_ctl s (s.add_chunk src producer fwd) ∧
    (s.add_chunk src producer fwd).total = s.total + fwd := by
  unfold add_chunk
  dsimp only
  split
  · have := fade_chunk_ctl src producer (List.range fwd) s
    unfold fade_chunk
    exact ⟨⟨this.1.1, this.1.2.1, this.1.2.2.1, this.1.2.2.2⟩, by rw [this.2]⟩
  · exact ⟨⟨rfl, rfl, rfl, copy_samples_length _ _ _ _ h⟩, rfl⟩

theorem silence_chunk_ctl (s : hpsjam_audio_buffer) (producer fwd : Nat)
    (h : producer + fwd ≤ s.samples.length) :
    same_ctl s (s.silence_chunk producer fwd) ∧
    (s.silence_chunk producer fwd).total = s.total + fwd := by
  unfold silence_chunk
  exact ⟨⟨rfl, rfl, rfl, copy_samples_length _ _ _ _ h⟩, rfl⟩

theorem same_ctl_trans {a b c : hpsjam_audio_buffer} (h1 : same_ctl a b) (h2 : same_ctl b c) :
    same_ctl a c :=
  ⟨h2.1.trans h1.1, h2.2.1.trans h1.2.1, h2.2.2.1.trans h1.2.2.1, h2.2.2.2.trans h1.2.2.2⟩

theorem same_ctl_refl (a : hpsjam_audio_buffer) : same_ctl a a := ⟨rfl, rfl, rfl, rfl⟩

/-- The store loop of `addSamples` under the buffer invariant, for a count
already clamped to the free space: it ends and has added `num` samples. -/
theorem add_loop_spec (s : hpsjam_audio_buffer) (src : List ℚ) (num fuel : Nat)
    (hl : s.samples.length = HPSJAM_MAX_SAMPLES) (hn : s.total + num ≤ HPSJAM_MAX_SAMPLES) :
    ∃ s', add_loop (fuel + 2) s src num
        (size_sub HPSJAM_MAX_SAMPLES ((s.consumer + s.total) % HPSJAM_MAX_SAMPLES))
        ((s.consumer + s.total) % HPSJAM_MAX_SAMPLES) = some s' ∧
      same_ctl s s' ∧ s'.total = s.total + num := by
  rw [max_samples_eq] at *
  have hP : (s.consumer + s.total) % 1536 < 1536 := Nat.mod_lt _ (by decide)
  generalize (s.consumer + s.total) % 1536 = P at hP
  have hfwd : size_sub 1536 P = 1536 - P :=
    size_sub_of_le _ _ (by simp [SIZE_MOD]) (by omega)
  rw [hfwd]
  by_cases h0 : num = 0
  · subst h0
    exact ⟨s, by simp [add_loop], same_ctl_refl s, rfl⟩
  · by_cases h1 : 1536 - P > num
    · have hc := add_chunk_ctl s src P num (by omega)
      refine ⟨s.add_chunk src P num, ?_, hc.1, hc.2⟩
      rw [add_loop, if_neg h0]
      simp only [if_pos h1, max_samples_eq, ne_eq, h0, not_false_eq_true, if_true]
      rw [if_neg (by omega), if_pos (by omega)]
    · have hc := add_chunk_ctl s src P (1536 - P) (by omega)
      have hf0 : ¬ (1536 - P = 0) := by omega
      by_cases h2 : num - (1536 - P) = 0
      · refine ⟨s.add_chunk src P (1536 - P), ?_, hc.1, by rw [hc.2]; omega⟩
        rw [add_loop, if_neg h0]
        simp only [if_neg h1, max_samples_eq, ne_eq, hf0, not_false_eq_true, if_true]
        rw [if_pos (by omega), add_loop, if_pos h2]
      · have h3 : 1536 > num - (1536 - P) := by omega
        have hc2 := add_chunk_ctl (s.add_chunk src P (1536 - P)) (src.drop (1536 - P)) 0
          (num - (1536 - P)) (by rw [hc.1.2.2.2]; omega)
        refine ⟨(s.add_chunk src P (1536 - P)).add_chunk (src.drop (1536 - P)) 0
          (num - (1536 - P)), ?_, same_ctl_trans hc.1 hc2.1, by rw [hc2.2, hc.2]; omega⟩
        rw [add_loop, if_neg h0]
        simp only [if_neg h1, max_samples_eq, ne_eq, hf0, not_false_eq_true, if_true]
        rw [if_pos (by omega), add_loop, if_neg h2]
        simp only [if_pos h3, max_samples_eq, ne_eq, h2, not_false_eq_true, if_true,
          Nat.zero_add]
        rw [if_neg (by omega), if_pos (by omega)]

/-- The store loop of `addSilence` under the buffer invariant, for a count
already clamped to the free space: it ends and has added `num` samples. -/
theorem silence_loop_spec (s : hpsjam_audio_buffer) (num fuel : Nat)
    (hl : s.samples.length = HPSJAM_MAX_SAMPLES) (hn : s.total + num ≤ HPSJAM_MAX_SAMPLES) :
    ∃ s', silence_loop (fuel + 2) s num
        (size_sub HPSJAM_MAX_SAMPLES ((s.consumer + s.total) % HPSJAM_MAX_SAMPLES))
        ((s.consumer + s.total) % HPSJAM_MAX_SAMPLES) = some s' ∧
      same_ctl s s' ∧ s'.total = s.total + num := by
  rw [max_samples_eq] at *
  have hP : (s.consumer + s.total) % 1536 < 1536 := Nat.mod_lt _ (by decide)
  generalize (s.consumer + s.total) % 1536 = P at hP
  have hfwd : size_sub 1536 P = 1536 - P :=
    size_sub_of_le _ _ (by simp [SIZE_MOD]) (by omega)
  rw [hfwd]
  by_cases h0 : num = 0
  · subst h0
    exact ⟨s, by simp [silence_loop], same_ctl_refl s, rfl⟩
  · by_cases h1 : 1536 - P > num
    · have hc := silence_chunk_ctl s P num (by omega)
      refine ⟨s.silence_chunk P num, ?_, hc.1, hc.2⟩
      rw [silence_loop, if_neg h0]
      simp only [if_pos h1, max_samples_eq, ne_eq, h0, not_false_eq_true, if_true]
      rw [if_neg (by omega), if_pos (by omega)]
    · have hc := silence_chunk_ctl s P (1536 - P) (by omega)
      have hf0 : ¬ (1536 - P = 0) := by omega
      by_cases h2 : num - (1536 - P) = 0
      · refine ⟨s.silence_chunk P (1536 - P), ?_, hc.1, by rw [hc.2]; omega⟩
        rw [silence_loop, if_neg h0]
        simp only [if_neg h1, max_samples_eq, ne_eq, hf0, not_false_eq_true, if_true]
        rw [if_pos (by omega), silence_loop, if_pos h2]
      · have h3 : 1536 > num - (1536 - P) := by omega
        have hc2 := silence_chunk_ctl (s.silence_chunk P (1536 - P)) 0
          (num - (1536 - P)) (by rw [hc.1.2.2.2]; omega)
        refine ⟨(s.silence_chunk P (1536 - P)).silence_chunk 0
          (num - (1536 - P)), ?_, same_ctl_trans hc.1 hc2.1, by rw [hc2.2, hc.2]; omega⟩
        rw [silence_loop, if_neg h0]
        simp only [if_neg h1, max_samples_eq, ne_eq, hf0, not_false_eq_true, if_true]
        rw [if_pos (by omega), silence_loop, if_neg h2]
        simp only [if_pos h3, max_samples_eq, ne_eq, h2, not_false_eq_true, if_true,
          Nat.zero_add]
        rw [if_neg (by omega), if_pos (by omega)]

/-! ## Effect of each buffer operation on the control fields -/

theorem shrink_fold_ctl :
    ∀ (l : List Nat) (s : hpsjam_audio_buffer), s.consumer < HPSJAM_MAX_SAMPLES →
      (l.foldl shrink_step s).total = s.total - l.length ∧
      (l.foldl shrink_step s).consumer = (s.consumer + l.length) % HPSJAM_MAX_SAMPLES ∧
      (l.foldl shrink_step s).stats = s.stats ∧
      (l.foldl shrink_step s).limit = s.limit ∧
      (l.foldl shrink_step s).samples.length = s.samples.length := by
  intro l
  induction l with
  | nil =>
    intro s hc
    simp [Nat.mod_eq_of_lt hc]
  | cons x xs ih =>
    intro s hc
    rw [max_samples_eq] at hc
    have hc' : (shrink_step s x).consumer < HPSJAM_MAX_SAMPLES := by
      simp only [shrink_step, max_samples_eq]
      split <;> omega
    obtain ⟨h1, h2, h3, h4, h5⟩ := ih (shrink_step s x) hc'
    rw [List.foldl_cons, h1, h2, h3, h4, h5]
    refine ⟨?_, ?_, rfl, rfl, ?_⟩
    · simp only [shrink_step, List.length_cons]; omega
    · simp only [shrink_step, List.length_cons, max_samples_eq]
      split <;> omega
    · simp [shrink_step]

theorem shift_fold_all (P : ℚ → Prop) (h0 : P 0) :
    ∀ (l : List Nat) (st : List ℚ), (∀ x ∈ st, P x) →
      (∀ x ∈ l.foldl (fun st x => st.set x (st.getD (x + 1) 0)) st, P x) ∧
      (l.foldl (fun st x => st.set x (st.getD (x + 1) 0)) st).length = st.length := by
  intro l
  induction l with
  | nil => intro st h; exact ⟨h, rfl⟩
  | cons a as ih =>
    intro st h
    rw [List.foldl_cons]
    have h' : ∀ x ∈ st.set a (st.getD (a + 1) 0), P x := by
      intro x hx
      rcases List.mem_or_eq_of_mem_set hx with hx | hx
      · exact h x hx
      · rw [hx, List.getD_eq_getElem?_getD]
        cases hg : st[a + 1]? with
        | none => exact h0
        | some v => exact h v (List.getElem?_mem hg)
    obtain ⟨i1, i2⟩ := ih _ h'
    exact ⟨i1, by rw [i2]; simp⟩

theorem shift_stats_all (st : List ℚ) (h : ∀ x ∈ st, 0 ≤ x ∧ x < 256) :
    (∀ x ∈ shift_stats st, 0 ≤ x ∧ x < 256) ∧ (shift_stats st).length = st.length := by
  have h0 : (0 : ℚ) ≤ 0 ∧ (0 : ℚ) < 256 := by norm_num
  obtain ⟨i1, i2⟩ := shift_fold_all (fun x => 0 ≤ x ∧ x < 256) h0
    (List.range (HPSJAM_SEQ_MAX * 2 - 1)) st h
  unfold shift_stats
  refine ⟨?_, by rw [List.length_set, i2]⟩
  intro x hx
  rcases List.mem_or_eq_of_mem_set hx with hx | hx
  · exact i1 x hx
  · rw [hx]; exact h0

/-- The method `shrink` keeps the invariant and removes one block when there
is one. -/
theorem shrink_spec (s : hpsjam_audio_buffer) (h : buf_inv s) :
    buf_inv s.shrink ∧
    s.shrink.total = (if s.total < HPSJAM_DEF_SAMPLES then s.total
      else s.total - HPSJAM_DEF_SAMPLES) ∧
    s.shrink.limit = s.limit := by
  obtain ⟨ht, hc, hs, hl, hsl⟩ := h
  unfold shrink
  split
  · exact ⟨⟨ht, hc, hs, hl, hsl⟩, rfl, rfl⟩
  · obtain ⟨h1, h2, h3, h4, h5⟩ := shrink_fold_ctl (List.range HPSJAM_DEF_SAMPLES) s hc
    obtain ⟨j1, j2⟩ := shift_stats_all s.stats hs
    simp only [List.length_range] at h1 h2
    generalize List.foldl shrink_step s (List.range HPSJAM_DEF_SAMPLES) = s1 at h1 h2 h3 h4 h5
    dsimp only
    rw [h1, h2, h3, h4]
    have hpos : 0 < HPSJAM_MAX_SAMPLES := by rw [max_samples_eq]; decide
    unfold buf_inv
    dsimp only
    refine ⟨⟨?_, ?_, ?_, ?_, ?_⟩, rfl, rfl⟩
    · exact Nat.le_trans (Nat.sub_le _ _) ht
    · exact Nat.mod_lt _ hpos
    · exact j1
    · exact h5.trans hl
    · exact j2.trans hsl

theorem getD_all (P : ℚ → Prop) (h0 : P 0) (l : List ℚ) (h : ∀ x ∈ l, P x) (i : Nat) :
    P (l.getD i 0) := by
  rw [List.getD_eq_getElem?_getD]
  cases hg : l[i]? with
  | none => exact h0
  | some v => exact h v (List.getElem?_mem hg)

/-- Counting one bucket up, with the halving at 256, keeps every bucket in
`[0, 256)`. -/
theorem bump_stats_all (st : List ℚ) (index : Nat) (hi : index < st.length)
    (h : ∀ x ∈ st, 0 ≤ x ∧ x < 256) :
    (if (st.set index (st.getD index 0 + 1)).getD index 0 ≥ 256 then
        ∀ x ∈ (st.set index (st.getD index 0 + 1)).map (· / 2), 0 ≤ x ∧ x < 256
      else ∀ x ∈ st.set index (st.getD index 0 + 1), 0 ≤ x ∧ x < 256) := by
  have hv := getD_all (fun x => 0 ≤ x ∧ x < 256) (by norm_num) st h index
  have hget : (st.set index (st.getD index 0 + 1)).getD index 0 = st.getD index 0 + 1 := by
    rw [List.getD_eq_getElem?_getD, List.getElem?_set_self hi]; rfl
  have hall : ∀ x ∈ st.set index (st.getD index 0 + 1), 0 ≤ x ∧ x < 257 := by
    intro x hx
    rcases List.mem_or_eq_of_mem_set hx with hx | hx
    · have := h x hx
      exact ⟨this.1, by linarith [this.2]⟩
    · rw [hx]; exact ⟨by linarith [hv.1], by linarith [hv.2]⟩
  split
  · intro x hx
    obtain ⟨y, hy, rfl⟩ := List.mem_map.mp hx
    have := hall y hy
    exact ⟨by linarith [this.1], by linarith [this.2]⟩
  · next hlt =>
    rw [hget] at hlt
    intro x hx
    rcases List.mem_or_eq_of_mem_set hx with hx | hx
    · exact h x hx
    · rw [hx]; exact ⟨by linarith [hv.1], by linarith [not_le.mp hlt]⟩

/-- The bucket index computed by `remSamples` lies inside the histogram. -/
theorem rem_index_lt (t n : Nat) :
    (if (size_sub t n / HPSJAM_DEF_SAMPLES) % 256 > HPSJAM_SEQ_MAX * 2 - 1
      then HPSJAM_SEQ_MAX * 2 - 1
      else (size_sub t n / HPSJAM_DEF_SAMPLES) % 256) < HPSJAM_SEQ_MAX * 2 := by
  simp only [seq_max_eq]
  split <;> omega

/-- The accounting part of `remSamples` keeps the invariant, the depth and the
consumer index; it clamps `num` and asks for a shrink only when a whole block
stays beyond `num`. -/
theorem rem_account_spec (s : hpsjam_audio_buffer) (num : Nat) (h : buf_inv s) :
    buf_inv (s.rem_account num).1 ∧
    (s.rem_account num).1.total = s.total ∧
    (s.rem_account num).1.consumer = s.consumer ∧
    (s.rem_account num).1.limit = s.limit ∧
    (s.rem_account num).2.1 = min num s.total ∧
    ((s.rem_account num).2.2 = true → min num s.total + HPSJAM_DEF_SAMPLES ≤ s.total) := by
  obtain ⟨ht, hc, hs, hl, hsl⟩ := h
  unfold rem_account
  dsimp only
  by_cases hu : num > s.total
  · simp only [hu, decide_True, if_true]
    have hi := rem_index_lt s.total s.total
    generalize (if (size_sub s.total s.total / HPSJAM_DEF_SAMPLES) % 256 > HPSJAM_SEQ_MAX * 2 - 1
      then HPSJAM_SEQ_MAX * 2 - 1
      else (size_sub s.total s.total / HPSJAM_DEF_SAMPLES) % 256) = index at hi ⊢
    have hb := bump_stats_all s.stats index (by rw [hsl]; exact hi) hs
    have hmin : min num s.total = s.total := by omega
    split
    · next hge =>
      rw [if_pos hge] at hb
      unfold buf_inv
      dsimp only
      refine ⟨⟨ht, hc, hb, hl, by simp [hsl]⟩, rfl, rfl, rfl, hmin.symm, ?_⟩
      intro hsh
      simp only [Bool.and_eq_true, decide_eq_true_eq] at hsh
      rw [hmin]; exact hsh.1
    · next hge =>
      rw [if_neg hge] at hb
      unfold buf_inv
      dsimp only
      refine ⟨⟨ht, hc, hb, hl, by simp [hsl]⟩, rfl, rfl, rfl, hmin.symm, ?_⟩
      intro hsh
      cases hsh
  · simp only [hu, decide_False, if_false, Bool.false_eq_true]
    have hi := rem_index_lt s.total num
    generalize (if (size_sub s.total num / HPSJAM_DEF_SAMPLES) % 256 > HPSJAM_SEQ_MAX * 2 - 1
      then HPSJAM_SEQ_MAX * 2 - 1
      else (size_sub s.total num / HPSJAM_DEF_SAMPLES) % 256) = index at hi ⊢
    have hb := bump_stats_all s.stats index (by rw [hsl]; exact hi) hs
    have hmin : min num s.total = num := by omega
    split
    · next hge =>
      rw [if_pos hge] at hb
      unfold buf_inv
      dsimp only
      refine ⟨⟨ht, hc, hb, hl, by simp [hsl]⟩, rfl, rfl, rfl, hmin.symm, ?_⟩
      intro hsh
      simp only [Bool.and_eq_true, decide_eq_true_eq] at hsh
      rw [hmin]; exact hsh.1
    · next hge =>
      rw [if_neg hge] at hb
      unfold buf_inv
      dsimp only
      refine ⟨⟨ht, hc, hb, hl, by simp [hsl]⟩, rfl, rfl, rfl, hmin.symm, ?_⟩
      intro hsh
      cases hsh

theorem topup_iter_ctl (n : Nat) :
    ∀ s : hpsjam_audio_buffer,
      same_ctl s (topup_step^[n] s) ∧ (topup_step^[n] s).total = s.total + n := by
  induction n with
  | zero => intro s; exact ⟨same_ctl_refl s, rfl⟩
  | succ n ih =>
    intro s
    rw [Function.iterate_succ_apply]
    obtain ⟨h1, h2⟩ := ih (topup_step s)
    have h0 : same_ctl s (topup_step s) := ⟨rfl, rfl, rfl, by simp [topup_step]⟩
    refine ⟨same_ctl_trans h0 h1, ?_⟩
    rw [h2]
    simp only [topup_step]
    omega

/-- The refill after an underrun brings the depth up to `DEF_SAMPLES`. -/
theorem topup_spec (s : hpsjam_audio_buffer) :
    same_ctl s s.topup ∧ s.topup.total = max s.total HPSJAM_DEF_SAMPLES := by
  obtain ⟨h1, h2⟩ := topup_iter_ctl (HPSJAM_DEF_SAMPLES - s.total) s
  unfold topup
  exact ⟨h1, by rw [h2]; omega⟩

theorem buf_inv_of_same_ctl {s s' : hpsjam_audio_buffer} (h : buf_inv s) (hc : same_ctl s s')
    (ht : s'.total ≤ HPSJAM_MAX_SAMPLES) : buf_inv s' := by
  obtain ⟨_, h2, h3, h4, h5⟩ := h
  obtain ⟨c1, c2, _, c4⟩ := hc
  exact ⟨ht, by rw [c1]; exact h2, by rw [c2]; exact h3, by rw [c4]; exact h4,
    by rw [c2]; exact h5⟩

/-- The method `remSamples` under the invariant: it returns, keeps the
invariant, and leaves `DEF_SAMPLES` samples after an underrun, otherwise the
old depth less `num` and less one block when it shrinks. -/
theorem remSamples_spec (s : hpsjam_audio_buffer) (num : Nat) (h : buf_inv s) :
    ∃ s' dst, s.remSamples num = some (s', dst) ∧ buf_inv s' ∧ s'.limit = s.limit ∧
      s'.total = (if num > s.total then HPSJAM_DEF_SAMPLES
        else s.total - num -
          (if (s.rem_account num).2.2 then HPSJAM_DEF_SAMPLES else 0)) := by
  obtain ⟨a1, a2, a3, a4, a5, a6⟩ := rem_account_spec s num h
  have hsh := shrink_spec (s.rem_account num).1 a1
  -- the state that enters the copy loop
  have h3 : ∃ s3, (if (s.rem_account num).2.2 then (s.rem_account num).1.shrink
        else (s.rem_account num).1) = s3 ∧ buf_inv s3 ∧ s3.limit = s.limit ∧
      s3.total = s.total - (if (s.rem_account num).2.2 then HPSJAM_DEF_SAMPLES else 0) ∧
      (if (s.rem_account num).2.2 then size_sub HPSJAM_MAX_SAMPLES s3.consumer
        else size_sub HPSJAM_MAX_SAMPLES s.consumer) =
        size_sub HPSJAM_MAX_SAMPLES s3.consumer ∧
      (s.rem_account num).2.1 ≤ s3.total := by
    by_cases hb : (s.rem_account num).2.2 = true
    · have h48 := a6 hb
      refine ⟨_, rfl, ?_⟩
      simp only [hb, if_true]
      refine ⟨hsh.1, by rw [hsh.2.2, a4], ?_, trivial, ?_⟩
      · rw [hsh.2.1, a2, if_neg (by omega)]
      · rw [hsh.2.1, a2, if_neg (by omega), a5]; omega
    · refine ⟨_, rfl, ?_⟩
      simp only [hb, if_false, Bool.false_eq_true]
      refine ⟨a1, a4, by rw [a2]; rfl, by rw [a3], ?_⟩
      rw [a2, a5]; omega
  obtain ⟨s3, e3, i3, l3, t3, f3, n3⟩ := h3
  have hloop := rem_loop_spec s3 (s.rem_account num).2.1 (s.rem_account num).2.1 []
    i3.2.1 n3 i3.1
  unfold remSamples
  dsimp only
  rw [e3, f3]
  cases hr : rem_loop ((s.rem_account num).2.1 + 2) s3 (s.rem_account num).2.1
      (size_sub HPSJAM_MAX_SAMPLES s3.consumer) [] with
  | none => rw [hr] at hloop; cases hloop
  | some r =>
    obtain ⟨s4, out⟩ := r
    rw [hr] at hloop
    simp only [Option.map_some', Option.some.injEq] at hloop
    have hpos : 0 < HPSJAM_MAX_SAMPLES := by rw [max_samples_eq]; decide
    have i4 : buf_inv s4 := by
      rw [hloop]
      exact ⟨Nat.le_trans (Nat.sub_le _ _) i3.1, Nat.mod_lt _ hpos, i3.2.2.1, i3.2.2.2.1,
        i3.2.2.2.2⟩
    have t4 : s4.total = s3.total - (s.rem_account num).2.1 := by rw [hloop]
    have l4 : s4.limit = s.limit := by rw [hloop]; exact l3
    by_cases hu : num > s.total
    · have hns : (s.rem_account num).2.2 = false := by
        cases hb : (s.rem_account num).2.2 with
        | false => rfl
        | true => have := a6 hb; rw [def_samples_eq] at this; omega
      simp only [hu, decide_True, if_true]
      obtain ⟨c1, c2⟩ := topup_spec s4
      refine ⟨_, _, rfl, buf_inv_of_same_ctl i4 c1 ?_, by rw [c1.2.2.1, l4], ?_⟩
      · rw [c2, t4, max_samples_eq, def_samples_eq]
        have := i3.1
        rw [max_samples_eq] at this
        omega
      · rw [c2, t4, t3, a5, def_samples_eq]
        omega
    · simp only [hu, decide_False, if_false, Bool.false_eq_true]
      refine ⟨_, _, rfl, i4, l4, ?_⟩
      rw [t4, t3, a5]
      omega

theorem clamp_free (s : hpsjam_audio_buffer) (num : Nat) (ht : s.total ≤ HPSJAM_MAX_SAMPLES) :
    (if num > size_sub HPSJAM_MAX_SAMPLES s.total then size_sub HPSJAM_MAX_SAMPLES s.total
      else num) = min num (HPSJAM_MAX_SAMPLES - s.total) := by
  rw [max_samples_eq] at *
  rw [size_sub_of_le _ _ (by simp [SIZE_MOD]) ht]
  split <;> omega

/-- The method `addSamples` under the invariant: it returns, keeps the
invariant and adds the samples that fit the free space. -/
theorem addSamples_spec (s : hpsjam_audio_buffer) (src : List ℚ) (num : Nat) (h : buf_inv s) :
    ∃ s', s.addSamples src num = some s' ∧ buf_inv s' ∧ s'.limit = s.limit ∧
      s'.total = s.total + min num (HPSJAM_MAX_SAMPLES - s.total) := by
  have hfit : s.total + min num (HPSJAM_MAX_SAMPLES - s.total) ≤ HPSJAM_MAX_SAMPLES := by
    have := h.1
    omega
  obtain ⟨s', e, c, t⟩ := add_loop_spec s src (min num (HPSJAM_MAX_SAMPLES - s.total))
    (min num (HPSJAM_MAX_SAMPLES - s.total)) h.2.2.2.1 hfit
  refine ⟨s', ?_, buf_inv_of_same_ctl h c (by rw [t]; exact hfit), c.2.2.1, t⟩
  unfold addSamples
  dsimp only
  rw [clamp_free s num h.1]
  exact e

/-- The method `addSilence` under the invariant: it returns, keeps the
invariant and adds the samples that fit the free space. -/
theorem addSilence_spec (s : hpsjam_audio_buffer) (num : Nat) (h : buf_inv s) :
    ∃ s', s.addSilence num = some s' ∧ buf_inv s' ∧ s'.limit = s.limit ∧
      s'.total = s.total + min num (HPSJAM_MAX_SAMPLES - s.total) := by
  have hfit : s.total + min num (HPSJAM_MAX_SAMPLES - s.total) ≤ HPSJAM_MAX_SAMPLES := by
    have := h.1
    omega
  obtain ⟨s', e, c, t⟩ := silence_loop_spec s (min num (HPSJAM_MAX_SAMPLES - s.total))
    (min num (HPSJAM_MAX_SAMPLES - s.total)) h.2.2.2.1 hfit
  refine ⟨s', ?_, buf_inv_of_same_ctl h c (by rw [t]; exact hfit), c.2.2.1, t⟩
  unfold addSilence
  dsimp only
  rw [clamp_free s num h.1]
  exact e

/-- The method `grow` under the invariant: it returns, keeps the invariant
and adds one sample when the buffer holds at least two and is not full. -/
theorem grow_spec (s : hpsjam_audio_buffer) (h : buf_inv s) :
    ∃ s', s.grow = some s' ∧ buf_inv s' ∧ s'.limit = s.limit ∧
      s'.total = s.total +
        (if 1 < s.total ∧ s.total < HPSJAM_MAX_SAMPLES then 1 else 0) := by
  unfold grow
  dsimp only
  by_cases h1 : s.total > 1
  · rw [if_pos h1]
    generalize (s.consumer + s.total + HPSJAM_MAX_SAMPLES - 1) % HPSJAM_MAX_SAMPLES = P
    generalize (s.samples.getD P 0 +
      s.samples.getD ((s.consumer + s.total + HPSJAM_MAX_SAMPLES - 2) % HPSJAM_MAX_SAMPLES) 0) /
        2 = V
    have hi : buf_inv { s with samples := s.samples.set P V } :=
      ⟨h.1, h.2.1, h.2.2.1, by rw [List.length_set]; exact h.2.2.2.1, h.2.2.2.2⟩
    obtain ⟨s', e, i, l, t⟩ := addSamples_spec _ [s.samples.getD P 0] 1 hi
    refine ⟨s', e, i, l, ?_⟩
    have ht := h.1
    have t' : s'.total = s.total + min 1 (HPSJAM_MAX_SAMPLES - s.total) := t
    rw [t']
    split <;> omega
  · rw [if_neg h1]
    refine ⟨s, rfl, h, rfl, ?_⟩
    rw [if_neg (by omega)]
    rfl

theorem clear_inv : buf_inv clear := by
  refine ⟨by decide, by decide, ?_, by simp [clear], by simp [clear]⟩
  intro x hx
  simp only [clear] at hx
  rw [List.eq_of_mem_replicate hx]
  norm_num

/-- C3: the predicate "`total <= HPSJAM_MAX_SAMPLES`, `consumer <
HPSJAM_MAX_SAMPLES` and every `stats[i]` in `[0, 256)`" holds after `clear()`
and, from any state where it holds, every operation of the buffer returns and
leaves it true, for every argument (the histogram read as exact rationals). -/
theorem buf_inv_preserved :
    buf_inv clear ∧
    ∀ s : hpsjam_audio_buffer, buf_inv s →
      (∀ limit, buf_inv (s.set_jitter_limit_in_ms limit)) ∧
      (∀ num, ∃ s' dst, s.remSamples num = some (s', dst) ∧ buf_inv s') ∧
      (∀ src num, ∃ s', s.addSamples src num = some s' ∧ buf_inv s') ∧
      (∀ num, ∃ s', s.addSilence num = some s' ∧ buf_inv s') ∧
      (∃ s', s.grow = some s' ∧ buf_inv s') ∧
      buf_inv s.shrink := by
  refine ⟨clear_inv, ?_⟩
  intro s h
  refine ⟨?_, ?_, ?_, ?_, ?_, (shrink_spec s h).1⟩
  · intro limit
    exact ⟨h.1, h.2.1, h.2.2.1, h.2.2.2.1, h.2.2.2.2⟩
  · intro num
    obtain ⟨s', dst, e, i, _⟩ := remSamples_spec s num h
    exact ⟨s', dst, e, i⟩
  · intro src num
    obtain ⟨s', e, i, _⟩ := addSamples_spec s src num h
    exact ⟨s', e, i⟩
  · intro num
    obtain ⟨s', e, i, _⟩ := addSilence_spec s num h
    exact ⟨s', e, i⟩
  · obtain ⟨s', e, i, _⟩ := grow_spec s h
    exact ⟨s', e, i⟩

/-- One call under the invariant: it returns, keeps the invariant, and the
depth changes by exactly what the ledger books for it. -/
theorem buf_step_balance (s : hpsjam_audio_buffer) (L : buf_ledger) (op : buf_op)
    (h : buf_inv s) :
    ∃ s1, buf_step s op = some s1 ∧ buf_inv s1 ∧
      s1.total + (ledger_step s L op).popped +
          HPSJAM_DEF_SAMPLES * (ledger_step s L op).shrinks +
          (L.pushed + L.grows + L.topup) =
        s.total + L.popped + HPSJAM_DEF_SAMPLES * L.shrinks +
          ((ledger_step s L op).pushed + (ledger_step s L op).grows +
            (ledger_step s L op).topup) := by
  have ht := h.1
  rw [max_samples_eq] at ht
  cases op with
  | addSamples src num =>
    obtain ⟨s', e, i, _, t⟩ := addSamples_spec s src num h
    refine ⟨s', e, i, ?_⟩
    simp only [ledger_step, t]
    omega
  | addSilence num =>
    obtain ⟨s', e, i, _, t⟩ := addSilence_spec s num h
    refine ⟨s', e, i, ?_⟩
    simp only [ledger_step, t]
    omega
  | remSamples num =>
    obtain ⟨s', dst, e, i, _, t⟩ := remSamples_spec s num h
    obtain ⟨_, _, _, _, _, a6⟩ := rem_account_spec s num h
    refine ⟨s', by simp [buf_step, e], i, ?_⟩
    simp only [ledger_step, t, def_samples_eq] at a6 ⊢
    by_cases hu : num > s.total
    · have hns : (s.rem_account num).2.2 = false := by
        cases hb : (s.rem_account num).2.2 with
        | false => rfl
        | true => have := a6 hb; omega
      simp only [hu, hns, if_true, if_false, Bool.false_eq_true]
      omega
    · cases hb : (s.rem_account num).2.2 with
      | false =>
        simp only [hu, if_false, Bool.false_eq_true]
        omega
      | true =>
        have := a6 hb
        simp only [hu, if_false, if_true]
        omega
  | grow =>
    obtain ⟨s', e, i, _, t⟩ := grow_spec s h
    refine ⟨s', e, i, ?_⟩
    simp only [ledger_step, t]
    omega
  | shrink =>
    obtain ⟨i, t, _⟩ := shrink_spec s h
    refine ⟨s.shrink, rfl, i, ?_⟩
    simp only [ledger_step, t, def_samples_eq]
    split <;> omega

theorem buf_run_balance :
    ∀ (ops : List buf_op) (s : hpsjam_audio_buffer) (L : buf_ledger), buf_inv s →
      ∃ s' L', buf_run_ledger s L ops = some (s', L') ∧ buf_run s ops = some s' ∧ buf_inv s' ∧
        s'.total + L'.popped + HPSJAM_DEF_SAMPLES * L'.shrinks +
            (L.pushed + L.grows + L.topup) =
          s.total + L.popped + HPSJAM_DEF_SAMPLES * L.shrinks +
            (L'.pushed + L'.grows + L'.topup) := by
  intro ops
  induction ops with
  | nil => intro s L h; exact ⟨s, L, rfl, rfl, h, by omega⟩
  | cons op ops ih =>
    intro s L h
    obtain ⟨s1, e1, i1, b1⟩ := buf_step_balance s L op h
    obtain ⟨s', L', e2, e3, i2, b2⟩ := ih s1 (ledger_step s L op) i1
    refine ⟨s', L', ?_, ?_, i2, ?_⟩
    · simp [buf_run_ledger, e1, e2]
    · simp [buf_run, e1, e3]
    · omega

/-- C4 (amended): every sequence of `addSamples`, `addSilence`, `remSamples`,
`grow` and `shrink` calls on a cleared buffer returns, and afterwards `total`
equals the samples accepted by the two add calls (each clamps to the free
space) minus the samples removed by `remSamples` (which clamps to `total`)
minus `DEF_SAMPLES` for every `shrink()` that found a whole block (called
directly or from within `remSamples`) plus one for every `grow()` made with
more than one sample in a buffer that is not full plus the `DEF_SAMPLES`
samples that `remSamples` synthesises after each underrun; and
`total <= HPSJAM_MAX_SAMPLES`. -/
theorem ring_conservation (ops : List buf_op) :
    ∃ s L, buf_run_ledger clear ⟨0, 0, 0, 0, 0⟩ ops = some (s, L) ∧
      buf_run clear ops = some s ∧
      (s.total : Int) =
        (L.pushed : Int) - L.popped - HPSJAM_DEF_SAMPLES * L.shrinks + L.grows + L.topup ∧
      s.total ≤ HPSJAM_MAX_SAMPLES := by
  obtain ⟨s, L, e1, e2, i, b⟩ := buf_run_balance ops clear ⟨0, 0, 0, 0, 0⟩ clear_inv
  refine ⟨s, L, e1, e2, ?_, i.1⟩
  have hc : clear.total = 0 := rfl
  rw [hc] at b
  simp only [def_samples_eq] at b ⊢
  push_cast
  omega

/-- C4 as stated fails: `shrink()` on a cleared buffer leaves `total = 0`,
while the rule predicts `0 - 0 - DEF_SAMPLES * 1 + 0 = -48`. -/
theorem ring_conservation_fails_on_empty_shrink :
    (buf_run clear [buf_op.shrink]).map (fun s => (s.total : Int)) = some 0 ∧
    claimed_total [buf_op.shrink] = -48 := by
  decide

end

section

open hpsjam_input_packetizer

/-! ## Flag bits -/

theorem and_two_pow_eq (x k : Nat) : x &&& 2 ^ k = if x.testBit k then 2 ^ k else 0 := by
  apply Nat.eq_of_testBit_eq
  intro i
  rw [Nat.testBit_and, Nat.testBit_two_pow]
  by_cases hb : x.testBit k = true
  · rw [if_pos hb, Nat.testBit_two_pow]
    by_cases hi : k = i
    · subst hi; simp [hb]
    · simp [hi]
  · rw [if_neg hb]
    by_cases hi : k = i
    · subst hi; simp [hb]
    · simp [hi]

theorem cnot_testBit (v k : Nat) (hk : k < 32) : (cnot v).testBit k = !v.testBit k := by
  have h : cnot v = 2 ^ 32 - (v % 2 ^ 32 + 1) := by
    simp only [cnot]; omega
  rw [h, Nat.testBit_two_pow_sub_succ (Nat.mod_lt _ (by decide)), Nat.testBit_mod_two_pow]
  simp [hk]

/-- `~v & m` is non-zero exactly when `v & m` is zero, for a single flag bit
`m = 2 ^ k`. -/
theorem cnot_and_ne_zero (v k : Nat) (hk : k < 32) :
    cnot v &&& 2 ^ k ≠ 0 ↔ v &&& 2 ^ k = 0 := by
  rw [and_two_pow_eq, and_two_pow_eq, cnot_testBit v k hk]
  have : 2 ^ k ≠ 0 := Nat.pos_iff_ne_zero.mp (Nat.two_pow_pos k)
  cases v.testBit k <;> simp [this]

theorem cnot_and_one (v : Nat) : cnot v &&& 1 = if v &&& 1 = 0 then 1 else 0 := by
  have h1 := and_two_pow_eq (cnot v) 0
  have h2 := and_two_pow_eq v 0
  rw [cnot_testBit v 0 (by decide)] at h1
  simp only [Nat.pow_zero] at h1 h2
  rw [h1, h2]
  cases v.testBit 0 <;> simp

theorem or_and_self_pow (v k : Nat) : (v ||| 2 ^ k) &&& 2 ^ k = 2 ^ k := by
  rw [and_two_pow_eq, Nat.testBit_or, Nat.testBit_two_pow_self]
  simp

theorem or_and_other_pow (v j k : Nat) (h : j ≠ k) : (v ||| 2 ^ j) &&& 2 ^ k = v &&& 2 ^ k := by
  rw [and_two_pow_eq, and_two_pow_eq, Nat.testBit_or, Nat.testBit_two_pow]
  simp [h]

theorem getD_set_self {α : Type} (l : List α) (i : Nat) (v d : α) (h : i < l.length) :
    (l.set i v).getD i d = v := by
  rw [List.getD_eq_getElem?_getD, List.getElem?_set_self h]; rfl

theorem getD_set_ne {α : Type} (l : List α) (i j : Nat) (v d : α) (h : i ≠ j) :
    (l.set i v).getD j d = l.getD j d := by
  rw [List.getD_eq_getElem?_getD, List.getD_eq_getElem?_getD, List.getElem?_set_ne h]

/-! ## XOR of frames, byte by byte -/

theorem do_xor_getD (a b : List Nat) (h : a.length = b.length) (i : Nat) :
    (hpsjam_frame.do_xor a b).getD i 0 = a.getD i 0 ^^^ b.getD i 0 := by
  simp only [hpsjam_frame.do_xor, List.getD_eq_getElem?_getD, List.getElem?_zipWith]
  by_cases hi : i < a.length
  · have hi' : i < b.length := h ▸ hi
    simp [List.getElem?_eq_getElem hi, List.getElem?_eq_getElem hi']
    rfl
  · have hi' : ¬ i < b.length := h ▸ hi
    simp [List.getElem?_eq_none (Nat.le_of_not_lt hi), List.getElem?_eq_none (Nat.le_of_not_lt hi')]

theorem do_xor_len (a b : List Nat) (h : a.length = b.length) :
    (hpsjam_frame.do_xor a b).length = a.length := by
  simp [hpsjam_frame.do_xor, h]

/-- Folding `do_xor` over frames of one size XORs each byte. -/
theorem fold_xor_bytes (n : Nat) (G : Nat → List Nat) (p : Nat → Prop) [DecidablePred p]
    (hG : ∀ y, (G y).length = n) (i : Nat) :
    ∀ (l : List Nat) (m : List Nat), m.length = n →
      (l.foldl (fun m y => if p y then hpsjam_frame.do_xor m (G y) else m) m).length = n ∧
      (l.foldl (fun m y => if p y then hpsjam_frame.do_xor m (G y) else m) m).getD i 0 =
        l.foldl (fun a y => if p y then a ^^^ (G y).getD i 0 else a) (m.getD i 0) := by
  intro l
  induction l with
  | nil => intro m hm; exact ⟨hm, rfl⟩
  | cons a t ih =>
    intro m hm
    rw [List.foldl_cons, List.foldl_cons]
    by_cases hp : p a
    · simp only [if_pos hp]
      have hl : (hpsjam_frame.do_xor m (G a)).length = n := by
        rw [do_xor_len _ _ (by rw [hm, hG]), hm]
      obtain ⟨h1, h2⟩ := ih _ hl
      refine ⟨h1, ?_⟩
      rw [h2, do_xor_getD _ _ (by rw [hm, hG])]
    · simp only [if_neg hp]
      exact ih m hm

theorem fold_xor_init (g : Nat → Nat) (p : Nat → Prop) [DecidablePred p] :
    ∀ (l : List Nat) (a : Nat),
      l.foldl (fun a y => if p y then a ^^^ g y else a) a =
        a ^^^ l.foldl (fun a y => if p y then a ^^^ g y else a) 0 := by
  intro l
  induction l with
  | nil => intro a; simp
  | cons b t ih =>
    intro a
    rw [List.foldl_cons, List.foldl_cons]
    by_cases hp : p b
    · simp only [if_pos hp]
      rw [ih (a ^^^ g b), ih (0 ^^^ g b), Nat.zero_xor, Nat.xor_assoc]
    · simp only [if_neg hp]
      exact ih a

theorem fold_xor_bytes_all (n : Nat) (G : Nat → List Nat) (hG : ∀ y, (G y).length = n)
    (i : Nat) (l : List Nat) (m : List Nat) (hm : m.length = n) :
    (l.foldl (fun m y => hpsjam_frame.do_xor m (G y)) m).length = n ∧
    (l.foldl (fun m y => hpsjam_frame.do_xor m (G y)) m).getD i 0 =
      l.foldl (fun a y => a ^^^ (G y).getD i 0) (m.getD i 0) := by
  have := fold_xor_bytes n G (fun _ => True) hG i l m hm
  simpa using this

theorem fold_xor_init_all (g : Nat → Nat) (l : List Nat) (a : Nat) :
    l.foldl (fun a y => a ^^^ g y) a = a ^^^ l.foldl (fun a y => a ^^^ g y) 0 := by
  have := fold_xor_init g (fun _ => True) l a
  simpa using this

/-- The XOR of all values of a list without repetition equals the value at
`ym` XORed with the XOR of the others. -/
theorem fold_xor_split (g : Nat → Nat) (ym : Nat) :
    ∀ l : List Nat,
      (ym ∉ l → l.foldl (fun a y => a ^^^ g y) 0 =
        l.foldl (fun a y => if y ≠ ym then a ^^^ g y else a) 0) ∧
      (ym ∈ l → l.Nodup → l.foldl (fun a y => a ^^^ g y) 0 =
        g ym ^^^ l.foldl (fun a y => if y ≠ ym then a ^^^ g y else a) 0) := by
  intro l
  induction l with
  | nil => exact ⟨fun _ => rfl, fun h => by simp at h⟩
  | cons b t ih =>
    refine ⟨?_, ?_⟩
    · intro hn
      have hb : b ≠ ym := fun e => hn (e ▸ List.mem_cons_self _ _)
      have ht : ym ∉ t := fun h => hn (List.mem_cons_of_mem _ h)
      rw [List.foldl_cons, List.foldl_cons, if_pos hb]
      rw [fold_xor_init_all g t, fold_xor_init g (fun y => y ≠ ym) t, ih.1 ht]
    · intro hm hnd
      rw [List.foldl_cons, List.foldl_cons]
      have hnd' := List.nodup_cons.mp hnd
      by_cases hb : b = ym
      · subst hb
        rw [if_neg (fun h => h rfl)]
        rw [fold_xor_init_all g t, ih.1 hnd'.1, Nat.zero_xor]
      · have ht : ym ∈ t := by
          rcases List.mem_cons.mp hm with h | h
          · exact absurd h.symm hb
          · exact h
        rw [if_pos hb]
        rw [fold_xor_init_all g t, fold_xor_init g (fun y => y ≠ ym) t,
          ih.2 ht hnd'.2, Nat.zero_xor, ← Nat.xor_assoc, Nat.xor_comm (g b),
          Nat.xor_assoc]

/-- XORing the mask of a group with every payload but one leaves that
payload. -/
theorem xor_all_but_one (g : Nat → Nat) (ym : Nat) (l : List Nat) (hm : ym ∈ l)
    (hnd : l.Nodup) :
    l.foldl (fun a y => if y ≠ ym then a ^^^ g y else a)
      (l.foldl (fun a y => a ^^^ g y) 0) = g ym := by
  rw [fold_xor_init g (fun y => y ≠ ym) l, (fold_xor_split g ym l).2 hm hnd, Nat.xor_assoc,
    Nat.xor_self, Nat.xor_zero]

/-! ## The loops of `recovery` on one group -/

theorem validAt_congr {s t : hpsjam_input_packetizer} (h : t.valid = s.valid) (z : Nat) :
    t.validAt z = s.validAt z := by
  simp [validAt, h]

/-- The loop that XORs the payloads held into `mask[x]` changes `mask[x]`
only. -/
theorem xor_present_fold (s : hpsjam_input_packetizer) (x : Nat) :
    ∀ (l : List Nat) (st : hpsjam_input_packetizer),
      st.valid = s.valid → st.current = s.current → x < st.mask.length →
      (l.foldl
        (fun st y =>
          if st.validAt (group_slot x y) &&& HPSJAM_V_GOT_PACKET ≠ 0 then
            { st with mask := (st.mask.set x
                (hpsjam_frame.do_xor (st.mask.getD x []) (st.current.getD (group_slot x y) []))) }
          else
            st) st).valid = s.valid ∧
      (l.foldl
        (fun st y =>
          if st.validAt (group_slot x y) &&& HPSJAM_V_GOT_PACKET ≠ 0 then
            { st with mask := (st.mask.set x
                (hpsjam_frame.do_xor (st.mask.getD x []) (st.current.getD (group_slot x y) []))) }
          else
            st) st).current = s.current ∧
      (l.foldl
        (fun st y =>
          if st.validAt (group_slot x y) &&& HPSJAM_V_GOT_PACKET ≠ 0 then
            { st with mask := (st.mask.set x
                (hpsjam_frame.do_xor (st.mask.getD x []) (st.current.getD (group_slot x y) []))) }
          else
            st) st).last_red = st.last_red ∧
      (l.foldl
        (fun st y =>
          if st.validAt (group_slot x y) &&& HPSJAM_V_GOT_PACKET ≠ 0 then
            { st with mask := (st.mask.set x
                (hpsjam_frame.do_xor (st.mask.getD x []) (st.current.getD (group_slot x y) []))) }
          else
            st) st).mask.length = st.mask.length ∧
      (∀ v, v ≠ x → (l.foldl
        (fun st y =>
          if st.validAt (group_slot x y) &&& HPSJAM_V_GOT_PACKET ≠ 0 then
            { st with mask := (st.mask.set x
                (hpsjam_frame.do_xor (st.mask.getD x []) (st.current.getD (group_slot x y) []))) }
          else
            st) st).mask.getD v [] = st.mask.getD v []) ∧
      (l.foldl
        (fun st y =>
          if st.validAt (group_slot x y) &&& HPSJAM_V_GOT_PACKET ≠ 0 then
            { st with mask := (st.mask.set x
                (hpsjam_frame.do_xor (st.mask.getD x []) (st.current.getD (group_slot x y) []))) }
          else
            st) st).mask.getD x [] =
        l.foldl
          (fun m y =>
            if s.validAt (group_slot x y) &&& HPSJAM_V_GOT_PACKET ≠ 0 then
              hpsjam_frame.do_xor m (s.current.getD (group_slot x y) [])
            else m) (st.mask.getD x []) := by
  intro l
  induction l with
  | nil => intro st hv hc _; exact ⟨hv, hc, rfl, rfl, fun _ _ => rfl, rfl⟩
  | cons a t ih =>
    intro st hv hc hx
    rw [List.foldl_cons, List.foldl_cons]
    rw [validAt_congr hv (group_slot x a)]
    by_cases hp : s.validAt (group_slot x a) &&& HPSJAM_V_GOT_PACKET ≠ 0
    · rw [if_pos hp, if_pos hp]
      obtain ⟨h1, h2, h3, h4, h5, h6⟩ := ih
        { st with mask := (st.mask.set x
          (hpsjam_frame.do_xor (st.mask.getD x []) (st.current.getD (group_slot x a) []))) }
        hv hc (by simpa using hx)
      refine ⟨h1, h2, h3, by rw [h4]; simp, ?_, ?_⟩
      · intro v hne
        rw [h5 v hne]
        exact getD_set_ne _ _ _ _ _ (Ne.symm hne)
      · rw [h6]
        congr 1
        rw [hc]
        exact getD_set_self _ _ _ _ hx
    · rw [if_neg hp, if_neg hp]
      exact ih st hv hc hx

/-- While every payload of the list is flagged, the loop "recover the missing
frame" does nothing. -/
theorem recover_fold_idle (x : Nat) :
    ∀ (l : List Nat) (st : hpsjam_input_packetizer),
      (∀ y ∈ l, st.validAt (group_slot x y) &&& HPSJAM_V_GOT_PACKET ≠ 0) →
      l.foldl
        (fun st y =>
          if cnot (st.validAt (group_slot x y)) &&& HPSJAM_V_GOT_PACKET ≠ 0 then
            st.recover_slot x (group_slot x y)
          else
            st) st = st := by
  intro l
  induction l with
  | nil => intro st _; rfl
  | cons a t ih =>
    intro st h
    rw [List.foldl_cons]
    have ha := h a (List.mem_cons_self _ _)
    have hc : ¬ cnot (st.validAt (group_slot x a)) &&& HPSJAM_V_GOT_PACKET ≠ 0 := by
      intro hc
      exact ha ((cnot_and_ne_zero _ 0 (by decide)).mp hc)
    rw [if_neg hc]
    exact ih st (fun y hy => h y (List.mem_cons_of_mem _ hy))

theorem recover_slot_validAt_ne (st : hpsjam_input_packetizer) (x z w : Nat) (h : z ≠ w) :
    (st.recover_slot x z).validAt w = st.validAt w := by
  simp only [recover_slot, validAt]
  exact getD_set_ne _ _ _ _ _ h

/-- With one payload of the list not flagged, all others flagged and the slots
distinct, the loop "recover the missing frame" rebuilds exactly that one. -/
theorem recover_fold_one (x ym : Nat) :
    ∀ (l : List Nat) (st : hpsjam_input_packetizer),
      l.Nodup → ym ∈ l →
      (∀ y ∈ l, y ≠ ym → st.validAt (group_slot x y) &&& HPSJAM_V_GOT_PACKET ≠ 0) →
      (∀ y ∈ l, y ≠ ym → group_slot x ym ≠ group_slot x y) →
      st.validAt (group_slot x ym) &&& HPSJAM_V_GOT_PACKET = 0 →
      l.foldl
        (fun st y =>
          if cnot (st.validAt (group_slot x y)) &&& HPSJAM_V_GOT_PACKET ≠ 0 then
            st.recover_slot x (group_slot x y)
          else
            st) st = st.recover_slot x (group_slot x ym) := by
  intro l
  induction l with
  | nil => intro st _ hm; simp at hm
  | cons a t ih =>
    intro st hnd hm hp hinj hmiss
    rw [List.foldl_cons]
    have hnd' := List.nodup_cons.mp hnd
    by_cases ha : a = ym
    · subst ha
      have hc : cnot (st.validAt (group_slot x a)) &&& HPSJAM_V_GOT_PACKET ≠ 0 :=
        (cnot_and_ne_zero _ 0 (by decide)).mpr hmiss
      rw [if_pos hc]
      apply recover_fold_idle
      intro y hy
      have hya : y ≠ a := fun e => hnd'.1 (e ▸ hy)
      rw [recover_slot_validAt_ne _ _ _ _ (hinj y (List.mem_cons_of_mem _ hy) hya)]
      exact hp y (List.mem_cons_of_mem _ hy) hya
    · have hpa := hp a (List.mem_cons_self _ _) ha
      have hc : ¬ cnot (st.validAt (group_slot x a)) &&& HPSJAM_V_GOT_PACKET ≠ 0 := by
        intro hc
        exact hpa ((cnot_and_ne_zero _ 0 (by decide)).mp hc)
      rw [if_neg hc]
      have ht : ym ∈ t := by
        rcases List.mem_cons.mp hm with h | h
        · exact absurd h.symm ha
        · exact h
      exact ih st hnd'.2 ht (fun y hy => hp y (List.mem_cons_of_mem _ hy))
        (fun y hy => hinj y (List.mem_cons_of_mem _ hy)) hmiss

/-- The count of missing payloads: 0 when all of the list are flagged. -/
theorem missing_fold_zero (s : hpsjam_input_packetizer) (x : Nat) :
    ∀ (l : List Nat) (n : Nat), n < 256 →
      (∀ y ∈ l, s.validAt (group_slot x y) &&& HPSJAM_V_GOT_PACKET ≠ 0) →
      l.foldl
        (fun n y => (n + (cnot (s.validAt (group_slot x y)) &&& HPSJAM_V_GOT_PACKET)) % 256)
        n = n := by
  intro l
  induction l with
  | nil => intro n _ _; rfl
  | cons a t ih =>
    intro n hn h
    rw [List.foldl_cons]
    have ha := h a (List.mem_cons_self _ _)
    have : cnot (s.validAt (group_slot x a)) &&& HPSJAM_V_GOT_PACKET = 0 := by
      have := cnot_and_one (s.validAt (group_slot x a))
      simp only [HPSJAM_V_GOT_PACKET] at ha ⊢
      rw [this, if_neg ha]
    rw [this, Nat.add_zero, Nat.mod_eq_of_lt hn]
    exact ih n hn (fun y hy => h y (List.mem_cons_of_mem _ hy))

/-- The count of missing payloads: 1 when exactly one of the list is not
flagged. -/
theorem missing_fold_one (s : hpsjam_input_packetizer) (x ym : Nat) :
    ∀ (l : List Nat), l.Nodup → ym ∈ l →
      (∀ y ∈ l, y ≠ ym → s.validAt (group_slot x y) &&& HPSJAM_V_GOT_PACKET ≠ 0) →
      s.validAt (group_slot x ym) &&& HPSJAM_V_GOT_PACKET = 0 →
      l.foldl
        (fun n y => (n + (cnot (s.validAt (group_slot x y)) &&& HPSJAM_V_GOT_PACKET)) % 256)
        0 = 1 := by
  intro l
  induction l with
  | nil => intro _ hm; simp at hm
  | cons a t ih =>
    intro hnd hm hp hmiss
    rw [List.foldl_cons]
    have hnd' := List.nodup_cons.mp hnd
    by_cases ha : a = ym
    · subst ha
      have : cnot (s.validAt (group_slot x a)) &&& HPSJAM_V_GOT_PACKET = 1 := by
        have := cnot_and_one (s.validAt (group_slot x a))
        simp only [HPSJAM_V_GOT_PACKET] at hmiss ⊢
        rw [this, if_pos hmiss]
      rw [this]
      apply missing_fold_zero s x t 1 (by decide)
      intro y hy
      exact hp y (List.mem_cons_of_mem _ hy) (fun e => hnd'.1 (e ▸ hy))
    · have hpa := hp a (List.mem_cons_self _ _) ha
      have : cnot (s.validAt (group_slot x a)) &&& HPSJAM_V_GOT_PACKET = 0 := by
        have := cnot_and_one (s.validAt (group_slot x a))
        simp only [HPSJAM_V_GOT_PACKET] at hpa ⊢
        rw [this, if_neg hpa]
      rw [this]
      have ht : ym ∈ t := by
        rcases List.mem_cons.mp hm with h | h
        · exact absurd h.symm ha
        · exact h
      exact ih hnd'.2 ht (fun y hy => hp y (List.mem_cons_of_mem _ hy)) hmiss

theorem rec_frame_refl (x r : Nat) (s : hpsjam_input_packetizer) : rec_frame x r s s :=
  ⟨rfl, rfl, rfl, rfl, fun _ _ => rfl, fun _ _ => ⟨rfl, rfl⟩, fun _ => rfl⟩

theorem rec_frame_trans {x r : Nat} {a b c : hpsjam_input_packetizer}
    (h1 : rec_frame x r a b) (h2 : rec_frame x r b c) : rec_frame x r a c := by
  obtain ⟨a1, a2, a3, a4, a5, a6, a7⟩ := h1
  obtain ⟨b1, b2, b3, b4, b5, b6, b7⟩ := h2
  refine ⟨b1.trans a1, b2.trans a2, b3.trans a3, b4.trans a4, ?_, ?_, ?_⟩
  · intro v hv; rw [b5 v hv, a5 v hv]
  · intro w hw
    exact ⟨(b6 w hw).1.trans (a6 w hw).1, (b6 w hw).2.trans (a6 w hw).2⟩
  · intro w; rw [b7 w, a7 w]

/-- Rebuilding a slot of the group touches nothing outside the group. -/
theorem recover_slot_frame (x r y : Nat) (hy : y < r) (st : hpsjam_input_packetizer) :
    rec_frame x r st (st.recover_slot x (group_slot x y)) := by
  refine ⟨rfl, by simp [recover_slot], by simp [recover_slot], by simp [recover_slot], ?_, ?_,
    ?_⟩
  · intro v hv
    simp only [recover_slot]
    exact getD_set_ne _ _ _ _ _ (Ne.symm hv)
  · intro w hw
    have hne := hw y hy
    refine ⟨recover_slot_validAt_ne _ _ _ _ hne, ?_⟩
    simp only [recover_slot]
    rw [getD_set_ne _ _ _ _ _ hne, getD_set_ne _ _ _ _ _ hne]
  · intro w
    by_cases hw : group_slot x y = w
    · subst hw
      simp only [recover_slot, validAt]
      by_cases hl : group_slot x y < st.valid.length
      · rw [getD_set_self _ _ _ _ hl]
        exact or_and_other_pow _ 0 1 (by decide)
      · rw [List.set_eq_of_length_le (Nat.le_of_not_lt hl)]
    · rw [recover_slot_validAt_ne _ _ _ _ hw]

theorem recover_fold_frame (x r : Nat) :
    ∀ (l : List Nat) (st : hpsjam_input_packetizer), (∀ y ∈ l, y < r) →
      rec_frame x r st (l.foldl
        (fun st y =>
          if cnot (st.validAt (group_slot x y)) &&& HPSJAM_V_GOT_PACKET ≠ 0 then
            st.recover_slot x (group_slot x y)
          else
            st) st) := by
  intro l
  induction l with
  | nil => intro st _; exact rec_frame_refl x r st
  | cons a t ih =>
    intro st h
    rw [List.foldl_cons]
    have ha := h a (List.mem_cons_self _ _)
    have ht : ∀ y ∈ t, y < r := fun y hy => h y (List.mem_cons_of_mem _ hy)
    split
    · exact rec_frame_trans (recover_slot_frame x r a ha st) (ih _ ht)
    · exact ih st ht

/-- The processing of the group before `x` touches nothing but `mask[x]`, the
slots of the group and the meter. -/
theorem recovery_group_frame (s : hpsjam_input_packetizer) (x : Nat)
    (hx : x < s.mask.length) : rec_frame x s.last_red s (s.recovery_group x) := by
  unfold recovery_group
  split
  · exact rec_frame_refl _ _ _
  · split
    · exact rec_frame_refl _ _ _
    · split
      · obtain ⟨h1, h2, h3, h4, h5, _⟩ :=
          xor_present_fold s x (List.range s.last_red) s rfl rfl hx
        have hA : rec_frame x s.last_red s (s.xor_present x) := by
          unfold xor_present
          refine ⟨h3, by rw [h1], by rw [h2], h4, h5, ?_, ?_⟩
          · intro w _
            exact ⟨validAt_congr h1 w, by rw [h2]⟩
          · intro w; rw [validAt_congr h1 w]
        have hB : rec_frame x s.last_red (s.xor_present x)
            ((s.xor_present x).recover_missing x) := by
          have hlr : (s.xor_present x).last_red = s.last_red := hA.1
          unfold recover_missing
          rw [hlr]
          exact recover_fold_frame x s.last_red (List.range s.last_red) _
            (fun y hy => List.mem_range.mp hy)
        exact rec_frame_trans hA hB
      · exact rec_frame_refl _ _ _

theorem group_slot_lt (x y : Nat) : group_slot x y < HPSJAM_SEQ_MAX := by
  simp only [group_slot, HPSJAM_SEQ_MAX]; omega

theorem group_slot_inj (x y y' : Nat) (hx : x < 16) (hy : y < 16) (hy' : y' < 16)
    (h : y ≠ y') : group_slot x y ≠ group_slot x y' := by
  simp only [group_slot, HPSJAM_SEQ_MAX]; omega

/-- Bytes of the group mask beyond the header: the XOR of the payload bytes. -/
theorem group_mask_bytes (n : Nat) (F : Nat → List Nat) (x r i : Nat)
    (hF : ∀ z, (F z).length = n) (hi : 1 ≤ i) :
    (group_mask n F x r).length = n ∧
    (group_mask n F x r).getD i 0 =
      (List.range r).foldl (fun a y => a ^^^ (F (group_slot x y)).getD i 0) 0 := by
  obtain ⟨h1, h2⟩ := fold_xor_bytes_all n (fun y => F (group_slot x y))
    (fun y => hF _) i (List.range r) (hpsjam_frame.clear n) (by simp [hpsjam_frame.clear])
  unfold group_mask hpsjam_frame.setHdr
  refine ⟨by rw [List.length_set]; exact h1, ?_⟩
  rw [getD_set_ne _ _ _ _ _ (by omega), h2]
  congr 1
  simp only [hpsjam_frame.clear, List.getD_eq_getElem?_getD, List.getElem?_replicate]
  split <;> rfl

theorem group_mask_red (n : Nat) (F : Nat → List Nat) (x r : Nat)
    (hF : ∀ z, (F z).length = n) (hn : 0 < n) (hr : r < 16) (hx : x < 16) :
    hpsjam_header.getRedNo (hpsjam_frame.hdr (group_mask n F x r)) = r ∧
    hpsjam_header.getSeqNo (hpsjam_frame.hdr (group_mask n F x r)) = x := by
  obtain ⟨h1, _⟩ := fold_xor_bytes_all n (fun y => F (group_slot x y))
    (fun y => hF _) 0 (List.range r) (hpsjam_frame.clear n) (by simp [hpsjam_frame.clear])
  unfold group_mask hpsjam_frame.setHdr hpsjam_frame.hdr
  rw [getD_set_self _ _ _ _ (by rw [h1]; exact hn)]
  simp only [hpsjam_header.getRedNo, hpsjam_header.getSeqNo, hpsjam_header.setSequence,
    HPSJAM_SEQ_MAX]
  omega

/-- The processing of the group before `x`, when its mask is held and one
payload is missing, rebuilds that payload. -/
theorem recovery_group_rebuilds (n : Nat) (F : Nat → List Nat) (r x ym : Nat)
    (s : hpsjam_input_packetizer) (hF : ∀ z, (F z).length = n) (hn : 0 < n)
    (hr : r < 16) (hx : x < 16) (hym : ym < r) (h : fec_pre n F r x ym s) :
    fec_post F r (group_slot x ym) (s.recovery_group x) := by
  obtain ⟨p1, p2, p3, p4, p5, p6, p7, p8⟩ := h
  have hxm : x < s.mask.length := by rw [p4]; exact hx
  have hnd : (List.range r).Nodup := List.nodup_range r
  have hmem : ym ∈ List.range r := List.mem_range.mpr hym
  have hpres : ∀ y ∈ List.range r, y ≠ ym →
      s.validAt (group_slot x y) &&& HPSJAM_V_GOT_PACKET ≠ 0 :=
    fun y hy hne => (p7 y (List.mem_range.mp hy) hne).1
  -- the three tests of the loop body
  have c1 : ¬ cnot (s.validAt x) &&& HPSJAM_V_GOT_XOR_MASK ≠ 0 := by
    intro hc
    exact p5 ((cnot_and_ne_zero _ 1 (by decide)).mp hc)
  have c2 : ¬ hpsjam_header.getRedNo (hpsjam_frame.hdr (s.mask.getD x [])) ≠ s.last_red := by
    rw [p6, (group_mask_red n F x r hF hn hr hx).1, p1]
    exact fun h => h rfl
  have c3 : s.rx_missing x = 1 := by
    unfold rx_missing
    rw [p1]
    exact missing_fold_one s x ym (List.range r) hnd hmem hpres p8
  unfold recovery_group
  rw [if_neg c1, if_neg c2, if_pos c3]
  -- the mask after the XOR loop
  obtain ⟨h1, h2, h3, h4, _, h6⟩ := xor_present_fold s x (List.range s.last_red) s rfl rfl hxm
  have hs1 : (s.xor_present x).valid = s.valid := h1
  have hs2 : (s.xor_present x).current = s.current := h2
  have hs3 : (s.xor_present x).last_red = r := h3.trans p1
  have hs4 : (s.xor_present x).mask.length = s.mask.length := h4
  have hs6 : (s.xor_present x).mask.getD x [] =
      (List.range r).foldl
        (fun m y => if y ≠ ym then hpsjam_frame.do_xor m (F (group_slot x y)) else m)
        (group_mask n F x r) := by
    have h6' : (s.xor_present x).mask.getD x [] = _ := h6
    rw [h6', p1, p6]
    apply List.foldl_ext
    intro m y hy
    by_cases hne : y = ym
    · subst hne
      rw [if_neg (by rw [p8]; exact fun h => h rfl), if_neg (fun h => h rfl)]
    · obtain ⟨q1, q2⟩ := p7 y (List.mem_range.mp hy) hne
      rw [if_pos q1, if_pos hne, q2]
  -- the recovery loop rebuilds slot `ym`
  have hrec : (s.xor_present x).recover_missing x =
      (s.xor_present x).recover_slot x (group_slot x ym) := by
    unfold recover_missing
    rw [hs3]
    apply recover_fold_one x ym (List.range r) _ hnd hmem
    · intro y hy hne
      rw [validAt_congr hs1]
      exact hpres y hy hne
    · intro y hy hne
      exact group_slot_inj x ym y hx (by omega) (by have := List.mem_range.mp hy; omega)
        (Ne.symm hne)
    · rw [validAt_congr hs1]; exact p8
  rw [hrec]
  have hz : group_slot x ym < 16 := group_slot_lt x ym
  refine ⟨hs3, ?_, ?_, ?_, ?_, ?_⟩
  · simp [recover_slot, hs1, p2]
  · simp [recover_slot, hs2, p3]
  · simp [recover_slot, hs4, p4]
  · simp only [recover_slot, validAt]
    rw [getD_set_self _ _ _ _ (by rw [hs1, p2]; exact hz)]
    have := or_and_self_pow ((s.xor_present x).valid.getD (group_slot x ym) 0) 0
    simp only [Nat.pow_zero] at this
    simp only [HPSJAM_V_GOT_PACKET, this]
    decide
  · intro i hi
    simp only [recover_slot]
    rw [getD_set_self _ _ _ _ (by rw [List.length_set, hs2, p3]; exact hz),
      getD_set_self _ _ _ _ (by rw [hs2, p3]; exact hz)]
    unfold hpsjam_frame.setHdr
    rw [getD_set_ne _ _ _ _ _ (by omega), hs6]
    obtain ⟨m1, m2⟩ := group_mask_bytes n F x r i hF hi
    obtain ⟨_, b2⟩ := fold_xor_bytes n (fun y => F (group_slot x y)) (fun y => y ≠ ym)
      (fun y => hF _) i (List.range r) (group_mask n F x r) m1
    rw [b2, m2]
    exact xor_all_but_one (fun y => (F (group_slot x y)).getD i 0) ym (List.range r) hmem hnd

theorem groups_disjoint (r x x' y y' : Nat) (hr : r = 2 ∨ r = 4 ∨ r = 8) (hx : x < 16)
    (hx' : x' < 16) (hxr : x % r = 0) (hxr' : x' % r = 0) (hne : x ≠ x') (hy : y < r)
    (hy' : y' < r) : group_slot x' y' ≠ group_slot x y := by
  simp only [group_slot, HPSJAM_SEQ_MAX]
  rcases hr with rfl | rfl | rfl <;> omega

/-- Processing another group leaves the group before `x` ready. -/
theorem fec_pre_other (n : Nat) (F : Nat → List Nat) (r x x' ym : Nat)
    (s : hpsjam_input_packetizer) (hr : r = 2 ∨ r = 4 ∨ r = 8) (hx : x < 16) (hx' : x' < 16)
    (hxr : x % r = 0) (hxr' : x' % r = 0) (hne : x ≠ x') (hym : ym < r)
    (h : fec_pre n F r x ym s) : fec_pre n F r x ym (s.recovery_group x') := by
  obtain ⟨p1, p2, p3, p4, p5, p6, p7, p8⟩ := h
  obtain ⟨f1, f2, f3, f4, f5, f6, f7⟩ := recovery_group_frame s x' (by rw [p4]; exact hx')
  rw [p1] at f6
  have hdis : ∀ y, y < r → ∀ y', y' < r → group_slot x' y' ≠ group_slot x y :=
    fun y hy y' hy' => groups_disjoint r x x' y y' hr hx hx' hxr hxr' hne hy hy'
  refine ⟨f1.trans p1, f2.trans p2, f3.trans p3, f4.trans p4, by rw [f7]; exact p5,
    by rw [f5 x hne]; exact p6, ?_, ?_⟩
  · intro y hy hne'
    obtain ⟨g1, g2⟩ := f6 (group_slot x y) (hdis y hy)
    rw [g1, g2]
    exact p7 y hy hne'
  · rw [(f6 (group_slot x ym) (hdis ym hym)).1]
    exact p8

/-- Processing another group leaves a rebuilt payload alone. -/
theorem fec_post_other (F : Nat → List Nat) (r x x' ym : Nat)
    (s : hpsjam_input_packetizer) (hr : r = 2 ∨ r = 4 ∨ r = 8) (hx : x < 16) (hx' : x' < 16)
    (hxr : x % r = 0) (hxr' : x' % r = 0) (hne : x ≠ x') (hym : ym < r)
    (h : fec_post F r (group_slot x ym) s) :
    fec_post F r (group_slot x ym) (s.recovery_group x') := by
  obtain ⟨p1, p2, p3, p4, p5, p6⟩ := h
  obtain ⟨f1, f2, f3, f4, _, f6, _⟩ := recovery_group_frame s x' (by rw [p4]; exact hx')
  rw [p1] at f6
  obtain ⟨g1, g2⟩ := f6 (group_slot x ym)
    (fun y' hy' => groups_disjoint r x x' ym y' hr hx hx' hxr hxr' hne hym hy')
  exact ⟨f1.trans p1, f2.trans p2, f3.trans p3, f4.trans p4, by rw [g1]; exact p5,
    by rw [g2]; exact p6⟩

theorem recovery_group_last_red (s : hpsjam_input_packetizer) (x : Nat)
    (hx : x < s.mask.length) : (s.recovery_group x).last_red = s.last_red :=
  (recovery_group_frame s x hx).1

/-- The outer loop of `recovery` from group `x0` on: it ends, and once it has
passed the group before `x` the missing payload is rebuilt. -/
theorem recovery_loop_rebuilds (n : Nat) (F : Nat → List Nat) (r x ym : Nat)
    (hF : ∀ z, (F z).length = n) (hn : 0 < n) (hr : r = 2 ∨ r = 4 ∨ r = 8) (hx : x < 16)
    (hxr : x % r = 0) (hym : ym < r) :
    ∀ (k fuel x0 : Nat) (s : hpsjam_input_packetizer), k < fuel → x0 + k * r = 16 →
      (x0 ≤ x → fec_pre n F r x ym s) → (x < x0 → fec_post F r (group_slot x ym) s) →
      ∃ s', recovery_loop fuel s x0 = some s' ∧ fec_post F r (group_slot x ym) s' := by
  intro k
  induction k with
  | zero =>
    intro fuel x0 s hf hx0 _ hpost
    obtain ⟨f, rfl⟩ : ∃ f, fuel = f + 1 := ⟨fuel - 1, by omega⟩
    have h16 : x0 = 16 := by omega
    refine ⟨s, ?_, hpost (by omega)⟩
    rw [recovery_loop, if_pos (by rw [h16]; rfl)]
  | succ k ih =>
    intro fuel x0 s hf hx0 hpre hpost
    obtain ⟨f, rfl⟩ : ∃ f, fuel = f + 1 := ⟨fuel - 1, by omega⟩
    have hr16 : r < 16 := by rcases hr with rfl | rfl | rfl <;> decide
    have hx0lt : x0 < 16 := by rcases hr with rfl | rfl | rfl <;> omega
    have hx0r : x0 % r = 0 := by rcases hr with rfl | rfl | rfl <;> omega
    have hlr : s.last_red = r := by
      rcases Nat.lt_or_ge x x0 with h | h
      · exact (hpost h).1
      · exact (hpre h).1
    have hml : s.mask.length = 16 := by
      rcases Nat.lt_or_ge x x0 with h | h
      · exact (hpost h).2.2.2.1
      · exact (hpre h).2.2.2.1
    have hnext : (x0 + s.last_red) % 256 = x0 + r := by rw [hlr]; omega
    rw [recovery_loop, if_neg (by simp only [HPSJAM_SEQ_MAX]; omega), hnext]
    apply ih f (x0 + r) (s.recovery_group x0) (by omega)
      (by rw [Nat.succ_mul] at hx0; omega)
    · intro hle
      have hlt : x0 < x := by rcases hr with rfl | rfl | rfl <;> omega
      exact fec_pre_other n F r x x0 ym s hr hx hx0lt hxr hx0r (by omega) hym
        (hpre (by omega))
    · intro hlt
      rcases Nat.lt_or_ge x x0 with h | h
      · exact fec_post_other F r x x0 ym s hr hx hx0lt hxr hx0r (by omega) hym (hpost h)
      · have hxe : x0 = x := by rcases hr with rfl | rfl | rfl <;> omega
        subst hxe
        exact recovery_group_rebuilds n F r x0 ym s hF hn hr16 hx hym (hpre h)

/-- The method `recovery` rebuilds the one missing payload of a group whose
mask is held. -/
theorem recovery_rebuilds (n : Nat) (F : Nat → List Nat) (r x ym : Nat)
    (s : hpsjam_input_packetizer) (hF : ∀ z, (F z).length = n) (hn : 0 < n)
    (hr : r = 2 ∨ r = 4 ∨ r = 8) (hx : x < 16) (hxr : x % r = 0) (hym : ym < r)
    (h : fec_pre n F r x ym s) :
    ∃ s', s.recovery = some s' ∧ fec_post F r (group_slot x ym) s' := by
  have hlr : s.last_red = r := h.1
  unfold recovery
  rw [if_neg (by rcases hr with rfl | rfl | rfl <;> omega)]
  rcases hr with rfl | rfl | rfl
  · exact recovery_loop_rebuilds n F 2 x ym hF hn (Or.inl rfl) hx hxr hym 8 257 0 s
      (by decide) (by decide) (fun _ => h) (fun h0 => absurd h0 (Nat.not_lt_zero _))
  · exact recovery_loop_rebuilds n F 4 x ym hF hn (Or.inr (Or.inl rfl)) hx hxr hym 4 257 0 s
      (by decide) (by decide) (fun _ => h) (fun h0 => absurd h0 (Nat.not_lt_zero _))
  · exact recovery_loop_rebuilds n F 8 x ym hF hn (Or.inr (Or.inr rfl)) hx hxr hym 2 257 0 s
      (by decide) (by decide) (fun _ => h) (fun h0 => absurd h0 (Nat.not_lt_zero _))

/-! ## `receive` -/

/-- A payload frame for slot `z` is stored in `current[z]` and flagged. -/
theorem receive_payload (s : hpsjam_input_packetizer) (f : List Nat) (z : Nat) (hz : z < 16)
    (hh : hpsjam_frame.hdr f = hpsjam_header.setSequence z 0) :
    s.receive f =
      { s with
        current := s.current.set z f
        valid := s.valid.set z (s.validAt z ||| HPSJAM_V_GOT_PACKET)
        jitter := s.jitter.rx_packet } := by
  have h1 : hpsjam_header.getSeqNo (hpsjam_frame.hdr f) = z := by
    rw [hh]
    simp only [hpsjam_header.getSeqNo, hpsjam_header.setSequence, HPSJAM_SEQ_MAX]; omega
  have h2 : hpsjam_header.getRedNo (hpsjam_frame.hdr f) = 0 := by
    rw [hh]
    simp only [hpsjam_header.getRedNo, hpsjam_header.setSequence, HPSJAM_SEQ_MAX]; omega
  unfold receive
  simp only [h1, h2, ne_eq, not_true_eq_false, if_false]

/-- A mask frame with an allowed redundancy and an aligned sequence number is
stored in `mask[x]`, flagged, and sets `last_red`. -/
theorem receive_mask (s : hpsjam_input_packetizer) (f : List Nat) (x r : Nat)
    (h1 : hpsjam_header.getSeqNo (hpsjam_frame.hdr f) = x)
    (h2 : hpsjam_header.getRedNo (hpsjam_frame.hdr f) = r) (hr0 : r ≠ 0)
    (hr : HPSJAM_SEQ_MAX % r = 0) (hxr : x % r = 0) :
    s.receive f =
      { s with
        last_red := r
        mask := s.mask.set x f
        valid := s.valid.set x (s.validAt x ||| HPSJAM_V_GOT_XOR_MASK)
        jitter := s.jitter.rx_packet } := by
  unfold receive
  simp only [h1, h2, ne_eq, hr0, not_false_eq_true, if_true, hr, hxr, and_self]

/-- After the payload frames of the slots `group_slot x y`, `y` in `ys`, have
been received, those slots are flagged and hold their frames; the other slots,
the masks and `last_red` are as before. -/
theorem receive_payloads (F : Nat → List Nat) (x : Nat)
    (hF0 : ∀ z, z < 16 → hpsjam_frame.hdr (F z) = hpsjam_header.setSequence z 0) :
    ∀ (ys : List Nat) (st : hpsjam_input_packetizer),
      st.valid.length = HPSJAM_SEQ_MAX → st.current.length = HPSJAM_SEQ_MAX →
      ((ys.map (fun y => F (group_slot x y))).foldl receive st).valid.length = HPSJAM_SEQ_MAX ∧
      ((ys.map (fun y => F (group_slot x y))).foldl receive st).current.length =
        HPSJAM_SEQ_MAX ∧
      ((ys.map (fun y => F (group_slot x y))).foldl receive st).mask = st.mask ∧
      ((ys.map (fun y => F (group_slot x y))).foldl receive st).last_red = st.last_red ∧
      (∀ w, (∀ y ∈ ys, group_slot x y ≠ w) →
        ((ys.map (fun y => F (group_slot x y))).foldl receive st).validAt w = st.validAt w ∧
        ((ys.map (fun y => F (group_slot x y))).foldl receive st).current.getD w [] =
          st.current.getD w []) ∧
      (∀ y ∈ ys,
        ((ys.map (fun y => F (group_slot x y))).foldl receive st).validAt (group_slot x y) &&&
          HPSJAM_V_GOT_PACKET ≠ 0 ∧
        ((ys.map (fun y => F (group_slot x y))).foldl receive st).current.getD
          (group_slot x y) [] = F (group_slot x y)) := by
  intro ys
  induction ys with
  | nil =>
    intro st hv hc
    exact ⟨hv, hc, rfl, rfl, fun _ _ => ⟨rfl, rfl⟩, fun y hy => by simp at hy⟩
  | cons a t ih =>
    intro st hv hc
    have hz : group_slot x a < 16 := group_slot_lt x a
    have hrec := receive_payload st (F (group_slot x a)) (group_slot x a) hz (hF0 _ hz)
    rw [List.map_cons, List.foldl_cons, hrec]
    obtain ⟨i1, i2, i3, i4, i5, i6⟩ := ih
      { st with
        current := st.current.set (group_slot x a) (F (group_slot x a))
        valid := st.valid.set (group_slot x a)
          (st.validAt (group_slot x a) ||| HPSJAM_V_GOT_PACKET)
        jitter := st.jitter.rx_packet }
      (by simp [hv]) (by simp [hc])
    refine ⟨i1, i2, i3, i4, ?_, ?_⟩
    · intro w hw
      obtain ⟨j1, j2⟩ := i5 w (fun y hy => hw y (List.mem_cons_of_mem _ hy))
      have hne := hw a (List.mem_cons_self _ _)
      rw [j1, j2]
      exact ⟨by simp only [validAt]; exact getD_set_ne _ _ _ _ _ hne,
        getD_set_ne _ _ _ _ _ hne⟩
    · intro y hy
      by_cases hin : ∃ y' ∈ t, group_slot x y' = group_slot x y
      · obtain ⟨y', hy', he⟩ := hin
        rw [← he]
        exact i6 y' hy'
      · have hnot : ∀ y' ∈ t, group_slot x y' ≠ group_slot x y :=
          fun y' hy' he => hin ⟨y', hy', he⟩
        have hya : y = a := by
          rcases List.mem_cons.mp hy with h | h
          · exact h
          · exact absurd rfl (hnot y h)
        subst hya
        obtain ⟨j1, j2⟩ := i5 (group_slot x y) hnot
        rw [j1, j2]
        refine ⟨?_, getD_set_self _ _ _ _ (by rw [hc]; exact hz)⟩
        simp only [validAt]
        rw [getD_set_self _ _ _ _ (by rw [hv]; exact hz)]
        have := or_and_self_pow (st.valid.getD (group_slot x y) 0) 0
        simp only [Nat.pow_zero] at this
        simp only [HPSJAM_V_GOT_PACKET, this]
        decide

/-- When all payloads of a group but one and then the mask frame of the group
have been received and the slot of the missing payload is not flagged,
`recovery()` rebuilds that slot. -/
theorem recovery_after_group (MAX_UDP r x ym : Nat) (F : Nat → List Nat)
    (s0 : hpsjam_input_packetizer) (ys : List Nat)
    (hr : r = 2 ∨ r = 4 ∨ r = 8) (hx : x < HPSJAM_SEQ_MAX) (hxr : x % r = 0) (hym : ym < r)
    (hpos : 0 < MAX_UDP) (hF : ∀ z, (F z).length = MAX_UDP)
    (hF0 : ∀ z, z < HPSJAM_SEQ_MAX → hpsjam_frame.hdr (F z) = hpsjam_header.setSequence z 0)
    (hv : s0.valid.length = HPSJAM_SEQ_MAX) (hc : s0.current.length = HPSJAM_SEQ_MAX)
    (hm : s0.mask.length = HPSJAM_SEQ_MAX)
    (hys1 : ∀ y ∈ ys, y < r ∧ y ≠ ym) (hys2 : ∀ y, y < r → y ≠ ym → y ∈ ys)
    (hmiss : s0.validAt (group_slot x ym) &&& HPSJAM_V_GOT_PACKET = 0) :
    ∃ s', (((ys.map (fun y => F (group_slot x y))) ++ [group_mask MAX_UDP F x r]).foldl
        receive s0).recovery = some s' ∧
      s'.validAt (group_slot x ym) &&& HPSJAM_V_GOT_PACKET ≠ 0 ∧
      ∀ i, 1 ≤ i →
        (s'.current.getD (group_slot x ym) []).getD i 0 = (F (group_slot x ym)).getD i 0 := by
  simp only [HPSJAM_SEQ_MAX] at hx hF0
  have hr16 : r < 16 := by rcases hr with rfl | rfl | rfl <;> decide
  obtain ⟨i1, i2, i3, i4, i5, i6⟩ := receive_payloads F x hF0 ys s0 hv hc
  obtain ⟨m1, m2⟩ := group_mask_red MAX_UDP F x r hF hpos hr16 hx
  have hrm := receive_mask ((ys.map (fun y => F (group_slot x y))).foldl receive s0)
    (group_mask MAX_UDP F x r) x r m2 m1 (by rcases hr with rfl | rfl | rfl <;> decide)
    (by rcases hr with rfl | rfl | rfl <;> decide) hxr
  have hxne : ∀ y, y < r → group_slot x y ≠ x := by
    intro y hy
    simp only [group_slot, HPSJAM_SEQ_MAX]
    omega
  have hpre : fec_pre MAX_UDP F r x ym
      (((ys.map (fun y => F (group_slot x y))) ++ [group_mask MAX_UDP F x r]).foldl
        receive s0) := by
    rw [List.foldl_append, List.foldl_cons, List.foldl_nil, hrm]
    refine ⟨rfl, by simp [i1], i2, by simp [i3, hm], ?_, ?_, ?_, ?_⟩
    · simp only [validAt]
      rw [getD_set_self _ _ _ _ (by rw [i1]; exact hx)]
      have := or_and_self_pow
        (((ys.map (fun y => F (group_slot x y))).foldl receive s0).valid.getD x 0) 1
      simp only [Nat.pow_one] at this
      simp only [HPSJAM_V_GOT_XOR_MASK, this]
      decide
    · exact getD_set_self _ _ _ _ (by rw [i3, hm]; exact hx)
    · intro y hy hne
      obtain ⟨j1, j2⟩ := i6 y (hys2 y hy hne)
      refine ⟨?_, j2⟩
      simp only [validAt]
      rw [getD_set_ne _ _ _ _ _ (Ne.symm (hxne y hy))]
      exact j1
    · simp only [validAt]
      rw [getD_set_ne _ _ _ _ _ (Ne.symm (hxne ym hym))]
      have := (i5 (group_slot x ym) (fun y hy =>
        group_slot_inj x y ym hx (by have := (hys1 y hy).1; omega) (by omega)
          (hys1 y hy).2)).1
      simp only [validAt] at this hmiss
      rw [this]
      exact hmiss
  obtain ⟨s', e, p⟩ := recovery_rebuilds MAX_UDP F r x ym _ hF hpos hr hx hxr hym hpre
  exact ⟨s', e, p.2.2.2.2.1, p.2.2.2.2.2⟩

/-- Two payload frames for different slots can be received in either order. -/
theorem receive_payload_comm (s : hpsjam_input_packetizer) (a b : List Nat) (za zb : Nat)
    (hza : za < 16) (hzb : zb < 16)
    (ha : hpsjam_frame.hdr a = hpsjam_header.setSequence za 0)
    (hb : hpsjam_frame.hdr b = hpsjam_header.setSequence zb 0) (hne : za ≠ zb) :
    (s.receive a).receive b = (s.receive b).receive a := by
  rw [receive_payload s a za hza ha, receive_payload _ b zb hzb hb,
    receive_payload s b zb hzb hb, receive_payload _ a za hza ha]
  have e1 : (s.current.set za a).set zb b = (s.current.set zb b).set za a :=
    List.set_comm _ _ _ hne
  have e2 : (s.valid.set za (s.valid.getD za 0 ||| HPSJAM_V_GOT_PACKET)).set zb
        (s.valid.getD zb 0 ||| HPSJAM_V_GOT_PACKET) =
      (s.valid.set zb (s.valid.getD zb 0 ||| HPSJAM_V_GOT_PACKET)).set za
        (s.valid.getD za 0 ||| HPSJAM_V_GOT_PACKET) := List.set_comm _ _ _ hne
  simp only [validAt, getD_set_ne _ _ _ _ _ hne, getD_set_ne _ _ _ _ _ (Ne.symm hne), e1, e2]

/-- A payload frame and an accepted mask frame for different slots can be
received in either order. -/
theorem receive_payload_mask_comm (s : hpsjam_input_packetizer) (a m : List Nat)
    (za x r : Nat) (hza : za < 16)
    (ha : hpsjam_frame.hdr a = hpsjam_header.setSequence za 0)
    (h1 : hpsjam_header.getSeqNo (hpsjam_frame.hdr m) = x)
    (h2 : hpsjam_header.getRedNo (hpsjam_frame.hdr m) = r) (hr0 : r ≠ 0)
    (hr : HPSJAM_SEQ_MAX % r = 0) (hxr : x % r = 0) (hne : za ≠ x) :
    (s.receive a).receive m = (s.receive m).receive a := by
  rw [receive_payload s a za hza ha, receive_mask _ m x r h1 h2 hr0 hr hxr,
    receive_mask s m x r h1 h2 hr0 hr hxr, receive_payload _ a za hza ha]
  have e2 : (s.valid.set za (s.valid.getD za 0 ||| HPSJAM_V_GOT_PACKET)).set x
        (s.valid.getD x 0 ||| HPSJAM_V_GOT_XOR_MASK) =
      (s.valid.set x (s.valid.getD x 0 ||| HPSJAM_V_GOT_XOR_MASK)).set za
        (s.valid.getD za 0 ||| HPSJAM_V_GOT_PACKET) := List.set_comm _ _ _ hne
  simp only [validAt, getD_set_ne _ _ _ _ _ hne, getD_set_ne _ _ _ _ _ (Ne.symm hne), e2]

/-- The payload frames of a group and its mask frame can be received in any
order: the state left is the same. -/
theorem receive_group_any_order (MAX_UDP r x : Nat) (F : Nat → List Nat) (ys : List Nat)
    (hr : r = 2 ∨ r = 4 ∨ r = 8) (hx : x < 16) (hxr : x % r = 0) (hpos : 0 < MAX_UDP)
    (hF : ∀ z, (F z).length = MAX_UDP)
    (hF0 : ∀ z, z < 16 → hpsjam_frame.hdr (F z) = hpsjam_header.setSequence z 0)
    (hys : ∀ y ∈ ys, y < r) (frames : List (List Nat))
    (hperm : frames.Perm ((ys.map (fun y => F (group_slot x y))) ++ [group_mask MAX_UDP F x r]))
    (s : hpsjam_input_packetizer) :
    frames.foldl receive s =
      ((ys.map (fun y => F (group_slot x y))) ++ [group_mask MAX_UDP F x r]).foldl receive s := by
  have hr16 : r < 16 := by rcases hr with rfl | rfl | rfl <;> decide
  have hr0 : r ≠ 0 := by rcases hr with rfl | rfl | rfl <;> decide
  have hrd : HPSJAM_SEQ_MAX % r = 0 := by rcases hr with rfl | rfl | rfl <;> decide
  obtain ⟨m1, m2⟩ := group_mask_red MAX_UDP F x r hF hpos hr16 hx
  have hxne : ∀ y, y < r → group_slot x y ≠ x := by
    intro y hy
    simp only [group_slot, HPSJAM_SEQ_MAX]
    omega
  have hmem : ∀ a ∈ (ys.map (fun y => F (group_slot x y))) ++ [group_mask MAX_UDP F x r],
      (∃ y, y < r ∧ a = F (group_slot x y)) ∨ a = group_mask MAX_UDP F x r := by
    intro a ha
    rcases List.mem_append.mp ha with h | h
    · obtain ⟨y, hy, rfl⟩ := List.mem_map.mp h
      exact Or.inl ⟨y, hys y hy, rfl⟩
    · exact Or.inr (List.mem_singleton.mp h)
  have hcomm : ∀ a ∈ (ys.map (fun y => F (group_slot x y))) ++ [group_mask MAX_UDP F x r],
      ∀ b ∈ (ys.map (fun y => F (group_slot x y))) ++ [group_mask MAX_UDP F x r],
      ∀ z : hpsjam_input_packetizer, (z.receive a).receive b = (z.receive b).receive a := by
    intro a ha b hb z
    rcases hmem a ha with ⟨ya, hya, rfl⟩ | rfl
    · rcases hmem b hb with ⟨yb, hyb, rfl⟩ | rfl
      · by_cases he : group_slot x ya = group_slot x yb
        · rw [he]
        · exact receive_payload_comm z _ _ _ _ (group_slot_lt x ya) (group_slot_lt x yb)
            (hF0 _ (group_slot_lt x ya)) (hF0 _ (group_slot_lt x yb)) he
      · exact receive_payload_mask_comm z _ _ _ x r (group_slot_lt x ya)
          (hF0 _ (group_slot_lt x ya)) m2 m1 hr0 hrd hxr (hxne ya hya)
    · rcases hmem b hb with ⟨yb, hyb, rfl⟩ | rfl
      · exact (receive_payload_mask_comm z _ _ _ x r (group_slot_lt x yb)
          (hF0 _ (group_slot_lt x yb)) m2 m1 hr0 hrd hxr (hxne yb hyb)).symm
      · rfl
  exact (List.Perm.foldl_eq' hperm.symm hcomm s).symm

/-- C2 (amended): for a redundancy `r` in {2, 4, 8} and an aligned group of `r`
payload frames `F`, when the mask frame of the group (their XOR under the
header `(x, r)`) and all payloads of the group but one have been received, in
any order, and the slot of the missing payload is not flagged, `recovery()`
returns with `GOT_PACKET` set on that slot and with every byte after the
header byte equal to the byte of the frame that was sent. -/
theorem fec_recovery (MAX_UDP r x ym : Nat) (F : Nat → List Nat)
    (s0 : hpsjam_input_packetizer) (ys : List Nat) (frames : List (List Nat))
    (hr : r = 2 ∨ r = 4 ∨ r = 8) (hx : x < HPSJAM_SEQ_MAX) (hxr : x % r = 0) (hym : ym < r)
    (hpos : 0 < MAX_UDP) (hF : ∀ z, (F z).length = MAX_UDP)
    (hF0 : ∀ z, z < HPSJAM_SEQ_MAX → hpsjam_frame.hdr (F z) = hpsjam_header.setSequence z 0)
    (hv : s0.valid.length = HPSJAM_SEQ_MAX) (hc : s0.current.length = HPSJAM_SEQ_MAX)
    (hm : s0.mask.length = HPSJAM_SEQ_MAX)
    (hys1 : ∀ y ∈ ys, y < r ∧ y ≠ ym) (hys2 : ∀ y, y < r → y ≠ ym → y ∈ ys)
    (hperm : frames.Perm
      ((ys.map (fun y => F (group_slot x y))) ++ [group_mask MAX_UDP F x r]))
    (hmiss : s0.validAt (group_slot x ym) &&& HPSJAM_V_GOT_PACKET = 0) :
    ∃ s', (frames.foldl receive s0).recovery = some s' ∧
      s'.validAt (group_slot x ym) &&& HPSJAM_V_GOT_PACKET ≠ 0 ∧
      ∀ i, 1 ≤ i →
        (s'.current.getD (group_slot x ym) []).getD i 0 = (F (group_slot x ym)).getD i 0 := by
  rw [receive_group_any_order MAX_UDP r x F ys hr hx hxr hpos hF hF0
    (fun y hy => (hys1 y hy).1) frames hperm s0]
  exact recovery_after_group MAX_UDP r x ym F s0 ys hr hx hxr hym hpos hF hF0 hv hc hm hys1 hys2
    hmiss

theorem fec_recovery_witness :
    ∃ s', ([group_mask 8 example_payload 2 2, example_payload (group_slot 2 1)].foldl receive
        (init 8)).recovery = some s' ∧
      s'.validAt (group_slot 2 0) &&& HPSJAM_V_GOT_PACKET ≠ 0 ∧
      ∀ i, 1 ≤ i →
        (s'.current.getD (group_slot 2 0) []).getD i 0 =
          (example_payload (group_slot 2 0)).getD i 0 :=
  fec_recovery 8 2 2 0 example_payload (init 8) [1]
    [group_mask 8 example_payload 2 2, example_payload (group_slot 2 1)]
    (by decide) (by decide) (by decide)
    (by decide) (by decide) (fun _ => rfl)
    (fun z hz => by
      simp only [HPSJAM_SEQ_MAX] at hz
      simp only [example_payload, hpsjam_frame.hdr, hpsjam_header.setSequence, HPSJAM_SEQ_MAX,
        List.getD_cons_zero]
      omega)
    (by decide) (by decide) (by decide) (by decide)
    (fun y hy hne => by
      have : y = 1 := by omega
      simp [this])
    (List.Perm.swap _ _ _)
    (by decide)

/-- C2 as stated fails for the redundancy `r = 1`, a divisor of `SEQ_MAX`: the
mask frame of the one-payload group before slot 1 is accepted (`last_red = 1`,
`GOT_XOR_MASK` set on slot 1) and the payload of slot 0 is missing, but
`recovery()` returns at once and slot 0 stays without `GOT_PACKET`. -/
theorem fec_recovery_fails_for_red_one :
    ((init 8).receive (group_mask 8 example_payload 1 1)).last_red = 1 ∧
    ((init 8).receive (group_mask 8 example_payload 1 1)).validAt 1 &&&
      HPSJAM_V_GOT_XOR_MASK ≠ 0 ∧
    (((init 8).receive (group_mask 8 example_payload 1 1)).recovery).map
      (fun s' => s'.validAt (group_slot 1 0) &&& HPSJAM_V_GOT_PACKET) = some 0 := by
  decide

/-! ## `first_pkt` depends on the flags only -/

theorem min_rotation_congr {s t : hpsjam_input_packetizer} (h1 : s.valid = t.valid)
    (h2 : s.last_red = t.last_red) : s.min_rotation = t.min_rotation := by
  simp only [min_rotation, packet_bitmap, validAt, h1, h2]

theorem consumable_congr {s t : hpsjam_input_packetizer} (h1 : s.valid = t.valid)
    (h2 : s.last_red = t.last_red) (m : Nat) : s.consumable m = t.consumable m := by
  simp only [consumable, validAt, h1, h2]

theorem keep_fold_fields (m : Nat) :
    ∀ (l : List Nat) (st su : hpsjam_input_packetizer), st.valid = su.valid →
      (l.foldl
        (fun st x =>
          { st with valid := (st.valid.set ((m + x) % HPSJAM_SEQ_MAX)
              (st.validAt ((m + x) % HPSJAM_SEQ_MAX) &&& HPSJAM_V_GOT_RECEIVED)) }) st).valid =
        (l.foldl
          (fun st x =>
            { st with valid := (st.valid.set ((m + x) % HPSJAM_SEQ_MAX)
                (st.validAt ((m + x) % HPSJAM_SEQ_MAX) &&& HPSJAM_V_GOT_RECEIVED)) }) su).valid ∧
      (l.foldl
        (fun st x =>
          { st with valid := (st.valid.set ((m + x) % HPSJAM_SEQ_MAX)
              (st.validAt ((m + x) % HPSJAM_SEQ_MAX) &&& HPSJAM_V_GOT_RECEIVED)) }) st).current =
        st.current ∧
      (l.foldl
        (fun st x =>
          { st with valid := (st.valid.set ((m + x) % HPSJAM_SEQ_MAX)
              (st.validAt ((m + x) % HPSJAM_SEQ_MAX) &&& HPSJAM_V_GOT_RECEIVED)) }) st).mask =
        st.mask ∧
      (l.foldl
        (fun st x =>
          { st with valid := (st.valid.set ((m + x) % HPSJAM_SEQ_MAX)
              (st.validAt ((m + x) % HPSJAM_SEQ_MAX) &&& HPSJAM_V_GOT_RECEIVED)) }) st).jitter =
        st.jitter ∧
      (l.foldl
        (fun st x =>
          { st with valid := (st.valid.set ((m + x) % HPSJAM_SEQ_MAX)
              (st.validAt ((m + x) % HPSJAM_SEQ_MAX) &&& HPSJAM_V_GOT_RECEIVED)) }) st).last_red =
        st.last_red := by
  intro l
  induction l with
  | nil => intro st su h; exact ⟨h, rfl, rfl, rfl, rfl⟩
  | cons a t ih =>
    intro st su h
    rw [List.foldl_cons, List.foldl_cons]
    obtain ⟨h1, h2, h3, h4, h5⟩ := ih
      { st with valid := (st.valid.set ((m + a) % HPSJAM_SEQ_MAX)
          (st.validAt ((m + a) % HPSJAM_SEQ_MAX) &&& HPSJAM_V_GOT_RECEIVED)) }
      { su with valid := (su.valid.set ((m + a) % HPSJAM_SEQ_MAX)
          (su.validAt ((m + a) % HPSJAM_SEQ_MAX) &&& HPSJAM_V_GOT_RECEIVED)) }
      (by simp only [validAt, h])
    exact ⟨h1, h2, h3, h4, h5⟩

/-- The loop "only keep the received flag" changes the flags only, and the
same way in two states with the same flags. -/
theorem keep_received_fields (s t : hpsjam_input_packetizer) (m : Nat)
    (h1 : s.valid = t.valid) (h2 : s.last_red = t.last_red) :
    (s.keep_received m).valid = (t.keep_received m).valid ∧
    (s.keep_received m).current = s.current ∧ (s.keep_received m).mask = s.mask ∧
    (s.keep_received m).jitter = s.jitter ∧ (s.keep_received m).last_red = s.last_red := by
  unfold keep_received
  rw [← h2]
  exact keep_fold_fields m (List.range s.last_red) s t h1

/-- Handing out a slot changes the flags the same way in two states with the
same flags; the frames are touched only when a silence frame is made, which
counts one damage. -/
theorem deliver_fields (M M' : Nat) (s t : hpsjam_input_packetizer) (z : Nat)
    (h1 : s.valid = t.valid) :
    (deliver M s z).valid = (deliver M' t z).valid ∧
    (deliver M s z).last_red = s.last_red ∧ (deliver M s z).mask = s.mask ∧
    (deliver M s z).jitter.damages =
      s.jitter.damages + (if cnot (s.validAt z) &&& HPSJAM_V_GOT_PACKET ≠ 0 then 1 else 0) ∧
    (¬ cnot (s.validAt z) &&& HPSJAM_V_GOT_PACKET ≠ 0 → (deliver M s z).current = s.current) := by
  have hv : ∀ w, s.validAt w = t.validAt w := fun w => by simp only [validAt, h1]
  by_cases hc : cnot (s.validAt z) &&& HPSJAM_V_GOT_PACKET ≠ 0
  · have hc' : cnot (t.validAt z) &&& HPSJAM_V_GOT_PACKET ≠ 0 := by rw [← hv]; exact hc
    simp only [deliver, if_pos hc, if_pos hc']
    refine ⟨?_, trivial, trivial, ?_, fun h => absurd hc h⟩
    · simp only [validAt, h1]
    · simp only [hpsjam_jitter.rx_damage, hpsjam_jitter.rx_loss]
  · have hc' : ¬ cnot (t.validAt z) &&& HPSJAM_V_GOT_PACKET ≠ 0 := by rw [← hv]; exact hc
    simp only [deliver, if_neg hc, if_neg hc']
    refine ⟨?_, trivial, trivial, ?_, fun _ => trivial⟩
    · simp only [validAt, h1]
    · simp

/-- The `while` loop of `first_pkt` takes the same course in two states with
the same flags: it hands out the same slot and leaves the same flags. The
masks are kept, and the frames too unless a silence frame is made, which the
damage count shows. -/
theorem first_pkt_loop_transfer (M M' : Nat) :
    ∀ (fuel : Nat) (s t : hpsjam_input_packetizer) (start m : Nat),
      s.valid = t.valid → s.last_red = t.last_red →
      ∀ t' r, first_pkt_loop M' fuel t start m = some (t', r) →
        t.jitter.damages ≤ t'.jitter.damages ∧
        ∃ s', first_pkt_loop M fuel s start m = some (s', r) ∧
          s'.valid = t'.valid ∧ s'.last_red = t'.last_red ∧ s'.mask = s.mask ∧
          (t'.jitter.damages = t.jitter.damages →
            s'.current = s.current ∧ s'.jitter.damages = s.jitter.damages) := by
  intro fuel
  induction fuel with
  | zero => intro s t start m _ _ t' r h; simp [first_pkt_loop] at h
  | succ fuel ih =>
    intro s t start m h1 h2 t' r h
    have hv : ∀ w, s.validAt w = t.validAt w := fun w => by simp only [validAt, h1]
    rw [first_pkt_loop] at h ⊢
    simp only [] at h ⊢
    have hred : red_mask s.last_red = red_mask t.last_red := by rw [h2]
    rw [hred, hv m]
    by_cases hc : start &&& red_mask t.last_red = red_mask t.last_red ∨
        start &&& cnot (red_mask t.last_red) ≠ 0
    · rw [if_pos hc] at h ⊢
      -- the loss accounting changes the meter only
      obtain ⟨s1, es, a1, a2, a3, a4, a5⟩ :
          ∃ s1, (if t.validAt m &&& HPSJAM_V_GOT_RECEIVED = 0 ∧
              t.validAt m &&& HPSJAM_V_GOT_XOR_MASK = 0
            then { s with jitter := s.jitter.rx_loss } else s) = s1 ∧
            s1.valid = s.valid ∧ s1.last_red = s.last_red ∧ s1.mask = s.mask ∧
            s1.current = s.current ∧ s1.jitter.damages = s.jitter.damages := by
        split
        · exact ⟨_, rfl, rfl, rfl, rfl, rfl, rfl⟩
        · exact ⟨_, rfl, rfl, rfl, rfl, rfl, rfl⟩
      obtain ⟨t1, et, b1, b2, _, _, b5⟩ :
          ∃ t1, (if t.validAt m &&& HPSJAM_V_GOT_RECEIVED = 0 ∧
              t.validAt m &&& HPSJAM_V_GOT_XOR_MASK = 0
            then { t with jitter := t.jitter.rx_loss } else t) = t1 ∧
            t1.valid = t.valid ∧ t1.last_red = t.last_red ∧ t1.mask = t.mask ∧
            t1.current = t.current ∧ t1.jitter.damages = t.jitter.damages := by
        split
        · exact ⟨_, rfl, rfl, rfl, rfl, rfl, rfl⟩
        · exact ⟨_, rfl, rfl, rfl, rfl, rfl, rfl⟩
      rw [et] at h
      rw [es]
      have hv1 : s1.valid = t1.valid := by rw [a1, b1, h1]
      have hl1 : s1.last_red = t1.last_red := by rw [a2, b2, h2]
      rw [consumable_congr hv1 hl1 m]
      cases hcons : t1.consumable m with
      | some z =>
        rw [hcons] at h
        simp only [Option.some.injEq, Prod.mk.injEq] at h
        obtain ⟨ht', hr⟩ := h
        subst ht' hr
        obtain ⟨d1, d2, d3, d4, d5⟩ := deliver_fields M M' s1 t1 z hv1
        obtain ⟨_, e2, _, e4, _⟩ := deliver_fields M' M' t1 t1 z rfl
        refine ⟨by rw [e4, b5]; omega, deliver M s1 z, rfl, d1, by rw [d2, e2, hl1],
          by rw [d3, a3], ?_⟩
        intro hd
        rw [e4, b5] at hd
        have hns : ¬ cnot (s1.validAt z) &&& HPSJAM_V_GOT_PACKET ≠ 0 := by
          have : s1.validAt z = t1.validAt z := by simp only [validAt, hv1]
          rw [this]
          intro hc'
          rw [if_pos hc'] at hd
          omega
        exact ⟨by rw [d5 hns, a4], by rw [d4, if_neg hns, a5]; rfl⟩
      | none =>
        rw [hcons] at h
        simp only [] at h ⊢
        obtain ⟨k1, k2, k3, k4, k5⟩ := keep_received_fields s1 t1 m hv1 hl1
        obtain ⟨_, _, _, l4, l5⟩ := keep_received_fields t1 t1 m rfl rfl
        rw [hl1]
        obtain ⟨i1, s', i2, i3, i4, i5, i6⟩ := ih (s1.keep_received m) (t1.keep_received m)
          (start >>> t1.last_red) ((m + t1.last_red) % HPSJAM_SEQ_MAX) k1
          (by rw [k5, l5, hl1]) t' r h
        rw [l4, b5] at i1 i6
        refine ⟨i1, s', i2, i3, i4, by rw [i5, k3, a3], ?_⟩
        intro hd
        obtain ⟨j1, j2⟩ := i6 hd
        exact ⟨by rw [j1, k2, a4], by rw [j2, k4, a5]⟩
    · rw [if_neg hc] at h ⊢
      simp only [Option.some.injEq, Prod.mk.injEq] at h
      obtain ⟨ht', hr⟩ := h
      subst ht' hr
      exact ⟨Nat.le_refl _, s, rfl, h1, h2, rfl, fun _ => ⟨rfl, rfl⟩⟩

/-- The method `first_pkt` takes the same course in two states with the same
flags. -/
theorem first_pkt_transfer (M M' : Nat) (s t : hpsjam_input_packetizer)
    (h1 : s.valid = t.valid) (h2 : s.last_red = t.last_red)
    (t' : hpsjam_input_packetizer) (r : Option Nat)
    (h : t.first_pkt M' = some (t', r)) :
    t.jitter.damages ≤ t'.jitter.damages ∧
    ∃ s', s.first_pkt M = some (s', r) ∧
      s'.valid = t'.valid ∧ s'.last_red = t'.last_red ∧ s'.mask = s.mask ∧
      (t'.jitter.damages = t.jitter.damages →
        s'.current = s.current ∧ s'.jitter.damages = s.jitter.damages) := by
  unfold first_pkt at h ⊢
  rw [min_rotation_congr h1 h2]
  exact first_pkt_loop_transfer M M' _ s t _ _ h1 h2 t' r h

/-- Draining two states with the same flags hands out the same slots; when no
silence frame is made the frames handed out are those held at the start. -/
theorem drain_transfer (M M' : Nat) :
    ∀ (fuel : Nat) (s t : hpsjam_input_packetizer),
      s.valid = t.valid → s.last_red = t.last_red →
      ∀ t' pt, drain M' fuel t = some (t', pt) →
        t.jitter.damages ≤ t'.jitter.damages ∧
        (t'.jitter.damages = t.jitter.damages →
          ∃ s', drain M fuel s = some (s', pt.map (fun p => (p.1, s.current.getD p.1 []))) ∧
            s'.valid = t'.valid ∧ s'.last_red = t'.last_red ∧ s'.mask = s.mask ∧
            s'.current = s.current ∧ s'.jitter.damages = s.jitter.damages) := by
  intro fuel
  induction fuel with
  | zero => intro s t _ _ t' pt h; simp [drain] at h
  | succ fuel ih =>
    intro s t h1 h2 t' pt h
    rw [drain] at h ⊢
    cases hf : t.first_pkt M' with
    | none => rw [hf] at h; simp at h
    | some res =>
      obtain ⟨t1, r⟩ := res
      obtain ⟨m1, s1, f1, f2, f3, f4, f5⟩ := first_pkt_transfer M M' s t h1 h2 t1 r hf
      rw [hf] at h
      rw [f1]
      cases r with
      | none =>
        simp only [Option.some.injEq, Prod.mk.injEq] at h
        obtain ⟨ht', hpt⟩ := h
        subst ht' hpt
        refine ⟨m1, fun hd => ?_⟩
        obtain ⟨g1, g2⟩ := f5 hd
        exact ⟨s1, rfl, f2, f3, f4, g1, g2⟩
      | some z =>
        simp only [] at h ⊢
        cases hdr : drain M' fuel t1 with
        | none => rw [hdr] at h; simp at h
        | some res2 =>
          obtain ⟨t2, pt2⟩ := res2
          rw [hdr] at h
          simp only [Option.map_some', Option.some.injEq, Prod.mk.injEq] at h
          obtain ⟨ht', hpt⟩ := h
          subst ht' hpt
          obtain ⟨m2, k⟩ := ih s1 t1 f2 f3 t2 pt2 hdr
          refine ⟨Nat.le_trans m1 m2, fun hd => ?_⟩
          have hd1 : t1.jitter.damages = t.jitter.damages := by omega
          have hd2 : t2.jitter.damages = t1.jitter.damages := by omega
          obtain ⟨g1, g2⟩ := f5 hd1
          obtain ⟨s2, k1, k2, k3, k4, k5, k6⟩ := k hd2
          refine ⟨s2, ?_, k2, k3, by rw [k4, f4], by rw [k5, g1], by rw [k6, g2]⟩
          rw [k1]
          simp only [Option.map_some', List.map_cons, g1]

/-! ## `recovery` when nothing can be recovered, and `feed` on the flags -/

theorem recovery_idle_congr {s t : hpsjam_input_packetizer} (h1 : s.valid = t.valid)
    (h2 : s.last_red = t.last_red) : recovery_idle s = recovery_idle t := by
  simp only [recovery_idle, rx_missing, validAt, h1, h2]

/-- In an idle state the body of the outer loop of `recovery` changes
nothing. -/
theorem recovery_group_idle (s : hpsjam_input_packetizer) (hi : recovery_idle s = true)
    (hl : 1 < s.last_red) (x : Nat) : s.recovery_group x = s := by
  simp only [recovery_idle, Bool.or_eq_true, decide_eq_true_eq, Bool.and_eq_true,
    List.all_eq_true, List.mem_range] at hi
  rcases hi with hi | ⟨hlen, hall⟩
  · omega
  · have hx : cnot (s.validAt x) &&& HPSJAM_V_GOT_XOR_MASK ≠ 0 ∨ s.rx_missing x ≠ 1 := by
      rcases Nat.lt_or_ge x HPSJAM_SEQ_MAX with h | h
      · exact hall x h
      · left
        have : s.validAt x = 0 := by
          simp only [validAt, List.getD_eq_getElem?_getD]
          rw [List.getElem?_eq_none (by omega)]
          rfl
        rw [this]
        decide
    unfold recovery_group
    rcases hx with hx | hx
    · rw [if_pos hx]
    · split
      · rfl
      · split
        · rfl
        · rfl

theorem recovery_loop_idle (s t : hpsjam_input_packetizer)
    (hs : ∀ x, s.recovery_group x = s) (ht : ∀ x, t.recovery_group x = t)
    (h2 : s.last_red = t.last_red) :
    ∀ (fuel x : Nat) (t' : hpsjam_input_packetizer),
      recovery_loop fuel t x = some t' → recovery_loop fuel s x = some s := by
  intro fuel
  induction fuel with
  | zero => intro x t' h; simp [recovery_loop] at h
  | succ fuel ih =>
    intro x t' h
    rw [recovery_loop] at h ⊢
    by_cases hx : x = HPSJAM_SEQ_MAX
    · rw [if_pos hx]
    · rw [if_neg hx] at h ⊢
      rw [ht x] at h
      rw [hs x, h2]
      exact ih _ t' h

/-- When `recovery` returns in an idle state, it returns, without any change,
in every state with the same flags. -/
theorem recovery_transfer (s t : hpsjam_input_packetizer) (h1 : s.valid = t.valid)
    (h2 : s.last_red = t.last_red) (hi : recovery_idle t = true)
    (t' : hpsjam_input_packetizer) (h : t.recovery = some t') : s.recovery = some s := by
  unfold recovery at h ⊢
  by_cases hl : s.last_red ≤ 1
  · rw [if_pos hl]
  · rw [if_neg hl]
    rw [if_neg (by rw [← h2]; exact hl)] at h
    have his : recovery_idle s = true := by rw [recovery_idle_congr h1 h2]; exact hi
    exact recovery_loop_idle s t (recovery_group_idle s his (by omega))
      (recovery_group_idle t hi (by omega)) h2 257 0 t' h

/-- The flags after `receive` depend on the flags before and the header byte
of the frame; the damage count is kept. -/
theorem receive_congr (s t : hpsjam_input_packetizer) (f g : List Nat)
    (h1 : s.valid = t.valid) (h2 : s.last_red = t.last_red)
    (hh : hpsjam_frame.hdr f = hpsjam_frame.hdr g) :
    (s.receive f).valid = (t.receive g).valid ∧
    (s.receive f).last_red = (t.receive g).last_red ∧
    (s.receive f).jitter.damages = s.jitter.damages := by
  unfold receive
  simp only [hh, validAt, h1, h2]
  refine ⟨?_, ?_, ?_⟩
  · split
    · split
      · rfl
      · exact h1
    · rfl
  · split
    · split
      · rfl
      · exact h2
    · rfl
  · split
    · split <;> rfl
    · rfl

/-- When the step on the flags is defined, `feed` returns: the flags move as
computed, the slots handed out are those computed, each with the frame held
after `receive`, and no silence frame is made. -/
theorem feed_of_ctl_feed (M : Nat) (s : hpsjam_input_packetizer) (f : List Nat)
    (c' : List Nat × Nat) (zs : List Nat)
    (h : ctl_feed (s.valid, s.last_red) (hpsjam_frame.hdr f) = some (c', zs)) :
    ∃ s', feed M s f = some (s', zs.map (fun z => (z, (s.receive f).current.getD z []))) ∧
      s'.valid = c'.1 ∧ s'.last_red = c'.2 ∧ s'.current = (s.receive f).current ∧
      s'.mask = (s.receive f).mask ∧ s'.jitter.damages = s.jitter.damages := by
  obtain ⟨r1, r2, r3⟩ := receive_congr s (skel s.valid s.last_red) f [hpsjam_frame.hdr f]
    rfl rfl rfl
  have hd0 : ((skel s.valid s.last_red).receive [hpsjam_frame.hdr f]).jitter.damages = 0 :=
    (receive_congr (skel s.valid s.last_red) (skel s.valid s.last_red) _ _ rfl rfl rfl).2.2
  unfold ctl_feed at h
  simp only [] at h
  generalize ht1 : (skel s.valid s.last_red).receive [hpsjam_frame.hdr f] = t1 at h r1 r2 hd0
  by_cases hi : recovery_idle t1 = true
  · rw [if_pos hi] at h
    cases hrec : t1.recovery with
    | none => rw [hrec] at h; simp at h
    | some t1' =>
      rw [hrec] at h
      simp only [] at h
      cases hdr : drain 0 (2 * HPSJAM_SEQ_MAX + 1) t1 with
      | none => rw [hdr] at h; simp at h
      | some res =>
        obtain ⟨t, pt⟩ := res
        rw [hdr] at h
        simp only [] at h
        by_cases hd : t.jitter.damages = 0
        · rw [if_pos hd] at h
          simp only [Option.some.injEq, Prod.mk.injEq] at h
          obtain ⟨hc', hzs⟩ := h
          subst hc' hzs
          have hs1 := recovery_transfer (s.receive f) t1 r1 r2 hi t1' hrec
          obtain ⟨_, k⟩ := drain_transfer M 0 _ (s.receive f) t1 r1 r2 t pt hdr
          obtain ⟨s', k1, k2, k3, k4, k5, k6⟩ := k (by rw [hd, hd0])
          refine ⟨s', ?_, k2, k3, k5, k4, by rw [k6, r3]⟩
          unfold feed
          rw [hs1]
          simp only [Option.some_bind, k1, List.map_map]
          rfl
        · rw [if_neg hd] at h; simp at h
  · rw [if_neg hi] at h; simp at h

/-! ## The run on the flags is periodic -/

theorem hdr_of_period (d q n : Nat) (hq : q * d = HPSJAM_SEQ_MAX) :
    hdr_of d (n + q * (d + 1)) = hdr_of d n := by
  unfold hdr_of hpsjam_header.setSequence
  rw [Nat.add_mul_mod_self_right, Nat.add_mul_div_right _ _ (Nat.succ_pos d)]
  have e1 : (n / (d + 1) + q + 1) * d = (n / (d + 1) + 1) * d + HPSJAM_SEQ_MAX := by
    rw [← hq]; ring
  have e2 : (n / (d + 1) + q) * d + n % (d + 1)
      = n / (d + 1) * d + n % (d + 1) + HPSJAM_SEQ_MAX := by
    rw [← hq]; ring
  rw [e1, e2, Nat.add_mod_right, Nat.add_mod_right]

theorem payloads_in_period (d q n : Nat) (hq : q * d = HPSJAM_SEQ_MAX) :
    payloads_in d (n + q * (d + 1)) = payloads_in d n + HPSJAM_SEQ_MAX := by
  unfold payloads_in
  rw [Nat.add_mul_mod_self_right, Nat.add_mul_div_right _ _ (Nat.succ_pos d), ← hq]
  ring

theorem lag_step_period (d q : Nat) (hq : q * d = HPSJAM_SEQ_MAX) (a : lag_state) (n : Nat) :
    lag_step d a (n + q * (d + 1)) = lag_step d a n := by
  have h1 : (n + q * (d + 1)) % (d + 1) = n % (d + 1) := Nat.add_mul_mod_self_right _ _ _
  have h2 : (n + q * (d + 1) + 1) % (d + 1) = (n + 1) % (d + 1) := by
    rw [Nat.add_right_comm]; exact Nat.add_mul_mod_self_right _ _ _
  have h3 : payloads_in d (n + q * (d + 1) + 1) % HPSJAM_SEQ_MAX
      = payloads_in d (n + 1) % HPSJAM_SEQ_MAX := by
    rw [Nat.add_right_comm, payloads_in_period d q _ hq, Nat.add_mod_right]
  unfold lag_step
  rw [h1, h2, h3, hdr_of_period d q n hq]

theorem lag_run_period (d q n0 : Nat) (hq : q * d = HPSJAM_SEQ_MAX)
    (h0 : lag_run d (n0 + q * (d + 1)) = lag_run d n0) :
    ∀ k, lag_run d (n0 + k + q * (d + 1)) = lag_run d (n0 + k) := by
  intro k
  induction k with
  | zero => exact h0
  | succ k ih =>
    have e : n0 + (k + 1) + q * (d + 1) = (n0 + k + q * (d + 1)) + 1 := by ring
    rw [e, ← Nat.add_assoc n0 k 1, lag_run, lag_run, ih]
    congr 1
    funext a
    exact lag_step_period d q hq a (n0 + k)

theorem lag_run_isSome_down (d : Nat) (n : Nat) (h : (lag_run d (n + 1)).isSome = true) :
    (lag_run d n).isSome = true := by
  rw [lag_run] at h
  cases hr : lag_run d n with
  | none => rw [hr] at h; simp at h
  | some a => rfl

theorem lag_run_isSome_le (d : Nat) (n : Nat) (h : (lag_run d n).isSome = true) :
    ∀ m, m ≤ n → (lag_run d m).isSome = true := by
  induction n with
  | zero => intro m hm; have : m = 0 := by omega
            subst this; exact h
  | succ n ih =>
    intro m hm
    rcases Nat.eq_or_lt_of_le hm with e | e
    · subst e; exact h
    · exact ih (lag_run_isSome_down d n h) m (by omega)

/-- A run on the flags that repeats after one period and is defined up to
there is defined for ever. -/
theorem lag_run_total (d q n0 : Nat) (hq : q * d = HPSJAM_SEQ_MAX) (hqpos : 0 < q)
    (h0 : lag_run d (n0 + q * (d + 1)) = lag_run d n0)
    (hs : (lag_run d (n0 + q * (d + 1))).isSome = true) :
    ∀ n, (lag_run d n).isSome = true := by
  intro n
  induction n using Nat.strong_induction_on with
  | _ n ih =>
    by_cases hn : n ≤ n0 + q * (d + 1)
    · exact lag_run_isSome_le d _ hs n hn
    · have hT : 0 < q * (d + 1) := Nat.mul_pos hqpos (Nat.succ_pos d)
      have e : n = n0 + (n - n0 - q * (d + 1)) + q * (d + 1) := by omega
      rw [e, lag_run_period d q n0 hq h0]
      exact ih _ (by omega)

set_option maxRecDepth 100000 in
theorem lag_run_loop_1 :
    lag_run 1 (16 + 16 * (1 + 1)) = lag_run 1 16 ∧
      (lag_run 1 (16 + 16 * (1 + 1))).isSome = true := by decide!

set_option maxRecDepth 100000 in
theorem lag_run_loop_2 :
    lag_run 2 (16 + 8 * (2 + 1)) = lag_run 2 16 ∧
      (lag_run 2 (16 + 8 * (2 + 1))).isSome = true := by decide!

set_option maxRecDepth 100000 in
theorem lag_run_loop_4 :
    lag_run 4 (16 + 4 * (4 + 1)) = lag_run 4 16 ∧
      (lag_run 4 (16 + 4 * (4 + 1))).isSome = true := by decide!

set_option maxRecDepth 100000 in
theorem lag_run_loop_8 :
    lag_run 8 (16 + 2 * (8 + 1)) = lag_run 8 16 ∧
      (lag_run 8 (16 + 2 * (8 + 1))).isSome = true := by decide!

/-- For each cadence in `{1, 2, 4, 8}` the run on the flags is defined at
every length. -/
theorem lag_run_defined (d : Nat) (hd : d = 1 ∨ d = 2 ∨ d = 4 ∨ d = 8) (n : Nat) :
    (lag_run d n).isSome = true := by
  rcases hd with rfl | rfl | rfl | rfl
  · exact lag_run_total 1 16 16 rfl (by decide) lag_run_loop_1.1 lag_run_loop_1.2 n
  · exact lag_run_total 2 8 16 rfl (by decide) lag_run_loop_2.1 lag_run_loop_2.2 n
  · exact lag_run_total 4 4 16 rfl (by decide) lag_run_loop_4.1 lag_run_loop_4.2 n
  · exact lag_run_total 8 2 16 rfl (by decide) lag_run_loop_8.1 lag_run_loop_8.2 n

/-! ## The lossless stream through the reassembler -/

theorem feed_all_snoc (M : Nat) :
    ∀ (fs : List (List Nat)) (s : hpsjam_input_packetizer) (f : List Nat),
      feed_all M s (fs ++ [f]) =
        (feed_all M s fs).bind (fun r =>
          (feed M r.1 f).map (fun r2 => (r2.1, r.2 ++ r2.2.map (·.2)))) := by
  intro fs
  induction fs with
  | nil =>
    intro s f
    simp only [List.nil_append, feed_all, Option.some_bind, List.nil_append]
    cases feed M s f <;> simp
  | cons g gs ih =>
    intro s f
    rw [List.cons_append, feed_all, feed_all]
    cases feed M s g with
    | none => rfl
    | some r =>
      simp only [Option.some_bind]
      rw [ih]
      cases feed_all M r.1 gs with
      | none => rfl
      | some r2 =>
        simp only [Option.some_bind, Option.map_some']
        cases feed M r2.1 f <;> simp

theorem stream_upto_succ (M : Nat) (P : Nat → List Nat) (d n : Nat) :
    stream_upto M P d (n + 1) = stream_upto M P d n ++ [stream_frame M P d n] := by
  simp [stream_upto, List.range_succ]

theorem redno_of_set (x r : Nat) (hr : r < 16) :
    hpsjam_header.getRedNo (hpsjam_header.setSequence x r) = r := by
  simp only [hpsjam_header.getRedNo, hpsjam_header.setSequence, HPSJAM_SEQ_MAX]; omega

theorem seqno_of_set (x r : Nat) :
    hpsjam_header.getSeqNo (hpsjam_header.setSequence x r) = x % 16 := by
  simp only [hpsjam_header.getSeqNo, hpsjam_header.setSequence, HPSJAM_SEQ_MAX]; omega

theorem hdr_setHdr (f : List Nat) (v : Nat) (h : 0 < f.length) :
    hpsjam_frame.hdr (hpsjam_frame.setHdr f v) = v :=
  getD_set_self f 0 v 0 h

theorem xor_fold_len (M : Nat) (G : Nat → List Nat) (hG : ∀ i, (G i).length = M) :
    ∀ (l : List Nat) (acc : List Nat), acc.length = M →
      (l.foldl (fun m i => hpsjam_frame.do_xor m (G i)) acc).length = M := by
  intro l
  induction l with
  | nil => intro acc h; exact h
  | cons a l ih =>
    intro acc h
    rw [List.foldl_cons]
    apply ih
    rw [do_xor_len acc (G a) (by rw [h, hG])]
    exact h

theorem payload_frame_len (P : Nat → List Nat) (k : Nat) :
    (payload_frame P k).length = (P k).length := by
  simp [payload_frame, hpsjam_frame.setHdr]

/-- The header byte of frame `n` of the stream. -/
theorem hdr_stream_frame (M : Nat) (P : Nat → List Nat) (d n : Nat) (hM : 0 < M)
    (hP : ∀ k, (P k).length = M) :
    hpsjam_frame.hdr (stream_frame M P d n) = hdr_of d n := by
  unfold stream_frame hdr_of
  split
  · unfold mask_frame
    apply hdr_setHdr
    rw [xor_fold_len M (fun i => payload_frame P (n / (d + 1) * d + i))
      (fun i => by rw [payload_frame_len, hP]) _ _ (by simp [hpsjam_frame.clear])]
    exact hM
  · unfold payload_frame
    apply hdr_setHdr
    rw [hP]; exact hM

theorem payloads_in_succ (d n : Nat) (hd : d = 1 ∨ d = 2 ∨ d = 4 ∨ d = 8) :
    payloads_in d (n + 1) = payloads_in d n + (if n % (d + 1) = d then 0 else 1) := by
  rcases hd with rfl | rfl | rfl | rfl <;> simp only [payloads_in] <;> split <;> omega

/-- What `receive` stores for frame `n` of the stream: a payload frame goes
to the slot of its sequence number, a mask frame leaves the payload slots. -/
theorem receive_current_stream (s : hpsjam_input_packetizer) (f : List Nat) (d n : Nat)
    (hd : d = 1 ∨ d = 2 ∨ d = 4 ∨ d = 8) (hh : hpsjam_frame.hdr f = hdr_of d n) :
    (s.receive f).current =
      if n % (d + 1) = d then s.current
      else s.current.set (payloads_in d n % 16) f := by
  have hd16 : d < 16 ∧ d ≠ 0 := by rcases hd with rfl | rfl | rfl | rfl <;> decide
  unfold receive
  simp only [hh]
  unfold hdr_of
  by_cases hn : n % (d + 1) = d
  · simp only [if_pos hn, redno_of_set _ d hd16.1]
    rw [if_pos hd16.2]
    split <;> rfl
  · simp only [if_neg hn, redno_of_set _ 0 (by decide), seqno_of_set _ 0]
    rfl

/-- The slots handed out in one step hold the oldest waiting payloads. -/
theorem step_frames (P : Nat → List Nat) (cur : List (List Nat)) (p1 lag1 L : Nat)
    (h1 : lag1 ≤ p1) (h2 : lag1 ≤ 16) (hL : L ≤ lag1)
    (hc : ∀ k, p1 - lag1 ≤ k → k < p1 → cur.getD (k % 16) [] = payload_frame P k) :
    ((List.range L).map (fun i => (p1 % 16 + 16 - lag1 + i) % 16)).map
        (fun z => cur.getD z []) =
      (List.range L).map (fun i => payload_frame P (p1 - lag1 + i)) := by
  rw [List.map_map]
  apply List.map_congr_left
  intro i hi
  rw [List.mem_range] at hi
  have e : (p1 % 16 + 16 - lag1 + i) % 16 = (p1 - lag1 + i) % 16 := by omega
  simp only [Function.comp_apply, e]
  exact hc _ (by omega) (by omega)

theorem range_map_append (f : Nat → List Nat) (a L : Nat) :
    (List.range a).map f ++ (List.range L).map (fun i => f (a + i)) =
      (List.range (a + L)).map f := by
  rw [List.range_add, List.map_append, List.map_map]
  rfl

/-- The state after `n` frames of the lossless stream: the frames handed out
are the payloads `0 .. p - lag - 1` in order, the flags are those of the run
on the flags, the waiting payloads are held in their slots, and no silence
frame has been made. -/
theorem lossless_run (M : Nat) (P : Nat → List Nat) (d : Nat) (hM : 0 < M)
    (hP : ∀ k, (P k).length = M) (hd : d = 1 ∨ d = 2 ∨ d = 4 ∨ d = 8) :
    ∀ n, ∃ s lag,
      feed_all M (init M) (stream_upto M P d n) =
        some (s, (List.range (payloads_in d n - lag)).map (payload_frame P)) ∧
      lag_run d n = some { valid := s.valid, last_red := s.last_red, lag := lag } ∧
      lag ≤ payloads_in d n ∧
      (n % (d + 1) = 0 → lag = 0) ∧
      (∀ k, payloads_in d n - lag ≤ k → k < payloads_in d n →
        s.current.getD (k % 16) [] = payload_frame P k) ∧
      s.jitter.damages = 0 ∧ s.current.length = 16 := by
  intro n
  induction n with
  | zero =>
    refine ⟨init M, 0, ?_, rfl, Nat.zero_le _, fun _ => rfl, ?_, rfl, ?_⟩
    · simp [stream_upto, feed_all, payloads_in]
    · intro k _ hk
      simp [payloads_in] at hk
    · simp [init, HPSJAM_SEQ_MAX]
  | succ n ih =>
    obtain ⟨s, lag, hfeed, hrun, hlag, _, hcont, hdam, hlen⟩ := ih
    have hsome := lag_run_defined d hd (n + 1)
    rw [lag_run, hrun, Option.some_bind] at hsome
    have hsucc := payloads_in_succ d n hd
    have hhdr := hdr_stream_frame M P d n hM hP
    have hcur := receive_current_stream s (stream_frame M P d n) d n hd hhdr
    generalize hδ : (if n % (d + 1) = d then 0 else 1) = δ at hsucc
    unfold lag_step at hsome
    simp only [hδ] at hsome
    cases hctl : ctl_feed (s.valid, s.last_red) (hdr_of d n) with
    | none => rw [hctl] at hsome; simp at hsome
    | some res =>
      obtain ⟨c, zs⟩ := res
      rw [hctl] at hsome
      simp only [] at hsome
      by_cases hcond : zs.length ≤ lag + δ ∧ lag + δ ≤ HPSJAM_SEQ_MAX ∧
          zs = (List.range zs.length).map
            (fun i => (payloads_in d (n + 1) % HPSJAM_SEQ_MAX + HPSJAM_SEQ_MAX - (lag + δ) + i)
              % HPSJAM_SEQ_MAX) ∧
          ((n + 1) % (d + 1) = 0 → lag + δ - zs.length = 0)
      case neg => rw [if_neg hcond] at hsome; simp at hsome
      case pos =>
        obtain ⟨hz1, hz2, hz3, hz4⟩ := hcond
        rw [← hhdr] at hctl
        obtain ⟨s', hf, hv, hr, hc', _, hd'⟩ := feed_of_ctl_feed M s _ c zs hctl
        have hδle : δ ≤ 1 := by rw [← hδ]; split <;> omega
        -- the slots after `receive` hold the waiting payloads
        have hcont1 : ∀ k, payloads_in d (n + 1) - (lag + δ) ≤ k → k < payloads_in d (n + 1) →
            (s.receive (stream_frame M P d n)).current.getD (k % 16) [] = payload_frame P k := by
          intro k hk1 hk2
          rw [hcur]
          by_cases hn : n % (d + 1) = d
          · rw [if_pos hn]
            rw [if_pos hn] at hδ
            apply hcont k <;> omega
          · rw [if_neg hn]
            rw [if_neg hn] at hδ
            by_cases hkp : k = payloads_in d n
            · subst hkp
              rw [getD_set_self _ _ _ _ (by rw [hlen]; omega)]
              unfold stream_frame
              rw [if_neg hn]
              rfl
            · rw [getD_set_ne _ _ _ _ _ (by rw [HPSJAM_SEQ_MAX] at hz2; omega)]
              apply hcont k <;> omega
        rw [HPSJAM_SEQ_MAX] at hz2 hz3
        have hfr := step_frames P (s.receive (stream_frame M P d n)).current
          (payloads_in d (n + 1)) (lag + δ) zs.length (by omega) hz2 hz1 hcont1
        have hp16 : payloads_in d (n + 1) % 16 + 16 - (lag + δ) =
            payloads_in d (n + 1) % 16 + 16 - (lag + δ) := rfl
        rw [← hz3] at hfr
        refine ⟨s', lag + δ - zs.length, ?_, ?_, by omega, hz4, ?_, by rw [hd', hdam], ?_⟩
        · rw [stream_upto_succ, feed_all_snoc, hfeed, Option.some_bind, hf]
          simp only [Option.map_some', List.map_map]
          have e : ((fun x : Nat × List Nat => x.2) ∘
              fun z => (z, (s.receive (stream_frame M P d n)).current.getD z [])) =
              fun z => (s.receive (stream_frame M P d n)).current.getD z [] := rfl
          rw [e, hfr]
          have e2 : payloads_in d n - lag = payloads_in d (n + 1) - (lag + δ) := by omega
          rw [e2, range_map_append]
          have e3 : payloads_in d (n + 1) - (lag + δ) + zs.length =
              payloads_in d (n + 1) - (lag + δ - zs.length) := by omega
          rw [e3]

        · rw [lag_run, hrun, Option.some_bind]
          unfold lag_step
          simp only []
          rw [hhdr] at hctl
          rw [hctl]
          simp only [hδ]
          rw [if_pos ⟨hz1, by rw [HPSJAM_SEQ_MAX]; exact hz2, by rw [HPSJAM_SEQ_MAX]; exact hz3, hz4⟩,
            hv, hr]
        · intro k hk1 hk2
          rw [hc']
          apply hcont1 k <;> omega
        · rw [hc', hcur]
          split
          · exact hlen
          · rw [List.length_set]; exact hlen

/-- C7 (lossless in-order delivery): a freshly initialised reassembler is fed
the first `n` frames of the stream of a sender with cadence `d` in
`{1, 2, 4, 8}` (`d` payload frames with consecutive sequence numbers from 0,
then the mask frame of the group, repeated), with `recovery()` and then
`first_pkt()` until null after every `receive()`. Every call returns, and the
frames handed out are the payload frames number `0, 1, .., m - 1` in this
order, each once; `m` is at most the number of payloads received and equals
it whenever a whole number of cycles has been fed; no silence frame has been
made (the damage counter is zero). -/
theorem lossless_delivery (MAX_UDP : Nat) (P : Nat → List Nat) (d n : Nat)
    (hM : 0 < MAX_UDP) (hP : ∀ k, (P k).length = MAX_UDP)
    (hd : d = 1 ∨ d = 2 ∨ d = 4 ∨ d = 8) :
    ∃ s m,
      feed_all MAX_UDP (init MAX_UDP) (stream_upto MAX_UDP P d n) =
        some (s, (List.range m).map (payload_frame P)) ∧
      m ≤ payloads_in d n ∧
      (n % (d + 1) = 0 → m = payloads_in d n) ∧
      s.jitter.damages = 0 := by
  obtain ⟨s, lag, h1, _, h3, h4, _, h6, _⟩ := lossless_run MAX_UDP P d hM hP hd n
  refine ⟨s, payloads_in d n - lag, h1, Nat.sub_le _ _, ?_, h6⟩
  intro h
  rw [h4 h]
  rfl

theorem lossless_delivery_witness :
    ∃ s m,
      feed_all 8 (init 8) (stream_upto 8 example_payload 2 6) =
        some (s, (List.range m).map (payload_frame example_payload)) ∧
      m ≤ payloads_in 2 6 ∧
      (6 % (2 + 1) = 0 → m = payloads_in 2 6) ∧
      s.jitter.damages = 0 :=
  lossless_delivery 8 example_payload 2 6 (by decide) (fun _ => rfl) (by decide)

end

theorem frame_round_trip_witness :
    (append_all 16 example_out [example_entry1, example_entry2]).2 = true ∧
    decode 16 (append_all 16 example_out [example_entry1, example_entry2]).1.current =
      some ([example_entry1, example_entry2].map (·.bytes)) ∧
    hpsjam_frame.start + (append_all 16 example_out [example_entry1, example_entry2]).1.offset + 1
      < 16 :=
  frame_round_trip 16 example_out [example_entry1, example_entry2] (by decide) (by decide)
    (by decide) (by decide) (by decide) (by decide) (by decide)

theorem append_pkt_spec_witness :
    ((example_out.append_pkt 16 example_entry2).2 = false ↔
      16 - hpsjam_frame.HDR_SIZE - example_out.offset < 4 * example_entry2.length) :=
  (append_pkt_spec 16 example_out example_entry2 (by decide) (by decide) (by decide)).1

theorem buf_inv_preserved_witness :
    buf_inv hpsjam_audio_buffer.clear ∧ buf_inv hpsjam_audio_buffer.clear.shrink :=
  ⟨buf_inv_preserved.1, (buf_inv_preserved.2 hpsjam_audio_buffer.clear clear_inv).2.2.2.2.2⟩

theorem watchdog_timeout_once_witness :
    ((example_out.send_single_pkt true example_entry1).send 16 0).state.pend_count = 1 ∧
    (out_run 16 ((example_out.send_single_pkt true example_entry1).send 16 0).state
        (List.replicate 3000 (out_op.send 0))).2.countP (·.pendingWatchdog) =
      (if 1000 ≤ (out_run 16 ((example_out.send_single_pkt true example_entry1).send 16 0).state
        (List.replicate 3000 (out_op.send 0))).1.pend_count then 1 else 0) :=
  have h := watchdog_timeout_once 16 0 (example_out.send_single_pkt true example_entry1)
    (List.replicate 3000 (out_op.send 0)) (by decide) (by decide) (by decide)
    (by
      intro op hop t
      rw [List.eq_of_mem_replicate hop]
      exact fun e => by cases e)
  ⟨h.2.1, h.2.2.2.2.1⟩

section

open hpsjam_input_packetizer

/-! ## `receive` on a mask frame -/

/-- C11 (mask acceptance): for a frame whose redundancy digit `r` is not zero,
with sequence digit `q`. When `SEQ_MAX mod r = 0` and `q mod r = 0`,
`receive()` sets `last_red = r`, stores the frame in `mask[q]` and sets
`GOT_XOR_MASK` in `valid[q]`, leaving the other bits of `valid[q]`, every
other `mask[]` and `valid[]` entry and every `current[]` frame as they were.
Otherwise nothing but the packet count of the jitter meter changes. -/
theorem mask_acceptance (s : hpsjam_input_packetizer) (frame : List Nat)
    (hr : hpsjam_header.getRedNo (hpsjam_frame.hdr frame) ≠ 0)
    (hv : s.valid.length = HPSJAM_SEQ_MAX) (hm : s.mask.length = HPSJAM_SEQ_MAX) :
    (HPSJAM_SEQ_MAX % hpsjam_header.getRedNo (hpsjam_frame.hdr frame) = 0 ∧
      hpsjam_header.getSeqNo (hpsjam_frame.hdr frame) %
        hpsjam_header.getRedNo (hpsjam_frame.hdr frame) = 0 →
      (s.receive frame).last_red = hpsjam_header.getRedNo (hpsjam_frame.hdr frame) ∧
      (s.receive frame).mask.getD (hpsjam_header.getSeqNo (hpsjam_frame.hdr frame)) [] = frame ∧
      (s.receive frame).validAt (hpsjam_header.getSeqNo (hpsjam_frame.hdr frame)) =
        s.validAt (hpsjam_header.getSeqNo (hpsjam_frame.hdr frame)) ||| HPSJAM_V_GOT_XOR_MASK ∧
      (s.receive frame).validAt (hpsjam_header.getSeqNo (hpsjam_frame.hdr frame)) &&&
        HPSJAM_V_GOT_XOR_MASK ≠ 0 ∧
      (∀ j, j ≠ hpsjam_header.getSeqNo (hpsjam_frame.hdr frame) →
        (s.receive frame).mask.getD j [] = s.mask.getD j [] ∧
        (s.receive frame).validAt j = s.validAt j) ∧
      (s.receive frame).current = s.current ∧
      (s.receive frame).jitter = s.jitter.rx_packet) ∧
    (¬ (HPSJAM_SEQ_MAX % hpsjam_header.getRedNo (hpsjam_frame.hdr frame) = 0 ∧
        hpsjam_header.getSeqNo (hpsjam_frame.hdr frame) %
          hpsjam_header.getRedNo (hpsjam_frame.hdr frame) = 0) →
      s.receive frame = { s with jitter := s.jitter.rx_packet }) := by
  have hq : hpsjam_header.getSeqNo (hpsjam_frame.hdr frame) < 16 := by
    simp only [hpsjam_header.getSeqNo, HPSJAM_SEQ_MAX]; omega
  rw [HPSJAM_SEQ_MAX] at hv hm
  constructor
  · intro hc
    unfold receive
    simp only [if_pos hr, if_pos hc, validAt]
    refine ⟨by trivial, ?_, ?_, ?_, ?_, by trivial, by trivial⟩
    · exact getD_set_self _ _ _ _ (by rw [hm]; exact hq)
    · exact getD_set_self _ _ _ _ (by rw [hv]; exact hq)
    · rw [getD_set_self _ _ _ _ (by rw [hv]; exact hq)]
      exact (or_and_self_pow _ 1).symm ▸ (by decide)
    · intro j hj
      exact ⟨getD_set_ne _ _ _ _ _ (Ne.symm hj), getD_set_ne _ _ _ _ _ (Ne.symm hj)⟩
  · intro hc
    unfold receive
    simp only [if_pos hr, if_neg hc]

theorem mask_acceptance_witness :
    (HPSJAM_SEQ_MAX % hpsjam_header.getRedNo (hpsjam_frame.hdr [36, 7, 7, 7]) = 0 ∧
      hpsjam_header.getSeqNo (hpsjam_frame.hdr [36, 7, 7, 7]) %
        hpsjam_header.getRedNo (hpsjam_frame.hdr [36, 7, 7, 7]) = 0 →
      ((init 4).receive [36, 7, 7, 7]).last_red =
        hpsjam_header.getRedNo (hpsjam_frame.hdr [36, 7, 7, 7]) ∧
      ((init 4).receive [36, 7, 7, 7]).mask.getD
        (hpsjam_header.getSeqNo (hpsjam_frame.hdr [36, 7, 7, 7])) [] = [36, 7, 7, 7] ∧
      ((init 4).receive [36, 7, 7, 7]).validAt
          (hpsjam_header.getSeqNo (hpsjam_frame.hdr [36, 7, 7, 7])) =
        (init 4).validAt (hpsjam_header.getSeqNo (hpsjam_frame.hdr [36, 7, 7, 7])) |||
          HPSJAM_V_GOT_XOR_MASK ∧
      ((init 4).receive [36, 7, 7, 7]).validAt
          (hpsjam_header.getSeqNo (hpsjam_frame.hdr [36, 7, 7, 7])) &&&
        HPSJAM_V_GOT_XOR_MASK ≠ 0 ∧
      (∀ j, j ≠ hpsjam_header.getSeqNo (hpsjam_frame.hdr [36, 7, 7, 7]) →
        ((init 4).receive [36, 7, 7, 7]).mask.getD j [] = (init 4).mask.getD j [] ∧
        ((init 4).receive [36, 7, 7, 7]).validAt j = (init 4).validAt j) ∧
      ((init 4).receive [36, 7, 7, 7]).current = (init 4).current ∧
      ((init 4).receive [36, 7, 7, 7]).jitter = (init 4).jitter.rx_packet) ∧
    (¬ (HPSJAM_SEQ_MAX % hpsjam_header.getRedNo (hpsjam_frame.hdr [36, 7, 7, 7]) = 0 ∧
        hpsjam_header.getSeqNo (hpsjam_frame.hdr [36, 7, 7, 7]) %
          hpsjam_header.getRedNo (hpsjam_frame.hdr [36, 7, 7, 7]) = 0) →
      (init 4).receive [36, 7, 7, 7] =
        { init 4 with jitter := (init 4).jitter.rx_packet }) :=
  mask_acceptance (init 4) [36, 7, 7, 7] (by decide) (by decide) (by decide)

end

section

open hpsjam_output_packetizer

/-! ## `send_single_pkt`: one entry per type -/

theorem send_single_pkt_none (s : hpsjam_output_packetizer) (p : hpsjam_packet_entry)
    (h : s.head.findIdx? (fun q => q.type == p.type) = none) :
    s.send_single_pkt true p = { s with head := s.head ++ [p] } ∧ s.find p.type = none := by
  constructor
  · simp only [send_single_pkt, if_true, h]
  · rw [List.findIdx?_eq_none_iff] at h
    simp only [find, List.find?_eq_none]
    intro x hx
    rw [h x hx]
    decide

theorem send_single_pkt_some (s : hpsjam_output_packetizer) (p : hpsjam_packet_entry) (i : Nat)
    (h : s.head.findIdx? (fun q => q.type == p.type) = some i) :
    s.send_single_pkt true p = { s with head := s.head.set i p } ∧
    ∃ q, s.head[i]? = some q ∧ q.type = p.type ∧ s.find p.type = some q ∧
      (∀ a ∈ s.head.take i, (a.type == p.type) = false) := by
  constructor
  · simp only [send_single_pkt, if_true, h]
  · rw [List.findIdx?_eq_some_iff_getElem] at h
    obtain ⟨hi, hp, hlt⟩ := h
    have hpre : ∀ a ∈ s.head.take i, (a.type == p.type) = false := by
      intro a ha
      obtain ⟨j, hj, rfl⟩ := List.getElem_of_mem ha
      rw [List.length_take] at hj
      rw [List.getElem_take]
      have := hlt j (by omega)
      simpa using this
    refine ⟨s.head[i], List.getElem?_eq_getElem hi, by simpa using hp, ?_, hpre⟩
    simp only [find, List.find?_eq_some]
    refine ⟨hp, s.head.take i, s.head.drop (i + 1), ?_, ?_⟩
    · rw [← List.drop_eq_getElem_cons hi, List.take_append_drop]
    · intro a ha
      rw [hpre a ha]
      rfl

/-- C12 (type coalescing on enqueue): for a queue whose entries have pairwise
distinct types, `send_single_pkt(p)` with a valid address leaves a queue with
pairwise distinct types in which the entry of type `p.type` is `p`. When the
type was queued, that entry is overwritten in place: same length, same order
of types, every other position unchanged. Otherwise `p` is appended at the
tail. No other member of the packetizer changes. -/
theorem enqueue_coalesces (s : hpsjam_output_packetizer) (p : hpsjam_packet_entry)
    (hnd : (s.head.map hpsjam_packet_entry.type).Nodup) :
    ((s.send_single_pkt true p).head.map hpsjam_packet_entry.type).Nodup ∧
    (s.send_single_pkt true p).find p.type = some p ∧
    (∀ q, s.find p.type = some q →
      ∃ i, s.head[i]? = some q ∧
        (s.send_single_pkt true p).head = s.head.set i p ∧
        (s.send_single_pkt true p).head.length = s.head.length ∧
        (s.send_single_pkt true p).head.map hpsjam_packet_entry.type =
          s.head.map hpsjam_packet_entry.type ∧
        (s.send_single_pkt true p).head[i]? = some p ∧
        ∀ j, j ≠ i → (s.send_single_pkt true p).head[j]? = s.head[j]?) ∧
    (s.find p.type = none →
      (s.send_single_pkt true p).head = s.head ++ [p] ∧
      (s.send_single_pkt true p).head.length = s.head.length + 1) ∧
    s.send_single_pkt true p = { s with head := (s.send_single_pkt true p).head } := by
  cases hfi : s.head.findIdx? (fun q => q.type == p.type) with
  | none =>
    obtain ⟨e, hf⟩ := send_single_pkt_none s p hfi
    have hall := List.findIdx?_eq_none_iff.mp hfi
    rw [e]
    refine ⟨?_, ?_, ?_, ?_, rfl⟩
    · simp only [List.map_append, List.map_cons, List.map_nil]
      rw [List.nodup_append]
      refine ⟨hnd, List.nodup_singleton _, ?_⟩
      intro t ht ht'
      rw [List.mem_singleton] at ht'
      subst ht'
      obtain ⟨a, ha, hat⟩ := List.mem_map.mp ht
      have := hall a ha
      simp [hat] at this
    · simp only [find, List.find?_append]
      have hn : s.head.find? (fun q => q.type == p.type) = none := hf
      rw [hn]
      simp
    · intro q hq
      rw [hf] at hq
      exact absurd hq (by simp)
    · intro _
      exact ⟨rfl, by simp⟩
  | some i =>
    obtain ⟨e, q0, hq0, hty, hf, hpre⟩ := send_single_pkt_some s p i hfi
    have hi : i < s.head.length := by
      rcases Nat.lt_or_ge i s.head.length with h | h
      · exact h
      · rw [List.getElem?_eq_none h] at hq0; exact absurd hq0 (by simp)
    have hmap : (s.head.set i p).map hpsjam_packet_entry.type =
        s.head.map hpsjam_packet_entry.type := by
      rw [List.map_set]
      apply List.ext_getElem?
      intro j
      by_cases hj : i = j
      · subst hj
        rw [List.getElem?_set_self (by rw [List.length_map]; exact hi), List.getElem?_map, hq0,
          Option.map_some', hty]
      · rw [List.getElem?_set_ne hj]
    rw [e]
    refine ⟨?_, ?_, ?_, ?_, rfl⟩
    · show ((s.head.set i p).map hpsjam_packet_entry.type).Nodup
      rw [hmap]; exact hnd
    · simp only [find, List.find?_eq_some]
      refine ⟨by simp, s.head.take i, s.head.drop (i + 1), ?_, ?_⟩
      · rw [List.set_eq_take_append_cons_drop, if_pos hi]
      · intro a ha
        rw [hpre a ha]
        rfl
    · intro q hq
      rw [hf] at hq
      have hqq : q0 = q := Option.some.inj hq
      subst hqq
      refine ⟨i, hq0, rfl, by simp, hmap, ?_, ?_⟩
      · exact List.getElem?_set_self hi
      · intro j hj
        exact List.getElem?_set_ne (Ne.symm hj)
    · intro hnone
      rw [hf] at hnone
      exact absurd hnone (by simp)

theorem enqueue_coalesces_witness :
    (((example_out.send_single_pkt true example_entry1).send_single_pkt true
        { raw := [1, 64, 9, 9] }).head.map hpsjam_packet_entry.type).Nodup ∧
    ((example_out.send_single_pkt true example_entry1).send_single_pkt true
        { raw := [1, 64, 9, 9] }).find (hpsjam_packet_entry.type { raw := [1, 64, 9, 9] }) =
      some { raw := [1, 64, 9, 9] } :=
  ⟨(enqueue_coalesces (example_out.send_single_pkt true example_entry1)
      { raw := [1, 64, 9, 9] } (by decide)).1,
   (enqueue_coalesces (example_out.send_single_pkt true example_entry1)
      { raw := [1, 64, 9, 9] } (by decide)).2.1⟩

end

section

open hpsjam_input_packetizer

/-! ## `first_pkt` returns, and never hands a slot out twice -/

theorem packet_bitmap_lt (s : hpsjam_input_packetizer) : s.packet_bitmap < 2 ^ 16 := by
  unfold packet_bitmap
  have key : ∀ (l : List Nat) (a : Nat), (∀ x ∈ l, x < 16) → a < 2 ^ 16 →
      l.foldl (fun mask x => mask ||| ((s.validAt x &&& HPSJAM_V_GOT_PACKET) <<< x)) a
        < 2 ^ 16 := by
    intro l
    induction l with
    | nil => intro a _ ha; exact ha
    | cons x l ih =>
      intro a hl ha
      rw [List.foldl_cons]
      apply ih _ (fun y hy => hl y (List.mem_cons_of_mem _ hy))
      apply Nat.or_lt_two_pow ha
      have hx : x < 16 := hl x (List.mem_cons_self _ _)
      have h1 : s.validAt x &&& HPSJAM_V_GOT_PACKET ≤ 1 := Nat.and_le_right
      rw [Nat.shiftLeft_eq]
      calc (s.validAt x &&& HPSJAM_V_GOT_PACKET) * 2 ^ x ≤ 1 * 2 ^ x :=
            Nat.mul_le_mul_right _ h1
        _ = 2 ^ x := Nat.one_mul _
        _ < 2 ^ 16 := Nat.pow_lt_pow_right (by decide) hx
  exact key _ 0 (fun x hx => by rw [HPSJAM_SEQ_MAX] at hx; exact List.mem_range.mp hx)
    (by decide)

theorem rotate_step_lt (r : Nat) (st : Nat × Nat × Nat) (x : Nat)
    (h1 : st.1 < 2 ^ 16) (h2 : st.2.1 < 2 ^ 16) :
    (rotate_step r st x).1 < 2 ^ 16 ∧ (rotate_step r st x).2.1 < 2 ^ 16 := by
  unfold rotate_step
  dsimp only
  constructor
  · have hs : st.1 >>> 1 < 2 ^ 16 := by
      rw [Nat.shiftRight_eq_div_pow]; omega
    split
    · exact Nat.or_lt_two_pow hs (by decide)
    · exact hs
  · split
    · exact h1
    · exact h2

/-- The start value of the loop of `first_pkt` has `SEQ_MAX` bits. -/
theorem min_rotation_lt (s : hpsjam_input_packetizer) : s.min_rotation.1 < 2 ^ 16 := by
  unfold min_rotation
  have key : ∀ (l : List Nat) (st : Nat × Nat × Nat), st.1 < 2 ^ 16 → st.2.1 < 2 ^ 16 →
      (l.foldl (rotate_step s.last_red) st).1 < 2 ^ 16 ∧
      (l.foldl (rotate_step s.last_red) st).2.1 < 2 ^ 16 := by
    intro l
    induction l with
    | nil => intro st h1 h2; exact ⟨h1, h2⟩
    | cons x l ih =>
      intro st h1 h2
      rw [List.foldl_cons]
      exact ih _ (rotate_step_lt _ st x h1 h2).1 (rotate_step_lt _ st x h1 h2).2
  exact (key _ _ (packet_bitmap_lt s) (packet_bitmap_lt s)).2

theorem getD_set_keep (l : List Nat) (z x : Nat) :
    (l.set z (l.getD z 0 &&& HPSJAM_V_GOT_RECEIVED)).getD x 0 &&& HPSJAM_V_GOT_RECEIVED =
      l.getD x 0 &&& HPSJAM_V_GOT_RECEIVED := by
  by_cases hx : z = x
  · subst hx
    by_cases hz : z < l.length
    · rw [getD_set_self _ _ _ _ hz, Nat.and_assoc, Nat.and_self]
    · rw [List.set_eq_of_length_le (by omega)]
  · rw [getD_set_ne _ _ _ _ _ hx]

/-- The loop "only keep the received flag" keeps every `GOT_RECEIVED` bit. -/
theorem keep_received_bits (s : hpsjam_input_packetizer) (m : Nat) :
    (∀ x, (s.keep_received m).validAt x &&& HPSJAM_V_GOT_RECEIVED =
      s.validAt x &&& HPSJAM_V_GOT_RECEIVED) ∧
    (s.keep_received m).valid.length = s.valid.length ∧
    (s.keep_received m).last_red = s.last_red := by
  unfold keep_received
  generalize List.range s.last_red = l
  induction l generalizing s with
  | nil => exact ⟨fun _ => rfl, rfl, rfl⟩
  | cons a l ih =>
    rw [List.foldl_cons]
    obtain ⟨h1, h2, h3⟩ := ih
      { s with valid := (s.valid.set ((m + a) % HPSJAM_SEQ_MAX)
          (s.validAt ((m + a) % HPSJAM_SEQ_MAX) &&& HPSJAM_V_GOT_RECEIVED)) }
    refine ⟨fun x => ?_, ?_, ?_⟩
    · rw [h1 x]
      exact getD_set_keep s.valid _ x
    · rw [h2]; exact List.length_set _ _ _
    · rw [h3]

theorem consumable_some (s : hpsjam_input_packetizer) (m z : Nat)
    (h : s.consumable m = some z) :
    z < HPSJAM_SEQ_MAX ∧ s.validAt z &&& HPSJAM_V_GOT_RECEIVED = 0 := by
  unfold consumable at h
  have hp := List.find?_some h
  have hm := List.mem_of_find?_eq_some h
  obtain ⟨x, _, rfl⟩ := List.mem_map.mp hm
  exact ⟨Nat.mod_lt _ (by decide), by simpa using hp⟩

/-- The statements that hand out slot `z`: `GOT_RECEIVED` is set on `z` and
cleared half a ring further. -/
theorem deliver_bits (M : Nat) (s : hpsjam_input_packetizer) (z : Nat)
    (hv : s.valid.length = HPSJAM_SEQ_MAX) (hz : z < HPSJAM_SEQ_MAX) :
    (deliver M s z).validAt z &&& HPSJAM_V_GOT_RECEIVED ≠ 0 ∧
    (deliver M s z).validAt ((z + HPSJAM_SEQ_MAX / 2) % HPSJAM_SEQ_MAX) &&&
      HPSJAM_V_GOT_RECEIVED = 0 := by
  rw [HPSJAM_SEQ_MAX] at hv hz
  have hne : (z + HPSJAM_SEQ_MAX / 2) % HPSJAM_SEQ_MAX ≠ z := by
    simp only [HPSJAM_SEQ_MAX]; omega
  have hlt : (z + HPSJAM_SEQ_MAX / 2) % HPSJAM_SEQ_MAX < 16 := by
    simp only [HPSJAM_SEQ_MAX]; omega
  have key : ∀ v : List Nat, v.length = 16 →
      ((v.set z (v.getD z 0 ||| HPSJAM_V_GOT_RECEIVED)).set
          ((z + HPSJAM_SEQ_MAX / 2) % HPSJAM_SEQ_MAX)
          ((v.set z (v.getD z 0 ||| HPSJAM_V_GOT_RECEIVED)).getD
            ((z + HPSJAM_SEQ_MAX / 2) % HPSJAM_SEQ_MAX) 0 &&&
              cnot HPSJAM_V_GOT_RECEIVED % 256)).getD z 0 &&& HPSJAM_V_GOT_RECEIVED ≠ 0 ∧
      ((v.set z (v.getD z 0 ||| HPSJAM_V_GOT_RECEIVED)).set
          ((z + HPSJAM_SEQ_MAX / 2) % HPSJAM_SEQ_MAX)
          ((v.set z (v.getD z 0 ||| HPSJAM_V_GOT_RECEIVED)).getD
            ((z + HPSJAM_SEQ_MAX / 2) % HPSJAM_SEQ_MAX) 0 &&&
              cnot HPSJAM_V_GOT_RECEIVED % 256)).getD
        ((z + HPSJAM_SEQ_MAX / 2) % HPSJAM_SEQ_MAX) 0 &&& HPSJAM_V_GOT_RECEIVED = 0 := by
    intro v hvl
    constructor
    · rw [getD_set_ne _ _ _ _ _ hne, getD_set_self _ _ _ _ (by rw [hvl]; exact hz)]
      have e : (v.getD z 0 ||| HPSJAM_V_GOT_RECEIVED) &&& HPSJAM_V_GOT_RECEIVED = 2 ^ 2 :=
        or_and_self_pow _ 2
      rw [e]
      decide
    · rw [getD_set_self _ _ _ _ (by rw [List.length_set, hvl]; exact hlt), Nat.and_assoc]
      have : cnot HPSJAM_V_GOT_RECEIVED % 256 &&& HPSJAM_V_GOT_RECEIVED = 0 := by decide
      rw [this, Nat.and_zero]
  unfold deliver
  simp only [validAt]
  split
  · exact key s.valid hv
  · exact key s.valid hv

theorem red_mask_ne_zero (r : Nat) (hr : r = 1 ∨ r = 2 ∨ r = 4 ∨ r = 8) : red_mask r ≠ 0 := by
  rcases hr with rfl | rfl | rfl | rfl <;> decide

theorem shift_red_lt (start r n : Nat) (hr : r = 1 ∨ r = 2 ∨ r = 4 ∨ r = 8)
    (h : start < 2 ^ (n + 1)) : start >>> r < 2 ^ n := by
  rw [Nat.shiftRight_eq_div_pow]
  have h2 : start / 2 < 2 ^ n := by rw [Nat.pow_succ] at h; omega
  have h3 : start / 2 ^ r ≤ start / 2 := by
    apply Nat.div_le_div_left _ (by decide)
    rcases hr with rfl | rfl | rfl | rfl <;> decide
  omega

/-- The `while` loop of `first_pkt` from a start value of `fuel` bits: it
ends within `fuel + 1` rounds, and a slot it hands out had `GOT_RECEIVED`
clear in the state `s0` the call began with. -/
theorem first_pkt_loop_ends (M : Nat) (s0 : hpsjam_input_packetizer) :
    ∀ (fuel : Nat) (s : hpsjam_input_packetizer) (start min_x : Nat),
      (s.last_red = 1 ∨ s.last_red = 2 ∨ s.last_red = 4 ∨ s.last_red = 8) →
      s.valid.length = HPSJAM_SEQ_MAX →
      (∀ x, s.validAt x &&& HPSJAM_V_GOT_RECEIVED = s0.validAt x &&& HPSJAM_V_GOT_RECEIVED) →
      start < 2 ^ fuel →
      ∃ s' o, first_pkt_loop M (fuel + 1) s start min_x = some (s', o) ∧
        ∀ z, o = some z →
          z < HPSJAM_SEQ_MAX ∧ s0.validAt z &&& HPSJAM_V_GOT_RECEIVED = 0 ∧
          s'.validAt z &&& HPSJAM_V_GOT_RECEIVED ≠ 0 ∧
          s'.validAt ((z + HPSJAM_SEQ_MAX / 2) % HPSJAM_SEQ_MAX) &&&
            HPSJAM_V_GOT_RECEIVED = 0 := by
  intro fuel
  induction fuel with
  | zero =>
    intro s start min_x hr _ _ hst
    have h0 : start = 0 := by simpa using hst
    subst h0
    refine ⟨s, none, ?_, fun z hz => absurd hz (by simp)⟩
    rw [first_pkt_loop]
    dsimp only
    rw [if_neg]
    rw [Nat.zero_and, Nat.zero_and]
    intro h
    rcases h with h | h
    · exact red_mask_ne_zero _ hr h.symm
    · exact h rfl
  | succ n ih =>
    intro s start min_x hr hv hb hst
    rw [first_pkt_loop]
    dsimp only
    by_cases hc : start &&& red_mask s.last_red = red_mask s.last_red ∨
        start &&& cnot (red_mask s.last_red) ≠ 0
    · rw [if_pos hc]
      generalize hs1 : (if s.validAt min_x &&& HPSJAM_V_GOT_RECEIVED = 0 ∧
            s.validAt min_x &&& HPSJAM_V_GOT_XOR_MASK = 0 then
          { s with jitter := s.jitter.rx_loss } else s) = s1
      have e1 : s1.valid = s.valid ∧ s1.last_red = s.last_red := by
        rw [← hs1]; split <;> exact ⟨rfl, rfl⟩
      have hv1 : s1.valid.length = HPSJAM_SEQ_MAX := by rw [e1.1]; exact hv
      have hb1 : ∀ x, s1.validAt x &&& HPSJAM_V_GOT_RECEIVED =
          s0.validAt x &&& HPSJAM_V_GOT_RECEIVED := by
        intro x; rw [← hb x]; simp only [validAt, e1.1]
      cases hcon : s1.consumable min_x with
      | some z =>
        simp only []
        obtain ⟨hz, hz0⟩ := consumable_some s1 min_x z hcon
        refine ⟨deliver M s1 z, some z, rfl, ?_⟩
        intro z' hz'
        have : z = z' := Option.some.inj hz'
        subst this
        exact ⟨hz, by rw [← hb1 z]; exact hz0, deliver_bits M s1 z hv1 hz⟩
      | none =>
        simp only []
        obtain ⟨k1, k2, k3⟩ := keep_received_bits s1 min_x
        apply ih
        · rw [k3, e1.2]; exact hr
        · rw [k2]; exact hv1
        · intro x; rw [k1 x]; exact hb1 x
        · rw [e1.2]; exact shift_red_lt _ _ _ hr hst
    · rw [if_neg hc]
      exact ⟨s, none, rfl, fun z hz => absurd hz (by simp)⟩

/-- C13 (no re-delivery): for a state with `last_red` in `{1, 2, 4, 8}`,
`first_pkt()` returns; a slot `z` it returns had `GOT_RECEIVED` clear before
the call, and afterwards `GOT_RECEIVED` is set in `valid[z]` and clear in
`valid[(z + SEQ_MAX/2) mod SEQ_MAX]`. -/
theorem no_redelivery (MAX_UDP : Nat) (s : hpsjam_input_packetizer)
    (hr : s.last_red = 1 ∨ s.last_red = 2 ∨ s.last_red = 4 ∨ s.last_red = 8)
    (hv : s.valid.length = HPSJAM_SEQ_MAX) :
    ∃ s' o, s.first_pkt MAX_UDP = some (s', o) ∧
      ∀ z, o = some z →
        z < HPSJAM_SEQ_MAX ∧ s.validAt z &&& HPSJAM_V_GOT_RECEIVED = 0 ∧
        s'.validAt z &&& HPSJAM_V_GOT_RECEIVED ≠ 0 ∧
        s'.validAt ((z + HPSJAM_SEQ_MAX / 2) % HPSJAM_SEQ_MAX) &&&
          HPSJAM_V_GOT_RECEIVED = 0 := by
  unfold first_pkt
  exact first_pkt_loop_ends MAX_UDP s HPSJAM_SEQ_MAX s _ _ hr hv (fun _ => rfl)
    (min_rotation_lt s)

theorem no_redelivery_witness :
    ∃ s' o, (((init 8).receive (payload_frame example_payload 0)).receive
        (payload_frame example_payload 1)).first_pkt 8 = some (s', o) ∧
      ∀ z, o = some z →
        z < HPSJAM_SEQ_MAX ∧
        (((init 8).receive (payload_frame example_payload 0)).receive
        (payload_frame example_payload 1)).validAt z &&&
          HPSJAM_V_GOT_RECEIVED = 0 ∧
        s'.validAt z &&& HPSJAM_V_GOT_RECEIVED ≠ 0 ∧
        s'.validAt ((z + HPSJAM_SEQ_MAX / 2) % HPSJAM_SEQ_MAX) &&&
          HPSJAM_V_GOT_RECEIVED = 0 :=
  no_redelivery 8 (((init 8).receive (payload_frame example_payload 0)).receive
        (payload_frame example_payload 1)) (by decide) (by decide)

end

section

open hpsjam_audio_buffer

/-! ## `remSamples` after an underrun -/

theorem rem_account_underrun (s : hpsjam_audio_buffer) (num : Nat) (hu : num > s.total) :
    (s.rem_account num).1.fade_in = fadeSamples ∧ (s.rem_account num).2.2 = false := by
  unfold rem_account
  dsimp only
  simp only [hu, decide_True, if_true]
  generalize (if (size_sub s.total s.total / HPSJAM_DEF_SAMPLES) % 256 > HPSJAM_SEQ_MAX * 2 - 1
    then HPSJAM_SEQ_MAX * 2 - 1
    else (size_sub s.total s.total / HPSJAM_DEF_SAMPLES) % 256) = index
  split
  · refine ⟨rfl, ?_⟩
    simp only [Bool.and_eq_false_imp, decide_eq_true_eq, decide_eq_false_iff_not]
    intro h
    rw [def_samples_eq] at h
    omega
  · exact ⟨rfl, rfl⟩

theorem topup_iter_fade (n : Nat) :
    ∀ s : hpsjam_audio_buffer, (topup_step^[n] s).fade_in = s.fade_in := by
  induction n with
  | zero => intro s; rfl
  | succ n ih =>
    intro s
    rw [Function.iterate_succ_apply, ih]
    rfl

theorem remSamples_underrun (s : hpsjam_audio_buffer) (num : Nat) (h : buf_inv s)
    (hu : num > s.total) :
    ∃ s' dst, s.remSamples num = some (s', dst) ∧ s'.fade_in = fadeSamples := by
  obtain ⟨a1, a2, a3, _, a5, _⟩ := rem_account_spec s num h
  obtain ⟨hf, hns⟩ := rem_account_underrun s num hu
  have hloop := rem_loop_spec (s.rem_account num).1 (s.rem_account num).2.1
    (s.rem_account num).2.1 [] a1.2.1 (by rw [a5, a2]; exact Nat.min_le_right _ _) a1.1
  rw [a3] at hloop
  unfold remSamples
  dsimp only
  simp only [hns, Bool.false_eq_true, if_false, hu, decide_True, if_true]
  cases hr : rem_loop ((s.rem_account num).2.1 + 2) (s.rem_account num).1
      (s.rem_account num).2.1 (size_sub HPSJAM_MAX_SAMPLES s.consumer) [] with
  | none => rw [hr] at hloop; cases hloop
  | some r =>
    obtain ⟨s4, out⟩ := r
    rw [hr] at hloop
    simp only [Option.map_some', Option.some.injEq] at hloop
    refine ⟨_, _, rfl, ?_⟩
    unfold topup
    rw [topup_iter_fade, hloop]
    exact hf

/-- C14 (underrun top-up): for a buffer state satisfying the invariant and a
request `n > total`, `remSamples(dst, n)` returns with exactly `DEF_SAMPLES`
samples in the buffer and `fade_in = fadeSamples`; the invariant holds again,
so a following `remSamples` of `DEF_SAMPLES` samples does not underrun: it
returns and empties the buffer without another refill. -/
theorem underrun_topup (s : hpsjam_audio_buffer) (n : Nat) (h : buf_inv s)
    (hu : n > s.total) :
    ∃ s' dst, s.remSamples n = some (s', dst) ∧ buf_inv s' ∧
      s'.total = HPSJAM_DEF_SAMPLES ∧ s'.total ≥ HPSJAM_DEF_SAMPLES ∧
      s'.fade_in = fadeSamples ∧
      ¬ (HPSJAM_DEF_SAMPLES > s'.total) ∧
      ∃ s'' dst2, s'.remSamples HPSJAM_DEF_SAMPLES = some (s'', dst2) ∧ s''.total = 0 := by
  obtain ⟨s', dst, e, hi, _, ht⟩ := remSamples_spec s n h
  obtain ⟨t', dst', e', hf⟩ := remSamples_underrun s n h hu
  rw [e] at e'
  have hs : s' = t' := (Prod.mk.inj (Option.some.inj e')).1
  subst hs
  rw [if_pos hu] at ht
  refine ⟨s', dst, e, hi, ht, by rw [ht], hf, by rw [ht]; exact Nat.lt_irrefl _, ?_⟩
  obtain ⟨s'', dst2, e2, _, _, ht2⟩ := remSamples_spec s' HPSJAM_DEF_SAMPLES hi
  refine ⟨s'', dst2, e2, ?_⟩
  rw [ht2, ht, if_neg (Nat.lt_irrefl _)]
  split <;> omega

theorem underrun_topup_witness :
    ∃ s' dst, clear.remSamples 5 = some (s', dst) ∧ buf_inv s' ∧
      s'.total = HPSJAM_DEF_SAMPLES ∧ s'.total ≥ HPSJAM_DEF_SAMPLES ∧
      s'.fade_in = fadeSamples ∧
      ¬ (HPSJAM_DEF_SAMPLES > s'.total) ∧
      ∃ s'' dst2, s'.remSamples HPSJAM_DEF_SAMPLES = some (s'', dst2) ∧ s''.total = 0 :=
  underrun_topup clear 5 clear_inv (by decide)

/-! ## `shrink` removes one block -/

theorem shift_fold_getD (st0 : List ℚ) :
    ∀ n, n ≤ st0.length → ∀ i,
      ((List.range n).foldl (fun st x => st.set x (st.getD (x + 1) 0)) st0).getD i 0 =
        if i < n then st0.getD (i + 1) 0 else st0.getD i 0 := by
  intro n
  induction n with
  | zero => intro _ i; simp
  | succ n ih =>
    intro hn i
    have hlen := (shift_fold_all (fun _ => True) trivial (List.range n) st0
      (fun _ _ => trivial)).2
    rw [List.range_succ, List.foldl_append, List.foldl_cons, List.foldl_nil]
    by_cases hi : n = i
    · subst hi
      rw [getD_set_self _ _ _ _ (by rw [hlen]; omega), ih (by omega), if_neg (by omega),
        if_pos (by omega)]
    · rw [getD_set_ne _ _ _ _ _ hi, ih (by omega)]
      by_cases h1 : i < n
      · rw [if_pos h1, if_pos (by omega)]
      · rw [if_neg h1, if_neg (by omega)]

theorem shift_stats_getD (st : List ℚ) (hl : st.length = HPSJAM_SEQ_MAX * 2) :
    (∀ i, i < HPSJAM_SEQ_MAX * 2 - 1 → (shift_stats st).getD i 0 = st.getD (i + 1) 0) ∧
    (shift_stats st).getD (HPSJAM_SEQ_MAX * 2 - 1) 0 = 0 := by
  have hlen := (shift_fold_all (fun _ => True) trivial (List.range (HPSJAM_SEQ_MAX * 2 - 1)) st
    (fun _ _ => trivial)).2
  rw [seq_max_eq] at hl hlen ⊢
  unfold shift_stats
  rw [seq_max_eq]
  constructor
  · intro i hi
    rw [getD_set_ne _ _ _ _ _ (by omega), shift_fold_getD st _ (by omega), if_pos hi]
  · exact getD_set_self _ _ _ _ (by rw [hlen, hl]; decide)

/-- C15 (shrink removes exactly one block): for a buffer state satisfying the
invariant with `total >= DEF_SAMPLES`, `shrink()` lowers `total` by
`DEF_SAMPLES`, moves `consumer` forward by `DEF_SAMPLES` modulo the capacity
and shifts the histogram one bucket toward zero, the last bucket becoming 0;
with `total < DEF_SAMPLES` it changes nothing. -/
theorem shrink_one_block (s : hpsjam_audio_buffer) (h : buf_inv s) :
    (HPSJAM_DEF_SAMPLES ≤ s.total →
      s.shrink.total + HPSJAM_DEF_SAMPLES = s.total ∧
      s.shrink.consumer = (s.consumer + HPSJAM_DEF_SAMPLES) % HPSJAM_MAX_SAMPLES ∧
      (∀ i, i < 2 * HPSJAM_SEQ_MAX - 1 → s.shrink.stats.getD i 0 = s.stats.getD (i + 1) 0) ∧
      s.shrink.stats.getD (2 * HPSJAM_SEQ_MAX - 1) 0 = 0) ∧
    (s.total < HPSJAM_DEF_SAMPLES → s.shrink = s) := by
  constructor
  · intro ht
    obtain ⟨f1, f2, f3, _, _⟩ := shrink_fold_ctl (List.range HPSJAM_DEF_SAMPLES) s h.2.1
    rw [List.length_range] at f1 f2
    obtain ⟨g1, g2⟩ := shift_stats_getD s.stats h.2.2.2.2
    unfold shrink
    rw [if_neg (by omega)]
    dsimp only
    rw [f1, f2, f3]
    refine ⟨by omega, rfl, ?_, ?_⟩
    · intro i hi
      exact g1 i (by rw [seq_max_eq] at hi ⊢; omega)
    · rw [Nat.mul_comm]; exact g2
  · intro ht
    unfold shrink
    rw [if_pos ht]

theorem example_buf_inv : buf_inv example_buf := by
  refine ⟨by decide, by decide, ?_, by simp [example_buf, clear], by simp [example_buf, clear]⟩
  intro x hx
  simp only [example_buf, clear] at hx
  rw [List.eq_of_mem_replicate hx]
  norm_num

theorem shrink_one_block_witness :
    (HPSJAM_DEF_SAMPLES ≤ example_buf.total →
      example_buf.shrink.total + HPSJAM_DEF_SAMPLES = example_buf.total ∧
      example_buf.shrink.consumer =
        (example_buf.consumer + HPSJAM_DEF_SAMPLES) % HPSJAM_MAX_SAMPLES ∧
      (∀ i, i < 2 * HPSJAM_SEQ_MAX - 1 →
        example_buf.shrink.stats.getD i 0 = example_buf.stats.getD (i + 1) 0) ∧
      example_buf.shrink.stats.getD (2 * HPSJAM_SEQ_MAX - 1) 0 = 0) ∧
    (example_buf.total < HPSJAM_DEF_SAMPLES → example_buf.shrink = example_buf) :=
  shrink_one_block example_buf example_buf_inv

end

section

open hpsjam_packet

/-! ## The integer carriers `getS8 .. putS32` -/

theorem or_shl (a b k : Nat) (ha : a < 2 ^ k) : a ||| (b <<< k) = a + 2 ^ k * b := by
  rw [Nat.shiftLeft_eq, Nat.or_comm, Nat.mul_comm, ← Nat.mul_add_lt_is_or ha, Nat.add_comm]

theorem sequence_set_self (mem : List Nat) (this i b : Nat) (h : this + 2 + i < mem.length) :
    sequence (setSequenceByte mem this i b) this i = b :=
  getD_set_self _ _ _ _ h

theorem sequence_set_ne (mem : List Nat) (this i j b : Nat) (h : i ≠ j) :
    sequence (setSequenceByte mem this i b) this j = sequence mem this j :=
  getD_set_ne _ _ _ _ _ (by omega)

theorem setSequenceByte_length (mem : List Nat) (this i b : Nat) :
    (setSequenceByte mem this i b).length = mem.length :=
  List.length_set _ _ _

theorem to_uint8_lt (v : Int) : to_uint8 v < 2 ^ 8 := by
  unfold to_uint8; omega

/-- The test of bit 23 and the OR with `-(1 << 23)` extend the sign of a
24-bit pattern. -/
theorem sign_extend_24 (x : Nat) (hx : x < 2 ^ 24) :
    to_signed 32 (if x &&& (1 <<< 23) ≠ 0 then x ||| (2 ^ 32 - (1 <<< 23)) else x) =
      to_signed 24 x := by
  have hbit : x &&& (1 <<< 23) = if 2 ^ 23 ≤ x then 2 ^ 23 else 0 := by
    rw [Nat.one_shiftLeft, and_two_pow_eq, Nat.testBit_to_div_mod]
    by_cases h : 2 ^ 23 ≤ x
    · rw [if_pos h, if_pos]
      simp only [decide_eq_true_eq]; omega
    · rw [if_neg h, if_neg]
      simp only [decide_eq_true_eq]; omega
  rw [hbit]
  by_cases h : 2 ^ 23 ≤ x
  · rw [if_pos h, if_pos (by decide)]
    have hy : x - 2 ^ 23 < 2 ^ 23 := by omega
    have e1 : x = 2 ^ 23 * 1 ||| (x - 2 ^ 23) := by
      rw [← Nat.mul_add_lt_is_or hy]; omega
    have e2 : (2 : Nat) ^ 32 - (1 <<< 23) = 2 ^ 23 * 511 := by decide
    have e3 : 2 ^ 23 * 1 ||| 2 ^ 23 * 511 = 2 ^ 23 * 511 := by decide
    have e4 : x ||| (2 ^ 32 - (1 <<< 23)) = 2 ^ 23 * 511 + (x - 2 ^ 23) := by
      rw [e2, Nat.mul_add_lt_is_or hy]
      conv_lhs => rw [e1]
      rw [Nat.or_assoc, Nat.or_comm (x - 2 ^ 23), ← Nat.or_assoc, e3]
    rw [e4]
    simp only [to_signed]
    norm_num
    split <;> split <;> omega
  · rw [if_neg h, if_neg (by decide)]
    simp only [to_signed]
    norm_num
    split <;> split <;> omega

theorem shr_8 (v : Int) : v >>> (8 : Nat) = v / 256 := by
  rw [Int.shiftRight_eq_div_pow]; rfl

theorem shr_16 (v : Int) : v >>> (16 : Nat) = v / 65536 := by
  rw [Int.shiftRight_eq_div_pow]; rfl

theorem shr_24 (v : Int) : v >>> (24 : Nat) = v / 16777216 := by
  rw [Int.shiftRight_eq_div_pow]; rfl

theorem round_trip_8 (mem : List Nat) (this offset : Nat) (v : Int)
    (hb : this + 4 + offset + 1 ≤ mem.length) (h1 : -2 ^ 7 ≤ v) (h2 : v < 2 ^ 7) :
    getS8 (putS8 mem this offset v) this offset = v ∧
    sequence (putS8 mem this offset v) this (2 + offset) = (v % 256).toNat := by
  unfold getS8 putS8
  rw [sequence_set_self _ _ _ _ (by omega)]
  refine ⟨?_, rfl⟩
  simp only [to_signed, to_uint8]
  norm_num at h1 h2 ⊢
  split <;> omega

theorem round_trip_16 (mem : List Nat) (this offset : Nat) (v : Int)
    (hb : this + 4 + offset + 2 ≤ mem.length) (h1 : -2 ^ 15 ≤ v) (h2 : v < 2 ^ 15) :
    getS16 (putS16 mem this offset v) this offset = v ∧
    sequence (putS16 mem this offset v) this (2 + offset) = (v % 256).toNat ∧
    sequence (putS16 mem this offset v) this (2 + offset + 1) = (v / 256 % 256).toNat := by
  have b0 : sequence (putS16 mem this offset v) this (2 + offset) = to_uint8 v := by
    unfold putS16
    rw [sequence_set_ne _ _ _ _ _ (by omega), sequence_set_self _ _ _ _ (by omega)]
  have b1 : sequence (putS16 mem this offset v) this (2 + offset + 1) = to_uint8 (v >>> (8 : Nat)) := by
    unfold putS16
    rw [sequence_set_self _ _ _ _ (by rw [setSequenceByte_length]; omega)]
  refine ⟨?_, b0, by rw [b1, shr_8]; rfl⟩
  unfold getS16
  rw [b0, b1, or_shl _ _ 8 (to_uint8_lt v)]
  simp only [to_signed, to_uint8, shr_8, shr_16, shr_24]
  norm_num at h1 h2 ⊢
  split <;> omega

theorem round_trip_24 (mem : List Nat) (this offset : Nat) (v : Int)
    (hb : this + 4 + offset + 3 ≤ mem.length) (h1 : -2 ^ 23 ≤ v) (h2 : v < 2 ^ 23) :
    getS24 (putS24 mem this offset v) this offset = v ∧
    sequence (putS24 mem this offset v) this (2 + offset) = (v % 256).toNat ∧
    sequence (putS24 mem this offset v) this (2 + offset + 1) = (v / 256 % 256).toNat ∧
    sequence (putS24 mem this offset v) this (2 + offset + 2) = (v / 65536 % 256).toNat := by
  have b0 : sequence (putS24 mem this offset v) this (2 + offset) = to_uint8 v := by
    unfold putS24
    rw [sequence_set_ne _ _ _ _ _ (by omega), sequence_set_ne _ _ _ _ _ (by omega),
      sequence_set_self _ _ _ _ (by omega)]
  have b1 : sequence (putS24 mem this offset v) this (2 + offset + 1) = to_uint8 (v >>> (8 : Nat)) := by
    unfold putS24
    rw [sequence_set_ne _ _ _ _ _ (by omega),
      sequence_set_self _ _ _ _ (by rw [setSequenceByte_length]; omega)]
  have b2 : sequence (putS24 mem this offset v) this (2 + offset + 2) = to_uint8 (v >>> (16 : Nat)) := by
    unfold putS24
    rw [sequence_set_self _ _ _ _ (by simp only [setSequenceByte_length]; omega)]
  have l0 := to_uint8_lt v
  have l1 := to_uint8_lt (v >>> (8 : Nat))
  have l2 := to_uint8_lt (v >>> (16 : Nat))
  refine ⟨?_, b0, by rw [b1, shr_8]; rfl, by rw [b2, shr_16]; rfl⟩
  unfold getS24
  dsimp only
  rw [b0, b1, b2, or_shl _ _ 8 l0, or_shl _ _ 16 (by omega), sign_extend_24 _ (by omega)]
  simp only [to_signed, to_uint8, shr_8, shr_16, shr_24]
  norm_num at h1 h2 ⊢
  split <;> omega

theorem round_trip_32 (mem : List Nat) (this offset : Nat) (v : Int)
    (hb : this + 4 + offset + 4 ≤ mem.length) (h1 : -2 ^ 31 ≤ v) (h2 : v < 2 ^ 31) :
    getS32 (putS32 mem this offset v) this offset = v ∧
    sequence (putS32 mem this offset v) this (2 + offset) = (v % 256).toNat ∧
    sequence (putS32 mem this offset v) this (2 + offset + 1) = (v / 256 % 256).toNat ∧
    sequence (putS32 mem this offset v) this (2 + offset + 2) = (v / 65536 % 256).toNat ∧
    sequence (putS32 mem this offset v) this (2 + offset + 3) = (v / 16777216 % 256).toNat := by
  have b0 : sequence (putS32 mem this offset v) this (2 + offset) = to_uint8 v := by
    unfold putS32
    rw [sequence_set_ne _ _ _ _ _ (by omega), sequence_set_ne _ _ _ _ _ (by omega),
      sequence_set_ne _ _ _ _ _ (by omega), sequence_set_self _ _ _ _ (by omega)]
  have b1 : sequence (putS32 mem this offset v) this (2 + offset + 1) = to_uint8 (v >>> (8 : Nat)) := by
    unfold putS32
    rw [sequence_set_ne _ _ _ _ _ (by omega), sequence_set_ne _ _ _ _ _ (by omega),
      sequence_set_self _ _ _ _ (by rw [setSequenceByte_length]; omega)]
  have b2 : sequence (putS32 mem this offset v) this (2 + offset + 2) = to_uint8 (v >>> (16 : Nat)) := by
    unfold putS32
    rw [sequence_set_ne _ _ _ _ _ (by omega),
      sequence_set_self _ _ _ _ (by simp only [setSequenceByte_length]; omega)]
  have b3 : sequence (putS32 mem this offset v) this (2 + offset + 3) = to_uint8 (v >>> (24 : Nat)) := by
    unfold putS32
    rw [sequence_set_self _ _ _ _ (by simp only [setSequenceByte_length]; omega)]
  have l0 := to_uint8_lt v
  have l1 := to_uint8_lt (v >>> (8 : Nat))
  have l2 := to_uint8_lt (v >>> (16 : Nat))
  refine ⟨?_, b0, by rw [b1, shr_8]; rfl, by rw [b2, shr_16]; rfl, by rw [b3, shr_24]; rfl⟩
  unfold getS32
  rw [b0, b1, b2, b3, or_shl _ _ 8 l0, or_shl _ _ 16 (by omega), or_shl _ _ 24 (by omega)]
  simp only [to_signed, to_uint8, shr_8, shr_16, shr_24]
  norm_num at h1 h2 ⊢
  split <;> omega

theorem sequence_lt (mem : List Nat) (this i : Nat) (h : ∀ b ∈ mem, b < 256) :
    sequence mem this i < 2 ^ 8 := by
  unfold hpsjam_packet.sequence
  rw [List.getD_eq_getElem?_getD]
  cases hg : mem[this + 2 + i]? with
  | none => decide
  | some b => exact h b (List.getElem?_mem hg)

/-- C17 (integer carrier round trip): for each width `w` in `{8, 16, 24, 32}`,
a payload offset whose `w / 8` bytes lie inside the buffer and a value `v` in
the signed `w`-bit range, `getS<w>(offset)` after `putS<w>(offset, v)` returns
`v`, and byte number `i` of the carrier holds digit `i` of `v` in base 256,
the least significant first. On any three bytes `getS24` returns their
little-endian value with bit 23 as the sign. -/
theorem carrier_round_trip (mem : List Nat) (this offset : Nat) (v : Int) :
    (this + 4 + offset + 1 ≤ mem.length → -2 ^ 7 ≤ v → v < 2 ^ 7 →
      getS8 (putS8 mem this offset v) this offset = v ∧
      sequence (putS8 mem this offset v) this (2 + offset) = (v % 256).toNat) ∧
    (this + 4 + offset + 2 ≤ mem.length → -2 ^ 15 ≤ v → v < 2 ^ 15 →
      getS16 (putS16 mem this offset v) this offset = v ∧
      sequence (putS16 mem this offset v) this (2 + offset) = (v % 256).toNat ∧
      sequence (putS16 mem this offset v) this (2 + offset + 1) = (v / 256 % 256).toNat) ∧
    (this + 4 + offset + 3 ≤ mem.length → -2 ^ 23 ≤ v → v < 2 ^ 23 →
      getS24 (putS24 mem this offset v) this offset = v ∧
      sequence (putS24 mem this offset v) this (2 + offset) = (v % 256).toNat ∧
      sequence (putS24 mem this offset v) this (2 + offset + 1) = (v / 256 % 256).toNat ∧
      sequence (putS24 mem this offset v) this (2 + offset + 2) = (v / 65536 % 256).toNat) ∧
    (this + 4 + offset + 4 ≤ mem.length → -2 ^ 31 ≤ v → v < 2 ^ 31 →
      getS32 (putS32 mem this offset v) this offset = v ∧
      sequence (putS32 mem this offset v) this (2 + offset) = (v % 256).toNat ∧
      sequence (putS32 mem this offset v) this (2 + offset + 1) = (v / 256 % 256).toNat ∧
      sequence (putS32 mem this offset v) this (2 + offset + 2) = (v / 65536 % 256).toNat ∧
      sequence (putS32 mem this offset v) this (2 + offset + 3) =
        (v / 16777216 % 256).toNat) ∧
    ((∀ b ∈ mem, b < 256) →
      getS24 mem this offset =
        to_signed 24 (sequence mem this (2 + offset) +
          2 ^ 8 * sequence mem this (2 + offset + 1) +
          2 ^ 16 * sequence mem this (2 + offset + 2))) := by
  refine ⟨round_trip_8 mem this offset v, round_trip_16 mem this offset v,
    round_trip_24 mem this offset v, round_trip_32 mem this offset v, ?_⟩
  intro hb
  have l0 := sequence_lt mem this (2 + offset) hb
  have l1 := sequence_lt mem this (2 + offset + 1) hb
  have l2 := sequence_lt mem this (2 + offset + 2) hb
  unfold getS24
  dsimp only
  rw [or_shl _ _ 8 l0, or_shl _ _ 16 (by omega), sign_extend_24 _ (by omega)]

theorem carrier_round_trip_witness :
    getS8 (putS8 (List.replicate 12 0) 0 2 (-5)) 0 2 = -5 ∧
    getS16 (putS16 (List.replicate 12 0) 0 2 (-5)) 0 2 = -5 ∧
    getS24 (putS24 (List.replicate 12 0) 0 2 (-5)) 0 2 = -5 ∧
    getS32 (putS32 (List.replicate 12 0) 0 2 (-5)) 0 2 = -5 ∧
    sequence (putS32 (List.replicate 12 0) 0 2 (-5)) 0 (2 + 2) = 251 :=
  ⟨((carrier_round_trip (List.replicate 12 0) 0 2 (-5)).1
      (by decide) (by decide) (by decide)).1,
   ((carrier_round_trip (List.replicate 12 0) 0 2 (-5)).2.1
      (by decide) (by decide) (by decide)).1,
   ((carrier_round_trip (List.replicate 12 0) 0 2 (-5)).2.2.1
      (by decide) (by decide) (by decide)).1,
   ((carrier_round_trip (List.replicate 12 0) 0 2 (-5)).2.2.2.1
      (by decide) (by decide) (by decide)).1,
   ((carrier_round_trip (List.replicate 12 0) 0 2 (-5)).2.2.2.1
      (by decide) (by decide) (by decide)).2.1⟩

end

section

open hpsjam_output_packetizer

/-! ## What the steps of a payload tick leave alone -/

theorem same_cycle_refl (s : hpsjam_output_packetizer) : same_cycle s s :=
  ⟨rfl, rfl, rfl, rfl, rfl⟩

theorem same_cycle_trans {a b c : hpsjam_output_packetizer} (h1 : same_cycle a b)
    (h2 : same_cycle b c) : same_cycle a c :=
  ⟨h2.1.trans h1.1, h2.2.1.trans h1.2.1, h2.2.2.1.trans h1.2.2.1,
    h2.2.2.2.1.trans h1.2.2.2.1, h2.2.2.2.2.trans h1.2.2.2.2⟩

theorem append_pkt_cycle (MAX_UDP : Nat) (s : hpsjam_output_packetizer)
    (e : hpsjam_packet_entry) : same_cycle s (s.append_pkt MAX_UDP e).1 := by
  unfold append_pkt
  dsimp only
  split <;> exact ⟨rfl, rfl, rfl, rfl, rfl⟩

theorem append_pkt_tail (MAX_UDP d : Nat) (hM : MAX_UDP < SIZE_MOD)
    (s : hpsjam_output_packetizer) (e : hpsjam_packet_entry) (h : out_inv MAX_UDP d s)
    (hz : zero_tail s) : zero_tail (s.append_pkt MAX_UDP e).1 := by
  have hrem := size_sub_remainder MAX_UDP s.offset hM h.off_le
  unfold append_pkt
  simp only [hrem]
  split
  · next hle =>
    have hfit : hpsjam_frame.HDR_SIZE + s.offset + e.getBytes ≤ s.current.length := by
      have := h.off_le; have := h.cur_len
      simp only [hpsjam_frame.HDR_SIZE] at *
      omega
    intro i hi
    dsimp only at hi ⊢
    rw [memcpy_getD_out _ _ _ _ _ hfit (Or.inr (by omega))]
    exact hz i (by omega)
  · exact hz

theorem append_ack_cycle (MAX_UDP : Nat) (s : hpsjam_output_packetizer) :
    same_cycle s (s.append_ack MAX_UDP).1 := by
  unfold append_ack
  dsimp only
  split <;> exact ⟨rfl, rfl, rfl, rfl, rfl⟩

theorem append_ack_tail (MAX_UDP d : Nat) (hM : MAX_UDP < SIZE_MOD)
    (s : hpsjam_output_packetizer) (h : out_inv MAX_UDP d s)
    (hz : zero_tail s) : zero_tail (s.append_ack MAX_UDP).1 := by
  have hrem := size_sub_remainder MAX_UDP s.offset hM h.off_le
  unfold append_ack
  simp only [hrem]
  split
  · next hle =>
    have hfit : hpsjam_frame.HDR_SIZE + s.offset + 4 ≤ s.current.length := by
      have := h.off_le; have := h.cur_len
      simp only [hpsjam_frame.HDR_SIZE] at *
      omega
    intro i hi
    dsimp only at hi ⊢
    rw [memcpy_getD_out _ _ _ _ _ hfit (Or.inr (by omega))]
    exact hz i (by omega)
  · exact hz

theorem append_pending_cycle (MAX_UDP : Nat) (s : hpsjam_output_packetizer)
    (e : hpsjam_packet_entry) : same_cycle s (s.append_pending MAX_UDP e) := by
  have h := append_pkt_cycle MAX_UDP s e
  unfold append_pending
  dsimp only
  split
  · exact h
  · exact h

theorem append_pending_tail (MAX_UDP d : Nat) (hM : MAX_UDP < SIZE_MOD)
    (s : hpsjam_output_packetizer) (e : hpsjam_packet_entry) (h : out_inv MAX_UDP d s)
    (hz : zero_tail s) : zero_tail (s.append_pending MAX_UDP e) := by
  have h := append_pkt_tail MAX_UDP d hM s e h hz
  unfold append_pending
  dsimp only
  split
  · exact h
  · exact h

theorem send_control_cycle (MAX_UDP d ticks : Nat) (hM : MAX_UDP < SIZE_MOD)
    (s : hpsjam_output_packetizer) (h : out_inv MAX_UDP d s) (hz : zero_tail s) :
    same_cycle s (s.send_control MAX_UDP ticks) ∧ zero_tail (s.send_control MAX_UDP ticks) := by
  unfold send_control
  split
  · split
    · next _ p rest _ =>
      have h0 : out_inv MAX_UDP d { s with
          head := rest
          pending := some ((p.setLocalSeqNo s.pend_seqno).setPeerSeqNo s.peer_seqno)
          start_time := ticks % 65536
          pend_seqno := (s.pend_seqno + 1) % 256 } :=
        ⟨h.cur_len, h.mask_len, h.off_le, h.d_max_eq, h.d_cur_le⟩
      exact ⟨append_pending_cycle MAX_UDP _ _, append_pending_tail MAX_UDP d hM _ _ h0 hz⟩
    · split
      · exact ⟨⟨rfl, rfl, rfl, rfl, rfl⟩, hz⟩
      · exact ⟨same_cycle_refl s, hz⟩
  · next p _ =>
    split
    · have h0 : out_inv MAX_UDP d { s with pending := some (p.setPeerSeqNo s.peer_seqno) } :=
        ⟨h.cur_len, h.mask_len, h.off_le, h.d_max_eq, h.d_cur_le⟩
      exact ⟨append_pending_cycle MAX_UDP _ _, append_pending_tail MAX_UDP d hM _ _ h0 hz⟩
    · split
      · exact ⟨⟨rfl, rfl, rfl, rfl, rfl⟩, hz⟩
      · exact ⟨same_cycle_refl s, hz⟩

theorem send_ack_step_cycle (MAX_UDP d : Nat) (hM : MAX_UDP < SIZE_MOD)
    (s : hpsjam_output_packetizer) (h : out_inv MAX_UDP d s) (hz : zero_tail s) :
    same_cycle s (s.send_ack_step MAX_UDP) ∧ zero_tail (s.send_ack_step MAX_UDP) := by
  have h1 := append_ack_cycle MAX_UDP s
  have h2 := append_ack_tail MAX_UDP d hM s h hz
  unfold send_ack_step
  split
  · dsimp only
    split
    · exact ⟨h1, h2⟩
    · exact ⟨h1, h2⟩
  · exact ⟨same_cycle_refl s, hz⟩

/-- The calls other than `send` between two ticks. -/
theorem out_step_cycle (MAX_UDP d : Nat) (hM : MAX_UDP < SIZE_MOD)
    (s : hpsjam_output_packetizer) (op : out_op) (hop : ∀ t, op ≠ out_op.send t)
    (h : out_inv MAX_UDP d s) (hz : zero_tail s) :
    same_cycle s (out_step MAX_UDP s op).1 ∧ zero_tail (out_step MAX_UDP s op).1 := by
  cases op with
  | append_pkt e => exact ⟨append_pkt_cycle MAX_UDP s e, append_pkt_tail MAX_UDP d hM s e h hz⟩
  | append_ack => exact ⟨append_ack_cycle MAX_UDP s, append_ack_tail MAX_UDP d hM s h hz⟩
  | send_single_pkt v pkt =>
    simp only [out_step]
    unfold send_single_pkt
    split
    · split
      · exact ⟨⟨rfl, rfl, rfl, rfl, rfl⟩, hz⟩
      · exact ⟨⟨rfl, rfl, rfl, rfl, rfl⟩, hz⟩
    · exact ⟨same_cycle_refl s, hz⟩
  | note_peer seqno ack => exact ⟨⟨rfl, rfl, rfl, rfl, rfl⟩, hz⟩
  | advance t =>
    simp only [out_step]
    unfold advance
    split
    · exact ⟨same_cycle_refl s, hz⟩
    · exact ⟨⟨rfl, rfl, rfl, rfl, rfl⟩, hz⟩
  | send t => exact absurd rfl (hop t)

/-! ## One tick of `send` -/

/-- The mask tick of `send`. -/
theorem send_mask_tick (MAX_UDP ticks : Nat) (s : hpsjam_output_packetizer)
    (hx : s.d_cur = s.d_max) :
    (s.send MAX_UDP ticks).xor_frame = true ∧
    (s.send MAX_UDP ticks).datagram =
      readBytes (hpsjam_frame.setHdr s.mask (hpsjam_header.setSequence s.seqno s.d_max))
        (s.d_len + hpsjam_frame.HDR_SIZE) ∧
    (s.send MAX_UDP ticks).state =
      { s with mask := hpsjam_frame.clear MAX_UDP, d_cur := 0, d_len := 0 } := by
  unfold send
  rw [if_pos hx]
  exact ⟨rfl, rfl, rfl⟩

/-- The payload tick of `send`: `cur` and `off` are the frame under assembly
and its offset when the header is written. -/
theorem send_payload_tick (MAX_UDP d ticks : Nat) (hM : MAX_UDP < SIZE_MOD)
    (s : hpsjam_output_packetizer) (h : out_inv MAX_UDP d s) (hz : zero_tail s)
    (hx : s.d_cur ≠ s.d_max) :
    ∃ cur off, cur.length = MAX_UDP ∧ off + hpsjam_frame.HDR_SIZE ≤ MAX_UDP ∧
      (∀ i, hpsjam_frame.HDR_SIZE + off ≤ i → cur.getD i 0 = 0) ∧
      (s.send MAX_UDP ticks).xor_frame = false ∧
      (s.send MAX_UDP ticks).datagram =
        (hpsjam_frame.setHdr cur (hpsjam_header.setSequence s.seqno 0)).take
          (off + hpsjam_frame.HDR_SIZE) ∧
      (s.send MAX_UDP ticks).state.mask =
        hpsjam_frame.do_xor s.mask
          (hpsjam_frame.setHdr cur (hpsjam_header.setSequence s.seqno 0)) ∧
      (s.send MAX_UDP ticks).state.current = hpsjam_frame.clear MAX_UDP ∧
      (s.send MAX_UDP ticks).state.offset = 0 ∧
      (s.send MAX_UDP ticks).state.seqno = (s.seqno + 1) % 256 ∧
      (s.send MAX_UDP ticks).state.d_cur = (s.d_cur + 1) % 256 ∧
      (s.send MAX_UDP ticks).state.d_len = max s.d_len off ∧
      (s.send MAX_UDP ticks).state.d_max = s.d_max := by
  obtain ⟨c1, z1⟩ := send_control_cycle MAX_UDP d ticks hM s h hz
  have i1 := (send_control_inv MAX_UDP d ticks hM s h).1
  obtain ⟨c2, z2⟩ := send_ack_step_cycle MAX_UDP d hM _ i1 z1
  have i2 := (send_ack_step_inv MAX_UDP d hM _ i1).1
  obtain ⟨e1, e2, e3, e4, e5⟩ := same_cycle_trans c1 c2
  refine ⟨((s.send_control MAX_UDP ticks).send_ack_step MAX_UDP).current,
    ((s.send_control MAX_UDP ticks).send_ack_step MAX_UDP).offset, i2.cur_len, i2.off_le, z2, ?_⟩
  unfold send
  rw [if_neg hx]
  dsimp only
  rw [e1, e2, e3, e4, e5]
  refine ⟨rfl, rfl, rfl, rfl, rfl, rfl, rfl, ?_, rfl⟩
  split
  · rw [Nat.max_eq_right (by omega)]
  · rw [Nat.max_eq_left (by omega)]

/-! ## The mask and `d_len` along a run -/

theorem xor_byte_append (acc : List (List Nat)) (f : List Nat) (i : Nat) :
    xor_byte (acc ++ [f]) i = xor_byte acc i ^^^ f.getD i 0 := by
  simp [xor_byte, List.foldl_append]

theorem max_offset_append (acc : List (List Nat)) (f : List Nat) :
    max_offset (acc ++ [f]) = max (max_offset acc) (f.length - hpsjam_frame.HDR_SIZE) := by
  simp [max_offset, List.foldl_append]

/-- A frame that is zero beyond `off` and the datagram cut from it read the
same at every index. -/
theorem take_getD_frame (cur : List Nat) (n i : Nat)
    (hz : ∀ j, n ≤ j → cur.getD j 0 = 0) : (cur.take n).getD i 0 = cur.getD i 0 := by
  by_cases hi : i < n
  · rw [List.getD_eq_getElem?_getD, List.getD_eq_getElem?_getD, List.getElem?_take_of_lt hi]
  · rw [hz i (by omega), List.getD_eq_getElem?_getD, List.getElem?_take_eq_none (by omega)]
    rfl

theorem max_offset_ge (acc : List (List Nat)) (f : List Nat) (hf : f ∈ acc) :
    f.length - hpsjam_frame.HDR_SIZE ≤ max_offset acc := by
  unfold max_offset
  have key : ∀ (l : List (List Nat)) (m : Nat),
      m ≤ l.foldl (fun m f => max m (f.length - hpsjam_frame.HDR_SIZE)) m ∧
      ∀ g ∈ l, g.length - hpsjam_frame.HDR_SIZE ≤
        l.foldl (fun m f => max m (f.length - hpsjam_frame.HDR_SIZE)) m := by
    intro l
    induction l with
    | nil => intro m; exact ⟨Nat.le_refl _, fun g hg => absurd hg (List.not_mem_nil g)⟩
    | cons a l ih =>
      intro m
      rw [List.foldl_cons]
      obtain ⟨i1, i2⟩ := ih (max m (a.length - hpsjam_frame.HDR_SIZE))
      refine ⟨Nat.le_trans (Nat.le_max_left _ _) i1, ?_⟩
      intro g hg
      rcases List.mem_cons.mp hg with rfl | hg
      · exact Nat.le_trans (Nat.le_max_right _ _) i1
      · exact i2 g hg
  exact (key acc 0).2 f hf

theorem setHdr_getD (f : List Nat) (v i : Nat) (hi : 1 ≤ i) :
    (hpsjam_frame.setHdr f v).getD i 0 = f.getD i 0 :=
  getD_set_ne _ _ _ _ _ (by omega)

theorem setHdr_length (f : List Nat) (v : Nat) : (hpsjam_frame.setHdr f v).length = f.length :=
  List.length_set _ _ _

/-- A mask tick inside the cycle invariant. The datagram has
`d_len + sizeof(hdr)` bytes; its bytes inside the frame are those of `mask`. -/
theorem cyc_mask_tick (MAX_UDP d ticks : Nat) (s : hpsjam_output_packetizer)
    (acc : List (List Nat)) (l0 : Nat) (h : cyc_inv MAX_UDP d s acc l0) (hx : s.d_cur = d) :
    (s.send MAX_UDP ticks).xor_frame = true ∧
    cyc_inv MAX_UDP d (s.send MAX_UDP ticks).state [] 0 ∧
    acc.length = d ∧
    (s.send MAX_UDP ticks).datagram.length =
      max l0 (max_offset acc) + hpsjam_frame.HDR_SIZE ∧
    (∀ i, 1 ≤ i → i < (s.send MAX_UDP ticks).datagram.length → i < MAX_UDP →
      (s.send MAX_UDP ticks).datagram.getD i 0 = xor_byte acc i) ∧
    (s.send MAX_UDP ticks).state.d_len = 0 ∧
    (∀ f ∈ acc, f.length ≤ (s.send MAX_UDP ticks).datagram.length) := by
  obtain ⟨t1, t2, t3⟩ := send_mask_tick MAX_UDP ticks s (by rw [hx, h.inv.d_max_eq])
  have hlen : (readBytes (hpsjam_frame.setHdr s.mask (hpsjam_header.setSequence s.seqno s.d_max))
      (s.d_len + hpsjam_frame.HDR_SIZE)).length =
      max l0 (max_offset acc) + hpsjam_frame.HDR_SIZE := by
    rw [readBytes_length, h.len_eq]
  rw [t2, t3]
  refine ⟨t1, ?_, by rw [h.count, hx], hlen, ?_, rfl, ?_⟩
  · exact ⟨⟨h.inv.cur_len, clear_length _, h.inv.off_le, h.inv.d_max_eq, Nat.zero_le _⟩,
      h.tail, fun i => by simp [hpsjam_frame.clear, xor_byte], rfl, rfl,
      fun f hf => absurd hf (List.not_mem_nil f)⟩
  rotate_left
  · intro f hf
    rw [hlen]
    have b2 := max_offset_ge acc f hf
    simp only [hpsjam_frame.HDR_SIZE] at b2 ⊢
    omega
  · intro i hi1 hi2 _
    rw [readBytes_length] at hi2
    rw [readBytes_getD _ _ _ hi2, setHdr_getD _ _ _ hi1]
    exact h.mask_eq i

/-- A payload tick inside the cycle invariant. -/
theorem cyc_payload_tick (MAX_UDP d ticks : Nat) (hM : MAX_UDP < SIZE_MOD)
    (hd : d < HPSJAM_SEQ_MAX) (s : hpsjam_output_packetizer)
    (acc : List (List Nat)) (l0 : Nat) (h : cyc_inv MAX_UDP d s acc l0) (hx : s.d_cur ≠ d) :
    (s.send MAX_UDP ticks).xor_frame = false ∧
    cyc_inv MAX_UDP d (s.send MAX_UDP ticks).state
      (acc ++ [(s.send MAX_UDP ticks).datagram]) l0 := by
  rw [HPSJAM_SEQ_MAX] at hd
  have hdc := h.inv.d_cur_le
  obtain ⟨cur, off, p1, p2, p3, p4, p5, p6, p7, p8, p9, p10, p11, p12⟩ :=
    send_payload_tick MAX_UDP d ticks hM s h.inv h.tail (by rw [h.inv.d_max_eq]; exact hx)
  refine ⟨p4, ⟨⟨?_, ?_, ?_, ?_, ?_⟩, ?_, ?_, ?_, ?_, ?_⟩⟩
  · rw [p7]; exact clear_length _
  · rw [p6]
    exact do_xor_length _ _ _ h.inv.mask_len (by rw [setHdr_length, p1])
  · rw [p8]; simp only [hpsjam_frame.HDR_SIZE] at p2 ⊢; omega
  · rw [p12]; exact h.inv.d_max_eq
  · rw [p10]; omega
  · intro i _
    rw [p7]
    simp [hpsjam_frame.clear]
  · intro i
    rw [xor_byte_append, p6, do_xor_getD _ _ (by rw [h.inv.mask_len, setHdr_length, p1]), h.mask_eq i,
      p5]
    congr 1
    symm
    apply take_getD_frame
    intro j hj
    rw [setHdr_getD _ _ _ (by simp only [hpsjam_frame.HDR_SIZE] at hj; omega)]
    exact p3 j (by omega)
  · rw [p11, max_offset_append, h.len_eq, p5, List.length_take, setHdr_length, p1,
      Nat.min_eq_left p2, Nat.add_sub_cancel, Nat.max_assoc]
  · rw [List.length_append, List.length_singleton, h.count, p10]; omega
  · intro f hf
    rcases List.mem_append.mp hf with hf | hf
    · exact h.bound f hf
    · rw [List.mem_singleton.mp hf, p5, List.length_take, setHdr_length, p1]
      exact Nat.min_le_right _ _

theorem cycle_from_cons (acc : List (List Nat)) (r : send_result) (outs : List send_result) :
    cycle_from acc (r :: outs) =
      cycle_from (if r.xor_frame then [] else acc ++ [r.datagram]) outs := rfl

theorem cycle_start_len_cons (l : Nat) (r : send_result) (outs : List send_result) :
    cycle_start_len l (r :: outs) = cycle_start_len (if r.xor_frame then 0 else l) outs := rfl

/-- The cycle invariant along a run of calls, and every mask frame of the
run: its cycle has `d` payload frames, inside the frame it carries their XOR
after the header byte, and its length comes from the largest payload offset
of the cycle and the value `d_len` had when the cycle began. -/
theorem run_cycles (MAX_UDP d : Nat) (hM : MAX_UDP < SIZE_MOD) (hd : d < HPSJAM_SEQ_MAX) :
    ∀ (ops : List out_op) (s : hpsjam_output_packetizer) (acc : List (List Nat)) (l0 : Nat),
      cyc_inv MAX_UDP d s acc l0 →
      cyc_inv MAX_UDP d (out_run MAX_UDP s ops).1 (cycle_from acc (out_run MAX_UDP s ops).2)
        (cycle_start_len l0 (out_run MAX_UDP s ops).2) ∧
      ∀ k r, (out_run MAX_UDP s ops).2[k]? = some r → r.xor_frame = true →
        (cycle_from acc ((out_run MAX_UDP s ops).2.take k)).length = d ∧
        r.datagram.length =
          max (cycle_start_len l0 ((out_run MAX_UDP s ops).2.take k))
            (max_offset (cycle_from acc ((out_run MAX_UDP s ops).2.take k))) +
            hpsjam_frame.HDR_SIZE ∧
        (∀ i, 1 ≤ i → i < r.datagram.length → i < MAX_UDP →
          r.datagram.getD i 0 =
            xor_byte (cycle_from acc ((out_run MAX_UDP s ops).2.take k)) i) ∧
        r.state.d_len = 0 ∧
        (∀ f ∈ cycle_from acc ((out_run MAX_UDP s ops).2.take k),
          f.length ≤ r.datagram.length) := by
  intro ops
  induction ops with
  | nil =>
    intro s acc l0 h
    exact ⟨h, fun k r hk => by simp [out_run] at hk⟩
  | cons op ops ih =>
    intro s acc l0 h
    by_cases hop : ∃ t, op = out_op.send t
    · obtain ⟨t, rfl⟩ := hop
      have hrun : out_run MAX_UDP s (out_op.send t :: ops) =
          ((out_run MAX_UDP (s.send MAX_UDP t).state ops).1,
            s.send MAX_UDP t :: (out_run MAX_UDP (s.send MAX_UDP t).state ops).2) := by
        simp only [out_run, out_step, Option.toList, List.singleton_append]
      rw [hrun]
      dsimp only
      rw [cycle_from_cons, cycle_start_len_cons]
      by_cases hx : s.d_cur = d
      · obtain ⟨m1, m2, m3, m4, m5, m6, m7⟩ := cyc_mask_tick MAX_UDP d t s acc l0 h hx
        obtain ⟨j1, j2⟩ := ih _ _ _ m2
        rw [m1]
        simp only [if_true]
        refine ⟨j1, ?_⟩
        intro k r hk hr
        cases k with
        | zero =>
          simp only [List.getElem?_cons_zero, Option.some.injEq] at hk
          subst hk
          simp only [List.take_zero, cycle_from, cycle_start_len, List.foldl_nil]
          exact ⟨m3, m4, m5, m6, m7⟩
        | succ k =>
          simp only [List.getElem?_cons_succ] at hk
          rw [List.take_succ_cons, cycle_from_cons, cycle_start_len_cons, m1]
          simp only [if_true]
          exact j2 k r hk hr
      · obtain ⟨m1, m2⟩ := cyc_payload_tick MAX_UDP d t hM hd s acc l0 h hx
        obtain ⟨j1, j2⟩ := ih _ _ _ m2
        rw [m1]
        simp only [Bool.false_eq_true, if_false]
        refine ⟨j1, ?_⟩
        intro k r hk hr
        cases k with
        | zero =>
          simp only [List.getElem?_cons_zero, Option.some.injEq] at hk
          subst hk
          rw [m1] at hr
          cases hr
        | succ k =>
          simp only [List.getElem?_cons_succ] at hk
          rw [List.take_succ_cons, cycle_from_cons, cycle_start_len_cons, m1]
          simp only [Bool.false_eq_true, if_false]
          exact j2 k r hk hr
    · have hop' : ∀ t, op ≠ out_op.send t := fun t ht => hop ⟨t, ht⟩
      obtain ⟨h1, h2, h3⟩ := out_step_inv MAX_UDP d hM s op hop' h.inv
      obtain ⟨c1, c2⟩ := out_step_cycle MAX_UDP d hM s op hop' h.inv h.tail
      have hrun : out_run MAX_UDP s (op :: ops) =
          out_run MAX_UDP (out_step MAX_UDP s op).1 ops := by
        simp only [out_run, h3, Option.toList, List.nil_append]
      rw [hrun]
      apply ih
      exact ⟨h1, c2, fun i => by rw [c1.2.1]; exact h.mask_eq i,
        by rw [c1.2.2.1]; exact h.len_eq, by rw [c1.2.2.2.1]; exact h.count, h.bound⟩

/-! ## The mask accumulator and the length of the mask frame -/

theorem init_cyc (MAX_UDP distance : Nat) (hpos : 0 < MAX_UDP) (s0 : hpsjam_output_packetizer) :
    cyc_inv MAX_UDP (distance % 256 % HPSJAM_SEQ_MAX) (init MAX_UDP s0 distance) []
      s0.d_len := by
  refine ⟨⟨clear_length _, clear_length _, ?_, rfl, Nat.zero_le _⟩, ?_, ?_, ?_, rfl,
    fun f hf => absurd hf (List.not_mem_nil f)⟩
  · simp only [init, hpsjam_frame.HDR_SIZE]; omega
  · intro i _
    simp [init, hpsjam_frame.clear]
  · intro i
    simp [init, hpsjam_frame.clear, xor_byte]
  · simp [init, max_offset]

/-- A packetizer constructed with `d_len = 20` and frames of 16 bytes: the
first mask frame has `20 + sizeof(hdr) = 21` bytes, five more than the frame;
the next one has one byte. -/
theorem mask_frame_past_frame :
    (out_run 16 (new 16 20)
        [out_op.send 0, out_op.send 0, out_op.send 0, out_op.send 0, out_op.send 0,
          out_op.send 0]).2.map
      (fun r => (r.xor_frame, r.datagram.length)) =
      [(false, 1), (false, 1), (true, 21), (false, 1), (false, 1), (true, 1)] := by
  decide

/-- The length of every mask frame of a run after `init(distance)`: one more
than the largest payload offset of its cycle, or than the value `d_len` had
before `init` when the cycle is the first one and that value is larger,
whatever the frame size. Then `d_len` is zero. -/
theorem mask_frame_length (MAX_UDP distance : Nat) (s0 : hpsjam_output_packetizer)
    (ops : List out_op) (hpos : 0 < MAX_UDP) (hM : MAX_UDP < SIZE_MOD) :
    ∀ k r, (out_run MAX_UDP (init MAX_UDP s0 distance) ops).2[k]? = some r →
      r.xor_frame = true →
      r.datagram.length =
        max
          (cycle_start_len s0.d_len
            ((out_run MAX_UDP (init MAX_UDP s0 distance) ops).2.take k))
          (max_offset
            (cycle_frames ((out_run MAX_UDP (init MAX_UDP s0 distance) ops).2.take k))) +
          hpsjam_frame.HDR_SIZE ∧
      r.state.d_len = 0 := by
  obtain ⟨_, h2⟩ := run_cycles MAX_UDP (distance % 256 % HPSJAM_SEQ_MAX) hM
    (Nat.mod_lt _ (by decide)) ops _ _ _ (init_cyc MAX_UDP distance hpos s0)
  intro k r hk hr
  obtain ⟨_, g2, _, g4, _⟩ := h2 k r hk hr
  exact ⟨g2, g4⟩

/-- C20 fails on the code: `init()` does not assign `d_len`. A packetizer that
has sent a payload frame with payload offset 8 is initialised again with
`init(2)` and sends two empty payload frames (payload offset 0, one byte
each) and the mask frame of that cycle: the mask frame has 9 bytes, where
the claim gives `0 + sizeof(header) = 1`. -/
theorem mask_length_stale_after_init :
    ((example_out.append_pkt 16 example_entry2).1.send 16 0).state.d_len = 8 ∧
    (out_run 16 (init 16 ((example_out.append_pkt 16 example_entry2).1.send 16 0).state 2)
        [out_op.send 0, out_op.send 0, out_op.send 0]).2.map
      (fun r => (r.xor_frame, r.datagram.length)) = [(false, 1), (false, 1), (true, 9)] ∧
    max_offset (cycle_frames ((out_run 16
      (init 16 ((example_out.append_pkt 16 example_entry2).1.send 16 0).state 2)
        [out_op.send 0, out_op.send 0, out_op.send 0]).2.take 2)) = 0 := by
  decide

/-! ## The header of every frame of a run -/

end

section

open hpsjam_audio_buffer

/-! ## The fade-in written by `addSamples` -/

theorem read_samples_getD (src : List ℚ) (len i : Nat) (h : i < len) :
    (read_samples src len).getD i 0 = src.getD i 0 := by
  simp [read_samples, List.getD_eq_getElem?_getD, List.getElem?_map, List.getElem?_range h]

theorem copy_samples_getD_in (dst src : List ℚ) (pos len i : Nat) (h : pos + len ≤ dst.length)
    (hi : i < len) : (copy_samples dst pos src len).getD (pos + i) 0 = src.getD i 0 := by
  have hp : (dst.take pos).length = pos := by simp; omega
  rw [copy_samples, List.append_assoc, List.getD_eq_getElem?_getD,
    List.getElem?_append_right (by omega), hp,
    List.getElem?_append_left (by simp [read_samples_length]; omega)]
  have := read_samples_getD src len i hi
  rw [List.getD_eq_getElem?_getD] at this
  simpa using this

theorem copy_samples_getD_out (dst src : List ℚ) (pos len j : Nat)
    (h : pos + len ≤ dst.length) (hj : j < pos ∨ pos + len ≤ j) :
    (copy_samples dst pos src len).getD j 0 = dst.getD j 0 := by
  have hp : (dst.take pos).length = pos := by simp; omega
  rw [copy_samples, List.append_assoc, List.getD_eq_getElem?_getD, List.getD_eq_getElem?_getD]
  rcases hj with hj | hj
  · rw [List.getElem?_append_left (by omega), List.getElem?_take_of_lt hj]
  · rw [List.getElem?_append_right (by omega), hp,
      List.getElem?_append_right (by simp [read_samples_length]; omega), read_samples_length,
      List.getElem?_drop]
    congr 2
    omega

theorem fade_weight_zero (F k : Nat) (h : F ≤ k) : fade_weight F k = 0 := by
  unfold fade_weight
  rw [Nat.sub_eq_zero_of_le h]
  simp

theorem crossfade_done (F : Nat) (last : ℚ) (src : List ℚ) (k : Nat) (h : F ≤ k) :
    crossfade F last src k = src.getD k 0 := by
  unfold crossfade
  rw [fade_weight_zero F k h]
  ring

theorem fade_chunk_succ (st : hpsjam_audio_buffer) (src : List ℚ) (producer n : Nat) :
    fade_chunk st src producer (n + 1) =
      { fade_chunk st src producer n with
        last_sample := decay_once (fade_chunk st src producer n).last_sample
        samples := ((fade_chunk st src producer n).samples.set (producer + n)
          (src.getD n 0 -
            (((fade_chunk st src producer n).fade_in : ℚ) / (fadeSamples : ℚ)) * src.getD n 0 +
            decay_once (fade_chunk st src producer n).last_sample *
              (((fade_chunk st src producer n).fade_in : ℚ) / (fadeSamples : ℚ))))
        fade_in := (fade_chunk st src producer n).fade_in -
          (if (fade_chunk st src producer n).fade_in ≠ 0 then 1 else 0) } := by
  unfold fade_chunk
  rw [List.range_succ, List.foldl_append]
  rfl

/-- The fade-in loop over `n` samples: sample `k` is the cross-fade with the
weight counted down from `fade_in`, the samples outside the chunk stay. -/
theorem fade_chunk_spec (st : hpsjam_audio_buffer) (src : List ℚ) (producer : Nat) :
    ∀ n, producer + n ≤ st.samples.length →
      (fade_chunk st src producer n).fade_in = st.fade_in - n ∧
      (fade_chunk st src producer n).last_sample = decay_once^[n] st.last_sample ∧
      (fade_chunk st src producer n).samples.length = st.samples.length ∧
      (∀ k, k < n → (fade_chunk st src producer n).samples.getD (producer + k) 0 =
        crossfade st.fade_in st.last_sample src k) ∧
      (∀ i, i < producer ∨ producer + n ≤ i →
        (fade_chunk st src producer n).samples.getD i 0 = st.samples.getD i 0) := by
  intro n
  induction n with
  | zero =>
    intro _
    exact ⟨rfl, rfl, rfl, fun k hk => absurd hk (Nat.not_lt_zero k), fun _ _ => rfl⟩
  | succ n ih =>
    intro hn
    obtain ⟨h1, h2, h3, h4, h5⟩ := ih (by omega)
    rw [fade_chunk_succ]
    dsimp only
    refine ⟨?_, ?_, ?_, ?_, ?_⟩
    · rw [h1]; split <;> omega
    · rw [h2, Function.iterate_succ_apply']
    · rw [List.length_set, h3]
    · intro k hk
      by_cases hkn : k = n
      · subst hkn
        rw [getD_set_self _ _ _ _ (by rw [h3]; omega), h1, h2]
        unfold crossfade fade_weight
        rw [Function.iterate_succ_apply']
        ring
      · rw [getD_set_ne _ _ _ _ _ (by omega)]
        exact h4 k (by omega)
    · intro i hi
      rw [getD_set_ne _ _ _ _ _ (by omega)]
      exact h5 i (by omega)

/-- One chunk of `addSamples`, faded in or copied. -/
theorem add_chunk_spec (st : hpsjam_audio_buffer) (src : List ℚ) (producer fwd : Nat)
    (h : producer + fwd ≤ st.samples.length) :
    (st.add_chunk src producer fwd).fade_in = st.fade_in - fwd ∧
    (st.add_chunk src producer fwd).last_sample =
      (st.add_chunk src producer fwd).samples.getD (producer + fwd - 1) 0 ∧
    (st.add_chunk src producer fwd).samples.length = st.samples.length ∧
    (∀ k, k < fwd → (st.add_chunk src producer fwd).samples.getD (producer + k) 0 =
      crossfade st.fade_in st.last_sample src k) ∧
    (∀ i, i < producer ∨ producer + fwd ≤ i →
      (st.add_chunk src producer fwd).samples.getD i 0 = st.samples.getD i 0) := by
  unfold add_chunk
  dsimp only
  by_cases hf : st.fade_in ≠ 0
  · rw [if_pos hf]
    obtain ⟨h1, _, h3, h4, h5⟩ := fade_chunk_spec st src producer fwd h
    exact ⟨h1, rfl, h3, h4, h5⟩
  · rw [if_neg hf]
    have hf0 : st.fade_in = 0 := by omega
    refine ⟨by show st.fade_in = _; omega, rfl, copy_samples_length _ _ _ _ h, ?_, ?_⟩
    · intro k hk
      show (copy_samples st.samples producer src fwd).getD (producer + k) 0 = _
      rw [copy_samples_getD_in _ _ _ _ _ h hk, crossfade_done _ _ _ _ (by omega)]
    · intro i hi
      exact copy_samples_getD_out _ _ _ _ _ h hi

/-- The store loop of `addSamples` for a count clamped to the free space: no
chunk, one chunk, or one chunk up to the end of the ring and one from its
start. -/
theorem add_loop_eq (s : hpsjam_audio_buffer) (src : List ℚ) (num fuel P : Nat)
    (hP : P < 1536) (hn : num ≤ 1536) :
    add_loop (fuel + 2) s src num (1536 - P) P =
      some (if num = 0 then s
        else if num ≤ 1536 - P then s.add_chunk src P num
        else (s.add_chunk src P (1536 - P)).add_chunk (src.drop (1536 - P)) 0
          (num - (1536 - P))) := by
  by_cases h0 : num = 0
  · subst h0
    simp [add_loop]
  · rw [if_neg h0]
    by_cases h1 : 1536 - P > num
    · rw [if_pos (by omega)]
      rw [add_loop, if_neg h0]
      simp only [if_pos h1, max_samples_eq, ne_eq, h0, not_false_eq_true, if_true]
      rw [if_neg (by omega), if_pos (by omega)]
    · have hf0 : ¬ (1536 - P = 0) := by omega
      by_cases h2 : num - (1536 - P) = 0
      · have e : num = 1536 - P := by omega
        rw [if_pos (by omega)]
        rw [add_loop, if_neg h0]
        simp only [if_neg h1, max_samples_eq, ne_eq, hf0, not_false_eq_true, if_true]
        rw [if_pos (by omega), add_loop, if_pos h2, e]
      · have h3 : 1536 > num - (1536 - P) := by omega
        rw [if_neg (by omega)]
        rw [add_loop, if_neg h0]
        simp only [if_neg h1, max_samples_eq, ne_eq, hf0, not_false_eq_true, if_true]
        rw [if_pos (by omega), add_loop, if_neg h2]
        simp only [if_pos h3, max_samples_eq, ne_eq, h2, not_false_eq_true, if_true,
          Nat.zero_add]
        rw [if_neg (by omega), if_pos (by omega)]

theorem getD_drop_rat (l : List ℚ) (n i : Nat) : (l.drop n).getD i 0 = l.getD (n + i) 0 := by
  rw [List.getD_eq_getElem?_getD, List.getD_eq_getElem?_getD, List.getElem?_drop]

theorem fade_weight_bounds (F k : Nat) (hF : F ≤ fadeSamples) :
    0 ≤ fade_weight F k ∧ fade_weight F k ≤ 1 ∧ fade_weight F (k + 1) ≤ fade_weight F k := by
  have h48 : (0 : ℚ) < (fadeSamples : ℚ) := by
    simp only [fadeSamples, HPSJAM_DEF_SAMPLES]; norm_num
  unfold fade_weight
  refine ⟨div_nonneg (Nat.cast_nonneg _) (le_of_lt h48), ?_, ?_⟩
  · rw [div_le_one h48]
    exact_mod_cast (Nat.le_trans (Nat.sub_le F k) hF)
  · apply div_le_div_of_nonneg_right _ (le_of_lt h48)
    exact_mod_cast (Nat.sub_le_sub_left (Nat.le_succ k) F)

/-- C16 (fade-in monotonicity): a call of `addSamples` on a buffer satisfying
the invariant, with `fade_in = F <= fadeSamples` (after an underrun or
`addSilence` `F = fadeSamples`, and `F = fadeSamples - k0` once `k0` samples
have been written since). The call returns; sample number `k` that it writes
is `(1 - f) * src[k] + f * e` with `f = (F - k) / fadeSamples` (zero from
`k = F` on), where `e` is the extrapolation: `last_sample` decayed once per
sample, restarted from the last stored sample where the ring wraps. The
weight `f` lies in `[0, 1]` and does not grow with `k`, `fade_in` goes down by
one per written sample down to zero, and from sample `F` on the input is
stored unchanged. -/
theorem fade_in_monotone (s : hpsjam_audio_buffer) (src : List ℚ) (num : Nat)
    (h : buf_inv s) (hF : s.fade_in ≤ fadeSamples) :
    ∃ s', s.addSamples src num = some s' ∧
      s'.fade_in = s.fade_in - min num (HPSJAM_MAX_SAMPLES - s.total) ∧
      (∀ k, k < min num (HPSJAM_MAX_SAMPLES - s.total) →
        s'.samples.getD (((s.consumer + s.total) % HPSJAM_MAX_SAMPLES + k) %
            HPSJAM_MAX_SAMPLES) 0 =
          (1 - fade_weight s.fade_in k) * src.getD k 0 +
          fade_weight s.fade_in k *
            (if (s.consumer + s.total) % HPSJAM_MAX_SAMPLES + k < HPSJAM_MAX_SAMPLES then
              decay_once^[k + 1] s.last_sample
            else
              decay_once^[(s.consumer + s.total) % HPSJAM_MAX_SAMPLES + k -
                  HPSJAM_MAX_SAMPLES + 1]
                (s'.samples.getD (HPSJAM_MAX_SAMPLES - 1) 0))) ∧
      (∀ k, 0 ≤ fade_weight s.fade_in k ∧ fade_weight s.fade_in k ≤ 1 ∧
        fade_weight s.fade_in (k + 1) ≤ fade_weight s.fade_in k) ∧
      (∀ k, k < min num (HPSJAM_MAX_SAMPLES - s.total) → s.fade_in ≤ k →
        s'.samples.getD (((s.consumer + s.total) % HPSJAM_MAX_SAMPLES + k) %
            HPSJAM_MAX_SAMPLES) 0 = src.getD k 0) := by
  obtain ⟨ht, _, _, hl, _⟩ := h
  -- the samples written, without the last clause
  have main : ∃ s', s.addSamples src num = some s' ∧
      s'.fade_in = s.fade_in - min num (HPSJAM_MAX_SAMPLES - s.total) ∧
      (∀ k, k < min num (HPSJAM_MAX_SAMPLES - s.total) →
        s'.samples.getD (((s.consumer + s.total) % HPSJAM_MAX_SAMPLES + k) %
            HPSJAM_MAX_SAMPLES) 0 =
          (1 - fade_weight s.fade_in k) * src.getD k 0 +
          fade_weight s.fade_in k *
            (if (s.consumer + s.total) % HPSJAM_MAX_SAMPLES + k < HPSJAM_MAX_SAMPLES then
              decay_once^[k + 1] s.last_sample
            else
              decay_once^[(s.consumer + s.total) % HPSJAM_MAX_SAMPLES + k -
                  HPSJAM_MAX_SAMPLES + 1]
                (s'.samples.getD (HPSJAM_MAX_SAMPLES - 1) 0))) := by
    unfold addSamples
    dsimp only
    rw [clamp_free s num ht]
    rw [max_samples_eq] at *
    have hP : (s.consumer + s.total) % 1536 < 1536 := Nat.mod_lt _ (by decide)
    generalize (s.consumer + s.total) % 1536 = P at hP
    have hPle : min num (1536 - s.total) ≤ 1536 - s.total := Nat.min_le_right _ _
    generalize min num (1536 - s.total) = m at hPle
    have hfwd : size_sub 1536 P = 1536 - P :=
      size_sub_of_le _ _ (by simp [SIZE_MOD]) (by omega)
    rw [hfwd, add_loop_eq s src m m P hP (by omega)]
    refine ⟨_, rfl, ?_⟩
    by_cases h0 : m = 0
    · rw [if_pos h0]
      exact ⟨by omega, fun k hk => absurd hk (by omega)⟩
    · rw [if_neg h0]
      by_cases h1 : m ≤ 1536 - P
      · rw [if_pos h1]
        obtain ⟨a1, _, _, a4, _⟩ := add_chunk_spec s src P m (by rw [hl]; omega)
        refine ⟨a1, ?_⟩
        intro k hk
        rw [Nat.mod_eq_of_lt (by omega), a4 k hk, if_pos (by omega)]
        unfold crossfade
        ring
      · rw [if_neg h1]
        obtain ⟨a1, a2, a3, a4, _⟩ := add_chunk_spec s src P (1536 - P) (by rw [hl]; omega)
        obtain ⟨b1, _, _, b4, b5⟩ := add_chunk_spec (s.add_chunk src P (1536 - P))
          (src.drop (1536 - P)) 0 (m - (1536 - P)) (by rw [a3, hl]; omega)
        refine ⟨by rw [b1, a1]; omega, ?_⟩
        intro k hk
        have hlast : ((s.add_chunk src P (1536 - P)).add_chunk (src.drop (1536 - P)) 0
            (m - (1536 - P))).samples.getD (1536 - 1) 0 =
            (s.add_chunk src P (1536 - P)).last_sample := by
          rw [b5 _ (Or.inr (by omega)), a2]
          congr 1
          omega
        by_cases hk1 : P + k < 1536
        · rw [Nat.mod_eq_of_lt hk1, if_pos hk1, b5 _ (Or.inr (by omega)), a4 k (by omega)]
          unfold crossfade
          ring
        · have e1 : (P + k) % 1536 = 0 + (k - (1536 - P)) := by omega
          rw [e1, if_neg hk1, b4 _ (by omega), hlast, a1]
          unfold crossfade
          have e2 : fade_weight (s.fade_in - (1536 - P)) (k - (1536 - P)) =
              fade_weight s.fade_in k := by
            unfold fade_weight
            congr 2
            omega
          have e3 : 1536 - P + (k - (1536 - P)) = k := by omega
          have e4 : k - (1536 - P) + 1 = P + k - 1536 + 1 := by omega
          rw [e2, getD_drop_rat, e3, e4]
          ring
  obtain ⟨s', e, hf, hs⟩ := main
  refine ⟨s', e, hf, hs, fun k => fade_weight_bounds _ k hF, ?_⟩
  intro k hk hle
  rw [hs k hk, fade_weight_zero _ _ hle]
  ring

theorem fade_in_monotone_witness :
    ∃ s', clear.addSamples [1, 1, 1] 3 = some s' ∧
      s'.fade_in = clear.fade_in - min 3 (HPSJAM_MAX_SAMPLES - clear.total) ∧
      (∀ k, k < min 3 (HPSJAM_MAX_SAMPLES - clear.total) →
        s'.samples.getD (((clear.consumer + clear.total) % HPSJAM_MAX_SAMPLES + k) %
            HPSJAM_MAX_SAMPLES) 0 =
          (1 - fade_weight clear.fade_in k) * ([1, 1, 1] : List ℚ).getD k 0 +
          fade_weight clear.fade_in k *
            (if (clear.consumer + clear.total) % HPSJAM_MAX_SAMPLES + k < HPSJAM_MAX_SAMPLES
              then decay_once^[k + 1] clear.last_sample
            else
              decay_once^[(clear.consumer + clear.total) % HPSJAM_MAX_SAMPLES + k -
                  HPSJAM_MAX_SAMPLES + 1]
                (s'.samples.getD (HPSJAM_MAX_SAMPLES - 1) 0))) ∧
      (∀ k, 0 ≤ fade_weight clear.fade_in k ∧ fade_weight clear.fade_in k ≤ 1 ∧
        fade_weight clear.fade_in (k + 1) ≤ fade_weight clear.fade_in k) ∧
      (∀ k, k < min 3 (HPSJAM_MAX_SAMPLES - clear.total) → clear.fade_in ≤ k →
        s'.samples.getD (((clear.consumer + clear.total) % HPSJAM_MAX_SAMPLES + k) %
            HPSJAM_MAX_SAMPLES) 0 = ([1, 1, 1] : List ℚ).getD k 0) :=
  fade_in_monotone clear [1, 1, 1] 3 clear_inv (by decide)

end

section

open hpsjam_input_packetizer

/-! ## The redundancy `last_red` over runs of calls -/

theorem getRedNo_lt (v : Nat) : hpsjam_header.getRedNo v < 16 := by
  simp only [hpsjam_header.getRedNo, HPSJAM_SEQ_MAX]; omega

theorem divisor_of_16 (r : Nat) (h0 : r ≠ 0) (h1 : r < 16) (h2 : 16 % r = 0) :
    r = 1 ∨ r = 2 ∨ r = 4 ∨ r = 8 := by
  interval_cases r <;> simp_all

/-- The method `receive` leaves `last_red` in `{1, 2, 4, 8}` and keeps the
sizes of the arrays, whatever the frame. -/
theorem receive_shape (s : hpsjam_input_packetizer) (f : List Nat)
    (hr : s.last_red = 1 ∨ s.last_red = 2 ∨ s.last_red = 4 ∨ s.last_red = 8) :
    ((s.receive f).last_red = 1 ∨ (s.receive f).last_red = 2 ∨ (s.receive f).last_red = 4 ∨
      (s.receive f).last_red = 8) ∧
    (s.receive f).valid.length = s.valid.length ∧
    (s.receive f).mask.length = s.mask.length ∧
    (s.receive f).current.length = s.current.length := by
  unfold receive
  dsimp only
  split
  · rename_i h0
    split
    · rename_i h1
      refine ⟨?_, by simp, by simp, rfl⟩
      exact divisor_of_16 _ h0 (getRedNo_lt _) h1.1
    · exact ⟨hr, rfl, rfl, rfl⟩
  · exact ⟨hr, by simp, rfl, by simp⟩

/-- The outer loop of `recovery` ends when `last_red` divides `SEQ_MAX`, and
keeps `last_red` and the sizes of the arrays. -/
theorem recovery_loop_shape (r : Nat) (hr : r = 1 ∨ r = 2 ∨ r = 4 ∨ r = 8) :
    ∀ (k fuel x0 : Nat) (s : hpsjam_input_packetizer), k < fuel → x0 + k * r = 16 →
      s.last_red = r → s.mask.length = HPSJAM_SEQ_MAX →
      ∃ s', recovery_loop fuel s x0 = some s' ∧ s'.last_red = r ∧
        s'.valid.length = s.valid.length ∧ s'.mask.length = s.mask.length ∧
        s'.current.length = s.current.length := by
  intro k
  induction k with
  | zero =>
    intro fuel x0 s hf hx0 hl _
    obtain ⟨f, rfl⟩ : ∃ f, fuel = f + 1 := ⟨fuel - 1, by omega⟩
    have h16 : x0 = 16 := by omega
    refine ⟨s, ?_, hl, rfl, rfl, rfl⟩
    rw [recovery_loop, if_pos (by rw [h16]; rfl)]
  | succ k ih =>
    intro fuel x0 s hf hx0 hl hm
    obtain ⟨f, rfl⟩ : ∃ f, fuel = f + 1 := ⟨fuel - 1, by omega⟩
    have hx0lt : x0 < 16 := by rcases hr with rfl | rfl | rfl | rfl <;> omega
    have hnext : (x0 + s.last_red) % 256 = x0 + r := by
      rw [hl]; rcases hr with rfl | rfl | rfl | rfl <;> omega
    obtain ⟨g1, g2, g3, g4, _⟩ := recovery_group_frame s x0 (by rw [hm]; exact hx0lt)
    rw [recovery_loop, if_neg (by rw [HPSJAM_SEQ_MAX]; omega), hnext]
    obtain ⟨s', e, a1, a2, a3, a4⟩ := ih f (x0 + r) (s.recovery_group x0) (by omega)
      (by rw [Nat.succ_mul] at hx0; omega) (by rw [g1]; exact hl) (by rw [g4]; exact hm)
    exact ⟨s', e, a1, a2.trans g2, a3.trans g4, a4.trans g3⟩

/-- The method `recovery` returns when `last_red` divides `SEQ_MAX`, and keeps
`last_red` and the sizes of the arrays. -/
theorem recovery_shape (s : hpsjam_input_packetizer)
    (hr : s.last_red = 1 ∨ s.last_red = 2 ∨ s.last_red = 4 ∨ s.last_red = 8)
    (hm : s.mask.length = HPSJAM_SEQ_MAX) :
    ∃ s', s.recovery = some s' ∧ s'.last_red = s.last_red ∧
      s'.valid.length = s.valid.length ∧ s'.mask.length = s.mask.length ∧
      s'.current.length = s.current.length := by
  unfold recovery
  split
  · exact ⟨s, rfl, rfl, rfl, rfl, rfl⟩
  · have hk : 0 + (16 / s.last_red) * s.last_red = 16 := by
      rcases hr with h | h | h | h <;> rw [h]
    exact recovery_loop_shape s.last_red hr (16 / s.last_red) 257 0 s
      (by have := Nat.div_le_self 16 s.last_red; omega) hk rfl hm

/-! ## What `first_pkt` does to the slot it hands out -/

theorem cnot_got_packet (v : Nat) :
    cnot v &&& HPSJAM_V_GOT_PACKET ≠ 0 ↔ v &&& HPSJAM_V_GOT_PACKET = 0 := by
  simp only [cnot, HPSJAM_V_GOT_PACKET, Nat.and_one_is_mod]
  omega

theorem keep_fold_other (m w : Nat) :
    ∀ (l : List Nat) (s : hpsjam_input_packetizer),
      (∀ x ∈ l, (m + x) % HPSJAM_SEQ_MAX ≠ w) →
      (l.foldl
        (fun st x =>
          { st with valid := (st.valid.set ((m + x) % HPSJAM_SEQ_MAX)
              (st.validAt ((m + x) % HPSJAM_SEQ_MAX) &&& HPSJAM_V_GOT_RECEIVED)) })
        s).validAt w = s.validAt w := by
  intro l
  induction l with
  | nil => intro s _; rfl
  | cons a t ih =>
    intro s h
    rw [List.foldl_cons, ih _ (fun x hx => h x (List.mem_cons_of_mem _ hx))]
    simp only [validAt]
    exact getD_set_ne _ _ _ _ _ (h a (List.mem_cons_self _ _))

/-- The loop "only keep the received flag" touches the slots of its group
only. -/
theorem keep_received_other (s : hpsjam_input_packetizer) (m w : Nat)
    (hw : ∀ x, x < s.last_red → (m + x) % HPSJAM_SEQ_MAX ≠ w) :
    (s.keep_received m).validAt w = s.validAt w := by
  unfold keep_received
  exact keep_fold_other m w _ s (fun x hx => hw x (List.mem_range.mp hx))

theorem consumable_mem (s : hpsjam_input_packetizer) (m z : Nat)
    (h : s.consumable m = some z) :
    ∃ x, x < s.last_red ∧ z = (m + x) % HPSJAM_SEQ_MAX := by
  unfold consumable at h
  have hm := List.mem_of_find?_eq_some h
  obtain ⟨x, hx, rfl⟩ := List.mem_map.mp hm
  exact ⟨x, List.mem_range.mp hx, rfl⟩

/-- The statements that hand out slot `z`: a silence frame is stored, and a
loss and a damage are counted, exactly when `GOT_PACKET` is clear in
`valid[z]`. -/
theorem deliver_spec (M : Nat) (s : hpsjam_input_packetizer) (z : Nat) :
    (deliver M s z).last_red = s.last_red ∧ (deliver M s z).mask = s.mask ∧
    (deliver M s z).valid.length = s.valid.length ∧
    (s.validAt z &&& HPSJAM_V_GOT_PACKET = 0 →
      (deliver M s z).current = s.current.set z
        (putSilence (hpsjam_frame.clear M) hpsjam_frame.start HPSJAM_NOM_SAMPLES) ∧
      (deliver M s z).jitter.damages = s.jitter.damages + 1 ∧
      (deliver M s z).jitter.losses = s.jitter.losses + 1) ∧
    (s.validAt z &&& HPSJAM_V_GOT_PACKET ≠ 0 →
      (deliver M s z).current = s.current ∧ (deliver M s z).jitter = s.jitter) := by
  by_cases hc : cnot (s.validAt z) &&& HPSJAM_V_GOT_PACKET ≠ 0
  · have h0 := (cnot_got_packet _).mp hc
    simp only [deliver, if_pos hc]
    refine ⟨trivial, trivial, by simp, fun _ => ⟨trivial, ?_, ?_⟩, fun h => absurd h0 h⟩
    · simp only [hpsjam_jitter.rx_damage, hpsjam_jitter.rx_loss]
    · simp only [hpsjam_jitter.rx_damage, hpsjam_jitter.rx_loss]
  · have h0 : s.validAt z &&& HPSJAM_V_GOT_PACKET ≠ 0 := fun h => hc ((cnot_got_packet _).mpr h)
    simp only [deliver, if_neg hc]
    exact ⟨trivial, trivial, by simp, fun h => absurd h h0, fun _ => ⟨trivial, trivial⟩⟩

theorem shift_budget (start q r : Nat) (h : start < 2 ^ ((q + 1) * r)) :
    start >>> r < 2 ^ (q * r) := by
  rw [Nat.shiftRight_eq_div_pow, Nat.div_lt_iff_lt_mul (Nat.two_pow_pos r), ← Nat.pow_add]
  rw [Nat.succ_mul] at h
  exact h

/-- The `while` loop of `first_pkt` from a start value of `q * last_red` bits
whose next `q * last_red` slots are as in the state `s0` the call began with:
it ends within `q + 1` rounds; the slot handed out is filled with silence, and
counted as loss and damage, exactly when `GOT_PACKET` was clear in it. -/
theorem first_pkt_loop_spec (M : Nat) (s0 : hpsjam_input_packetizer) (r : Nat)
    (hr : r = 1 ∨ r = 2 ∨ r = 4 ∨ r = 8) :
    ∀ (q fuel : Nat) (s : hpsjam_input_packetizer) (start m : Nat),
      q < fuel → s.last_red = r → s.valid.length = s0.valid.length → q * r ≤ 16 →
      start < 2 ^ (q * r) →
      s.current = s0.current → s.mask = s0.mask → s.jitter.damages = s0.jitter.damages →
      s0.jitter.losses ≤ s.jitter.losses →
      (∀ j, j < q * r →
        s.validAt ((m + j) % HPSJAM_SEQ_MAX) = s0.validAt ((m + j) % HPSJAM_SEQ_MAX)) →
      ∃ s' o, first_pkt_loop M fuel s start m = some (s', o) ∧
        s'.last_red = r ∧ s'.valid.length = s0.valid.length ∧ s'.mask = s0.mask ∧
        s0.jitter.losses ≤ s'.jitter.losses ∧
        (o = none → s'.current = s0.current ∧ s'.jitter.damages = s0.jitter.damages) ∧
        ∀ z, o = some z →
          z < HPSJAM_SEQ_MAX ∧
          (s0.validAt z &&& HPSJAM_V_GOT_PACKET = 0 →
            s'.current = s0.current.set z
              (putSilence (hpsjam_frame.clear M) hpsjam_frame.start HPSJAM_NOM_SAMPLES) ∧
            s'.jitter.damages = s0.jitter.damages + 1 ∧
            s0.jitter.losses + 1 ≤ s'.jitter.losses) ∧
          (s0.validAt z &&& HPSJAM_V_GOT_PACKET ≠ 0 →
            s'.current = s0.current ∧ s'.jitter.damages = s0.jitter.damages) := by
  intro q
  induction q with
  | zero =>
    intro fuel s start m hf hl hv _ hst hc hm hd hlo _
    obtain ⟨f, rfl⟩ : ∃ f, fuel = f + 1 := ⟨fuel - 1, by omega⟩
    have h0 : start = 0 := by simpa using hst
    subst h0
    refine ⟨s, none, ?_, hl, hv, hm, hlo, fun _ => ⟨hc, hd⟩, fun z hz => absurd hz (by simp)⟩
    rw [first_pkt_loop]
    dsimp only
    rw [if_neg]
    rw [Nat.zero_and, Nat.zero_and]
    intro h
    rcases h with h | h
    · exact red_mask_ne_zero _ (by rw [hl]; exact hr) h.symm
    · exact h rfl
  | succ q ih =>
    intro fuel s start m hf hl hv hq hst hc hm hd hlo hval
    obtain ⟨f, rfl⟩ : ∃ f, fuel = f + 1 := ⟨fuel - 1, by omega⟩
    rw [first_pkt_loop]
    dsimp only
    by_cases hcond : start &&& red_mask s.last_red = red_mask s.last_red ∨
        start &&& cnot (red_mask s.last_red) ≠ 0
    · rw [if_pos hcond]
      generalize hs1 : (if s.validAt m &&& HPSJAM_V_GOT_RECEIVED = 0 ∧
            s.validAt m &&& HPSJAM_V_GOT_XOR_MASK = 0 then
          { s with jitter := s.jitter.rx_loss } else s) = s1
      have e1 : s1.valid = s.valid ∧ s1.last_red = s.last_red ∧ s1.current = s.current ∧
          s1.mask = s.mask ∧ s1.jitter.damages = s.jitter.damages ∧
          s.jitter.losses ≤ s1.jitter.losses := by
        rw [← hs1]
        split
        · exact ⟨rfl, rfl, rfl, rfl, rfl, by simp [hpsjam_jitter.rx_loss]⟩
        · exact ⟨rfl, rfl, rfl, rfl, rfl, Nat.le_refl _⟩
      obtain ⟨e1v, e1r, e1c, e1m, e1d, e1l⟩ := e1
      have hva : ∀ w, s1.validAt w = s.validAt w := fun w => by simp only [validAt, e1v]
      have hrpos : 0 < r := by rcases hr with rfl | rfl | rfl | rfl <;> decide
      rw [Nat.succ_mul] at hq
      cases hcon : s1.consumable m with
      | some z =>
        simp only []
        obtain ⟨x, hx, hzx⟩ := consumable_mem s1 m z hcon
        rw [e1r, hl] at hx
        have hz0 : s1.validAt z = s0.validAt z := by
          rw [hva, hzx]
          exact hval x (by rw [Nat.succ_mul]; omega)
        obtain ⟨d1, d2, d3, d4, d5⟩ := deliver_spec M s1 z
        refine ⟨deliver M s1 z, some z, rfl, by rw [d1, e1r, hl], by rw [d3, e1v, hv],
          by rw [d2, e1m, hm], ?_, fun h => absurd h (by simp), ?_⟩
        · by_cases hp : s1.validAt z &&& HPSJAM_V_GOT_PACKET = 0
          · rw [(d4 hp).2.2]; omega
          · rw [(d5 hp).2]; omega
        · intro z' hz'
          have : z = z' := Option.some.inj hz'
          subst this
          refine ⟨by rw [hzx]; exact Nat.mod_lt _ (by decide), ?_, ?_⟩
          · intro hp
            rw [← hz0] at hp
            obtain ⟨a1, a2, a3⟩ := d4 hp
            exact ⟨by rw [a1, e1c, hc], by rw [a2, e1d, hd], by rw [a3]; omega⟩
          · intro hp
            rw [← hz0] at hp
            obtain ⟨a1, a2⟩ := d5 hp
            exact ⟨by rw [a1, e1c, hc], by rw [a2, e1d, hd]⟩
      | none =>
        simp only []
        obtain ⟨_, k2, k3, k4, k5⟩ := keep_received_fields s1 s1 m rfl rfl
        obtain ⟨_, k6, _⟩ := keep_received_bits s1 m
        apply ih f (s1.keep_received m) (start >>> s1.last_red)
          ((m + s1.last_red) % HPSJAM_SEQ_MAX) (by omega) (by rw [k5, e1r, hl])
          (by rw [k6, e1v, hv]) (by omega)
          (by rw [e1r, hl]; exact shift_budget start q r hst)
          (by rw [k2, e1c, hc]) (by rw [k3, e1m, hm]) (by rw [k4, e1d, hd])
          (by rw [k4]; omega)
        intro j hj
        have hw : ∀ x, x < s1.last_red →
            (m + x) % HPSJAM_SEQ_MAX ≠
              ((m + s1.last_red) % HPSJAM_SEQ_MAX + j) % HPSJAM_SEQ_MAX := by
          intro x hx
          rw [e1r, hl] at hx ⊢
          simp only [HPSJAM_SEQ_MAX]
          omega
        rw [keep_received_other s1 m _ hw, hva]
        have e : ((m + s1.last_red) % HPSJAM_SEQ_MAX + j) % HPSJAM_SEQ_MAX =
            (m + (r + j)) % HPSJAM_SEQ_MAX := by
          rw [e1r, hl]; simp only [HPSJAM_SEQ_MAX]; omega
        rw [e]
        exact hval (r + j) (by rw [Nat.succ_mul]; omega)
    · rw [if_neg hcond]
      exact ⟨s, none, rfl, hl, hv, hm, hlo, fun _ => ⟨hc, hd⟩, fun z hz => absurd hz (by simp)⟩

/-- The method `first_pkt` for `last_red` in `{1, 2, 4, 8}`: it returns, keeps
`last_red`, the masks and the size of `valid`, and fills the slot it hands out
with silence exactly when `GOT_PACKET` was clear in it. -/
theorem first_pkt_spec (M : Nat) (s : hpsjam_input_packetizer)
    (hr : s.last_red = 1 ∨ s.last_red = 2 ∨ s.last_red = 4 ∨ s.last_red = 8) :
    ∃ s' o, s.first_pkt M = some (s', o) ∧
      s'.last_red = s.last_red ∧ s'.valid.length = s.valid.length ∧ s'.mask = s.mask ∧
      s.jitter.losses ≤ s'.jitter.losses ∧
      (o = none → s'.current = s.current ∧ s'.jitter.damages = s.jitter.damages) ∧
      ∀ z, o = some z →
        z < HPSJAM_SEQ_MAX ∧
        (s.validAt z &&& HPSJAM_V_GOT_PACKET = 0 →
          s'.current = s.current.set z
            (putSilence (hpsjam_frame.clear M) hpsjam_frame.start HPSJAM_NOM_SAMPLES) ∧
          s'.jitter.damages = s.jitter.damages + 1 ∧
          s.jitter.losses + 1 ≤ s'.jitter.losses) ∧
        (s.validAt z &&& HPSJAM_V_GOT_PACKET ≠ 0 →
          s'.current = s.current ∧ s'.jitter.damages = s.jitter.damages) := by
  unfold first_pkt
  have hq : 16 / s.last_red * s.last_red = 16 := by
    rcases hr with h | h | h | h <;> rw [h]
  have hq2 : 16 / s.last_red < HPSJAM_SEQ_MAX + 1 := by
    have := Nat.div_le_self 16 s.last_red
    rw [HPSJAM_SEQ_MAX]; omega
  exact first_pkt_loop_spec M s s.last_red hr (16 / s.last_red) _ s _ _ hq2 rfl rfl
    (by rw [hq]) (by rw [hq]; exact min_rotation_lt s) rfl rfl rfl (Nat.le_refl _)
    (fun _ _ => rfl)

/-! ## Runs of calls keep `last_red` a divisor of `SEQ_MAX` -/

/-- A run of calls from a state with `last_red` in `{1, 2, 4, 8}` and
`SEQ_MAX` masks returns, in a state of the same kind. -/
theorem in_run_shape (M : Nat) :
    ∀ (ops : List in_op) (s : hpsjam_input_packetizer),
      (s.last_red = 1 ∨ s.last_red = 2 ∨ s.last_red = 4 ∨ s.last_red = 8) →
      s.mask.length = HPSJAM_SEQ_MAX →
      ∃ s', in_run M s ops = some s' ∧
        (s'.last_red = 1 ∨ s'.last_red = 2 ∨ s'.last_red = 4 ∨ s'.last_red = 8) ∧
        s'.mask.length = HPSJAM_SEQ_MAX := by
  intro ops
  induction ops with
  | nil => intro s hr hm; exact ⟨s, rfl, hr, hm⟩
  | cons op rest ih =>
    intro s hr hm
    rw [in_run]
    cases op with
    | receive f =>
      obtain ⟨a1, _, a3, _⟩ := receive_shape s f hr
      simp only [in_step, Option.some_bind]
      exact ih _ a1 (by rw [a3]; exact hm)
    | recovery =>
      obtain ⟨s1, e, a1, _, a3, _⟩ := recovery_shape s hr hm
      simp only [in_step, e, Option.some_bind]
      exact ih _ (by rw [a1]; exact hr) (by rw [a3]; exact hm)
    | first_pkt =>
      obtain ⟨s1, o, e, a1, _, a3, _⟩ := first_pkt_spec M s hr
      simp only [in_step, e, Option.map_some', Option.some_bind]
      exact ih _ (by rw [a1]; exact hr) (by rw [a3]; exact hm)

/-- C26 (last_red stays a valid divisor): every sequence of `receive`,
`recovery` and `first_pkt` calls from `init()`, with arbitrary frames, returns
and leaves `last_red` one of 1, 2, 4, 8; so `last_red` is not zero and
`1 << last_red` stays within the `SEQ_MAX`-bit bitmap. -/
theorem last_red_valid_divisor (MAX_UDP : Nat) (ops : List in_op) :
    ∃ s, in_run MAX_UDP (init MAX_UDP) ops = some s ∧
      (s.last_red = 1 ∨ s.last_red = 2 ∨ s.last_red = 4 ∨ s.last_red = 8) ∧
      s.last_red ≠ 0 ∧ 1 <<< s.last_red < 2 ^ HPSJAM_SEQ_MAX := by
  obtain ⟨s, e, hr, _⟩ := in_run_shape MAX_UDP ops (init MAX_UDP) (Or.inr (Or.inl rfl))
    (by simp [init])
  refine ⟨s, e, hr, ?_, ?_⟩
  · rcases hr with h | h | h | h <;> rw [h] <;> decide
  · rcases hr with h | h | h | h <;> rw [h] <;> decide

/-! ## Termination of `first_pkt` -/

theorem red_mask_pos (r : Nat) (h1 : 1 ≤ r) (h2 : r ≤ 16) : red_mask r ≠ 0 := by
  interval_cases r <;> decide

theorem shift_ge_one_lt (start r n : Nat) (hr : 1 ≤ r) (h : start < 2 ^ (n + 1)) :
    start >>> r < 2 ^ n := by
  rw [Nat.shiftRight_eq_div_pow]
  have h2 : start / 2 < 2 ^ n := by rw [Nat.pow_succ] at h; omega
  have h3 : start / 2 ^ r ≤ start / 2 := by
    apply Nat.div_le_div_left _ (by decide)
    calc 2 = 2 ^ 1 := rfl
      _ ≤ 2 ^ r := Nat.pow_le_pow_right (by decide) hr
  omega

/-- A round of the `while` loop of `first_pkt` is entered with `start` not
zero, and the shift makes it strictly smaller. -/
theorem start_decreases (r start : Nat) (h1 : 1 ≤ r) (h2 : r ≤ 16)
    (hc : start &&& red_mask r = red_mask r ∨ start &&& cnot (red_mask r) ≠ 0) :
    start >>> r < start := by
  have h0 : start ≠ 0 := by
    rintro rfl
    rw [Nat.zero_and, Nat.zero_and] at hc
    rcases hc with h | h
    · exact red_mask_pos r h1 h2 h.symm
    · exact h rfl
  rw [Nat.shiftRight_eq_div_pow]
  apply Nat.div_lt_self (by omega)
  calc 1 < 2 ^ 1 := by decide
    _ ≤ 2 ^ r := Nat.pow_le_pow_right (by decide) h1

/-- The `while` loop of `first_pkt` from a start value of `fuel` bits ends
within `fuel + 1` rounds, for every `last_red` from 1 to `SEQ_MAX`. -/
theorem first_pkt_loop_returns (M : Nat) :
    ∀ (fuel : Nat) (s : hpsjam_input_packetizer) (start min_x : Nat),
      1 ≤ s.last_red → s.last_red ≤ 16 → start < 2 ^ fuel →
      ∃ res, first_pkt_loop M (fuel + 1) s start min_x = some res := by
  intro fuel
  induction fuel with
  | zero =>
    intro s start min_x h1 h2 hst
    have h0 : start = 0 := by simpa using hst
    subst h0
    refine ⟨(s, none), ?_⟩
    rw [first_pkt_loop]
    dsimp only
    rw [if_neg]
    rw [Nat.zero_and, Nat.zero_and]
    intro h
    rcases h with h | h
    · exact red_mask_pos _ h1 h2 h.symm
    · exact h rfl
  | succ n ih =>
    intro s start min_x h1 h2 hst
    rw [first_pkt_loop]
    dsimp only
    by_cases hc : start &&& red_mask s.last_red = red_mask s.last_red ∨
        start &&& cnot (red_mask s.last_red) ≠ 0
    · rw [if_pos hc]
      generalize hs1 : (if s.validAt min_x &&& HPSJAM_V_GOT_RECEIVED = 0 ∧
            s.validAt min_x &&& HPSJAM_V_GOT_XOR_MASK = 0 then
          { s with jitter := s.jitter.rx_loss } else s) = s1
      have e1 : s1.last_red = s.last_red := by
        rw [← hs1]; split <;> rfl
      cases hcon : s1.consumable min_x with
      | some z => exact ⟨_, rfl⟩
      | none =>
        simp only []
        obtain ⟨_, _, k3⟩ := keep_received_bits s1 min_x
        apply ih
        · rw [k3, e1]; exact h1
        · rw [k3, e1]; exact h2
        · rw [e1]; exact shift_ge_one_lt _ _ _ h1 hst
    · rw [if_neg hc]
      exact ⟨_, rfl⟩

/-- C27 (first_pkt terminates): for every reassembler state with
`1 <= last_red <= SEQ_MAX`, whatever `valid[]` holds, `first_pkt()` returns;
a round of its delivery loop is entered only with a `start` that the shift by
`last_red` makes strictly smaller, and from a `start` of `n` bits the loop
ends within `n + 1` rounds. -/
theorem first_pkt_terminates (MAX_UDP : Nat) (s : hpsjam_input_packetizer)
    (h1 : 1 ≤ s.last_red) (h2 : s.last_red ≤ HPSJAM_SEQ_MAX) :
    (∃ res, s.first_pkt MAX_UDP = some res) ∧
    (∀ start, (start &&& red_mask s.last_red = red_mask s.last_red ∨
        start &&& cnot (red_mask s.last_red) ≠ 0) → start >>> s.last_red < start) ∧
    (∀ n start min_x, start < 2 ^ n →
      ∃ res, first_pkt_loop MAX_UDP (n + 1) s start min_x = some res) := by
  refine ⟨?_, fun start hc => start_decreases _ _ h1 h2 hc, fun n start m hst =>
    first_pkt_loop_returns MAX_UDP n s start m h1 h2 hst⟩
  unfold first_pkt
  exact first_pkt_loop_returns MAX_UDP HPSJAM_SEQ_MAX s _ _ h1 h2 (min_rotation_lt s)

theorem first_pkt_terminates_witness :
    example_rx3.last_red = 3 ∧ (∃ res, example_rx3.first_pkt 16 = some res) ∧
    (13 : Nat) >>> example_rx3.last_red < 13 :=
  ⟨by decide, (first_pkt_terminates 16 example_rx3 (by decide) (by decide)).1,
    (first_pkt_terminates 16 example_rx3 (by decide) (by decide)).2.1 13 (by decide)⟩

/-! ## The silence condition of `first_pkt` -/

/-- C24 (silence synthesis condition), the claim as stated fails: in the
state where the mask frame `(0, 2)` and the payloads of slots 1 and 2 have
arrived, `GOT_XOR_MASK` is set in `valid[0]`, and yet `first_pkt()` hands out
slot 0 filled with a silence frame and counts a loss and a damage. -/
theorem silence_despite_xor_mask :
    example_rx.validAt 0 &&& HPSJAM_V_GOT_XOR_MASK ≠ 0 ∧
    example_rx.jitter.losses = 0 ∧ example_rx.jitter.damages = 0 ∧
    (example_rx.first_pkt 16).map
        (fun res => (res.2, res.1.current.getD 0 [], res.1.jitter.losses,
          res.1.jitter.damages)) =
      some (some 0,
        putSilence (hpsjam_frame.clear 16) hpsjam_frame.start HPSJAM_NOM_SAMPLES, 1, 1) := by
  decide

/-- C24 (silence synthesis condition), amended: for `last_red` in
`{1, 2, 4, 8}`, `first_pkt()` returns, and when it hands out slot `z` it
replaces `current[z]` by a silence frame of `NOM_SAMPLES` samples, counting one
damage and at least one loss, if and only if `GOT_PACKET` is clear in
`valid[z]`, whatever `GOT_XOR_MASK` is; when `GOT_PACKET` is set, the frames
and the damage count are left as they were. -/
theorem silence_synthesis (MAX_UDP : Nat) (s : hpsjam_input_packetizer)
    (hr : s.last_red = 1 ∨ s.last_red = 2 ∨ s.last_red = 4 ∨ s.last_red = 8) :
    ∃ s' o, s.first_pkt MAX_UDP = some (s', o) ∧
      ∀ z, o = some z →
        z < HPSJAM_SEQ_MAX ∧
        (s.validAt z &&& HPSJAM_V_GOT_PACKET = 0 →
          s'.current = s.current.set z
            (putSilence (hpsjam_frame.clear MAX_UDP) hpsjam_frame.start HPSJAM_NOM_SAMPLES) ∧
          s'.jitter.damages = s.jitter.damages + 1 ∧
          s.jitter.losses + 1 ≤ s'.jitter.losses) ∧
        (s.validAt z &&& HPSJAM_V_GOT_PACKET ≠ 0 →
          s'.current = s.current ∧ s'.jitter.damages = s.jitter.damages) := by
  obtain ⟨s', o, e, _, _, _, _, _, h⟩ := first_pkt_spec MAX_UDP s hr
  exact ⟨s', o, e, h⟩

theorem silence_synthesis_witness :
    ∃ s' o, example_rx.first_pkt 16 = some (s', o) ∧
      ∀ z, o = some z →
        z < HPSJAM_SEQ_MAX ∧
        (example_rx.validAt z &&& HPSJAM_V_GOT_PACKET = 0 →
          s'.current = example_rx.current.set z
            (putSilence (hpsjam_frame.clear 16) hpsjam_frame.start HPSJAM_NOM_SAMPLES) ∧
          s'.jitter.damages = example_rx.jitter.damages + 1 ∧
          example_rx.jitter.losses + 1 ≤ s'.jitter.losses) ∧
        (example_rx.validAt z &&& HPSJAM_V_GOT_PACKET ≠ 0 →
          s'.current = example_rx.current ∧ s'.jitter.damages = example_rx.jitter.damages) :=
  silence_synthesis 16 example_rx (by decide)

end

section

open hpsjam_output_packetizer

/-! ## The signals and the packet in flight -/

/-- With nothing in flight, nothing queued and the counter at rest, a `send`
leaves all three as they are and emits nothing. -/
theorem send_at_rest (MAX_UDP t : Nat) (s : hpsjam_output_packetizer)
    (hpend : s.pending = none) (hq : s.head = []) (hc : s.pend_count = 65535) :
    (s.send MAX_UDP t).state.pending = none ∧
    (s.send MAX_UDP t).state.pend_count = 65535 ∧
    (s.send MAX_UDP t).pendingWatchdog = false ∧
    (s.send MAX_UDP t).pendingTimeout = false := by
  have hctl : s.send_control MAX_UDP t = s := by
    unfold hpsjam_output_packetizer.send_control
    rw [hpend, hq]
    dsimp only
    rw [if_neg (by rw [hc]; decide)]
  have hack := send_ack_step_fields MAX_UDP s
  unfold hpsjam_output_packetizer.send
  by_cases hx : s.d_cur = s.d_max
  · rw [if_pos hx]
    exact ⟨hpend, hc, rfl, rfl⟩
  · rw [if_neg hx]
    dsimp only
    rw [hctl, hack.1, hack.2, hc]
    exact ⟨hpend, rfl, by decide, by decide⟩

/-- A mask tick leaves the pending entry and the counter alone and emits
nothing. -/
theorem send_mask_quiet (MAX_UDP t : Nat) (s : hpsjam_output_packetizer)
    (hx : s.d_cur = s.d_max) :
    (s.send MAX_UDP t).state.pending = s.pending ∧
    (s.send MAX_UDP t).state.pend_count = s.pend_count ∧
    (s.send MAX_UDP t).pendingWatchdog = false ∧
    (s.send MAX_UDP t).pendingTimeout = false := by
  unfold hpsjam_output_packetizer.send
  rw [if_pos hx]
  exact ⟨rfl, rfl, rfl, rfl⟩

/-- As long as no entry has been acknowledged, the counter is at rest whenever
nothing is in flight; a `send` keeps it so, and emits nothing when it leaves
nothing in flight. -/
theorem send_quiet (MAX_UDP t : Nat) (s : hpsjam_output_packetizer)
    (hc : s.pend_count ≤ 65535) (hrest : s.pending = none → s.pend_count = 65535) :
    (s.send MAX_UDP t).state.pend_count ≤ 65535 ∧
    ((s.send MAX_UDP t).state.pending = none → (s.send MAX_UDP t).state.pend_count = 65535) ∧
    ((s.send MAX_UDP t).state.pending = none →
      (s.send MAX_UDP t).pendingWatchdog = false ∧ (s.send MAX_UDP t).pendingTimeout = false) := by
  cases hp : s.pending with
  | some p =>
    obtain ⟨h1, h2, _, _⟩ := send_pending_step MAX_UDP t s (by rw [hp]; rfl) hc
    refine ⟨by rw [h2]; split <;> omega, fun h => ?_, fun h => ?_⟩
    · rw [h] at h1; cases h1
    · rw [h] at h1; cases h1
  | none =>
    by_cases hx : s.d_cur = s.d_max
    · obtain ⟨h1, h2, h3, h4⟩ := send_mask_quiet MAX_UDP t s hx
      exact ⟨by rw [h2]; exact hc, fun _ => by rw [h2]; exact hrest hp, fun _ => ⟨h3, h4⟩⟩
    · by_cases hq : s.head = []
      · obtain ⟨_, h2, h3, h4⟩ := send_at_rest MAX_UDP t s hp hq (hrest hp)
        exact ⟨by rw [h2], fun _ => h2, fun _ => ⟨h3, h4⟩⟩
      · obtain ⟨h1, h2, h3, h4⟩ := send_puts_in_flight MAX_UDP t s hp hq hx
        refine ⟨by rw [h2]; decide, fun h => ?_, fun _ => ⟨h3, h4⟩⟩
        rw [h] at h1; cases h1

/-- Over a run without `advance`, the counter stays at rest whenever nothing
is in flight, and no `send` that leaves nothing in flight emits a signal. -/
theorem run_quiet (MAX_UDP : Nat) :
    ∀ (ops : List out_op) (s : hpsjam_output_packetizer),
      s.pend_count ≤ 65535 → (s.pending = none → s.pend_count = 65535) → no_advance ops →
      ∀ r ∈ (out_run MAX_UDP s ops).2, r.state.pending = none →
        r.pendingWatchdog = false ∧ r.pendingTimeout = false := by
  intro ops
  induction ops with
  | nil => intro s _ _ _ r hr; simp [out_run] at hr
  | cons op ops ih =>
    intro s hc hrest hna r hr
    have hna' : no_advance ops := fun o ho t => hna o (List.mem_cons_of_mem _ ho) t
    have hadv : ∀ t, op ≠ out_op.advance t := fun t => hna op (List.mem_cons_self _ _) t
    by_cases hop : ∃ t, op = out_op.send t
    · obtain ⟨t, rfl⟩ := hop
      obtain ⟨h1, h2, h3⟩ := send_quiet MAX_UDP t s hc hrest
      simp only [out_run, out_step, Option.toList, List.singleton_append, List.mem_cons] at hr
      rcases hr with rfl | hr
      · exact h3
      · exact ih _ h1 h2 hna' r hr
    · have hop' : ∀ t, op ≠ out_op.send t := fun t ht => hop ⟨t, ht⟩
      obtain ⟨h1, h2, h3⟩ := out_step_keeps_pending MAX_UDP s op hop' hadv
      simp only [out_run, h3, Option.toList, List.nil_append] at hr
      exact ih _ (by rw [h2]; exact hc) (by rw [h1, h2]; exact hrest) hna' r hr

theorem send_ack_step_head (MAX_UDP : Nat) (s : hpsjam_output_packetizer) :
    (s.send_ack_step MAX_UDP).head = s.head := by
  unfold hpsjam_output_packetizer.send_ack_step hpsjam_output_packetizer.append_ack
  dsimp only
  split
  · split <;> simp
  · simp

theorem send_xor_frame (MAX_UDP t : Nat) (s : hpsjam_output_packetizer) :
    (s.send MAX_UDP t).xor_frame = decide (s.d_cur = s.d_max) := by
  unfold hpsjam_output_packetizer.send
  by_cases hx : s.d_cur = s.d_max
  · rw [if_pos hx]; simp [hx]
  · rw [if_neg hx]; simp [hx]

/-- One `send` with nothing in flight and nothing queued: a mask tick leaves
the counter, a payload tick counts one up (the counter stays at 65535) and
emits the watchdog on reaching 1000, the timeout on reaching 2000. -/
theorem send_idle_step (MAX_UDP t : Nat) (s : hpsjam_output_packetizer)
    (hpend : s.pending = none) (hq : s.head = []) (hc : s.pend_count ≤ 65535) :
    (s.send MAX_UDP t).state.pending = none ∧
    (s.send MAX_UDP t).state.head = [] ∧
    (s.send MAX_UDP t).state.pend_count =
      (if (s.send MAX_UDP t).xor_frame then s.pend_count else min (s.pend_count + 1) 65535) ∧
    (s.send MAX_UDP t).pendingWatchdog =
      (!(s.send MAX_UDP t).xor_frame && decide ((s.send MAX_UDP t).state.pend_count = 1000)) ∧
    (s.send MAX_UDP t).pendingTimeout =
      (!(s.send MAX_UDP t).xor_frame && decide ((s.send MAX_UDP t).state.pend_count = 2000)) := by
  unfold hpsjam_output_packetizer.send
  by_cases hx : s.d_cur = s.d_max
  · rw [if_pos hx]
    simp [hpend, hq]
  · rw [if_neg hx]
    have hctl : (s.send_control MAX_UDP t).pending = none ∧
        (s.send_control MAX_UDP t).head = [] ∧
        (s.send_control MAX_UDP t).pend_count = min (s.pend_count + 1) 65535 := by
      unfold hpsjam_output_packetizer.send_control
      rw [hpend, hq]
      dsimp only
      split
      · refine ⟨rfl, rfl, ?_⟩
        show (s.pend_count + 1) % 65536 = _
        omega
      · refine ⟨hpend, hq, ?_⟩
        omega
    have hack := send_ack_step_fields MAX_UDP (s.send_control MAX_UDP t)
    have hhead := send_ack_step_head MAX_UDP (s.send_control MAX_UDP t)
    dsimp only
    rw [hack.1, hack.2, hhead]
    refine ⟨hctl.1, hctl.2.1, ?_, ?_, ?_⟩
    · simp [hctl.2.2]
    · simp
    · simp only [Bool.not_false, Bool.true_and, Bool.and_eq_true, Bool.not_eq_true',
        decide_eq_false_iff_not, decide_eq_true_eq]
      by_cases h2 : (s.send_control MAX_UDP t).pend_count = 2000
      · simp [h2]
      · simp [h2]

theorem out_run_append_state (MAX_UDP : Nat) :
    ∀ (a b : List out_op) (s : hpsjam_output_packetizer),
      (out_run MAX_UDP s (a ++ b)).1 = (out_run MAX_UDP (out_run MAX_UDP s a).1 b).1 := by
  intro a
  induction a with
  | nil => intro b s; rfl
  | cons op a ih =>
    intro b s
    rw [List.cons_append]
    simp only [out_run]
    exact ih b _

theorem out_run_cons_send (MAX_UDP t : Nat) (s : hpsjam_output_packetizer)
    (ops : List out_op) :
    (out_run MAX_UDP s (out_op.send t :: ops)).1 =
      (out_run MAX_UDP (s.send MAX_UDP t).state ops).1 := rfl

theorem replicate_three (n : Nat) (x : out_op) :
    List.replicate (3 * (n + 1)) x = x :: x :: x :: List.replicate (3 * n) x := by
  rw [Nat.mul_succ, List.replicate_succ, List.replicate_succ, List.replicate_succ]

/-- The cadence 2 has cycles of three `send` calls, two payload ticks and one
mask tick: under a condition `P` that every `send` keeps while it counts the
payload ticks, `n` cycles add `2 * n` to the counter. -/
theorem send_cycles_count (MAX_UDP : Nat) (hpos : 0 < MAX_UDP) (hM : MAX_UDP < SIZE_MOD)
    (P : hpsjam_output_packetizer → Prop)
    (hstep : ∀ (s : hpsjam_output_packetizer) (t : Nat), P s → s.pend_count ≤ 65535 →
      P (s.send MAX_UDP t).state ∧
      (s.send MAX_UDP t).state.pend_count =
        (if (s.send MAX_UDP t).xor_frame then s.pend_count else min (s.pend_count + 1) 65535)) :
    ∀ (n : Nat) (s : hpsjam_output_packetizer), out_inv MAX_UDP 2 s → P s → s.d_cur = 1 →
      s.pend_count + 2 * n ≤ 65535 →
      out_inv MAX_UDP 2 (out_run MAX_UDP s (List.replicate (3 * n) (out_op.send 0))).1 ∧
      P (out_run MAX_UDP s (List.replicate (3 * n) (out_op.send 0))).1 ∧
      (out_run MAX_UDP s (List.replicate (3 * n) (out_op.send 0))).1.d_cur = 1 ∧
      (out_run MAX_UDP s (List.replicate (3 * n) (out_op.send 0))).1.pend_count =
        s.pend_count + 2 * n := by
  intro n
  induction n with
  | zero => intro s hi hp hd _; exact ⟨hi, hp, hd, rfl⟩
  | succ n ih =>
    intro s hi hp hd hc
    rw [replicate_three, out_run_cons_send, out_run_cons_send, out_run_cons_send]
    have key : ∀ c a b e m : Nat, a = min (c + 1) 65535 → b = a → e = min (b + 1) 65535 →
        c + 2 * (m + 1) ≤ 65535 → e + 2 * m ≤ 65535 ∧ e + 2 * m = c + 2 * (m + 1) := by
      intro c a b e m h1 h2 h3 h4
      omega
    have hc0 : s.pend_count ≤ 65535 := by omega
    obtain ⟨a1, a2, _⟩ := send_cadence_step MAX_UDP 2 0 hpos hM (by decide) s hi
    obtain ⟨a3, a4⟩ := hstep s 0 hp hc0
    rw [send_xor_frame, hi.d_max_eq, hd] at a4
    rw [hd] at a2
    simp only [Nat.reduceEqDiff, decide_False, Bool.false_eq_true, if_false] at a2 a4
    obtain ⟨b1, b2, _⟩ := send_cadence_step MAX_UDP 2 0 hpos hM (by decide) _ a1
    obtain ⟨b3, b4⟩ := hstep _ 0 a3 (by rw [a4]; exact Nat.min_le_right _ _)
    rw [send_xor_frame, a1.d_max_eq, a2] at b4
    rw [a2] at b2
    simp only [decide_True, if_true] at b2 b4
    obtain ⟨c1, c2, _⟩ := send_cadence_step MAX_UDP 2 0 hpos hM (by decide) _ b1
    obtain ⟨c3, c4⟩ := hstep _ 0 b3 (by rw [b4, a4]; exact Nat.min_le_right _ _)
    rw [send_xor_frame, b1.d_max_eq, b2] at c4
    rw [b2] at c2
    simp only [Nat.reduceEqDiff, decide_False, Bool.false_eq_true, if_false] at c2 c4
    obtain ⟨k1, k2⟩ := key _ _ _ _ n a4 b4 c4 hc
    obtain ⟨i1, i2, i3, i4⟩ := ih _ c1 c3 c2 k1
    exact ⟨i1, i2, i3, i4.trans k2⟩

/-- C21 (events only for an unacknowledged in-flight packet), the claim as
stated fails: a control packet is queued, put in flight by the next `send()`
and acknowledged by `advance()`; the counter keeps running over the next 1497
`send()` calls, and the following one, a payload tick that leaves nothing in
flight, brings `pend_count` to 1000 and emits `pendingWatchdog`. -/
theorem watchdog_after_acknowledgement :
    ((out_run 16 example_out (example_idle_run 1497)).1.send 16 0).pendingWatchdog = true ∧
    ((out_run 16 example_out (example_idle_run 1497)).1.send 16 0).state.pending = none ∧
    ((out_run 16 example_out (example_idle_run 1497)).1.send 16 0).state.pend_count = 1000 := by
  have h0 : out_inv 16 2 (out_run 16 example_out
      [out_op.send_single_pkt true example_entry1, out_op.send 0, out_op.advance 0]).1 :=
    ⟨by decide, by decide, by decide, by decide, by decide⟩
  obtain ⟨i1, i2, i3, i4⟩ := send_cycles_count 16 (by decide) (by decide)
    (fun s => s.pending = none ∧ s.head = [])
    (fun s t hp hc =>
      have h := send_idle_step 16 t s hp.1 hp.2 hc
      ⟨⟨h.1, h.2.1⟩, h.2.2.1⟩)
    499 _ h0 (by decide) (by decide) (by decide)
  have hc1 : (out_run 16 example_out
      [out_op.send_single_pkt true example_entry1, out_op.send 0, out_op.advance 0]).1.pend_count =
      1 := by decide
  rw [hc1] at i4
  rw [show (1497 : Nat) = 3 * 499 from rfl, example_idle_run, out_run_append_state]
  obtain ⟨j1, _, j3, j4, _⟩ := send_idle_step 16 0 _ i2.1 i2.2 (by rw [i4]; decide)
  rw [send_xor_frame, i1.d_max_eq, i3, i4] at j3
  have j5 : (hpsjam_output_packetizer.send 16 0
      (out_run 16 (out_run 16 example_out
        [out_op.send_single_pkt true example_entry1, out_op.send 0, out_op.advance 0]).1
        (List.replicate (3 * 499) (out_op.send 0))).1).state.pend_count = 1000 := by
    rw [j3]; decide
  refine ⟨?_, j1, j5⟩
  rw [j4, j5, send_xor_frame, i1.d_max_eq, i3]
  decide

/-- C21 (events only for an unacknowledged in-flight packet), amended: in
every state reached from `init()` by enqueue, append and `send()` calls, as
long as `advance()` has not been called, `send()` never emits
`pendingWatchdog` or `pendingTimeout` on a tick that leaves no reliable
control packet in flight. -/
theorem events_need_in_flight (MAX_UDP distance : Nat) (s0 : hpsjam_output_packetizer)
    (ops : List out_op) (hna : no_advance ops) :
    ∀ r ∈ (out_run MAX_UDP (init MAX_UDP s0 distance) ops).2, r.state.pending = none →
      r.pendingWatchdog = false ∧ r.pendingTimeout = false :=
  run_quiet MAX_UDP ops (init MAX_UDP s0 distance) (by simp [init]) (fun _ => rfl) hna

theorem events_need_in_flight_witness :
    no_advance example_quiet_run ∧
    (out_run 16 (init 16 example_out 2) example_quiet_run).2.map
        (fun r => (r.xor_frame, r.state.pending.isSome)) =
      [(false, false), (false, false), (true, false), (false, true), (false, true)] ∧
    ∀ r ∈ (out_run 16 (init 16 example_out 2) example_quiet_run).2,
      r.state.pending = none → r.pendingWatchdog = false ∧ r.pendingTimeout = false :=
  have h : no_advance example_quiet_run := by
    intro op hop t
    simp only [example_quiet_run, List.mem_cons, List.mem_singleton, List.not_mem_nil,
      or_false] at hop
    rcases hop with rfl | rfl | rfl | rfl | rfl | rfl <;> exact fun e => by cases e
  ⟨h, by decide, events_need_in_flight 16 2 example_out example_quiet_run h⟩

/-! ## The counter after the timeout -/

/-- When every `send` of a run moves the counter by at most one step up to
65535, the counter never falls below its first value. -/
theorem pend_before_ge (c : Nat) (outs : List send_result) (hc : c ≤ 65535)
    (h : ∀ k r, outs[k]? = some r →
      r.state.pend_count =
        (if r.xor_frame then pend_before c outs k else min (pend_before c outs k + 1) 65535)) :
    ∀ k, c ≤ pend_before c outs k ∧ pend_before c outs k ≤ 65535 := by
  intro k
  induction k with
  | zero => exact ⟨Nat.le_refl _, hc⟩
  | succ j ih =>
    cases hj : outs[j]? with
    | none => simp only [pend_before, hj]; exact ⟨Nat.le_refl _, hc⟩
    | some r =>
      have e := h j r hj
      simp only [pend_before, hj]
      rw [e]
      rcases Bool.eq_false_or_eq_true r.xor_frame with hx | hx
      · rw [hx]; simp only [if_true]; omega
      · rw [hx]; simp only [Bool.false_eq_true, if_false]
        exact ⟨le_min (by omega) hc, min_le_right _ _⟩

/-- C22 (timeout stops the counter), the claim as stated fails: a control
packet is queued, put in flight and never acknowledged; after 2997 further
`send()` calls the next one brings `pend_count` to 2000 and emits
`pendingTimeout`, and after 3000 further calls, with the packet still in
flight, `pend_count` is 2001. -/
theorem counter_passes_timeout :
    ((out_run 16 example_out (example_lost_run 2997)).1.send 16 0).pendingTimeout = true ∧
    ((out_run 16 example_out (example_lost_run 2997)).1.send 16 0).state.pend_count = 2000 ∧
    (out_run 16 example_out (example_lost_run 3000)).1.pending.isSome = true ∧
    (out_run 16 example_out (example_lost_run 3000)).1.pend_count = 2001 := by
  have h0 : out_inv 16 2 (out_run 16 example_out
      [out_op.send_single_pkt true example_entry1, out_op.send 0]).1 :=
    ⟨by decide, by decide, by decide, by decide, by decide⟩
  have hc1 : (out_run 16 example_out
      [out_op.send_single_pkt true example_entry1, out_op.send 0]).1.pend_count = 1 := by decide
  have hP : ∀ (s : hpsjam_output_packetizer) (t : Nat), s.pending.isSome = true →
      s.pend_count ≤ 65535 →
      (s.send 16 t).state.pending.isSome = true ∧
      (s.send 16 t).state.pend_count =
        (if (s.send 16 t).xor_frame then s.pend_count else min (s.pend_count + 1) 65535) :=
    fun s t hp hc =>
      have h := send_pending_step 16 t s hp hc
      ⟨h.1, h.2.1⟩
  obtain ⟨i1, i2, i3, i4⟩ := send_cycles_count 16 (by decide) (by decide)
    (fun s => s.pending.isSome = true) hP 999 _ h0 (by decide) (by decide) (by decide)
  obtain ⟨_, k2, _, k4⟩ := send_cycles_count 16 (by decide) (by decide)
    (fun s => s.pending.isSome = true) hP 1000 _ h0 (by decide) (by decide) (by decide)
  rw [hc1] at i4 k4
  rw [show (2997 : Nat) = 3 * 999 from rfl, show (3000 : Nat) = 3 * 1000 from rfl,
    example_lost_run, example_lost_run, out_run_append_state, out_run_append_state]
  obtain ⟨_, j3, _, j4⟩ := send_pending_step 16 0 _ i2 (by rw [i4]; decide)
  rw [send_xor_frame, i1.d_max_eq, i3, i4] at j3
  have j5 : (hpsjam_output_packetizer.send 16 0
      (out_run 16 (out_run 16 example_out
        [out_op.send_single_pkt true example_entry1, out_op.send 0]).1
        (List.replicate (3 * 999) (out_op.send 0))).1).state.pend_count = 2000 := by
    rw [j3]; decide
  refine ⟨?_, j5, k2, k4⟩
  rw [j4, j5, send_xor_frame, i1.d_max_eq, i3]
  decide

/-- C22 (timeout stops the counter), amended: once `pend_count` has reached
2000, further `send()` calls with the packet still unacknowledged keep
counting every payload tick; the counter stops only at 65535, and
`pendingTimeout` is not emitted again. -/
theorem counter_stops_at_65535 (MAX_UDP : Nat) (s : hpsjam_output_packetizer)
    (ops : List out_op) (hp : s.pending.isSome = true) (h1 : 2000 ≤ s.pend_count)
    (h2 : s.pend_count ≤ 65535) (hna : no_advance ops) :
    ∀ k r, (out_run MAX_UDP s ops).2[k]? = some r →
      2000 ≤ pend_before s.pend_count (out_run MAX_UDP s ops).2 k ∧
      r.state.pend_count =
        (if r.xor_frame then pend_before s.pend_count (out_run MAX_UDP s ops).2 k
         else min (pend_before s.pend_count (out_run MAX_UDP s ops).2 k + 1) 65535) ∧
      r.pendingTimeout = false := by
  intro k r hk
  obtain ⟨_, _, _, _, i5⟩ := run_pending MAX_UDP ops s hp h2 hna
  obtain ⟨g1, g2⟩ := pend_before_ge s.pend_count _ h2 (fun k r hk => (i5 k r hk).1) k
  obtain ⟨e1, _, e3⟩ := i5 k r hk
  refine ⟨by omega, e1, ?_⟩
  rw [e3]
  rcases Bool.eq_false_or_eq_true r.xor_frame with hx | hx
  · rw [hx]; rfl
  · rw [hx] at e1 ⊢
    simp only [Bool.false_eq_true, if_false] at e1
    simp only [Bool.not_false, Bool.true_and, decide_eq_false_iff_not]
    have h3 : 2001 ≤ r.state.pend_count := by
      rw [e1]; exact le_min (by omega) (by decide)
    omega

theorem counter_stops_at_65535_witness :
    example_timeout.pend_count = 2000 ∧
    ∀ k r, (out_run 16 example_timeout (List.replicate 4 (out_op.send 0))).2[k]? = some r →
      2000 ≤ pend_before example_timeout.pend_count
        (out_run 16 example_timeout (List.replicate 4 (out_op.send 0))).2 k ∧
      r.state.pend_count =
        (if r.xor_frame then
           pend_before example_timeout.pend_count
             (out_run 16 example_timeout (List.replicate 4 (out_op.send 0))).2 k
         else
           min (pend_before example_timeout.pend_count
             (out_run 16 example_timeout (List.replicate 4 (out_op.send 0))).2 k + 1) 65535) ∧
      r.pendingTimeout = false :=
  ⟨by decide, counter_stops_at_65535 16 example_timeout (List.replicate 4 (out_op.send 0))
    (by decide) (by decide) (by decide)
    (by
      intro op hop t
      rw [List.eq_of_mem_replicate hop]
      exact fun e => by cases e)⟩

/-! ## The resend schedule -/

/-- An entry that fits in the space left is copied to the frame and takes the
place of the acknowledgement. -/
theorem append_pending_fits (MAX_UDP : Nat) (hM : MAX_UDP < SIZE_MOD)
    (s : hpsjam_output_packetizer) (e : hpsjam_packet_entry)
    (hoff : s.offset + hpsjam_frame.HDR_SIZE ≤ MAX_UDP)
    (hfit : e.getBytes ≤ MAX_UDP - hpsjam_frame.HDR_SIZE - s.offset) :
    s.append_pending MAX_UDP e =
      { s with
        current := memcpy s.current (hpsjam_frame.HDR_SIZE + s.offset) e.raw e.getBytes
        offset := s.offset + e.getBytes
        send_ack := false } := by
  have hrem := size_sub_remainder MAX_UDP s.offset hM hoff
  simp [append_pending, append_pkt, hrem, hfit]

/-- An entry that does not fit in the space left is not appended. -/
theorem append_pending_full (MAX_UDP : Nat) (hM : MAX_UDP < SIZE_MOD)
    (s : hpsjam_output_packetizer) (e : hpsjam_packet_entry)
    (hoff : s.offset + hpsjam_frame.HDR_SIZE ≤ MAX_UDP)
    (hfit : ¬ e.getBytes ≤ MAX_UDP - hpsjam_frame.HDR_SIZE - s.offset) :
    s.append_pending MAX_UDP e = s := by
  have hrem := size_sub_remainder MAX_UDP s.offset hM hoff
  simp [append_pending, append_pkt, hrem, hfit]

theorem send_ack_step_off (MAX_UDP : Nat) (s : hpsjam_output_packetizer)
    (h : s.send_ack = false) : s.send_ack_step MAX_UDP = s := by
  simp [send_ack_step, h]

/-- The acknowledgement step reads `current`, `offset`, `send_ack` and
`peer_seqno` only, and writes the first three. -/
theorem send_ack_step_congr (MAX_UDP : Nat) (s u : hpsjam_output_packetizer)
    (h1 : u.current = s.current) (h2 : u.offset = s.offset) (h3 : u.send_ack = s.send_ack)
    (h4 : u.peer_seqno = s.peer_seqno) :
    (u.send_ack_step MAX_UDP).current = (s.send_ack_step MAX_UDP).current ∧
    (u.send_ack_step MAX_UDP).offset = (s.send_ack_step MAX_UDP).offset ∧
    (u.send_ack_step MAX_UDP).seqno = u.seqno := by
  unfold send_ack_step append_ack
  dsimp only
  rw [h1, h2, h3, h4]
  by_cases ha : s.send_ack = true
  · by_cases hf : 4 ≤ size_sub (size_sub MAX_UDP hpsjam_frame.HDR_SIZE) s.offset
    · simp [ha, hf]
    · simp [ha, hf, h1, h2]
  · simp [ha, h1, h2]

/-- The datagram of a payload tick: the frame left by the control step and
the acknowledgement step, under the header, up to the offset. -/
theorem send_datagram_payload (MAX_UDP t : Nat) (s : hpsjam_output_packetizer)
    (hx : s.d_cur ≠ s.d_max) :
    (s.send MAX_UDP t).datagram =
      (hpsjam_frame.setHdr ((s.send_control MAX_UDP t).send_ack_step MAX_UDP).current
        (hpsjam_header.setSequence ((s.send_control MAX_UDP t).send_ack_step MAX_UDP).seqno
          0)).take
        (((s.send_control MAX_UDP t).send_ack_step MAX_UDP).offset + hpsjam_frame.HDR_SIZE) := by
  unfold send
  rw [if_neg hx]

/-- A frame into which `len` bytes were copied at payload position `off`,
sent up to `off + len`, carries these bytes. -/
theorem frame_carries (cur raw : List Nat) (off len v : Nat)
    (hfit : hpsjam_frame.HDR_SIZE + off + len ≤ cur.length) :
    ((hpsjam_frame.setHdr (memcpy cur (hpsjam_frame.HDR_SIZE + off) raw len) v).take
        (off + len + hpsjam_frame.HDR_SIZE)).length = hpsjam_frame.HDR_SIZE + off + len ∧
    ∀ i, i < len →
      ((hpsjam_frame.setHdr (memcpy cur (hpsjam_frame.HDR_SIZE + off) raw len) v).take
        (off + len + hpsjam_frame.HDR_SIZE)).getD (hpsjam_frame.HDR_SIZE + off + i) 0 =
        raw.getD i 0 := by
  have hl := memcpy_length cur raw (hpsjam_frame.HDR_SIZE + off) len hfit
  refine ⟨?_, fun i hi => ?_⟩
  · rw [List.length_take, setHdr_length, hl]
    omega
  · rw [List.getD_eq_getElem?_getD, List.getElem?_take_of_lt (by omega),
      ← List.getD_eq_getElem?_getD, setHdr_getD _ _ _ (by simp only [hpsjam_frame.HDR_SIZE]; omega),
      memcpy_getD_in _ _ _ _ _ hfit hi]

theorem send_control_pending (MAX_UDP t : Nat) (s : hpsjam_output_packetizer)
    (p : hpsjam_packet_entry) (hp : s.pending = some p) :
    s.send_control MAX_UDP t =
      if s.pend_count % 64 = 0 then
        { append_pending MAX_UDP { s with pending := some (p.setPeerSeqNo s.peer_seqno) }
            (p.setPeerSeqNo s.peer_seqno) with pend_count := (s.pend_count + 1) % 65536 }
      else if s.pend_count ≠ 65535 then
        { s with pend_count := (s.pend_count + 1) % 65536 }
      else
        s := by
  unfold send_control
  rw [hp]

/-- A payload tick with an entry in flight: the entry is appended exactly when
the counter is a multiple of 64 and the entry fits in the space left; then the
datagram carries it, otherwise the datagram is the frame with the
acknowledgement step alone. -/
theorem resend_tick (MAX_UDP d t : Nat) (hM : MAX_UDP < SIZE_MOD)
    (s : hpsjam_output_packetizer) (p : hpsjam_packet_entry) (hinv : out_inv MAX_UDP d s)
    (hp : s.pending = some p) (hx : s.d_cur ≠ s.d_max) :
    (s.pend_count % 64 = 0 ∧
        (p.setPeerSeqNo s.peer_seqno).getBytes ≤ MAX_UDP - hpsjam_frame.HDR_SIZE - s.offset →
      (s.send MAX_UDP t).datagram.length =
        hpsjam_frame.HDR_SIZE + s.offset + (p.setPeerSeqNo s.peer_seqno).getBytes ∧
      ∀ i, i < (p.setPeerSeqNo s.peer_seqno).getBytes →
        (s.send MAX_UDP t).datagram.getD (hpsjam_frame.HDR_SIZE + s.offset + i) 0 =
          (p.setPeerSeqNo s.peer_seqno).raw.getD i 0) ∧
    (¬ (s.pend_count % 64 = 0 ∧
        (p.setPeerSeqNo s.peer_seqno).getBytes ≤ MAX_UDP - hpsjam_frame.HDR_SIZE - s.offset) →
      (s.send MAX_UDP t).datagram =
        (hpsjam_frame.setHdr (s.send_ack_step MAX_UDP).current
          (hpsjam_header.setSequence s.seqno 0)).take
          ((s.send_ack_step MAX_UDP).offset + hpsjam_frame.HDR_SIZE)) := by
  have hoff := hinv.off_le
  have hcur := hinv.cur_len
  rw [send_datagram_payload _ _ _ hx, send_control_pending _ _ _ p hp]
  have hcg : ∀ u : hpsjam_output_packetizer, u.current = s.current → u.offset = s.offset →
      u.send_ack = s.send_ack → u.peer_seqno = s.peer_seqno → u.seqno = s.seqno →
      (hpsjam_frame.setHdr (u.send_ack_step MAX_UDP).current
        (hpsjam_header.setSequence (u.send_ack_step MAX_UDP).seqno 0)).take
        ((u.send_ack_step MAX_UDP).offset + hpsjam_frame.HDR_SIZE) =
      (hpsjam_frame.setHdr (s.send_ack_step MAX_UDP).current
          (hpsjam_header.setSequence s.seqno 0)).take
          ((s.send_ack_step MAX_UDP).offset + hpsjam_frame.HDR_SIZE) := by
    intro u h1 h2 h3 h4 h5
    obtain ⟨g1, g2, g3⟩ := send_ack_step_congr MAX_UDP s u h1 h2 h3 h4
    rw [g1, g2, g3, h5]
  constructor
  · rintro ⟨h64, hfit⟩
    rw [if_pos h64, append_pending_fits MAX_UDP hM
      { s with pending := some (p.setPeerSeqNo s.peer_seqno) } _ hoff hfit,
      send_ack_step_off _ _ rfl]
    dsimp only
    exact frame_carries s.current _ s.offset _ _
      (by simp only [hpsjam_frame.HDR_SIZE] at *; omega)
  · intro hn
    by_cases h64 : s.pend_count % 64 = 0
    · have hfit : ¬ (p.setPeerSeqNo s.peer_seqno).getBytes ≤
          MAX_UDP - hpsjam_frame.HDR_SIZE - s.offset := fun h => hn ⟨h64, h⟩
      rw [if_pos h64, append_pending_full MAX_UDP hM
        { s with pending := some (p.setPeerSeqNo s.peer_seqno) } _ hoff hfit]
      exact hcg _ rfl rfl rfl rfl rfl
    · rw [if_neg h64]
      split
      · exact hcg _ rfl rfl rfl rfl rfl
      · exact hcg _ rfl rfl rfl rfl rfl

/-- The payload tick that takes an entry from the queue: the entry, stamped
with both sequence numbers, is in flight afterwards with `pend_count = 1`, and
the datagram carries it when it fits in the space left. -/
theorem first_tick (MAX_UDP d t : Nat) (hM : MAX_UDP < SIZE_MOD)
    (s : hpsjam_output_packetizer) (p0 : hpsjam_packet_entry) (rest : List hpsjam_packet_entry)
    (hinv : out_inv MAX_UDP d s) (hpend : s.pending = none) (hq : s.head = p0 :: rest)
    (hx : s.d_cur ≠ s.d_max) :
    (s.send MAX_UDP t).state.pending =
      some ((p0.setLocalSeqNo s.pend_seqno).setPeerSeqNo s.peer_seqno) ∧
    (s.send MAX_UDP t).state.pend_count = 1 ∧
    (((p0.setLocalSeqNo s.pend_seqno).setPeerSeqNo s.peer_seqno).getBytes ≤
        MAX_UDP - hpsjam_frame.HDR_SIZE - s.offset →
      (s.send MAX_UDP t).datagram.length =
        hpsjam_frame.HDR_SIZE + s.offset +
          ((p0.setLocalSeqNo s.pend_seqno).setPeerSeqNo s.peer_seqno).getBytes ∧
      ∀ i, i < ((p0.setLocalSeqNo s.pend_seqno).setPeerSeqNo s.peer_seqno).getBytes →
        (s.send MAX_UDP t).datagram.getD (hpsjam_frame.HDR_SIZE + s.offset + i) 0 =
          ((p0.setLocalSeqNo s.pend_seqno).setPeerSeqNo s.peer_seqno).raw.getD i 0) := by
  have hoff := hinv.off_le
  have hcur := hinv.cur_len
  have hctl : s.send_control MAX_UDP t =
      { append_pending MAX_UDP
          { s with
            head := rest
            pending := some ((p0.setLocalSeqNo s.pend_seqno).setPeerSeqNo s.peer_seqno)
            start_time := t % 65536
            pend_seqno := (s.pend_seqno + 1) % 256 }
          ((p0.setLocalSeqNo s.pend_seqno).setPeerSeqNo s.peer_seqno) with pend_count := 1 } := by
    unfold send_control
    rw [hpend, hq]
  have hst : (s.send MAX_UDP t).state.pending =
        ((s.send_control MAX_UDP t).send_ack_step MAX_UDP).pending ∧
      (s.send MAX_UDP t).state.pend_count =
        ((s.send_control MAX_UDP t).send_ack_step MAX_UDP).pend_count := by
    unfold send
    rw [if_neg hx]
    exact ⟨rfl, rfl⟩
  have hack := send_ack_step_fields MAX_UDP (s.send_control MAX_UDP t)
  refine ⟨?_, ?_, ?_⟩
  · rw [hst.1, hack.1, hctl]
    show (append_pending _ _ _).pending = _
    rw [(append_pending_fields _ _ _).1]
  · rw [hst.2, hack.2, hctl]
  · intro hfit
    rw [send_datagram_payload _ _ _ hx, hctl, append_pending_fits MAX_UDP hM
      { s with
        head := rest
        pending := some ((p0.setLocalSeqNo s.pend_seqno).setPeerSeqNo s.peer_seqno)
        start_time := t % 65536
        pend_seqno := (s.pend_seqno + 1) % 256 } _ hoff hfit,
      send_ack_step_off _ _ rfl]
    dsimp only
    exact frame_carries s.current _ s.offset _ _
      (by simp only [hpsjam_frame.HDR_SIZE] at *; omega)

theorem send_calls_cons_send (MAX_UDP t : Nat) (s : hpsjam_output_packetizer)
    (ops : List out_op) :
    send_calls MAX_UDP s (out_op.send t :: ops) =
      (s, t) :: send_calls MAX_UDP (s.send MAX_UDP t).state ops := rfl

theorem send_calls_cons_other (MAX_UDP : Nat) (s : hpsjam_output_packetizer) (op : out_op)
    (ops : List out_op) (hop : ∀ t, op ≠ out_op.send t) :
    send_calls MAX_UDP s (op :: ops) = send_calls MAX_UDP (out_step MAX_UDP s op).1 ops := by
  cases op with
  | send t => exact absurd rfl (hop t)
  | append_pkt e => rfl
  | append_ack => rfl
  | send_single_pkt v pkt => rfl
  | note_peer seqno ack => rfl
  | advance t => rfl

/-- The results of a run are those of its `send` calls. -/
theorem out_run_eq_calls (MAX_UDP : Nat) :
    ∀ (ops : List out_op) (s : hpsjam_output_packetizer),
      (out_run MAX_UDP s ops).2 =
        (send_calls MAX_UDP s ops).map (fun c => c.1.send MAX_UDP c.2) := by
  intro ops
  induction ops with
  | nil => intro s; rfl
  | cons op ops ih =>
    intro s
    by_cases hop : ∃ t, op = out_op.send t
    · obtain ⟨t, rfl⟩ := hop
      rw [send_calls_cons_send, List.map_cons, ← ih]
      rfl
    · have hop' : ∀ t, op ≠ out_op.send t := fun t ht => hop ⟨t, ht⟩
      rw [send_calls_cons_other _ _ _ _ hop', ← ih]
      cases op with
      | send t => exact absurd rfl (hop' t)
      | append_pkt e => rfl
      | append_ack => rfl
      | send_single_pkt v pkt => rfl
      | note_peer seqno ack => rfl
      | advance t => rfl

theorem min_count_step (c n : Nat) :
    min (min (c + 1) 65535 + n) 65535 = min (c + (n + 1)) 65535 := by
  simp only [min_def]
  split_ifs <;> omega

/-- With an entry in flight and no `advance`, every `send` of a run is made
with the entry still in flight, and the counter it finds is the first value
plus the number of payload ticks since, stopping at 65535. -/
theorem run_resend_count (MAX_UDP d : Nat) (hpos : 0 < MAX_UDP) (hM : MAX_UDP < SIZE_MOD)
    (hd : d < HPSJAM_SEQ_MAX) :
    ∀ (ops : List out_op) (s0 : hpsjam_output_packetizer), out_inv MAX_UDP d s0 →
      s0.pending.isSome = true → s0.pend_count ≤ 65535 → no_advance ops →
      ∀ k s t, (send_calls MAX_UDP s0 ops)[k]? = some (s, t) →
        out_inv MAX_UDP d s ∧ s.pending.isSome = true ∧
        s.pend_count =
          min (s0.pend_count +
            ((send_calls MAX_UDP s0 ops).take k).countP (fun c => !c.1.isXorFrame)) 65535 := by
  intro ops
  induction ops with
  | nil => intro s0 _ _ _ _ k s t hk; simp [send_calls] at hk
  | cons op ops ih =>
    intro s0 hinv hp hc hna k s t hk
    have hna' : no_advance ops := fun o ho t => hna o (List.mem_cons_of_mem _ ho) t
    have hadv : ∀ t, op ≠ out_op.advance t := fun t => hna op (List.mem_cons_self _ _) t
    by_cases hop : ∃ t, op = out_op.send t
    · obtain ⟨t0, rfl⟩ := hop
      rw [send_calls_cons_send] at hk ⊢
      cases k with
      | zero =>
        simp only [List.getElem?_cons_zero, Option.some.injEq, Prod.mk.injEq] at hk
        obtain ⟨rfl, rfl⟩ := hk
        refine ⟨hinv, hp, ?_⟩
        simp only [List.take_zero, List.countP_nil, Nat.add_zero]
        exact (min_eq_left hc).symm
      | succ k =>
        simp only [List.getElem?_cons_succ] at hk
        obtain ⟨a1, _, _⟩ := send_cadence_step MAX_UDP d t0 hpos hM hd s0 hinv
        obtain ⟨b1, b2, _, _⟩ := send_pending_step MAX_UDP t0 s0 hp hc
        have hc1 : (s0.send MAX_UDP t0).state.pend_count ≤ 65535 := by
          rw [b2]; split
          · exact hc
          · exact min_le_right _ _
        obtain ⟨i1, i2, i3⟩ := ih _ a1 b1 hc1 hna' k s t hk
        refine ⟨i1, i2, ?_⟩
        rw [i3, b2, send_xor_frame, List.take_succ_cons, List.countP_cons]
        by_cases hx : s0.d_cur = s0.d_max
        · simp [isXorFrame, hx]
        · simp only [isXorFrame, hx, decide_False, Bool.false_eq_true, if_false, beq_iff_eq,
            Bool.not_eq_true', not_false_eq_true, if_true]
          simp only [beq_eq_false_iff_ne, ne_eq, hx, not_false_eq_true, if_true]
          exact min_count_step _ _
    · have hop' : ∀ t, op ≠ out_op.send t := fun t ht => hop ⟨t, ht⟩
      rw [send_calls_cons_other _ _ _ _ hop'] at hk ⊢
      obtain ⟨a1, _, _⟩ := out_step_inv MAX_UDP d hM s0 op hop' hinv
      obtain ⟨b1, b2, _⟩ := out_step_keeps_pending MAX_UDP s0 op hop' hadv
      have := ih _ a1 (by rw [b1]; exact hp) (by rw [b2]; exact hc) hna' k s t hk
      rw [b2] at this
      exact this

set_option maxRecDepth 100000 in
/-- C23 (resend schedule), the claim as stated fails: a control packet is
queued and never acknowledged; the `send()` number 0 appends it; before the
`send()` number 96, the payload tick at which `pend_count` is 64, the owner
has filled the frame with a three-word packet, so the control packet is not
appended there; it goes out again with the `send()` number 192 only, 128
payload ticks after the first append. -/
theorem resend_skipped_in_full_frame :
    (((out_run 16 example_out example_full_run).2.enum.filter
        (fun kr => !kr.2.xor_frame && decide (1 < kr.2.datagram.length))).map
        (fun kr => (kr.1, kr.2.datagram.drop 1, kr.2.state.pend_count))) =
      [(0, [1, 64, 0, 0], 1), (96, [3, 1, 0, 0, 1, 2, 3, 4, 5, 6, 7, 8], 65),
        (192, [1, 64, 0, 0], 129)] := by
  decide!

/-- C23 (resend schedule), amended: the `send()` that takes a control packet
from the queue leaves `pend_count = 1` and appends the packet if it fits in
the space left in the frame. While the packet is in flight and
unacknowledged, every later `send()` finds `pend_count` equal to 1 plus the
number of payload ticks since, stopping at 65535, and a payload tick appends
the packet again exactly when this count is a multiple of 64 and the packet
fits in the space left; otherwise the frame goes out without it. So the tries
are exactly 64 payload ticks apart, until the counter stops at 65535. -/
theorem resend_schedule (MAX_UDP d t0 : Nat) (hpos : 0 < MAX_UDP) (hM : MAX_UDP < SIZE_MOD)
    (hd : d < HPSJAM_SEQ_MAX) (s0 : hpsjam_output_packetizer) (p0 : hpsjam_packet_entry)
    (rest : List hpsjam_packet_entry) (ops : List out_op) (hinv : out_inv MAX_UDP d s0)
    (hpend : s0.pending = none) (hq : s0.head = p0 :: rest) (hpay : s0.d_cur ≠ s0.d_max)
    (hna : no_advance ops) :
    (s0.send MAX_UDP t0).state.pend_count = 1 ∧
    (((p0.setLocalSeqNo s0.pend_seqno).setPeerSeqNo s0.peer_seqno).getBytes ≤
        MAX_UDP - hpsjam_frame.HDR_SIZE - s0.offset →
      (s0.send MAX_UDP t0).datagram.length =
        hpsjam_frame.HDR_SIZE + s0.offset +
          ((p0.setLocalSeqNo s0.pend_seqno).setPeerSeqNo s0.peer_seqno).getBytes ∧
      ∀ i, i < ((p0.setLocalSeqNo s0.pend_seqno).setPeerSeqNo s0.peer_seqno).getBytes →
        (s0.send MAX_UDP t0).datagram.getD (hpsjam_frame.HDR_SIZE + s0.offset + i) 0 =
          ((p0.setLocalSeqNo s0.pend_seqno).setPeerSeqNo s0.peer_seqno).raw.getD i 0) ∧
    (out_run MAX_UDP (s0.send MAX_UDP t0).state ops).2 =
      (send_calls MAX_UDP (s0.send MAX_UDP t0).state ops).map
        (fun c => c.1.send MAX_UDP c.2) ∧
    ∀ k s t, (send_calls MAX_UDP (s0.send MAX_UDP t0).state ops)[k]? = some (s, t) →
      s.pend_count =
        min (1 + ((send_calls MAX_UDP (s0.send MAX_UDP t0).state ops).take k).countP
          (fun c => !c.1.isXorFrame)) 65535 ∧
      ∃ p, s.pending = some p ∧
        (s.isXorFrame = false →
          (s.pend_count % 64 = 0 ∧
              (p.setPeerSeqNo s.peer_seqno).getBytes ≤
                MAX_UDP - hpsjam_frame.HDR_SIZE - s.offset →
            (s.send MAX_UDP t).datagram.length =
              hpsjam_frame.HDR_SIZE + s.offset + (p.setPeerSeqNo s.peer_seqno).getBytes ∧
            ∀ i, i < (p.setPeerSeqNo s.peer_seqno).getBytes →
              (s.send MAX_UDP t).datagram.getD (hpsjam_frame.HDR_SIZE + s.offset + i) 0 =
                (p.setPeerSeqNo s.peer_seqno).raw.getD i 0) ∧
          (¬ (s.pend_count % 64 = 0 ∧
              (p.setPeerSeqNo s.peer_seqno).getBytes ≤
                MAX_UDP - hpsjam_frame.HDR_SIZE - s.offset) →
            (s.send MAX_UDP t).datagram =
              (hpsjam_frame.setHdr (s.send_ack_step MAX_UDP).current
                (hpsjam_header.setSequence s.seqno 0)).take
                ((s.send_ack_step MAX_UDP).offset + hpsjam_frame.HDR_SIZE))) := by
  obtain ⟨f1, f2, f3⟩ := first_tick MAX_UDP d t0 hM s0 p0 rest hinv hpend hq hpay
  obtain ⟨a1, _, _⟩ := send_cadence_step MAX_UDP d t0 hpos hM hd s0 hinv
  refine ⟨f2, f3, out_run_eq_calls MAX_UDP ops _, ?_⟩
  intro k s t hk
  obtain ⟨i1, i2, i3⟩ := run_resend_count MAX_UDP d hpos hM hd ops _ a1 (by rw [f1]; rfl)
    (by rw [f2]; decide) hna k s t hk
  rw [f2] at i3
  obtain ⟨p, hp⟩ := Option.isSome_iff_exists.mp i2
  refine ⟨i3, p, hp, fun hx => ?_⟩
  have hx' : s.d_cur ≠ s.d_max := by
    simpa [isXorFrame] using hx
  exact resend_tick MAX_UDP d t hM s p i1 hp hx'

theorem resend_schedule_witness :
    ((example_out.send_single_pkt true example_entry1).send 16 0).state.pend_count = 1 ∧
    ∀ k s t, (send_calls 16 ((example_out.send_single_pkt true example_entry1).send 16 0).state
        (List.replicate 200 (out_op.send 0)))[k]? = some (s, t) →
      s.pend_count =
        min (1 + ((send_calls 16
            ((example_out.send_single_pkt true example_entry1).send 16 0).state
            (List.replicate 200 (out_op.send 0))).take k).countP
          (fun c => !c.1.isXorFrame)) 65535 ∧
      ∃ p, s.pending = some p ∧
        (s.isXorFrame = false →
          (s.pend_count % 64 = 0 ∧
              (p.setPeerSeqNo s.peer_seqno).getBytes ≤ 16 - hpsjam_frame.HDR_SIZE - s.offset →
            (s.send 16 t).datagram.length =
              hpsjam_frame.HDR_SIZE + s.offset + (p.setPeerSeqNo s.peer_seqno).getBytes ∧
            ∀ i, i < (p.setPeerSeqNo s.peer_seqno).getBytes →
              (s.send 16 t).datagram.getD (hpsjam_frame.HDR_SIZE + s.offset + i) 0 =
                (p.setPeerSeqNo s.peer_seqno).raw.getD i 0) ∧
          (¬ (s.pend_count % 64 = 0 ∧
              (p.setPeerSeqNo s.peer_seqno).getBytes ≤ 16 - hpsjam_frame.HDR_SIZE - s.offset) →
            (s.send 16 t).datagram =
              (hpsjam_frame.setHdr (s.send_ack_step 16).current
                (hpsjam_header.setSequence s.seqno 0)).take
                ((s.send_ack_step 16).offset + hpsjam_frame.HDR_SIZE))) :=
  have h := resend_schedule 16 2 0 (by decide) (by decide) (by decide)
    (example_out.send_single_pkt true example_entry1) example_entry1 []
    (List.replicate 200 (out_op.send 0))
    ⟨by decide, by decide, by decide, by decide, by decide⟩ (by decide) (by decide) (by decide)
    (by
      intro op hop t
      rw [List.eq_of_mem_replicate hop]
      exact fun e => by cases e)
  ⟨h.1, h.2.2.2⟩

end

section

open hpsjam_audio_buffer

/-! ## The over-supply scenario -/

/-- The method `addSamples` under the invariant leaves the histogram alone. -/
theorem addSamples_ctl (s : hpsjam_audio_buffer) (src : List ℚ) (num : Nat) (h : buf_inv s) :
    ∃ s', s.addSamples src num = some s' ∧ buf_inv s' ∧ s'.limit = s.limit ∧
      s'.stats = s.stats ∧ s'.total = s.total + min num (HPSJAM_MAX_SAMPLES - s.total) := by
  have hfit : s.total + min num (HPSJAM_MAX_SAMPLES - s.total) ≤ HPSJAM_MAX_SAMPLES := by
    have := h.1
    omega
  obtain ⟨s', e, c, t⟩ := add_loop_spec s src (min num (HPSJAM_MAX_SAMPLES - s.total))
    (min num (HPSJAM_MAX_SAMPLES - s.total)) h.2.2.2.1 hfit
  refine ⟨s', ?_, buf_inv_of_same_ctl h c (by rw [t]; exact hfit), c.2.2.1, c.2.1, t⟩
  unfold addSamples
  dsimp only
  rw [clamp_free s num h.1]
  exact e

/-- The accounting of `remSamples` reads the depth, the histogram and the
limit only. -/
theorem rem_account_ctl (s t : hpsjam_audio_buffer) (num : Nat) (h1 : t.total = s.total)
    (h2 : t.stats = s.stats) (h3 : t.limit = s.limit) :
    (t.rem_account num).1.stats = (s.rem_account num).1.stats ∧
    (t.rem_account num).2.2 = (s.rem_account num).2.2 := by
  obtain ⟨s1, s2, s3, s4, s5, s6, s7⟩ := s
  obtain ⟨t1, t2, t3, t4, t5, t6, t7⟩ := t
  simp only at h1 h2 h3
  subst h1 h2 h3
  unfold rem_account
  dsimp only
  split_ifs <;> exact ⟨rfl, rfl⟩

/-- The method `remSamples` with enough samples in the buffer: it returns,
keeps the invariant, takes `num` samples and one block more when it shrinks,
and leaves the histogram counted by `rem_account`, shifted when it shrinks. -/
theorem remSamples_ctl (s : hpsjam_audio_buffer) (num : Nat) (h : buf_inv s)
    (hn : num ≤ s.total) :
    ∃ s' dst, s.remSamples num = some (s', dst) ∧ buf_inv s' ∧ s'.limit = s.limit ∧
      s'.total = s.total - num - (if (s.rem_account num).2.2 then HPSJAM_DEF_SAMPLES else 0) ∧
      s'.stats = (if (s.rem_account num).2.2 then shift_stats (s.rem_account num).1.stats
        else (s.rem_account num).1.stats) := by
  obtain ⟨a1, a2, a3, a4, a5, a6⟩ := rem_account_spec s num h
  have hsh := shrink_spec (s.rem_account num).1 a1
  have hu : ¬ num > s.total := by omega
  -- the state that enters the copy loop
  have h3 : ∃ s3, (if (s.rem_account num).2.2 then (s.rem_account num).1.shrink
        else (s.rem_account num).1) = s3 ∧ buf_inv s3 ∧ s3.limit = s.limit ∧
      s3.total = s.total - (if (s.rem_account num).2.2 then HPSJAM_DEF_SAMPLES else 0) ∧
      (if (s.rem_account num).2.2 then size_sub HPSJAM_MAX_SAMPLES s3.consumer
        else size_sub HPSJAM_MAX_SAMPLES s.consumer) =
        size_sub HPSJAM_MAX_SAMPLES s3.consumer ∧
      (s.rem_account num).2.1 ≤ s3.total ∧
      s3.stats = (if (s.rem_account num).2.2 then shift_stats (s.rem_account num).1.stats
        else (s.rem_account num).1.stats) := by
    by_cases hb : (s.rem_account num).2.2 = true
    · have h48 := a6 hb
      refine ⟨_, rfl, ?_⟩
      simp only [hb, if_true]
      refine ⟨hsh.1, by rw [hsh.2.2, a4], ?_, trivial, ?_, ?_⟩
      · rw [hsh.2.1, a2, if_neg (by omega)]
      · rw [hsh.2.1, a2, if_neg (by omega), a5]; omega
      · unfold shrink
        rw [if_neg (by rw [a2]; omega)]
        dsimp only
        rw [(shrink_fold_ctl (List.range HPSJAM_DEF_SAMPLES) _ a1.2.1).2.2.1]
    · refine ⟨_, rfl, ?_⟩
      simp only [hb, if_false, Bool.false_eq_true]
      refine ⟨a1, a4, by rw [a2]; rfl, by rw [a3], ?_, trivial⟩
      rw [a2, a5]; omega
  obtain ⟨s3, e3, i3, l3, t3, f3, n3, st3⟩ := h3
  have hloop := rem_loop_spec s3 (s.rem_account num).2.1 (s.rem_account num).2.1 []
    i3.2.1 n3 i3.1
  unfold remSamples
  dsimp only
  rw [e3, f3]
  cases hr : rem_loop ((s.rem_account num).2.1 + 2) s3 (s.rem_account num).2.1
      (size_sub HPSJAM_MAX_SAMPLES s3.consumer) [] with
  | none => rw [hr] at hloop; cases hloop
  | some r =>
    obtain ⟨s4, out⟩ := r
    rw [hr] at hloop
    simp only [Option.map_some', Option.some.injEq] at hloop
    have hpos : 0 < HPSJAM_MAX_SAMPLES := by rw [max_samples_eq]; decide
    have i4 : buf_inv s4 := by
      rw [hloop]
      exact ⟨Nat.le_trans (Nat.sub_le _ _) i3.1, Nat.mod_lt _ hpos, i3.2.2.1, i3.2.2.2.1,
        i3.2.2.2.2⟩
    have t4 : s4.total = s3.total - (s.rem_account num).2.1 := by rw [hloop]
    have l4 : s4.limit = s.limit := by rw [hloop]; exact l3
    have st4 : s4.stats = s3.stats := by rw [hloop]
    simp only [hu, decide_False, if_false, Bool.false_eq_true]
    refine ⟨_, _, rfl, i4, l4, ?_, by rw [st4, st3]⟩
    rw [t4, t3, a5]
    omega

/-- The histogram and the depth of the buffer follow the over-supply scenario
computed on these two alone, and the ledger counts its `shrink()` calls. -/
theorem oversupply_run :
    ∀ (srcs : List (List ℚ)) (s : hpsjam_audio_buffer) (L : buf_ledger),
      buf_inv s → s.limit = 3 →
      ∃ s' L', buf_run_ledger s L (oversupply srcs) = some (s', L') ∧
        L'.shrinks = L.shrinks + oversupply_shrinks srcs.length (s.total, s.stats) := by
  intro srcs
  induction srcs with
  | nil => intro s L _ _; exact ⟨s, L, rfl, rfl⟩
  | cons src rest ih =>
    intro s L h hl
    obtain ⟨s1, e1, i1, l1, st1, t1⟩ := addSamples_ctl s src (2 * HPSJAM_DEF_SAMPLES) h
    have ht := h.1
    have hn : HPSJAM_DEF_SAMPLES ≤ s1.total := by
      rw [t1]
      rw [max_samples_eq] at ht ⊢
      rw [def_samples_eq]
      omega
    obtain ⟨s2, dst, e2, i2, l2, t2, st2⟩ := remSamples_ctl s1 HPSJAM_DEF_SAMPLES i1 hn
    obtain ⟨c1, c2⟩ := rem_account_ctl s1 (ctl_buf s1.total s1.stats) HPSJAM_DEF_SAMPLES rfl rfl
      (by rw [l1, hl]; rfl)
    obtain ⟨s', L', e, hL⟩ := ih s2
      (ledger_step s1 (ledger_step s L (buf_op.addSamples src (2 * HPSJAM_DEF_SAMPLES)))
        (buf_op.remSamples HPSJAM_DEF_SAMPLES)) i2 (by rw [l2, l1, hl])
    refine ⟨s', L', ?_, ?_⟩
    · simp only [oversupply, buf_run_ledger, buf_step, e1, e2, Option.some_bind,
        Option.map_some']
      exact e
    · rw [hL]
      have hctl : oversupply_ctl (s.total, s.stats) =
          ((s2.total, s2.stats), (s1.rem_account HPSJAM_DEF_SAMPLES).2.2) := by
        unfold oversupply_ctl
        dsimp only
        rw [← t1, ← st1, c1, c2, ← t2, ← st2]
      simp only [List.length_cons, oversupply_shrinks, hctl, ledger_step]
      omega

set_option maxRecDepth 100000 in
/-- On the depth and the histogram alone, the over-supply scenario calls
`shrink()` once within 512 ticks: at tick 414, when the bucket of the full
buffer has been halved for the second time. -/
theorem oversupply_count :
    oversupply_shrinks 413 (0, clear.stats) = 0 ∧ oversupply_shrinks 512 (0, clear.stats) = 1 := by
  decide!

/-- C25 (over-supply triggers shrink, scenario E): from a cleared buffer with
the default limit, 512 ticks of `addSamples` of `2 * DEF_SAMPLES` samples
followed by `remSamples` of `DEF_SAMPLES` samples, for any sample values, all
return and `shrink()` is invoked at least once (the histogram read as exact
rationals). -/
theorem oversupply_triggers_shrink (srcs : List (List ℚ)) (h : srcs.length = 512) :
    ∃ s L, buf_run_ledger clear ⟨0, 0, 0, 0, 0⟩ (oversupply srcs) = some (s, L) ∧
      1 ≤ L.shrinks := by
  obtain ⟨s, L, e, hL⟩ := oversupply_run srcs clear ⟨0, 0, 0, 0, 0⟩ clear_inv rfl
  refine ⟨s, L, e, ?_⟩
  rw [hL, h]
  have e0 : (clear.total, clear.stats) = (0, clear.stats) := rfl
  rw [e0, oversupply_count.2]

theorem oversupply_triggers_shrink_witness :
    (List.replicate 512 [(1 : ℚ), -1 / 2]).length = 512 ∧
    ∃ s L, buf_run_ledger clear ⟨0, 0, 0, 0, 0⟩
        (oversupply (List.replicate 512 [(1 : ℚ), -1 / 2])) = some (s, L) ∧
      1 ≤ L.shrinks :=
  ⟨List.length_replicate _ _,
    oversupply_triggers_shrink (List.replicate 512 [(1 : ℚ), -1 / 2])
      (List.length_replicate _ _)⟩

end

end HpsJam
